import Mathlib

/-! Website cloner: asset classification, discovery, download bookkeeping and
rewriting.

A shallow embedding of `src/server/utils.js` and of the asset pipeline of
`src/server/cloner.js` (`WebsiteCloner`), with the properties of the asset
pipeline stated over it.

Conventions of the embedding.

* A JavaScript string is a `Str`, a list of characters; one `Char` stands for
  one UTF-16 code unit, so texts are taken inside the Basic Multilingual Plane.
* The services of the JavaScript platform that the repository calls but does
  not define (the WHATWG `URL` parser, the canonicalisation of the regular
  expression engine under the `i` flag) are the fields of a `Platform`; every
  function that reaches one of them takes the platform as its first argument,
  and general theorems hold for every platform.  `nodePlatform` is a concrete
  platform used to evaluate the code on concrete inputs.
* A function that can throw returns an `Option`; `none` is the thrown error.
-/

namespace Cloner

/-- A JavaScript string value. -/
abbrev Str := List Char

/-! ## String primitives of the platform -/

/-- White space and line terminators of ECMAScript: what `String.prototype.trim`
removes and what `\s` matches in a regular expression. -/
def isJsSpace (c : Char) : Bool :=
  let n := c.toNat
  n == 0x09 || n == 0x0A || n == 0x0B || n == 0x0C || n == 0x0D || n == 0x20 ||
  n == 0xA0 || n == 0x1680 || (0x2000 ≤ n && n ≤ 0x200A) || n == 0x2028 ||
  n == 0x2029 || n == 0x202F || n == 0x205F || n == 0x3000 || n == 0xFEFF

/-- Drop the leading white space of a string. -/
def trimStart : Str → Str
  | [] => []
  | c :: s => if isJsSpace c then trimStart s else c :: s

/-- Model of `String.prototype.trim`. -/
def jsTrim (s : Str) : Str :=
  (trimStart (trimStart s).reverse).reverse

/-- Model of `String.prototype.toLowerCase` on the ASCII letters; the strings
that are lower-cased here are URL path names, which the URL parser keeps in
ASCII, and MIME types, which are compared with ASCII constants only. -/
def toLowerCase (s : Str) : Str :=
  s.map Char.toLower

/-- Model of `s.startsWith(p)`. -/
def startsWith (s p : Str) : Bool :=
  p.isPrefixOf s

/-- Model of `s.includes(p)`: `p` occurs somewhere in `s`. -/
def includes : Str → Str → Bool
  | [], p => p.isEmpty
  | c :: s, p => p.isPrefixOf (c :: s) || includes s p

/-- Model of `s.split(sep)[0]`: the text before the first separator. -/
def beforeFirst (sep : Char) : Str → Str
  | [] => []
  | c :: s => if c = sep then [] else c :: beforeFirst sep s

/-! ## `path.extname` of Node (POSIX flavour) -/

/-- The local variables of the backwards scan of `path.extname`;
`none` stands for the index `-1`. -/
structure ExtScan where
  startDot : Option Nat
  startPart : Nat
  endPos : Option Nat
  matchedSlash : Bool
  preDotState : Int
  stopped : Bool
  deriving DecidableEq, Repr

/-- The variables before the first iteration. -/
def ExtScan.init : ExtScan :=
  { startDot := none, startPart := 0, endPos := none, matchedSlash := true,
    preDotState := 0, stopped := false }

/-- One iteration of the scan at index `i`, reading the character `c`;
`stopped` records the `break`. -/
def extnameStep (s : ExtScan) (i : Nat) (c : Char) : ExtScan :=
  if s.stopped then s
  else if c = '/' then
    if !s.matchedSlash then { s with startPart := i + 1, stopped := true } else s
  else
    let s1 := if s.endPos = none then { s with matchedSlash := false, endPos := some (i + 1) } else s
    if c = '.' then
      if s1.startDot = none then { s1 with startDot := some i }
      else if s1.preDotState ≠ 1 then { s1 with preDotState := 1 }
      else s1
    else if s1.startDot ≠ none then { s1 with preDotState := -1 }
    else s1

/-- The scan over the reversed path: the head of the list is the character at
index `rest.length` of the path. -/
def extnameLoop : List Char → ExtScan → ExtScan
  | [], s => s
  | c :: rest, s => extnameLoop rest (extnameStep s rest.length c)

/-- Model of `path.extname(p)`. -/
def extname (p : Str) : Str :=
  let s := extnameLoop p.reverse ExtScan.init
  match s.startDot, s.endPos with
  | some sd, some e =>
    if s.preDotState = 0 ∨ (s.preDotState = 1 ∧ sd = e - 1 ∧ sd = s.startPart + 1) then []
    else (p.drop sd).take (e - sd)
  | _, _ => []

/-! ## The platform -/

/-- The parts of a parsed `URL` object that the repository reads. -/
structure Url where
  protocol : Str
  pathname : Str
  href : Str
  deriving DecidableEq, Repr

/-- Services of the JavaScript platform used by the repository. -/
structure Platform where
  /-- The constructor `new URL(s)`; `none` when it throws. -/
  parseUrl : Str → Option Url
  /-- The constructor `new URL(ref, base)`; `none` when it throws. -/
  parseUrlWithBase : Str → Str → Option Url
  /-- Canonicalisation of a character by the regular expression engine under
  the `i` flag. -/
  canonicalize : Char → Char

/-! ## `utils.js`: classification -/

/-- The result of `getExtension`: a string, or the value of a property that the
lookup `mimeToExt[baseMime]` inherits from `Object.prototype`, which is not a
string. -/
inductive ExtValue where
  | text (s : Str)
  | inherited
  deriving DecidableEq, Repr

/-- The own properties of the table `mimeToExt`. -/
def mimeToExt : List (Str × Str) :=
  [ ("text/html".toList, ".html".toList),
    ("text/css".toList, ".css".toList),
    ("text/javascript".toList, ".js".toList),
    ("application/javascript".toList, ".js".toList),
    ("application/json".toList, ".json".toList),
    ("image/png".toList, ".png".toList),
    ("image/jpeg".toList, ".jpg".toList),
    ("image/jpg".toList, ".jpg".toList),
    ("image/gif".toList, ".gif".toList),
    ("image/webp".toList, ".webp".toList),
    ("image/svg+xml".toList, ".svg".toList),
    ("image/x-icon".toList, ".ico".toList),
    ("image/vnd.microsoft.icon".toList, ".ico".toList),
    ("font/woff".toList, ".woff".toList),
    ("font/woff2".toList, ".woff2".toList),
    ("font/ttf".toList, ".ttf".toList),
    ("font/otf".toList, ".otf".toList),
    ("application/font-woff".toList, ".woff".toList),
    ("application/font-woff2".toList, ".woff2".toList),
    ("application/x-font-ttf".toList, ".ttf".toList),
    ("application/x-font-otf".toList, ".otf".toList),
    ("video/mp4".toList, ".mp4".toList),
    ("video/webm".toList, ".webm".toList),
    ("audio/mpeg".toList, ".mp3".toList),
    ("audio/wav".toList, ".wav".toList) ]

/-- The property names that a plain object inherits from `Object.prototype`;
looking one of them up in `mimeToExt` yields a function or an object. -/
def objectPrototypeKeys : List Str :=
  [ "constructor".toList, "__proto__".toList, "hasOwnProperty".toList,
    "isPrototypeOf".toList, "propertyIsEnumerable".toList, "toString".toList,
    "valueOf".toList, "toLocaleString".toList, "__defineGetter__".toList,
    "__defineSetter__".toList, "__lookupGetter__".toList, "__lookupSetter__".toList ]

/-- Model of `contentType.split(';')[0].trim().toLowerCase()`. -/
def baseMimeOf (contentType : Str) : Str :=
  toLowerCase (jsTrim (beforeFirst ';' contentType))

/-- The extension read off the URL in the `try` block of `getExtension`:
`none` when the URL does not parse or its extension is empty or longer than
five characters. -/
def urlExtension (P : Platform) (url : Str) : Option Str :=
  match P.parseUrl url with
  | some urlObj =>
    let ext := toLowerCase (extname urlObj.pathname)
    if ext ≠ [] ∧ ext.length ≤ 5 then some ext else none
  | none => none

/-- Model of `getExtension(url, contentType)`. -/
def getExtension (P : Platform) (url contentType : Str) : ExtValue :=
  match urlExtension P url with
  | some ext => .text ext
  | none =>
    let baseMime := baseMimeOf contentType
    match mimeToExt.lookup baseMime with
    | some ext => .text ext
    | none => if baseMime ∈ objectPrototypeKeys then .inherited else .text []

/-- The part of `getAssetType` after the extension tests: classification by
MIME type. -/
def assetTypeOfMime (mime : Str) : Str :=
  if startsWith mime "image/".toList then "images".toList
  else if startsWith mime "font/".toList || includes mime "font".toList then "fonts".toList
  else if startsWith mime "video/".toList then "video".toList
  else if startsWith mime "audio/".toList then "audio".toList
  else if mime = "text/css".toList then "css".toList
  else if includes mime "javascript".toList then "js".toList
  else "other".toList

/-- Model of `getAssetType(url, contentType)`; `none` is the `TypeError` of
calling `toLowerCase` on a value that is not a string. -/
def getAssetType (P : Platform) (url contentType : Str) : Option Str :=
  match getExtension P url contentType with
  | .inherited => none
  | .text e =>
    let ext := toLowerCase e
    if ext ∈ [".css".toList] then some "css".toList
    else if ext ∈ [".js".toList] then some "js".toList
    else if ext ∈ [".png".toList, ".jpg".toList, ".jpeg".toList, ".gif".toList,
        ".webp".toList, ".svg".toList, ".ico".toList, ".bmp".toList] then some "images".toList
    else if ext ∈ [".woff".toList, ".woff2".toList, ".ttf".toList, ".otf".toList,
        ".eot".toList] then some "fonts".toList
    else if ext ∈ [".mp4".toList, ".webm".toList, ".ogg".toList, ".mov".toList] then
      some "video".toList
    else if ext ∈ [".mp3".toList, ".wav".toList, ".flac".toList, ".aac".toList] then
      some "audio".toList
    else some (assetTypeOfMime (baseMimeOf contentType))

/-- Model of `isDataUrl(url)` for a string argument. -/
def isDataUrl (url : Str) : Bool :=
  !url.isEmpty && startsWith (jsTrim url) "data:".toList

/-! ## A concrete platform: the URL parser on ordinary web addresses

`stdParse` and `stdParseWithBase` follow the basic URL parser of the WHATWG URL
standard for the special schemes `http`, `https`, `ws`, `wss` and `ftp`:
stripping of the input, scheme, authority (credentials, host, port), path with
removal of dot segments, query, fragment, percent-encoding of the characters
outside each component's code point set, and resolution of a reference against
a base.  A URL with any other scheme is kept with an opaque path.  Outside the
model: `file:` URLs, IPv6 literals, the numeric forms of IPv4 addresses, and
hosts that need percent-decoding or IDNA processing. -/

/-- Parsed URL record of the URL standard. -/
structure UrlRecord where
  scheme : Str
  userinfo : Str
  host : Option Str
  port : Option Nat
  path : List Str
  opaquePath : Option Str
  query : Option Str
  fragment : Option Str
  deriving DecidableEq, Repr

/-- Split a string at every character satisfying `p`. -/
def splitOnP (p : Char → Bool) : Str → List Str
  | [] => [[]]
  | c :: s =>
    if p c then [] :: splitOnP p s
    else match splitOnP p s with
      | [] => [[c]]
      | h :: t => (c :: h) :: t

/-- Upper-case hexadecimal digit of a number below sixteen. -/
def hexUpper (n : Nat) : Char :=
  if n < 10 then Char.ofNat (48 + n) else Char.ofNat (55 + n)

/-- Percent-encode the UTF-8 bytes of a character. -/
def percentEncodeChar (c : Char) : Str :=
  (String.utf8EncodeChar c).flatMap fun b => ['%', hexUpper (b.toNat / 16), hexUpper (b.toNat % 16)]

/-- The C0 control percent-encode set. -/
def inC0ControlSet (c : Char) : Bool :=
  c.toNat < 0x20 || c.toNat > 0x7E

/-- The fragment percent-encode set. -/
def inFragmentSet (c : Char) : Bool :=
  inC0ControlSet c || c == ' ' || c == '"' || c == '<' || c == '>' || c == (Char.ofNat 0x60)

/-- The special-query percent-encode set. -/
def inSpecialQuerySet (c : Char) : Bool :=
  inC0ControlSet c || c == ' ' || c == '"' || c == '#' || c == '<' || c == '>' ||
  c == (Char.ofNat 0x27)

/-- The path percent-encode set. -/
def inPathSet (c : Char) : Bool :=
  inC0ControlSet c || c == ' ' || c == '"' || c == '#' || c == '<' || c == '>' ||
  c == '?' || c == '^' || c == (Char.ofNat 0x60) || c == '{' || c == '}'

/-- The userinfo percent-encode set. -/
def inUserinfoSet (c : Char) : Bool :=
  inPathSet c || c == '/' || c == ':' || c == ';' || c == '=' || c == '@' || c == '[' ||
  c == '\\' || c == ']' || c == '|'

/-- Percent-encode the characters of a string that lie in a set. -/
def percentEncode (inSet : Char → Bool) (s : Str) : Str :=
  s.flatMap fun c => if inSet c then percentEncodeChar c else [c]

/-- Remove leading and trailing C0 controls and spaces, then every tab and
newline. -/
def stripUrlInput (s : Str) : Str :=
  let isC0OrSpace := fun (c : Char) => decide (c.toNat ≤ 0x20)
  let t := ((s.dropWhile isC0OrSpace).reverse.dropWhile isC0OrSpace).reverse
  t.filter fun c => !(c == '\t' || c == '\n' || c == '\r')

/-- The scheme of an input, lower-cased, and the text after its colon. -/
def splitScheme (s : Str) : Option (Str × Str) :=
  let isSchemeChar := fun (c : Char) => c.isAlphanum || c == '+' || c == '-' || c == '.'
  match s with
  | [] => none
  | c :: _ =>
    if c.isAlpha then
      match s.dropWhile isSchemeChar with
      | ':' :: rest => some (toLowerCase (s.takeWhile isSchemeChar), rest)
      | _ => none
    else none

/-- Default port of a special scheme; `none` for any other scheme. -/
def defaultPort (scheme : Str) : Option Nat :=
  if scheme = "http".toList then some 80
  else if scheme = "https".toList then some 443
  else if scheme = "ws".toList then some 80
  else if scheme = "wss".toList then some 443
  else if scheme = "ftp".toList then some 21
  else none

/-- Whether a scheme is one of the modelled special schemes. -/
def isSpecial (scheme : Str) : Bool :=
  (defaultPort scheme).isSome

/-- Path separator of a special URL. -/
def isSlash (c : Char) : Bool :=
  c == '/' || c == '\\'

/-- A single-dot path segment. -/
def isSingleDot (seg : Str) : Bool :=
  seg == ".".toList || toLowerCase seg == "%2e".toList

/-- A double-dot path segment. -/
def isDoubleDot (seg : Str) : Bool :=
  let l := toLowerCase seg
  l == "..".toList || l == ".%2e".toList || l == "%2e.".toList || l == "%2e%2e".toList

/-- The path state: the segments of the input are appended to the path
accumulated so far (kept in order), dot segments being resolved. -/
def pathState : List Str → List Str → List Str
  | acc, [] => acc
  | acc, [seg] =>
    if isDoubleDot seg then acc.dropLast ++ [[]]
    else if isSingleDot seg then acc ++ [[]]
    else acc ++ [percentEncode inPathSet seg]
  | acc, seg :: rest =>
    if isDoubleDot seg then pathState acc.dropLast rest
    else if isSingleDot seg then pathState acc rest
    else pathState (acc ++ [percentEncode inPathSet seg]) rest

/-- Query and fragment of the text that follows the path. -/
def parseQueryFragment (s : Str) : Option Str × Option Str :=
  let beforeHash := s.takeWhile (· != '#')
  let frag := match s.dropWhile (· != '#') with
    | _ :: f => some (percentEncode inFragmentSet f)
    | [] => none
  let query := match beforeHash with
    | '?' :: q => some (percentEncode inSpecialQuerySet q)
    | _ => none
  (query, frag)

/-- Path, query and fragment of a special URL from the text that starts at the
first character of the path (a leading slash already consumed). -/
def parsePathOnwards (basePath : List Str) (s : Str) : List Str × Option Str × Option Str :=
  let isPathEnd := fun (c : Char) => c == '?' || c == '#'
  let pathText := s.takeWhile (fun c => !isPathEnd c)
  (pathState basePath (splitOnP isSlash pathText), parseQueryFragment (s.dropWhile (fun c => !isPathEnd c)))

/-- A forbidden domain code point. -/
def isForbiddenHostChar (c : Char) : Bool :=
  c.toNat ≤ 0x20 || c.toNat ≥ 0x7F || c == '#' || c == '/' || c == ':' || c == '<' ||
  c == '>' || c == '?' || c == '@' || c == '[' || c == '\\' || c == ']' || c == '^' ||
  c == '|' || c == '%'

/-- The port state: a decimal number of at most 65535; the empty text and the
default port of the scheme give no port. -/
def parsePort (scheme portText : Str) : Option (Option Nat) :=
  if portText.all Char.isDigit then
    if portText.isEmpty then some none
    else
      let n := portText.foldl (fun acc c => acc * 10 + (c.toNat - 48)) 0
      if n > 65535 then none
      else if some n = defaultPort scheme then some none
      else some (some n)
  else none

/-- Credentials, host and port of the authority of a special URL. -/
def parseAuthority (scheme auth : Str) : Option (Str × Str × Option Nat) :=
  let parts := splitOnP (· == '@') auth
  let hostPort := parts.getLast!
  let cred := ((parts.dropLast).intersperse "%40".toList).flatten
  let userinfo :=
    if parts.length ≤ 1 then []
    else
      let user := percentEncode inUserinfoSet (cred.takeWhile (· != ':'))
      match cred.dropWhile (· != ':') with
      | _ :: pw =>
        if pw.isEmpty then (if user.isEmpty then [] else user ++ ['@'])
        else user ++ [':'] ++ percentEncode inUserinfoSet pw ++ ['@']
      | [] => if user.isEmpty then [] else user ++ ['@']
  let hostText := hostPort.takeWhile (· != ':')
  let portText := (hostPort.dropWhile (· != ':')).drop 1
  if hostText.isEmpty || hostText.any isForbiddenHostChar then none
  else
    match parsePort scheme portText with
    | some port => some (userinfo, toLowerCase hostText, port)
    | none => none

/-- A special URL from the text that follows the scheme and the slashes. -/
def parseSpecialAfterSlashes (scheme s : Str) : Option UrlRecord :=
  let isAuthEnd := fun (c : Char) => isSlash c || c == '?' || c == '#'
  let auth := s.takeWhile (fun c => !isAuthEnd c)
  let rest := s.dropWhile (fun c => !isAuthEnd c)
  match parseAuthority scheme auth with
  | none => none
  | some (userinfo, host, port) =>
    let afterSlash := match rest with
      | c :: r => if isSlash c then r else rest
      | [] => rest
    let (path, query, frag) := parsePathOnwards [] afterSlash
    some { scheme := scheme, userinfo := userinfo, host := some host, port := port,
           path := path, opaquePath := none, query := query, fragment := frag }

/-- A URL with a scheme that is not special, kept with an opaque path. -/
def parseOpaque (scheme s : Str) : UrlRecord :=
  let isPathEnd := fun (c : Char) => c == '?' || c == '#'
  let (query, frag) := parseQueryFragment (s.dropWhile (fun c => !isPathEnd c))
  { scheme := scheme, userinfo := [], host := none, port := none, path := [],
    opaquePath := some (percentEncode inC0ControlSet (s.takeWhile (fun c => !isPathEnd c))),
    query := query, fragment := frag }

/-- The basic URL parser without a base URL. -/
def parseRecord (input : Str) : Option UrlRecord :=
  match splitScheme (stripUrlInput input) with
  | none => none
  | some (scheme, rest) =>
    if isSpecial scheme then parseSpecialAfterSlashes scheme (rest.dropWhile isSlash)
    else some (parseOpaque scheme rest)

/-- The relative state and the relative slash state: a reference without a scheme
of its own, resolved against a special base. -/
def parseRelative (base : UrlRecord) (s : Str) : Option UrlRecord :=
  match s with
  | [] => some { base with fragment := none }
  | c :: r =>
    if isSlash c then
      match r with
      | c2 :: r2 =>
        if isSlash c2 then parseSpecialAfterSlashes base.scheme (r2.dropWhile isSlash)
        else
          let (path, query, frag) := parsePathOnwards [] r
          some { base with path := path, query := query, fragment := frag }
      | [] => some { base with path := [[]], query := none, fragment := none }
    else if c == '?' then
      let (query, frag) := parseQueryFragment s
      some { base with query := query, fragment := frag }
    else if c == '#' then
      some { base with fragment := (parseQueryFragment s).2 }
    else
      let (path, query, frag) := parsePathOnwards base.path.dropLast s
      some { base with path := path, query := query, fragment := frag }

/-- The basic URL parser with a base URL. -/
def parseRecordWithBase (input : Str) (base : UrlRecord) : Option UrlRecord :=
  let s := stripUrlInput input
  match splitScheme s with
  | some (scheme, rest) =>
    if isSpecial scheme then
      if scheme = base.scheme then parseRelative base rest
      else parseSpecialAfterSlashes scheme (rest.dropWhile isSlash)
    else some (parseOpaque scheme rest)
  | none =>
    match base.opaquePath with
    | some _ =>
      match s with
      | '#' :: _ => some { base with fragment := (parseQueryFragment s).2 }
      | _ => none
    | none => parseRelative base s

/-- The path of a URL record as the `pathname` getter returns it. -/
def UrlRecord.pathname (u : UrlRecord) : Str :=
  match u.opaquePath with
  | some p => p
  | none => u.path.flatMap fun seg => '/' :: seg

/-- The URL serializer: the `href` getter. -/
def UrlRecord.href (u : UrlRecord) : Str :=
  u.scheme ++ [':'] ++
  (match u.host with
   | some h => "//".toList ++ u.userinfo ++ h ++
       (match u.port with
        | some p => ':' :: (Nat.repr p).toList
        | none => [])
   | none => []) ++
  u.pathname ++
  (match u.query with
   | some q => '?' :: q
   | none => []) ++
  (match u.fragment with
   | some f => '#' :: f
   | none => [])

/-- The `URL` object of a record. -/
def UrlRecord.toUrl (u : UrlRecord) : Url :=
  { protocol := u.scheme ++ [':'], pathname := u.pathname, href := u.href }

/-- Model of `new URL(s)`. -/
def stdParse (s : Str) : Option Url :=
  (parseRecord s).map UrlRecord.toUrl

/-- Model of `new URL(ref, base)`. -/
def stdParseWithBase (ref base : Str) : Option Url :=
  match parseRecord base with
  | none => none
  | some b => (parseRecordWithBase ref b).map UrlRecord.toUrl

/-- Canonicalisation under the `i` flag for texts in ASCII: upper-casing. -/
def asciiCanonicalize (c : Char) : Char :=
  c.toUpper

/-- The concrete platform. -/
def nodePlatform : Platform :=
  { parseUrl := stdParse, parseUrlWithBase := stdParseWithBase,
    canonicalize := asciiCanonicalize }

/-! ## `utils.js`: URLs -/

/-- Model of `normalizeUrl(inputUrl)`; the error is the message of the thrown
`Error`. -/
def normalizeUrl (P : Platform) (inputUrl : Str) : Except Str Str :=
  let url := jsTrim inputUrl
  let url :=
    if !startsWith url "http://".toList && !startsWith url "https://".toList then
      "https://".toList ++ url
    else url
  match P.parseUrl url with
  | some parsed =>
    if parsed.protocol ∈ ["http:".toList, "https:".toList] then .ok parsed.href
    else .error ("Invalid URL: ".toList ++ inputUrl)
  | none => .error ("Invalid URL: ".toList ++ inputUrl)

/-- Model of `resolveUrl(baseUrl, relativeUrl)`. -/
def resolveUrl (P : Platform) (baseUrl relativeUrl : Str) : Str :=
  if relativeUrl.isEmpty || isDataUrl relativeUrl then relativeUrl
  else if startsWith relativeUrl "//".toList then
    match P.parseUrl baseUrl with
    | some base => base.protocol ++ relativeUrl
    | none => relativeUrl
  else
    match P.parseUrlWithBase relativeUrl baseUrl with
    | some u => u.href
    | none => relativeUrl

/-! ## MD5 (`crypto.createHash('md5')`) -/

/-- Addition of 32-bit words. -/
def add32 (a b : Nat) : Nat :=
  (a + b) % 2 ^ 32

/-- Rotation of a 32-bit word to the left. -/
def rotl32 (x n : Nat) : Nat :=
  ((x <<< n) % 2 ^ 32) ||| (x >>> (32 - n))

/-- Complement of a 32-bit word. -/
def not32 (x : Nat) : Nat :=
  2 ^ 32 - 1 - x % 2 ^ 32

/-- The sine table of MD5. -/
def md5K : List Nat :=
  [ 0xd76aa478, 0xe8c7b756, 0x242070db, 0xc1bdceee, 0xf57c0faf, 0x4787c62a, 0xa8304613,
    0xfd469501, 0x698098d8, 0x8b44f7af, 0xffff5bb1, 0x895cd7be, 0x6b901122, 0xfd987193,
    0xa679438e, 0x49b40821, 0xf61e2562, 0xc040b340, 0x265e5a51, 0xe9b6c7aa, 0xd62f105d,
    0x02441453, 0xd8a1e681, 0xe7d3fbc8, 0x21e1cde6, 0xc33707d6, 0xf4d50d87, 0x455a14ed,
    0xa9e3e905, 0xfcefa3f8, 0x676f02d9, 0x8d2a4c8a, 0xfffa3942, 0x8771f681, 0x6d9d6122,
    0xfde5380c, 0xa4beea44, 0x4bdecfa9, 0xf6bb4b60, 0xbebfbc70, 0x289b7ec6, 0xeaa127fa,
    0xd4ef3085, 0x04881d05, 0xd9d4d039, 0xe6db99e5, 0x1fa27cf8, 0xc4ac5665, 0xf4292244,
    0x432aff97, 0xab9423a7, 0xfc93a039, 0x655b59c3, 0x8f0ccc92, 0xffeff47d, 0x85845dd1,
    0x6fa87e4f, 0xfe2ce6e0, 0xa3014314, 0x4e0811a1, 0xf7537e82, 0xbd3af235, 0x2ad7d2bb,
    0xeb86d391 ]

/-- The rotation amounts of MD5. -/
def md5S : List Nat :=
  [ 7, 12, 17, 22, 7, 12, 17, 22, 7, 12, 17, 22, 7, 12, 17, 22,
    5, 9, 14, 20, 5, 9, 14, 20, 5, 9, 14, 20, 5, 9, 14, 20,
    4, 11, 16, 23, 4, 11, 16, 23, 4, 11, 16, 23, 4, 11, 16, 23,
    6, 10, 15, 21, 6, 10, 15, 21, 6, 10, 15, 21, 6, 10, 15, 21 ]

/-- The four chaining words of MD5. -/
structure Md5State where
  a : Nat
  b : Nat
  c : Nat
  d : Nat
  deriving DecidableEq, Repr

/-- One of the 64 operations of a block. -/
def md5Round (m : List Nat) (s : Md5State) (i : Nat) : Md5State :=
  let f :=
    if i < 16 then (s.b &&& s.c) ||| (not32 s.b &&& s.d)
    else if i < 32 then (s.d &&& s.b) ||| (not32 s.d &&& s.c)
    else if i < 48 then s.b ^^^ s.c ^^^ s.d
    else s.c ^^^ (s.b ||| not32 s.d)
  let g :=
    if i < 16 then i
    else if i < 32 then (5 * i + 1) % 16
    else if i < 48 then (3 * i + 5) % 16
    else (7 * i) % 16
  let f1 := add32 (add32 (add32 f s.a) (md5K.getD i 0)) (m.getD g 0)
  { a := s.d, d := s.c, c := s.b, b := add32 s.b (rotl32 f1 (md5S.getD i 0)) }

/-- Little-endian 32-bit words of a list of bytes. -/
def wordsLE : List Nat → List Nat
  | b0 :: b1 :: b2 :: b3 :: rest => (b0 + 256 * b1 + 65536 * b2 + 16777216 * b3) :: wordsLE rest
  | _ => []

/-- The compression of one 64-byte block. -/
def md5Block (s : Md5State) (block : List Nat) : Md5State :=
  let r := (List.range 64).foldl (md5Round (wordsLE block)) s
  { a := add32 s.a r.a, b := add32 s.b r.b, c := add32 s.c r.c, d := add32 s.d r.d }

/-- The message followed by the padding and its length in bits. -/
def md5Pad (msg : List Nat) : List Nat :=
  let len := msg.length
  let zeros := (119 - len % 64) % 64
  let bits := 8 * len
  msg ++ [0x80] ++ List.replicate zeros 0 ++ (List.range 8).map fun i => (bits >>> (8 * i)) % 256

/-- The blocks of a padded message, consumed one after the other. -/
def md5Blocks : Nat → Md5State → List Nat → Md5State
  | 0, s, _ => s
  | n + 1, s, bytes => md5Blocks n (md5Block s (bytes.take 64)) (bytes.drop 64)

/-- Two lower-case hexadecimal digits of a byte. -/
def hexByte (b : Nat) : Str :=
  let digit := fun (n : Nat) => if n < 10 then Char.ofNat (48 + n) else Char.ofNat (87 + n)
  [digit (b / 16 % 16), digit (b % 16)]

/-- The four bytes of a word, least significant first, in hexadecimal. -/
def hexWordLE (w : Nat) : Str :=
  hexByte (w % 256) ++ hexByte (w / 256 % 256) ++ hexByte (w / 65536 % 256) ++
    hexByte (w / 16777216 % 256)

/-- The UTF-8 bytes of a string: what `update(str)` feeds to the hash. -/
def utf8Bytes (s : Str) : List Nat :=
  s.flatMap fun c => (String.utf8EncodeChar c).map UInt8.toNat

/-- Model of `crypto.createHash('md5').update(str).digest('hex')`. -/
def md5Hex (str : Str) : Str :=
  let padded := md5Pad (utf8Bytes str)
  let s := md5Blocks (padded.length / 64)
    { a := 0x67452301, b := 0xefcdab89, c := 0x98badcfe, d := 0x10325476 } padded
  hexWordLE s.a ++ hexWordLE s.b ++ hexWordLE s.c ++ hexWordLE s.d

/-- Model of `hashString(str)`. -/
def hashString (str : Str) : Str :=
  (md5Hex str).take 12

/-! ## `path.join` of Node (POSIX flavour) -/

/-- The loop of `normalizeString`: the segments kept so far and the segments
still to read.  An empty segment and `.` are skipped, `..` removes the last
kept segment, or is kept when nothing can be removed and the path is relative. -/
def normalizeSegments (allowAboveRoot : Bool) : List Str → List Str → List Str
  | acc, [] => acc
  | acc, seg :: rest =>
    if seg = [] ∨ seg = ".".toList then normalizeSegments allowAboveRoot acc rest
    else if seg = "..".toList then
      if acc ≠ [] ∧ acc.getLast? ≠ some "..".toList then
        normalizeSegments allowAboveRoot acc.dropLast rest
      else if allowAboveRoot then normalizeSegments allowAboveRoot (acc ++ [seg]) rest
      else normalizeSegments allowAboveRoot acc rest
    else normalizeSegments allowAboveRoot (acc ++ [seg]) rest

/-- Model of `path.normalize(p)`. -/
def pathNormalize (p : Str) : Str :=
  if p = [] then ".".toList
  else
    let isAbsolute := p.head? = some '/'
    let trailingSeparator := p.getLast? = some '/'
    let body := ['/'].intercalate
      (normalizeSegments (!isAbsolute) [] (splitOnP (· == '/') p))
    if body = [] then
      if isAbsolute then "/".toList else if trailingSeparator then "./".toList else ".".toList
    else
      let body := if trailingSeparator then body ++ ['/'] else body
      if isAbsolute then '/' :: body else body

/-- Model of `path.join(...parts)`. -/
def pathJoin (parts : List Str) : Str :=
  let joined := ['/'].intercalate (parts.filter fun a => !a.isEmpty)
  if joined = [] then ".".toList else pathNormalize joined

/-- Model of `generateAssetFilename(url, contentType)`; `none` when the
extension is not a string (the concatenation then yields the source text of a
built-in, which is not modelled; `downloadAsset` does not reach that case). -/
def generateAssetFilename (P : Platform) (url contentType : Str) : Option Str :=
  match getExtension P url contentType with
  | .text ext => some (hashString url ++ ext)
  | .inherited => none

/-! ## `utils.js`: srcset values -/

/-- Model of `s.lastIndexOf(' ')`: the index of the last space, if any. -/
def lastSpaceIndex (s : Str) : Option Nat :=
  match s.reverse.indexOf? ' ' with
  | some k => some (s.length - 1 - k)
  | none => none

/-- Model of `s.split(',')`. -/
def splitComma (s : Str) : List Str :=
  splitOnP (· == ',') s

/-- Model of `parseSrcset(srcset)`. -/
def parseSrcset (srcset : Str) : List Str :=
  if srcset.isEmpty then []
  else
    ((splitComma srcset).map fun part =>
      let trimmed := jsTrim part
      match lastSpaceIndex trimmed with
      | some spaceIndex =>
        if spaceIndex > 0 then jsTrim (trimmed.take spaceIndex) else trimmed
      | none => trimmed).filter fun url => !url.isEmpty && !isDataUrl url

/-! ## Regular expressions

The regular expressions of the repository are built from single-character
atoms, greedy repetitions of an atom, an alternation of words and one capture
group.  `matchNodes` is the backtracking matcher of ECMAScript for such a
pattern at a fixed start position: of the possible matches it returns the one
that the priorities of the greedy operators select. -/

/-- A pattern element that matches one character. -/
inductive Atom where
  /-- A pattern character. -/
  | lit (c : Char)
  /-- A class of listed characters, `[...]`. -/
  | anyOf (cs : List Char)
  /-- A negated class of listed characters, `[^...]`, with `\s` among the
  members when `space` is set. -/
  | noneOf (cs : List Char) (space : Bool)
  /-- The class `\s`. -/
  | space
  /-- The class `\d`. -/
  | digit
  deriving DecidableEq, Repr

/-- Whether an atom matches a character under the `i` flag: characters are
compared after canonicalisation. -/
def Atom.test (cz : Char → Char) (a : Atom) (c : Char) : Bool :=
  match a with
  | .lit x => cz x == cz c
  | .anyOf cs => cs.any fun x => cz x == cz c
  | .noneOf cs sp => !((cs.any fun x => cz x == cz c) || (sp && isJsSpace c))
  | .space => isJsSpace c
  | .digit => c.isDigit

/-- An element of a pattern. -/
inductive Node where
  | one (a : Atom)
  /-- Greedy `a?`. -/
  | opt (a : Atom)
  /-- Greedy `a*`. -/
  | star (a : Atom)
  /-- Greedy `a+`. -/
  | plus (a : Atom)
  /-- An alternation of words, `w1|w2|...`, tried from left to right. -/
  | alt (words : List Str)
  /-- Start of the capture group. -/
  | groupOpen
  /-- End of the capture group. -/
  | groupClose
  deriving DecidableEq, Repr

/-- A pattern: a sequence of elements. -/
abbrev Pattern := List Node

/-- The pattern that matches a text literally, character by character. -/
def literal (s : Str) : Pattern :=
  s.map fun c => Node.one (Atom.lit c)

/-- The state of a match attempt: the characters consumed so far (last one
first), where the capture group started, and the text it captured. -/
structure MatchState where
  consumed : Str
  groupStart : Nat
  group : Option Str
  deriving DecidableEq, Repr

/-- The state after consuming one more character. -/
def MatchState.push (st : MatchState) (c : Char) : MatchState :=
  { st with consumed := c :: st.consumed }

/-- Greedy repetition of an atom followed by the continuation `k`: the longest
run is tried first, then shorter ones. -/
def starLoop (cz : Char → Char) (a : Atom) (k : MatchState → Str → Option (MatchState × Str)) :
    MatchState → Str → Option (MatchState × Str)
  | st, [] => k st []
  | st, c :: t =>
    if a.test cz c then
      match starLoop cz a k (st.push c) t with
      | some r => some r
      | none => k st (c :: t)
    else k st (c :: t)

/-- A word of an alternation read off the text, character by character. -/
def matchWord (cz : Char → Char) : Str → MatchState → Str → Option (MatchState × Str)
  | [], st, t => some (st, t)
  | _ :: _, _, [] => none
  | x :: w, st, c :: t => if cz x == cz c then matchWord cz w (st.push c) t else none

/-- The words of an alternation tried in order, each followed by the
continuation `k`. -/
def altLoop (cz : Char → Char) (k : MatchState → Str → Option (MatchState × Str))
    (st : MatchState) (t : Str) : List Str → Option (MatchState × Str)
  | [] => none
  | w :: ws =>
    match matchWord cz w st t with
    | some (st1, t1) =>
      match k st1 t1 with
      | some r => some r
      | none => altLoop cz k st t ws
    | none => altLoop cz k st t ws

/-- Match a pattern at the start of a text: the final state and the text left
after the match, or `none` when the pattern does not match there. -/
def matchNodes (cz : Char → Char) : Pattern → MatchState → Str → Option (MatchState × Str)
  | [], st, t => some (st, t)
  | .one a :: ns, st, t =>
    match t with
    | c :: t1 => if a.test cz c then matchNodes cz ns (st.push c) t1 else none
    | [] => none
  | .opt a :: ns, st, t =>
    match t with
    | c :: t1 =>
      if a.test cz c then
        match matchNodes cz ns (st.push c) t1 with
        | some r => some r
        | none => matchNodes cz ns st t
      else matchNodes cz ns st t
    | [] => matchNodes cz ns st t
  | .star a :: ns, st, t => starLoop cz a (matchNodes cz ns) st t
  | .plus a :: ns, st, t =>
    match t with
    | c :: t1 => if a.test cz c then starLoop cz a (matchNodes cz ns) (st.push c) t1 else none
    | [] => none
  | .alt ws :: ns, st, t => altLoop cz (matchNodes cz ns) st t ws
  | .groupOpen :: ns, st, t => matchNodes cz ns { st with groupStart := st.consumed.length } t
  | .groupClose :: ns, st, t =>
    matchNodes cz ns
      { st with group := some ((st.consumed.take (st.consumed.length - st.groupStart)).reverse) } t

/-- The result of a successful match at a position: the matched text and the
text of the capture group, if the pattern has one. -/
structure Match where
  matched : Str
  group : Option Str
  deriving DecidableEq, Repr

/-- Model of one match attempt of a regular expression at the start of `t`. -/
def matchAt (cz : Char → Char) (p : Pattern) (t : Str) : Option Match :=
  match matchNodes cz p { consumed := [], groupStart := 0, group := none } t with
  | some (st, _) => some { matched := st.consumed.reverse, group := st.group }
  | none => none

/-- Model of `GetSubstitution`: expansion of the `$` patterns of a replacement
template, for a regular expression with `nGroups` capture groups (zero or
one) and no named group. -/
def getSubstitution (m : Match) (nGroups : Nat) (before after : Str) : Str → Str
  | [] => []
  | '$' :: '$' :: r => '$' :: getSubstitution m nGroups before after r
  | '$' :: '&' :: r => m.matched ++ getSubstitution m nGroups before after r
  | '$' :: '`' :: r => before ++ getSubstitution m nGroups before after r
  | '$' :: '\'' :: r => after ++ getSubstitution m nGroups before after r
  | '$' :: d1 :: d2 :: r =>
    if d1.isDigit ∧ d2.isDigit ∧ 1 ≤ (d1.toNat - 48) * 10 + (d2.toNat - 48)
        ∧ (d1.toNat - 48) * 10 + (d2.toNat - 48) ≤ nGroups then
      (m.group.getD []) ++ getSubstitution m nGroups before after r
    else if d1.isDigit ∧ 1 ≤ d1.toNat - 48 ∧ d1.toNat - 48 ≤ nGroups then
      (m.group.getD []) ++ getSubstitution m nGroups before after (d2 :: r)
    else '$' :: getSubstitution m nGroups before after (d1 :: d2 :: r)
  | ['$', d1] =>
    if d1.isDigit ∧ 1 ≤ d1.toNat - 48 ∧ d1.toNat - 48 ≤ nGroups then m.group.getD []
    else ['$', d1]
  | c :: r => c :: getSubstitution m nGroups before after r

/-- The scan of `String.prototype.replace` with a global regular expression:
`skip` characters of the previous match are still to be passed over, `before`
is the text already read (last character first).  Matches are searched from
left to right and do not overlap; after an empty match the scan advances by
one character. -/
def replaceGo (cz : Char → Char) (p : Pattern) (nGroups : Nat) (template : Str) :
    Nat → Str → Str → Str
  | _ + 1, _, [] => []
  | skip + 1, before, c :: t => replaceGo cz p nGroups template skip (c :: before) t
  | 0, before, [] =>
    match matchAt cz p [] with
    | some m => getSubstitution m nGroups before.reverse [] template
    | none => []
  | 0, before, c :: t =>
    match matchAt cz p (c :: t) with
    | some m =>
      let rep := getSubstitution m nGroups before.reverse ((c :: t).drop m.matched.length) template
      if m.matched.length = 0 then rep ++ c :: replaceGo cz p nGroups template 0 (c :: before) t
      else rep ++ replaceGo cz p nGroups template (m.matched.length - 1) (c :: before) t
    | none => c :: replaceGo cz p nGroups template 0 (c :: before) t

/-- Model of `text.replace(new RegExp(p, 'gi'), template)`. -/
def replaceAll (cz : Char → Char) (p : Pattern) (nGroups : Nat) (template text : Str) : Str :=
  replaceGo cz p nGroups template 0 [] text

/-- The scan of the `exec` loop of a global regular expression: the first
capture group of every match, from left to right. -/
def captureGo (cz : Char → Char) (p : Pattern) : Nat → Str → List Str
  | _, [] => []
  | skip + 1, _ :: t => captureGo cz p skip t
  | 0, c :: t =>
    match matchAt cz p (c :: t) with
    | some m => (m.group.getD []) :: captureGo cz p (m.matched.length - 1) t
    | none => captureGo cz p 0 t

/-- The pattern `url\s*\(\s*['"]?([^'")\s]+)['"]?\s*\)` of `extractCssUrls`. -/
def cssUrlPattern : Pattern :=
  literal "url".toList ++
  [ .star .space, .one (.lit '('), .star .space, .opt (.anyOf ['\'', '"']),
    .groupOpen, .plus (.noneOf ['\'', '"', ')'] true), .groupClose,
    .opt (.anyOf ['\'', '"']), .star .space, .one (.lit ')') ]

/-- Model of `extractCssUrls(cssContent)`. -/
def extractCssUrls (cz : Char → Char) (cssContent : Str) : List Str :=
  (captureGo cz cssUrlPattern 0 cssContent).filter fun url =>
    !url.isEmpty && !isDataUrl url && !startsWith url "#".toList

/-! ## `cloner.js`: asset discovery -/

/-- An entry of the list returned by `collectAssets`. -/
structure Asset where
  url : Str
  type : Str
  originalUrl : Str
  deriving DecidableEq, Repr

/-- The local variables `assets` and `seenUrls` of `collectAssets`. -/
structure Discovery where
  assets : List Asset
  seenUrls : List Str
  deriving DecidableEq, Repr

/-- Model of the closure `addAsset(url, type)` of `collectAssets`, for the page
URL `finalUrl`. -/
def addAsset (P : Platform) (finalUrl : Str) (d : Discovery) (url type : Str) : Discovery :=
  if url.isEmpty || isDataUrl url || d.seenUrls.contains url then d
  else
    let resolvedUrl := resolveUrl P finalUrl url
    if !resolvedUrl.isEmpty && !isDataUrl resolvedUrl && !d.seenUrls.contains resolvedUrl then
      { assets := d.assets ++ [{ url := resolvedUrl, type := type, originalUrl := url }],
        seenUrls := d.seenUrls ++ [resolvedUrl] }
    else d

/-- The asset list after a sequence of calls of `addAsset`, each given by its
reference text and its category, starting from the empty list. -/
def addAssets (P : Platform) (finalUrl : Str) (refs : List (Str × Str)) : List Asset :=
  (refs.foldl (fun d r => addAsset P finalUrl d r.1 r.2) { assets := [], seenUrls := [] }).assets

/-- What `collectAssets` reads off the parsed document: for each selector, the
attribute values (or style texts) of the matching elements in document order. -/
structure Document where
  /-- `img[src]` -/
  imgSrcs : List Str
  /-- `[srcset]` -/
  srcsets : List Str
  /-- `link[rel="stylesheet"][href]` -/
  stylesheetHrefs : List Str
  /-- `link[rel="preload"][as="style"][href]` -/
  preloadStyleHrefs : List Str
  /-- `script[src]` -/
  scriptSrcs : List Str
  /-- `video[src], video source[src]` -/
  videoSrcs : List Str
  /-- `audio[src], audio source[src]` -/
  audioSrcs : List Str
  /-- `link[rel="icon"][href]`, `shortcut icon`, `apple-touch-icon` -/
  iconHrefs : List Str
  /-- The `style` attribute of `[style*="url"]` -/
  styleAttrs : List Str
  /-- The content of each `style` element -/
  styleBlocks : List Str
  /-- `link[rel="preload"][as="font"][href]` -/
  preloadFontHrefs : List Str
  /-- The `content` of the Open Graph and Twitter image `meta` elements -/
  metaImages : List Str
  deriving DecidableEq, Repr

/-- The calls of `addAsset` that `collectAssets` makes on a document, in order. -/
def assetReferences (P : Platform) (doc : Document) : List (Str × Str) :=
  let tag := fun (type : String) (urls : List Str) => urls.map fun u => (u, type.toList)
  tag "images" doc.imgSrcs ++
  tag "images" (doc.srcsets.flatMap parseSrcset) ++
  tag "css" doc.stylesheetHrefs ++
  tag "css" doc.preloadStyleHrefs ++
  tag "js" doc.scriptSrcs ++
  tag "video" doc.videoSrcs ++
  tag "audio" doc.audioSrcs ++
  tag "images" doc.iconHrefs ++
  tag "images" (doc.styleAttrs.flatMap (extractCssUrls P.canonicalize)) ++
  tag "images" (doc.styleBlocks.flatMap (extractCssUrls P.canonicalize)) ++
  tag "fonts" doc.preloadFontHrefs ++
  tag "images" doc.metaImages

/-- Model of `collectAssets(root)` for the page URL `finalUrl`. -/
def collectAssets (P : Platform) (finalUrl : Str) (doc : Document) : List Asset :=
  addAssets P finalUrl (assetReferences P doc)

/-! ## `cloner.js`: downloads -/

/-- An entry of the table `cssUrls`. -/
structure CssData where
  content : Str
  localPath : Str
  deriving DecidableEq, Repr

/-- The fields of a `WebsiteCloner` that the pipeline updates, the files it
has written (full path and content) and the log entries it has emitted (type
and message). -/
structure ClonerState where
  finalUrl : Str
  assetMap : List (Str × Str)
  downloadedAssets : List Str
  cssUrls : List (Str × CssData)
  files : List (Str × Str)
  logs : List (Str × Str)
  deriving DecidableEq, Repr

/-- Model of `Map.prototype.set`: the value of a present key is replaced in
place, a new key is appended. -/
def mapSet {β : Type} : List (Str × β) → Str → β → List (Str × β)
  | [], k, v => [(k, v)]
  | (k1, v1) :: rest, k, v => if k1 = k then (k, v) :: rest else (k1, v1) :: mapSet rest k v

/-- Model of `Map.prototype.get`. -/
def mapGet {β : Type} (m : List (Str × β)) (k : Str) : Option β :=
  m.lookup k

/-- Model of `Set.prototype.add`. -/
def setAdd (s : List Str) (x : Str) : List Str :=
  if s.contains x then s else s ++ [x]

/-- Model of `this.log(type, message)`: the entry is recorded; the emitter
callback is taken not to throw. -/
def ClonerState.log (st : ClonerState) (type : String) (message : Str) : ClonerState :=
  { st with logs := st.logs ++ [(type.toList, message)] }

/-- A response of the transport. -/
structure Response where
  /-- `response.ok()` -/
  ok : Bool
  /-- `response.status()` -/
  status : Nat
  /-- `response.headers()['content-type']`, if the header is present -/
  contentType : Option Str
  /-- `response.body()`: the content, or the message of the error it throws -/
  body : Except Str Str

/-- Model of `response.headers()['content-type'] || ''`. -/
def Response.contentTypeOrEmpty (response : Response) : Str :=
  match response.contentType with
  | some ct => ct
  | none => []

/-- The outside world of a download. -/
structure Env where
  /-- `context.request.get(url, ...)`: a response, or the message of the error
  it throws. -/
  get : Str → Except Str Response
  /-- `fs.writeFile(path, ...)`: the message of the error it throws, if any. -/
  writeFile : Str → Option Str

/-- Model of `downloadAsset(asset, outputPath, context)`. -/
def downloadAsset (P : Platform) (env : Env) (outputPath : Str) (st : ClonerState)
    (asset : Asset) : ClonerState :=
  let caught := fun (message : Str) =>
    st.log "warning" ("Error downloading ".toList ++ asset.url ++ ": ".toList ++ message)
  match env.get asset.url with
  | .error message => caught message
  | .ok response =>
    if !response.ok then
      st.log "warning" ("Failed to download: ".toList ++ asset.url ++ " (".toList ++
        (Nat.repr response.status).toList ++ ")".toList)
    else
      let contentType := response.contentTypeOrEmpty
      match getAssetType P asset.url contentType, generateAssetFilename P asset.url contentType with
      | some assetType, some filename =>
        let localPath := pathJoin ["assets".toList, assetType, filename]
        let fullPath := pathJoin [outputPath, localPath]
        match response.body with
        | .error message => caught message
        | .ok buffer =>
          match env.writeFile fullPath with
          | some message => caught message
          | none =>
            let cssUrls :=
              if assetType = "css".toList then
                mapSet st.cssUrls asset.url { content := buffer, localPath := localPath }
              else st.cssUrls
            { st with
              files := mapSet st.files fullPath buffer
              cssUrls := cssUrls
              assetMap := mapSet (mapSet st.assetMap asset.url localPath) asset.originalUrl localPath
              downloadedAssets := setAdd st.downloadedAssets asset.url
              logs := st.logs ++ [("network".toList,
                "Saved: ".toList ++ filename ++ " (".toList ++ assetType ++ ")".toList)] }
      | _, _ => caught "getExtension(...).toLowerCase is not a function".toList

/-- The loop of `downloadAssets` from index `i` on, in batches of ten.  The
downloads of a batch are started together (`Promise.all`); each of them acts on
the state in one step, after its last `await`, so a batch acts on the state in
the order in which its downloads complete: `completion batch`, a rearrangement
of the batch. -/
def downloadAssetsFrom (P : Platform) (env : Env) (outputPath : Str)
    (completion : List Asset → List Asset) (assets : List Asset) :
    Nat → Nat → ClonerState → ClonerState
  | 0, _, st => st
  | fuel + 1, i, st =>
    if i < assets.length then
      let batch := (assets.drop i).take 10
      let st1 := (completion batch).foldl (downloadAsset P env outputPath) st
      let st2 := st1.log "pipeline" ("Downloaded ".toList ++
        (Nat.repr (min (i + 10) assets.length)).toList ++ "/".toList ++
        (Nat.repr assets.length).toList ++ " assets".toList)
      downloadAssetsFrom P env outputPath completion assets fuel (i + 10) st2
    else st

/-- Model of `downloadAssets(assets, outputPath, context)` when the downloads of
each batch complete in the order `completion`; the loop runs at most once per
asset. -/
def downloadAssets (P : Platform) (env : Env) (outputPath : Str)
    (completion : List Asset → List Asset) (assets : List Asset) (st : ClonerState) :
    ClonerState :=
  downloadAssetsFrom P env outputPath completion assets assets.length 0 st

/-- The directories that `clone` creates under the output folder before any
download. -/
def createdAssetDirs : List Str :=
  [ "images".toList, "css".toList, "js".toList, "fonts".toList, "other".toList ]

/-! ## `cloner.js`: rewriting -/

/-- Insertion of an entry after the entries whose key is at least as long. -/
def insertByKeyLength (e : Str × Str) : List (Str × Str) → List (Str × Str)
  | [] => [e]
  | x :: xs => if x.1.length < e.1.length then e :: x :: xs else x :: insertByKeyLength e xs

/-- Model of `[...assetMap.entries()].sort((a, b) => b[0].length - a[0].length)`:
a stable sort by decreasing key length. -/
def sortByKeyLength (entries : List (Str × Str)) : List (Str × Str) :=
  entries.foldl (fun acc e => insertByKeyLength e acc) []

/-- The pattern `(src|href|content)=["']KEY["']`. -/
def attrPattern (key : Str) : Pattern :=
  [ .groupOpen, .alt ["src".toList, "href".toList, "content".toList], .groupClose,
    .one (.lit '='), .one (.anyOf ['"', '\'']) ] ++ literal key ++ [ .one (.anyOf ['"', '\'']) ]

/-- The pattern `KEY(\s+\d+[wx])`. -/
def srcsetPattern (key : Str) : Pattern :=
  literal key ++ [ .groupOpen, .plus .space, .plus .digit, .one (.anyOf ['w', 'x']), .groupClose ]

/-- The pattern `url\s*\(\s*['"]?KEY['"]?\s*\)`. -/
def urlFuncPattern (key : Str) : Pattern :=
  literal "url".toList ++ [ .star .space, .one (.lit '('), .star .space, .opt (.anyOf ['\'', '"']) ] ++
    literal key ++ [ .opt (.anyOf ['\'', '"']), .star .space, .one (.lit ')') ]

/-- The pattern `<base[^>]*>`. -/
def basePattern : Pattern :=
  literal "<base".toList ++ [ .star (.noneOf ['>'] false), .one (.lit '>') ]

/-- The body of the loop of `rewriteHtml` for one entry of the map. -/
def rewriteEntry (cz : Char → Char) (result : Str) (entry : Str × Str) : Str :=
  let originalUrl := entry.1
  let localPath := entry.2
  let r1 := replaceAll cz (attrPattern originalUrl) 1
    ("$1=\"".toList ++ localPath ++ "\"".toList) result
  let r2 := replaceAll cz (srcsetPattern originalUrl) 1 (localPath ++ "$1".toList) r1
  replaceAll cz (urlFuncPattern originalUrl) 0 ("url(\"".toList ++ localPath ++ "\")".toList) r2

/-- Model of `rewriteHtml(html)` for the asset map `assetMap`. -/
def rewriteHtml (P : Platform) (assetMap : List (Str × Str)) (html : Str) : Str :=
  let result := (sortByKeyLength assetMap).foldl (rewriteEntry P.canonicalize) html
  replaceAll P.canonicalize basePattern 0 [] result

/-! ## Vocabulary of the properties -/

/-- The extension tests of `getAssetType` on their own: the category that an
extension selects, if any. -/
def categoryOfExtension (ext : Str) : Option Str :=
  if ext ∈ [".css".toList] then some "css".toList
  else if ext ∈ [".js".toList] then some "js".toList
  else if ext ∈ [".png".toList, ".jpg".toList, ".jpeg".toList, ".gif".toList,
      ".webp".toList, ".svg".toList, ".ico".toList, ".bmp".toList] then some "images".toList
  else if ext ∈ [".woff".toList, ".woff2".toList, ".ttf".toList, ".otf".toList,
      ".eot".toList] then some "fonts".toList
  else if ext ∈ [".mp4".toList, ".webm".toList, ".ogg".toList, ".mov".toList] then
    some "video".toList
  else if ext ∈ [".mp3".toList, ".wav".toList, ".flac".toList, ".aac".toList] then
    some "audio".toList
  else none

/-- The recognised extensions of at most five characters, each with its
category. -/
def extensionCategories : List (Str × Str) :=
  [ (".css".toList, "css".toList), (".js".toList, "js".toList),
    (".png".toList, "images".toList), (".jpg".toList, "images".toList),
    (".jpeg".toList, "images".toList), (".gif".toList, "images".toList),
    (".webp".toList, "images".toList), (".svg".toList, "images".toList),
    (".ico".toList, "images".toList), (".bmp".toList, "images".toList),
    (".woff".toList, "fonts".toList), (".ttf".toList, "fonts".toList),
    (".otf".toList, "fonts".toList), (".eot".toList, "fonts".toList),
    (".mp4".toList, "video".toList), (".webm".toList, "video".toList),
    (".ogg".toList, "video".toList), (".mov".toList, "video".toList),
    (".mp3".toList, "audio".toList), (".wav".toList, "audio".toList),
    (".flac".toList, "audio".toList), (".aac".toList, "audio".toList) ]

/-- What discovery maintains: the set `seenUrls` holds exactly the URLs of the
assets, these are pairwise distinct, and every asset carries the resolution of
its reference text. -/
def Discovery.Inv (P : Platform) (finalUrl : Str) (d : Discovery) : Prop :=
  d.seenUrls = d.assets.map Asset.url ∧ (d.assets.map Asset.url).Nodup ∧
  ∀ a ∈ d.assets, a.url = resolveUrl P finalUrl a.originalUrl

/-- A lower-case hexadecimal digit. -/
def isLowerHex (c : Char) : Bool :=
  (48 ≤ c.toNat && c.toNat ≤ 57) || (97 ≤ c.toNat && c.toNat ≤ 102)

/-- A path segment that `path.join` leaves alone: not empty, free of slashes,
and neither `.` nor `..`. -/
def PlainSegment (s : Str) : Prop :=
  s ≠ [] ∧ (∀ c ∈ s, c ≠ '/') ∧ s ≠ ['.'] ∧ s ≠ ['.', '.']

/-- What the scan of `path.extname` maintains, `n` characters of the path being
still unread and `done` being the part already read. -/
def ExtScan.Inv (n : Nat) (done : Str) (s : ExtScan) : Prop :=
  (s.matchedSlash = true → s.endPos = none) ∧
  (s.endPos = none → s.startDot = none) ∧
  (s.stopped = false → ∀ e, s.endPos = some e →
    ∃ run tail, done = run ++ tail ∧ e = n + run.length ∧ ∀ c ∈ run, c ≠ '/') ∧
  (∀ sd e, s.startDot = some sd → s.endPos = some e →
    ∃ pre mid tail, done = pre ++ mid ++ tail ∧ sd = n + pre.length ∧ e = sd + mid.length ∧
      ∀ c ∈ mid, c ≠ '/')

/-- The categories that `getAssetType` can return. -/
def assetCategories : List Str :=
  [ "css".toList, "js".toList, "images".toList, "fonts".toList, "video".toList,
    "audio".toList, "other".toList ]

/-! ## Example data -/

/-- A cloner state that already holds one stored stylesheet. -/
def exampleState : ClonerState :=
  { finalUrl := "https://x.test/".toList,
    assetMap := [("https://x.test/s.css".toList, "assets/css/0123456789ab.css".toList),
      ("s.css".toList, "assets/css/0123456789ab.css".toList)],
    downloadedAssets := ["https://x.test/s.css".toList],
    cssUrls := [("https://x.test/s.css".toList,
      { content := "body{}".toList, localPath := "assets/css/0123456789ab.css".toList })],
    files := [("/out/assets/css/0123456789ab.css".toList, "body{}".toList)],
    logs := [] }

/-- The state of a cloner before any download, for the page `https://x.test/`. -/
def emptyState : ClonerState :=
  { finalUrl := "https://x.test/".toList, assetMap := [], downloadedAssets := [], cssUrls := [],
    files := [], logs := [] }

/-- The answer `404 Not Found`. -/
def responseNotFound : Response :=
  { ok := false, status := 404, contentType := none, body := .ok [] }

/-- A world in which every request is answered with the status 404. -/
def envNotFound : Env :=
  { get := fun _ => .ok responseNotFound, writeFile := fun _ => none }

/-- The answer `200 OK` with a PNG image. -/
def responsePng : Response :=
  { ok := true, status := 200, contentType := some "image/png".toList, body := .ok "PNG".toList }

/-- A world in which every request is answered with a PNG image and every
write succeeds. -/
def envPng : Env :=
  { get := fun _ => .ok responsePng, writeFile := fun _ => none }

/-- An asset that `envNotFound` does not serve. -/
def exampleMissingAsset : Asset :=
  { url := "https://x.test/missing.png".toList, type := "images".toList,
    originalUrl := "missing.png".toList }

/-- An image discovered with a tag that is not its category. -/
def examplePngAsset : Asset :=
  { url := "https://x.test/a.png".toList, type := "css".toList, originalUrl := "a.png".toList }

/-! ## Occurrences of a key in a text -/

/-- Whether `key` is a prefix of `text` when characters are compared after
canonicalisation (the comparison of the regular expressions under the `i`
flag). -/
def prefixCI (cz : Char → Char) : Str → Str → Bool
  | [], _ => true
  | _ :: _, [] => false
  | x :: key, c :: text => cz x == cz c && prefixCI cz key text

/-- Whether `key` occurs somewhere in `text` when characters are compared after
canonicalisation. -/
def includesCI (cz : Char → Char) : Str → Str → Bool
  | [], key => key.isEmpty
  | c :: text, key => prefixCI cz key (c :: text) || includesCI cz text key

/-- Whether a pattern matches at some position of a text. -/
def matchesSomewhere (cz : Char → Char) (p : Pattern) : Str → Bool
  | [] => (matchAt cz p []).isSome
  | c :: text => (matchAt cz p (c :: text)).isSome || matchesSomewhere cz p text

/-- The answer `200 OK` with the content type `constructor`. -/
def responseConstructor : Response :=
  { ok := true, status := 200, contentType := some "constructor".toList, body := .ok "x".toList }

/-- A world in which every request is answered with the content type
`constructor` and every write succeeds. -/
def envConstructor : Env :=
  { get := fun _ => .ok responseConstructor, writeFile := fun _ => none }

/-- An asset whose URL has no extension. -/
def examplePlainAsset : Asset :=
  { url := "https://x.test/a".toList, type := "images".toList, originalUrl := "a".toList }

/-! ## `cloner.js`: auto-scroll -/

/-- What `autoScroll` does to the page and to the log, in order. -/
inductive ScrollEvent where
  /-- `page.evaluate(() => document.body.scrollHeight)` returned this height. -/
  | measured (height : Nat)
  /-- `window.scrollTo(0, document.body.scrollHeight)` -/
  | scrolledToBottom
  /-- `page.waitForTimeout(ms)` -/
  | waited (ms : Nat)
  /-- `this.log('pipeline', message)` -/
  | logged (message : Str)
  /-- `window.scrollTo(0, 0)` -/
  | scrolledToTop
  deriving DecidableEq, Repr

/-- The local variables of `autoScroll`, the number of heights measured so far
and the events so far; `stabilized` records the `break`. -/
structure ScrollState where
  lastHeight : Nat
  sameHeightCount : Nat
  readings : Nat
  stabilized : Bool
  events : List ScrollEvent
  deriving DecidableEq, Repr

/-- The loop of `autoScroll` with `n` iterations left; the page answers the
`k`-th measurement (counted from zero) with `measure k`. -/
def autoScrollLoop (measure : Nat → Nat) : Nat → ScrollState → ScrollState
  | 0, s => s
  | n + 1, s =>
    let currentHeight := measure s.readings
    let i := s.readings
    let events := s.events ++ [ScrollEvent.measured currentHeight]
    let continueWith := fun (count : Nat) (events : List ScrollEvent) =>
      autoScrollLoop measure n
        { lastHeight := currentHeight, sameHeightCount := count, readings := i + 1,
          stabilized := false,
          events := events ++ [ScrollEvent.scrolledToBottom, ScrollEvent.waited 500,
            ScrollEvent.logged ("Scrolled... (height: ".toList ++ (Nat.repr currentHeight).toList ++
              "px, iteration ".toList ++ (Nat.repr (i + 1)).toList ++ ")".toList)] }
    if currentHeight = s.lastHeight then
      if s.sameHeightCount + 1 ≥ 3 then
        { lastHeight := s.lastHeight, sameHeightCount := s.sameHeightCount + 1,
          readings := i + 1, stabilized := true,
          events := events ++ [ScrollEvent.logged ("Scroll complete (height stabilized at ".toList ++
            (Nat.repr currentHeight).toList ++ "px)".toList)] }
      else continueWith (s.sameHeightCount + 1) events
    else continueWith 0 events

/-- Model of `autoScroll()`: at most `maxIterations = 20` iterations, then the
scroll back to the top. -/
def autoScroll (measure : Nat → Nat) : ScrollState :=
  let s := autoScrollLoop measure 20
    { lastHeight := 0, sameHeightCount := 0, readings := 0, stabilized := false, events := [] }
  { s with events := s.events ++ [ScrollEvent.scrolledToTop] }

/-- The measurements of a page that answers with the heights of a list, and
with zero afterwards. -/
def readingsOf (heights : List Nat) : Nat → Nat :=
  fun k => heights.getD k 0

/-- The reading before the `k`-th one; zero before the first. -/
def previousReading (measure : Nat → Nat) (k : Nat) : Nat :=
  match k with
  | 0 => 0
  | j + 1 => measure j

/-- The stability counter of the specification after `k` readings: it is
incremented when a reading equals the previous reading and reset to zero
otherwise. -/
def stabilityCount (measure : Nat → Nat) : Nat → Nat
  | 0 => 0
  | k + 1 =>
    if measure k = previousReading measure k then stabilityCount measure k + 1 else 0

/-! ## Srcset values and style sheets as the claims build them -/

/-- A candidate of a srcset value: a URL, optionally followed by a descriptor. -/
structure SrcsetCandidate where
  url : Str
  descriptor : Option Str
  deriving DecidableEq, Repr

/-- The text of a candidate: the URL, then a space and the descriptor if there
is one. -/
def SrcsetCandidate.render (c : SrcsetCandidate) : Str :=
  match c.descriptor with
  | some d => c.url ++ ' ' :: d
  | none => c.url

/-- The srcset value of a list of candidates: their texts joined by a comma and
a space. -/
def renderSrcset (cs : List SrcsetCandidate) : Str :=
  ", ".toList.intercalate (cs.map SrcsetCandidate.render)

/-- A text without white space and without commas. -/
def CommaFree (s : Str) : Prop :=
  ∀ x ∈ s, isJsSpace x = false ∧ x ≠ ','

/-- The callback that `parseSrcset` maps over the pieces of the value. -/
def srcsetPartUrl (part : Str) : Str :=
  let trimmed := jsTrim part
  match lastSpaceIndex trimmed with
  | some spaceIndex =>
    if spaceIndex > 0 then jsTrim (trimmed.take spaceIndex) else trimmed
  | none => trimmed

/-- A match attempt that went from the state `st` on the text `t` to the state
`st1` on the text `t1` has consumed the characters by which `t` is longer. -/
def Consumed (st : MatchState) (t : Str) (st1 : MatchState) (t1 : Str) : Prop :=
  ∃ x, t = x ++ t1 ∧ st1.consumed = x.reverse ++ st.consumed

/-- Whether a pattern matches at some position inside `a` when `a` is followed
by `t`. -/
def matchStartsIn (cz : Char → Char) (p : Pattern) : Str → Str → Bool
  | [], _ => false
  | c :: a, t => (matchAt cz p (c :: a ++ t)).isSome || matchStartsIn cz p a t

/-- The quoting of a `url(...)` form: none, single quotes or double quotes. -/
inductive CssQuote where
  | bare
  | single
  | double
  deriving DecidableEq, Repr

/-- The text of a quote. -/
def CssQuote.text : CssQuote → Str
  | .bare => []
  | .single => ['\'']
  | .double => ['"']

/-- A declaration `p:url(q u q);` of a style sheet: the text before the colon,
the quoting and the URL. -/
structure CssDeclaration where
  property : Str
  quote : CssQuote
  url : Str
  deriving DecidableEq, Repr

/-- The text of a declaration. -/
def CssDeclaration.render (d : CssDeclaration) : Str :=
  d.property ++ (":url(".toList ++ (d.quote.text ++ (d.url ++ (d.quote.text ++ ");".toList))))

/-- The style sheet made of a list of declarations, one after the other. -/
def renderCss : List CssDeclaration → Str
  | [] => []
  | d :: ds => d.render ++ renderCss ds

/-- A URL as the declarations hold it: not empty and free of white space,
quotes and parentheses. -/
def UrlToken (u : Str) : Prop :=
  u ≠ [] ∧ ∀ c ∈ u, isJsSpace c = false ∧ c ≠ '\'' ∧ c ≠ '"' ∧ c ≠ '(' ∧ c ≠ ')'

/-- The canonicalisation of the `i` flag identifies no other character with a
parenthesis or a quote. -/
def SeparatesDelimiters (cz : Char → Char) : Prop :=
  ∀ x ∈ ['(', ')', '\'', '"'], ∀ c, cz x = cz c → c = x

/-! ## `path.dirname` and `path.relative` of Node (POSIX flavour) -/

/-- The loop of `path.dirname`, entered at index `i` and going down to index 1:
the index of the last slash that has a character other than a slash somewhere
after it, if there is one. -/
def dirnameLoop (p : Str) : Nat → Bool → Option Nat
  | 0, _ => none
  | i + 1, matchedSlash =>
    if p.get? (i + 1) = some '/' then
      if !matchedSlash then some (i + 1) else dirnameLoop p i matchedSlash
    else dirnameLoop p i false

/-- Model of `path.dirname(p)`. -/
def pathDirname (p : Str) : Str :=
  if p = [] then ".".toList
  else
    let hasRoot := p.head? = some '/'
    match dirnameLoop p (p.length - 1) true with
    | none => if hasRoot then "/".toList else ".".toList
    | some e => if hasRoot ∧ e = 1 then "//".toList else p.take e

/-- Model of `path.resolve(p)` in a process whose working directory is `cwd`. -/
def pathResolve (cwd p : Str) : Str :=
  let resolved1 := if p = [] then [] else p ++ ['/']
  let absolute1 : Bool := p.head? = some '/'
  let resolved2 := if absolute1 ∨ cwd = [] then resolved1 else cwd ++ '/' :: resolved1
  let absolute2 : Bool := absolute1 || cwd.head? = some '/'
  let body := ['/'].intercalate
    (normalizeSegments (!absolute2) [] (splitOnP (· == '/') resolved2))
  if absolute2 then '/' :: body else if body = [] then ".".toList else body

/-- The first loop of `path.relative` on the two paths without their first
character: the index `i` at which the loop stops and the index after the last
common slash (`lastCommonSep + 1`, so that the initial `-1` is `0`). -/
def relativeScan : Str → Str → Nat → Nat → Nat × Nat
  | c :: f, d :: t, i, afterSep =>
    if c ≠ d then (i, afterSep)
    else relativeScan f t (i + 1) (if c = '/' then i + 1 else afterSep)
  | _, _, i, afterSep => (i, afterSep)

/-- The second loop of `path.relative`: one `..` for the end of `fromPath` and
for every slash of `fromPath` at an index from `start` on. -/
def relativeUps (fromPath : Str) (start : Nat) : List Str :=
  ((List.range (fromPath.length + 1)).filter fun i =>
    decide (start ≤ i) && (i == fromPath.length || fromPath.get? i == some '/')).map
      fun _ => "..".toList

/-- Model of `path.relative(from, to)` in a process whose working directory is
`cwd`. -/
def pathRelative (cwd fromArg toArg : Str) : Str :=
  if fromArg = toArg then []
  else
    let fromPath := pathResolve cwd fromArg
    let toPath := pathResolve cwd toArg
    if fromPath = toPath then []
    else
      let fromLen := fromPath.length - 1
      let toLen := toPath.length - 1
      let length := min fromLen toLen
      let scan := relativeScan (fromPath.drop 1) (toPath.drop 1) 0 0
      let i := scan.1
      let tail := fun (afterSep : Nat) =>
        ['/'].intercalate (relativeUps fromPath (1 + afterSep)) ++ toPath.drop afterSep
      if i = length then
        if toLen > length then
          if toPath.get? (1 + i) = some '/' then toPath.drop (1 + i + 1)
          else if i = 0 then toPath.drop (1 + i)
          else tail scan.2
        else if fromLen > length then
          if fromPath.get? (1 + i) = some '/' then tail (i + 1)
          else if i = 0 then tail 1
          else tail scan.2
        else tail scan.2
      else tail scan.2

/-! ## `cloner.js`: style sheets -/

/-- The scan of `String.prototype.split` with a separator that is not empty:
`skip` characters of the separator just found are still to be passed over,
`cur` is the piece being read (last character first). -/
def jsSplitGo (sep : Str) : Nat → Str → Str → List Str
  | _, cur, [] => [cur.reverse]
  | skip + 1, cur, _ :: t => jsSplitGo sep skip cur t
  | 0, cur, c :: t =>
    if startsWith (c :: t) sep then cur.reverse :: jsSplitGo sep (sep.length - 1) [] t
    else jsSplitGo sep 0 (c :: cur) t

/-- Model of `text.split(sep)` for a string separator: the empty separator
splits the text into its characters. -/
def jsSplit (text sep : Str) : List Str :=
  if sep = [] then text.map fun c => [c] else jsSplitGo sep 0 [] text

/-- The body of the loop of `processCssAssets` over the entries of the asset
map: every occurrence of the key in the style sheet is replaced by the path
from the directory of the style sheet to the local file. -/
def rewriteCssEntry (cwd cssLocalPath updatedCss : Str) (entry : Str × Str) : Str :=
  let relativePath := (pathRelative cwd (pathDirname cssLocalPath) entry.2).map fun c =>
    if c = '\\' then '/' else c
  relativePath.intercalate (jsSplit updatedCss entry.1)

/-- The body of the loop of `processCssAssets` over the URLs of a style sheet
fetched from `cssUrl`. -/
def processCssUrl (P : Platform) (env : Env) (outputPath cssUrl : Str) (st : ClonerState)
    (url : Str) : ClonerState :=
  if st.downloadedAssets.contains url || isDataUrl url then st
  else
    let resolvedUrl := resolveUrl P cssUrl url
    if resolvedUrl.isEmpty || isDataUrl resolvedUrl || st.downloadedAssets.contains resolvedUrl
    then st
    else
      let caught := st.log "warning" ("CSS asset error: ".toList ++ url)
      match env.get resolvedUrl with
      | .error _ => caught
      | .ok response =>
        if response.ok then
          let contentType := response.contentTypeOrEmpty
          match getAssetType P resolvedUrl contentType,
              generateAssetFilename P resolvedUrl contentType with
          | some assetType, some filename =>
            let localPath := pathJoin ["assets".toList, assetType, filename]
            let fullPath := pathJoin [outputPath, localPath]
            match response.body with
            | .error _ => caught
            | .ok buffer =>
              match env.writeFile fullPath with
              | some _ => caught
              | none =>
                { st with
                  files := mapSet st.files fullPath buffer
                  assetMap := mapSet (mapSet st.assetMap resolvedUrl localPath) url localPath
                  downloadedAssets := setAdd st.downloadedAssets resolvedUrl
                  logs := st.logs ++ [("network".toList,
                    "Saved (from CSS): ".toList ++ filename)] }
          | _, _ => caught
        else st

/-- The body of the outer loop of `processCssAssets` for one entry of
`cssUrls`: the state afterwards, and the message of the error thrown by the
final write, if it throws. -/
def processCssEntry (P : Platform) (env : Env) (cwd outputPath : Str) (st : ClonerState)
    (entry : Str × CssData) : ClonerState × Option Str :=
  let urls := extractCssUrls P.canonicalize entry.2.content
  let st1 := urls.foldl (processCssUrl P env outputPath entry.1) st
  let updatedCss := st1.assetMap.foldl (rewriteCssEntry cwd entry.2.localPath) entry.2.content
  let cssFullPath := pathJoin [outputPath, entry.2.localPath]
  match env.writeFile cssFullPath with
  | some message => (st1, some message)
  | none => ({ st1 with files := mapSet st1.files cssFullPath updatedCss }, none)

/-- The outer loop of `processCssAssets` over the entries of `cssUrls`; it ends
at the first write of a style sheet that throws. -/
def processCssEntries (P : Platform) (env : Env) (cwd outputPath : Str) :
    List (Str × CssData) → ClonerState → ClonerState × Option Str
  | [], st => (st, none)
  | entry :: rest, st =>
    match processCssEntry P env cwd outputPath st entry with
    | (st1, some message) => (st1, some message)
    | (st1, none) => processCssEntries P env cwd outputPath rest st1

/-- Model of `processCssAssets(outputPath, context)` in a process whose working
directory is `cwd`: the state afterwards, and the message of the error with
which the call rejects, if it does. -/
def processCssAssets (P : Platform) (env : Env) (cwd outputPath : Str) (st : ClonerState) :
    ClonerState × Option Str :=
  processCssEntries P env cwd outputPath st.cssUrls st

/-! ## Vocabulary of the properties of the style sheet pass -/

/-- Whether the fetch of a URL fails: the transport throws, or the status of
the response is not a success. -/
def fetchFails (env : Env) (url : Str) : Bool :=
  match env.get url with
  | .error _ => true
  | .ok response => !response.ok

/-- The keys of an asset map are neither empty nor data-URIs. -/
def KeysOk (assetMap : List (Str × Str)) : Prop :=
  ∀ e ∈ assetMap, e.1 ≠ [] ∧ isDataUrl e.1 = false

/-- The states that a cloner reaches from an empty asset map by calls of
`downloadAsset` on assets that `collectAssets` produces and by runs of
`processCssAssets`, in any order and in any world. -/
inductive Reachable (P : Platform) : ClonerState → Prop where
  | start (st : ClonerState) (h : st.assetMap = []) : Reachable P st
  | download (env : Env) (outputPath finalUrl : Str) (doc : Document) (asset : Asset)
      (st : ClonerState) (hst : Reachable P st) (h : asset ∈ collectAssets P finalUrl doc) :
      Reachable P (downloadAsset P env outputPath st asset)
  | css (env : Env) (cwd outputPath : Str) (st : ClonerState) (hst : Reachable P st) :
      Reachable P (processCssAssets P env cwd outputPath st).1

/-- A cloner state after the page `https://x.test/` with the image `b.png` and
the style sheet `css/s.css` has been downloaded; the style sheet refers to
another `b.png`, next to itself. -/
def exampleCssState : ClonerState :=
  { finalUrl := "https://x.test/".toList,
    assetMap := [("https://x.test/b.png".toList, "assets/images/0123456789ab.png".toList),
      ("b.png".toList, "assets/images/0123456789ab.png".toList),
      ("https://x.test/css/s.css".toList, "assets/css/ba9876543210.css".toList),
      ("css/s.css".toList, "assets/css/ba9876543210.css".toList)],
    downloadedAssets := ["https://x.test/b.png".toList, "https://x.test/css/s.css".toList],
    cssUrls := [("https://x.test/css/s.css".toList,
      { content := "background:url('b.png')".toList,
        localPath := "assets/css/ba9876543210.css".toList })],
    files := [("/out/assets/images/0123456789ab.png".toList, "PNG".toList),
      ("/out/assets/css/ba9876543210.css".toList, "background:url('b.png')".toList)],
    logs := [] }

/-- A cloner state after the page `https://x.test/` with the style sheet
`css/s.css` alone has been downloaded. -/
def exampleSheetState : ClonerState :=
  { finalUrl := "https://x.test/".toList,
    assetMap := [("https://x.test/css/s.css".toList, "assets/css/ba9876543210.css".toList),
      ("css/s.css".toList, "assets/css/ba9876543210.css".toList)],
    downloadedAssets := ["https://x.test/css/s.css".toList],
    cssUrls := [("https://x.test/css/s.css".toList,
      { content := "background:url('b.png')".toList,
        localPath := "assets/css/ba9876543210.css".toList })],
    files := [("/out/assets/css/ba9876543210.css".toList, "background:url('b.png')".toList)],
    logs := [] }

/-- A world in which every request fails in the transport. -/
def envOffline : Env :=
  { get := fun _ => .error "net::ERR_CONNECTION_REFUSED".toList, writeFile := fun _ => none }

/-- A document with the single image `a.png`. -/
def exampleDocument : Document :=
  { imgSrcs := ["a.png".toList], srcsets := [], stylesheetHrefs := [], preloadStyleHrefs := [],
    scriptSrcs := [], videoSrcs := [], audioSrcs := [], iconHrefs := [], styleAttrs := [],
    styleBlocks := [], preloadFontHrefs := [], metaImages := [] }

/-- The asset that `collectAssets` finds in `exampleDocument` for the page
`https://x.test/`. -/
def exampleImageAsset : Asset :=
  { url := "https://x.test/a.png".toList, type := "images".toList,
    originalUrl := "a.png".toList }

/-- Whether one of two texts is a prefix of the other. -/
def prefixEither (x y : Str) : Bool :=
  x.isPrefixOf y || y.isPrefixOf x

/-- Whether an occurrence of `key` and an occurrence of `text` can share a
character in some surrounding text: the key is empty, or it can start at a
position of `text`, or `text` can start at a later position of the key. -/
def canOverlap (key text : Str) : Bool :=
  key.isEmpty ||
  (List.range text.length).any (fun p => prefixEither key (text.drop p)) ||
  (List.range key.length).any (fun i => decide (0 < i) && prefixEither (key.drop i) text)

/-- A world in which `https://x.test/css/ok.png` is served as a PNG image and
every other request is answered with the status 404. -/
def envMixed : Env :=
  { get := fun url =>
      if url = "https://x.test/css/ok.png".toList then .ok responsePng else .ok responseNotFound,
    writeFile := fun _ => none }

/-- A cloner state after the page `https://x.test/` with the style sheet
`css/s.css` alone has been downloaded; the style sheet refers to `ok.png` and
to `bad.png`, next to itself. -/
def exampleMixedState : ClonerState :=
  { finalUrl := "https://x.test/".toList,
    assetMap := [("https://x.test/css/s.css".toList, "assets/css/ba9876543210.css".toList),
      ("css/s.css".toList, "assets/css/ba9876543210.css".toList)],
    downloadedAssets := ["https://x.test/css/s.css".toList],
    cssUrls := [("https://x.test/css/s.css".toList,
      { content := "a\x7bbackground:url('ok.png')\x7db\x7bbackground:url('bad.png')\x7d".toList,
        localPath := "assets/css/ba9876543210.css".toList })],
    files := [("/out/assets/css/ba9876543210.css".toList,
      "a\x7bbackground:url('ok.png')\x7db\x7bbackground:url('bad.png')\x7d".toList)],
    logs := [] }

/-! ## Vocabulary of the idempotence of `rewriteHtml` -/

/-- The texts that a pattern matches from their first to their last character:
the declarative reading of a pattern, without the priorities of the greedy
operators. -/
def Matches (cz : Char → Char) : Pattern → Str → Prop
  | [], r => r = []
  | .one a :: ns, r => ∃ c r1, r = c :: r1 ∧ a.test cz c = true ∧ Matches cz ns r1
  | .opt a :: ns, r =>
    (∃ c r1, r = c :: r1 ∧ a.test cz c = true ∧ Matches cz ns r1) ∨ Matches cz ns r
  | .star a :: ns, r =>
    ∃ u r1, r = u ++ r1 ∧ (∀ c ∈ u, a.test cz c = true) ∧ Matches cz ns r1
  | .plus a :: ns, r =>
    ∃ c u r1, r = c :: (u ++ r1) ∧ a.test cz c = true ∧ (∀ x ∈ u, a.test cz x = true) ∧
      Matches cz ns r1
  | .alt ws :: ns, r => ∃ w ∈ ws, ∃ x r1, r = x ++ r1 ∧ w.map cz = x.map cz ∧ Matches cz ns r1
  | .groupOpen :: ns, r => Matches cz ns r
  | .groupClose :: ns, r => Matches cz ns r

/-- A pattern matches at no position of a text. -/
def NoMatch (cz : Char → Char) (p : Pattern) (text : Str) : Prop :=
  ∀ a b, text = a ++ b → matchAt cz p b = none

/-- The canonicalisation of the `i` flag identifies an ASCII character only
with itself and with the same letter in the other case, and a white-space
character only with white-space characters. -/
def CaseFold (cz : Char → Char) : Prop :=
  (∀ c d, cz c = cz d → isJsSpace c = isJsSpace d) ∧
  (∀ c d, d.toNat < 128 → cz c = cz d → c.toUpper = d.toUpper)

/-- A pattern without the marks of the capture group. -/
def GroupFree (p : Pattern) : Prop :=
  ∀ n ∈ p, n ≠ Node.groupOpen ∧ n ≠ Node.groupClose

/-- The characters that end a reference in the patterns of `rewriteHtml`: white
space, quotes and parentheses. -/
def isDelim (c : Char) : Bool :=
  isJsSpace c || c == '"' || c == '\'' || c == '(' || c == ')'

/-- The characters that the idempotence property admits in a local path: every
character that is no delimiter and none of `$`, `=` and `<`. -/
def isPathChar (c : Char) : Bool :=
  !(isDelim c || c == '$' || c == '=' || c == '<')

/-- Whether a key begins like a descriptor of a srcset: digits, if any,
followed by `w` or `x` in either case. -/
def startsLikeDescriptor (key : Str) : Bool :=
  match key.dropWhile Char.isDigit with
  | c :: _ => c.toUpper == 'W' || c.toUpper == 'X'
  | [] => false

/-- The code of a character after upper-casing. -/
def upperCode (c : Char) : Nat :=
  c.toUpper.toNat

/-- The words of the attribute pattern. -/
def attrWords : Pattern :=
  [.alt ["src".toList, "href".toList, "content".toList]]

/-- The descriptor part of the srcset pattern, `\s+\d+[wx]`. -/
def descriptorPattern : Pattern :=
  [.plus .space, .plus .digit, .one (.anyOf ['w', 'x'])]

/-- A match of the attribute pattern and its replacement: the word and the
equals sign are kept, and the local path follows in double quotes. -/
def AttrBlock (cz : Char → Char) (localPath m rep : Str) : Prop :=
  ∃ w q rest, m = w ++ '=' :: q :: rest ∧ (q = '"' ∨ q = '\'') ∧ Matches cz attrWords w ∧
    rep = w ++ '=' :: '"' :: (localPath ++ ['"'])

/-- A match of the srcset pattern and its replacement: the local path followed
by the descriptor. -/
def SrcsetBlock (cz : Char → Char) (localPath : Str) (_m rep : Str) : Prop :=
  ∃ g, Matches cz descriptorPattern g ∧ rep = localPath ++ g

/-- A match of the `url()` pattern and its replacement. -/
def UrlBlock (localPath : Str) (_m rep : Str) : Prop :=
  rep = 'u' :: 'r' :: 'l' :: '(' :: '"' :: (localPath ++ ['"', ')'])

/-- The start of a `base` tag as a pattern. -/
def baseStart : Pattern :=
  literal "<base".toList

/-- Whether `x` is the end of `y` when characters are compared after
canonicalisation. -/
def endsWithCI (cz : Char → Char) (x y : Str) : Bool :=
  (x.map cz).isSuffixOf (y.map cz)

/-- None of the three patterns of a key matches in a text. -/
def Clean (cz : Char → Char) (key text : Str) : Prop :=
  NoMatch cz (attrPattern key) text ∧ NoMatch cz (srcsetPattern key) text ∧
    NoMatch cz (urlFuncPattern key) text

/-- The conditions on the keys and the local paths of a map under which
`rewriteHtml` finds nothing to rewrite in its own result: the keys are not
empty, have no delimiter and do not begin like a descriptor; the local paths
begin with `assets/` and have no delimiter and none of `$`, `=` and `<`; and no
key is the end of a local path, nor a local path the end of a key, up to
canonicalisation. -/
def Separated (cz : Char → Char) (assetMap : List (Str × Str)) : Prop :=
  (∀ e ∈ assetMap, e.1 ≠ [] ∧ (∀ c ∈ e.1, isDelim c = false) ∧
    startsLikeDescriptor e.1 = false) ∧
  (∀ e ∈ assetMap, startsWith e.2 "assets/".toList = true ∧
    ∀ c ∈ e.2, isPathChar c = true) ∧
  (∀ e1 ∈ assetMap, ∀ e2 ∈ assetMap,
    endsWithCI cz e1.1 e2.2 = false ∧ endsWithCI cz e2.2 e1.1 = false)

/-! # Properties -/

/-! ## Classification (`getExtension`, `getAssetType`) -/

/-- A character other than a slash or a dot leaves the scan as it is once the
end of the extension is known and no dot has been seen. -/
theorem extnameStep_plain (s : ExtScan) (i : Nat) (c : Char) (hc1 : c ≠ '/') (hc2 : c ≠ '.')
    (hst : s.stopped = false) (hsd : s.startDot = none) (he : s.endPos ≠ none) :
    extnameStep s i c = s := by
  simp [extnameStep, hst, hc1, hc2, hsd, he]

/-- The scan passes over a run of such characters unchanged. -/
theorem extnameLoop_plain (a b : List Char) (s : ExtScan)
    (ha : ∀ c ∈ a, c ≠ '/' ∧ c ≠ '.')
    (hst : s.stopped = false) (hsd : s.startDot = none) (he : s.endPos ≠ none) :
    extnameLoop (a ++ b) s = extnameLoop b s := by
  induction a with
  | nil => rfl
  | cons c a ih =>
    have hc := ha c (List.mem_cons_self c a)
    simp only [List.cons_append, extnameLoop]
    rw [extnameStep_plain s _ c hc.1 hc.2 hst hsd he]
    exact ih (fun x hx => ha x (List.mem_cons_of_mem c hx))

/-- Once a dot and a character before it have been seen, an iteration keeps
the dot, the end and a decided state. -/
theorem extnameStep_keeps (s : ExtScan) (i : Nat) (c : Char) (d e : Nat)
    (hsd : s.startDot = some d) (he : s.endPos = some e) (hp : s.preDotState ≠ 0) :
    (extnameStep s i c).startDot = some d ∧ (extnameStep s i c).endPos = some e ∧
      (extnameStep s i c).preDotState ≠ 0 := by
  unfold extnameStep
  by_cases h1 : s.stopped = true
  · simp [h1, hsd, he, hp]
  · by_cases h2 : c = '/'
    · by_cases h3 : s.matchedSlash = true <;> simp [h1, h2, h3, hsd, he, hp]
    · by_cases h4 : c = '.'
      · by_cases h5 : s.preDotState = 1 <;> simp [h1, h4, h5, hsd, he, hp]
      · simp [h1, h2, h4, hsd, he, hp]

/-- The same for the rest of the scan. -/
theorem extnameLoop_keeps (l : List Char) (s : ExtScan) (d e : Nat)
    (hsd : s.startDot = some d) (he : s.endPos = some e) (hp : s.preDotState ≠ 0) :
    (extnameLoop l s).startDot = some d ∧ (extnameLoop l s).endPos = some e ∧
      (extnameLoop l s).preDotState ≠ 0 := by
  induction l generalizing s with
  | nil => exact ⟨hsd, he, hp⟩
  | cons c l ih =>
    obtain ⟨h1, h2, h3⟩ := extnameStep_keeps s l.length c d e hsd he hp
    exact ih _ h1 h2 h3

/-- The extension of a path whose last segment is a non-empty name followed by
a dot and a non-empty run of characters other than dots and slashes. -/
theorem extname_append (q body : Str) (hq : q ≠ []) (hlast : q.getLast? ≠ some '/')
    (hbody : body ≠ []) (hchars : ∀ c ∈ body, c ≠ '/' ∧ c ≠ '.') :
    extname (q ++ '.' :: body) = '.' :: body := by
  obtain ⟨q0, c0, rfl⟩ : ∃ q0 c0, q = q0 ++ [c0] := ⟨q.dropLast, q.getLast hq, (List.dropLast_append_getLast hq).symm⟩
  obtain ⟨b0, c1, rfl⟩ : ∃ b0 c1, body = b0 ++ [c1] := ⟨body.dropLast, body.getLast hbody, (List.dropLast_append_getLast hbody).symm⟩
  have hc0 : c0 ≠ '/' := by
    intro h; apply hlast; simp [h]
  have hc1 := hchars c1 (by simp)
  have hb0 : ∀ c ∈ b0.reverse, c ≠ '/' ∧ c ≠ '.' := fun c hc => hchars c (by simp at hc; simp [hc])
  have hrev : (q0 ++ [c0] ++ '.' :: (b0 ++ [c1])).reverse
      = c1 :: (b0.reverse ++ ('.' :: c0 :: q0.reverse)) := by simp
  obtain ⟨S, hS, h1, h2, h3⟩ : ∃ S, extnameLoop (q0 ++ [c0] ++ '.' :: (b0 ++ [c1])).reverse
      ExtScan.init = S ∧ S.startDot = some (q0.length + 1) ∧
      S.endPos = some (q0.length + 1 + 1 + b0.length + 1) ∧ S.preDotState ≠ 0 := by
    refine ⟨_, rfl, ?_⟩
    rw [hrev]
    simp only [extnameLoop]
    rw [extnameLoop_plain b0.reverse _ _ hb0 (by simp [extnameStep, ExtScan.init, hc1.1, hc1.2])
      (by simp [extnameStep, ExtScan.init, hc1.1, hc1.2])
      (by simp [extnameStep, ExtScan.init, hc1.1, hc1.2])]
    simp only [extnameLoop]
    exact extnameLoop_keeps q0.reverse _ (q0.length + 1) (q0.length + 1 + 1 + b0.length + 1)
      (by by_cases h : c0 = '.' <;> simp [extnameStep, ExtScan.init, hc1.1, hc1.2, hc0, h])
      (by by_cases h : c0 = '.' <;> simp [extnameStep, ExtScan.init, hc1.1, hc1.2, hc0, h] <;> omega)
      (by by_cases h : c0 = '.' <;> simp [extnameStep, ExtScan.init, hc1.1, hc1.2, hc0, h])
  unfold extname
  rw [hS]
  simp only [h1, h2]
  rw [if_neg (by omega)]
  have hd : (q0 ++ [c0] ++ '.' :: (b0 ++ [c1])).drop (q0.length + 1) = '.' :: (b0 ++ [c1]) := by
    have : (q0 ++ [c0]).length = q0.length + 1 := by simp
    rw [← this, List.drop_left]
  rw [hd]
  apply List.take_of_length_le
  simp
  omega

/-- The classification of `getAssetType` once the extension is known to be a string. -/
theorem getAssetType_of_text (P : Platform) (url contentType e : Str)
    (h : getExtension P url contentType = .text e) :
    getAssetType P url contentType =
      match categoryOfExtension (toLowerCase e) with
      | some category => some category
      | none => some (assetTypeOfMime (baseMimeOf contentType)) := by
  unfold getAssetType categoryOfExtension
  rw [h]
  simp only
  split_ifs <;> rfl

/-- Every listed extension is a dot followed by letters and digits, is in lower
case, has at most five characters and selects its category. -/
theorem extensionCategories_spec :
    ∀ p ∈ extensionCategories,
      p.1.head? = some '.' ∧ p.1.tail ≠ [] ∧ (∀ c ∈ p.1.tail, c ≠ '/' ∧ c ≠ '.') ∧
      toLowerCase p.1 = p.1 ∧ p.1.length ≤ 5 ∧
      categoryOfExtension (toLowerCase p.1) = some p.2 := by
  decide

/-- The category of a URL whose path ends in a recognised extension of at most
five characters that follows a non-empty file name. -/
theorem getAssetType_of_pathname (P : Platform) (url contentType q ext category : Str) (u : Url)
    (hparse : P.parseUrl url = some u) (hpath : u.pathname = q ++ ext)
    (hq : q ≠ []) (hlast : q.getLast? ≠ some '/')
    (hext : (ext, category) ∈ extensionCategories) :
    getAssetType P url contentType = some category := by
  obtain ⟨h1, h2, h3, h4, h5, h6⟩ := extensionCategories_spec _ hext
  simp only at h1 h2 h3 h4 h5 h6
  have hform : ext = '.' :: ext.tail := by
    cases ext with
    | nil => simp at h1
    | cons c t => simp at h1; simp [h1]
  have hx : extname u.pathname = ext := by
    rw [hpath]
    conv_lhs => rw [hform]
    rw [extname_append q ext.tail hq hlast h2 h3, ← hform]
  have hne : ext ≠ [] := by rw [hform]; simp
  have hu : urlExtension P url = some ext := by
    simp [urlExtension, hparse, hx, h4, hne, h5]
  have hg : getExtension P url contentType = .text ext := by
    simp [getExtension, hu]
  rw [getAssetType_of_text P url contentType ext hg, h6]


/-- C1, as amended: for every platform, every URL that parses to a path name
`q ++ ext`, where `q` is not empty and does not end in a slash (the last path
segment has a character before the final dot) and `ext` is a recognised
extension of at most five characters, and for every content type,
`getAssetType` returns the category of `ext`. -/
theorem getAssetType_url_extension (P : Platform) (url contentType q ext category : Str) (u : Url)
    (hparse : P.parseUrl url = some u) (hpath : u.pathname = q ++ ext)
    (hq : q ≠ []) (hlast : q.getLast? ≠ some '/')
    (hext : (ext, category) ∈ extensionCategories) :
    getAssetType P url contentType = some category :=
  getAssetType_of_pathname P url contentType q ext category u hparse hpath hq hlast hext

/-- Witness of C1 as amended: `https://x.test/img/a.png` served as `text/plain`
is an image. -/
theorem getAssetType_url_extension_witness :
    getAssetType nodePlatform "https://x.test/img/a.png".toList "text/plain".toList
      = some "images".toList :=
  getAssetType_url_extension nodePlatform "https://x.test/img/a.png".toList "text/plain".toList
    "/img/a".toList ".png".toList "images".toList
    { protocol := "https:".toList, pathname := "/img/a.png".toList,
      href := "https://x.test/img/a.png".toList }
    (by decide) (by decide) (by decide) (by decide) (by decide)

/-- C1 fails as stated: the path of `https://example.com/.png` ends in `.png`
and the path of `https://example.com/f.woff2` ends in `.woff2`, yet with the
content type `text/css` both are classified as `css`. -/
theorem getAssetType_extension_priority_counterexample :
    (nodePlatform.parseUrl "https://example.com/.png".toList).map Url.pathname
        = some "/.png".toList ∧
    getAssetType nodePlatform "https://example.com/.png".toList "text/css".toList
        = some "css".toList ∧
    (nodePlatform.parseUrl "https://example.com/f.woff2".toList).map Url.pathname
        = some "/f.woff2".toList ∧
    getAssetType nodePlatform "https://example.com/f.woff2".toList "text/css".toList
        = some "css".toList := by
  decide

/-- C2, as amended: a URL that parses to the path name `/a.png` is an image
whatever the platform, also when it is served as `text/plain`. -/
theorem getAssetType_png_text_plain (P : Platform) (url : Str) (u : Url)
    (hparse : P.parseUrl url = some u) (hpath : u.pathname = "/a.png".toList) :
    getAssetType P url "text/plain".toList = some "images".toList :=
  getAssetType_of_pathname P url "text/plain".toList "/a".toList ".png".toList "images".toList u
    hparse hpath (by decide) (by decide) (by decide)

/-- Witness of C2 as amended: the absolute URL `https://x.test/a.png`. -/
theorem getAssetType_png_text_plain_witness :
    getAssetType nodePlatform "https://x.test/a.png".toList "text/plain".toList
      = some "images".toList :=
  getAssetType_png_text_plain nodePlatform "https://x.test/a.png".toList
    { protocol := "https:".toList, pathname := "/a.png".toList,
      href := "https://x.test/a.png".toList }
    (by decide) (by decide)

/-- C2 fails as stated: the bare reference `a.png` is not a URL that `new URL`
parses, so its extension is not read and `text/plain` decides: `other`. -/
theorem getAssetType_relative_png_counterexample :
    nodePlatform.parseUrl "a.png".toList = none ∧
    getExtension nodePlatform "a.png".toList "text/plain".toList = .text [] ∧
    getAssetType nodePlatform "a.png".toList "text/plain".toList = some "other".toList := by
  decide

/-- C3, the code at the failing input: `ftp://example.com/x` does not start
with `http://` or `https://`, so `https://` is put in front of it, the result
parses with the host `ftp`, and `normalizeUrl` returns a URL instead of
failing. -/
theorem normalizeUrl_ftp_returns :
    normalizeUrl nodePlatform "ftp://example.com/x".toList
      = .ok "https://ftp//example.com/x".toList := by
  rfl

/-- C4, the code at the failing input: a video is classified as `video`, which
is not among the directories that `clone` creates. -/
theorem getAssetType_video_not_created :
    getAssetType nodePlatform "https://x.test/a.mp4".toList "video/mp4".toList
      = some "video".toList ∧
    "video".toList ∉ createdAssetDirs ∧
    getAssetType nodePlatform "https://x.test/song".toList "audio/mpeg".toList
      = some "audio".toList ∧
    "audio".toList ∉ createdAssetDirs := by
  decide

/-! ## Asset discovery (`collectAssets`, `addAsset`) -/

/-- One call of `addAsset` keeps the discovery invariant. -/
theorem addAsset_inv (P : Platform) (finalUrl : Str) (d : Discovery) (url type : Str)
    (h : d.Inv P finalUrl) : (addAsset P finalUrl d url type).Inv P finalUrl := by
  unfold addAsset
  split_ifs with h1
  · exact h
  · dsimp only
    split_ifs with h2
    · obtain ⟨hs, hn, hr⟩ := h
      simp only [Bool.and_eq_true, Bool.not_eq_true', List.contains_eq_any_beq, List.any_eq_false,
        beq_iff_eq] at h2
      refine ⟨?_, ?_, ?_⟩
      · simp [hs]
      · simp only [List.map_append, List.map_cons, List.map_nil]
        rw [List.nodup_append]
        refine ⟨hn, List.nodup_singleton _, ?_⟩
        intro x hx hx'
        simp only [List.mem_singleton] at hx'
        subst hx'
        rw [← hs] at hx
        exact h2.2 _ hx rfl
      · intro a ha
        simp only [List.mem_append, List.mem_singleton] at ha
        rcases ha with ha | rfl
        · exact hr a ha
        · rfl
    · exact h

/-- Any sequence of calls of `addAsset` keeps the discovery invariant. -/
theorem foldl_addAsset_inv (P : Platform) (finalUrl : Str) (refs : List (Str × Str))
    (d : Discovery) (h : d.Inv P finalUrl) :
    (refs.foldl (fun d r => addAsset P finalUrl d r.1 r.2) d).Inv P finalUrl := by
  induction refs generalizing d with
  | nil => exact h
  | cons r refs ih => exact ih _ (addAsset_inv P finalUrl d r.1 r.2 h)

/-- C5: for every platform, page URL and sequence of calls of `addAsset`, the
URLs of the discovered assets are pairwise distinct and each asset's URL is the
resolution of its reference text against the page URL; in particular for the
calls that `collectAssets` makes on any document. -/
theorem addAssets_nodup_resolved (P : Platform) (finalUrl : Str) :
    (∀ refs : List (Str × Str),
      ((addAssets P finalUrl refs).map Asset.url).Nodup ∧
      ∀ a ∈ addAssets P finalUrl refs, a.url = resolveUrl P finalUrl a.originalUrl) ∧
    (∀ doc : Document,
      ((collectAssets P finalUrl doc).map Asset.url).Nodup ∧
      ∀ a ∈ collectAssets P finalUrl doc, a.url = resolveUrl P finalUrl a.originalUrl) := by
  have key : ∀ refs : List (Str × Str),
      ((addAssets P finalUrl refs).map Asset.url).Nodup ∧
      ∀ a ∈ addAssets P finalUrl refs, a.url = resolveUrl P finalUrl a.originalUrl := by
    intro refs
    have h := foldl_addAsset_inv P finalUrl refs { assets := [], seenUrls := [] }
      ⟨rfl, List.nodup_nil, fun a ha => by simp at ha⟩
    exact ⟨h.2.1, h.2.2⟩
  exact ⟨key, fun doc => key _⟩

/-! ## File names (`hashString`, `path.join`, `path.extname`) -/

/-- A byte is printed as two lower-case hexadecimal digits. -/
theorem hexByte_spec (b : Nat) : (hexByte b).length = 2 ∧ ∀ c ∈ hexByte b, isLowerHex c = true := by
  have h : ∀ n, n < 16 →
      isLowerHex (if n < 10 then Char.ofNat (48 + n) else Char.ofNat (87 + n)) = true := by
    decide
  refine ⟨rfl, ?_⟩
  intro c hc
  simp only [hexByte, List.mem_cons, List.mem_singleton, List.not_mem_nil, or_false] at hc
  rcases hc with rfl | rfl
  · exact h _ (Nat.mod_lt _ (by decide))
  · exact h _ (by omega)

/-- A word is printed as eight lower-case hexadecimal digits. -/
theorem hexWordLE_spec (w : Nat) :
    (hexWordLE w).length = 8 ∧ ∀ c ∈ hexWordLE w, isLowerHex c = true := by
  unfold hexWordLE
  refine ⟨by simp [(hexByte_spec _).1], ?_⟩
  intro c hc
  simp only [List.mem_append] at hc
  rcases hc with ((hc | hc) | hc) | hc <;> exact (hexByte_spec _).2 c hc

/-- The digest is printed as 32 lower-case hexadecimal digits. -/
theorem md5Hex_spec (s : Str) : (md5Hex s).length = 32 ∧ ∀ c ∈ md5Hex s, isLowerHex c = true := by
  unfold md5Hex
  refine ⟨by simp [(hexWordLE_spec _).1], ?_⟩
  intro c hc
  simp only [List.mem_append] at hc
  rcases hc with ((hc | hc) | hc) | hc <;> exact (hexWordLE_spec _).2 c hc

/-- The hash of a string is a text of twelve lower-case hexadecimal digits. -/
theorem hashString_spec (s : Str) :
    (hashString s).length = 12 ∧ ∀ c ∈ hashString s, isLowerHex c = true := by
  unfold hashString
  refine ⟨by simp [(md5Hex_spec s).1], ?_⟩
  intro c hc
  exact (md5Hex_spec s).2 c (List.mem_of_mem_take hc)

/-- A text without a slash is a single segment. -/
theorem splitOnP_plain (a : Str) (h : ∀ c ∈ a, c ≠ '/') :
    splitOnP (· == '/') a = [a] := by
  induction a with
  | nil => rfl
  | cons c a ih =>
    have hc : c ≠ '/' := h c (List.mem_cons_self c a)
    simp [splitOnP, hc, ih (fun x hx => h x (List.mem_cons_of_mem c hx))]

/-- The first segment of a text is what precedes its first slash. -/
theorem splitOnP_append (a rest : Str) (h : ∀ c ∈ a, c ≠ '/') :
    splitOnP (· == '/') (a ++ '/' :: rest) = a :: splitOnP (· == '/') rest := by
  induction a with
  | nil => simp [splitOnP]
  | cons c a ih =>
    have hc : c ≠ '/' := h c (List.mem_cons_self c a)
    simp [splitOnP, hc, ih (fun x hx => h x (List.mem_cons_of_mem c hx))]

/-- Joining three plain segments puts a slash between them. -/
theorem pathJoin_plain (a b c : Str) (ha : PlainSegment a) (hb : PlainSegment b)
    (hc : PlainSegment c) :
    pathJoin [a, b, c] = a ++ '/' :: (b ++ '/' :: c) := by
  obtain ⟨ha1, ha2, ha3, ha4⟩ := ha
  obtain ⟨hb1, hb2, hb3, hb4⟩ := hb
  obtain ⟨hc1, hc2, hc3, hc4⟩ := hc
  have hj : ['/'].intercalate [a, b, c] = a ++ '/' :: (b ++ '/' :: c) := by
    simp [List.intercalate]
  have hsplit : splitOnP (· == '/') (a ++ '/' :: (b ++ '/' :: c)) = [a, b, c] := by
    rw [splitOnP_append a _ ha2, splitOnP_append b _ hb2, splitOnP_plain c hc2]
  have hnorm : normalizeSegments true [] [a, b, c] = [a, b, c] := by
    simp [normalizeSegments, ha1, ha3, ha4, hb1, hb3, hb4, hc1, hc3, hc4]
  have hhead : (a ++ '/' :: (b ++ '/' :: c)).head? ≠ some '/' := by
    cases a with
    | nil => exact absurd rfl ha1
    | cons x a => simpa using ha2 x (List.mem_cons_self x a)
  have hlast : (a ++ '/' :: (b ++ '/' :: c)).getLast? ≠ some '/' := by
    obtain ⟨c0, x, rfl⟩ : ∃ c0 x, c = c0 ++ [x] :=
      ⟨c.dropLast, c.getLast hc1, (List.dropLast_append_getLast hc1).symm⟩
    have hx : x ≠ '/' := hc2 x (by simp)
    have : a ++ '/' :: (b ++ '/' :: (c0 ++ [x])) = (a ++ '/' :: (b ++ '/' :: c0)) ++ [x] := by
      simp
    rw [this, List.getLast?_concat]
    simpa using hx
  have hne : a ++ '/' :: (b ++ '/' :: c) ≠ [] := by simp
  have hae : a.isEmpty = false := by cases a <;> simp_all
  have hbe : b.isEmpty = false := by cases b <;> simp_all
  have hce : c.isEmpty = false := by cases c <;> simp_all
  have hf : [a, b, c].filter (fun s => !s.isEmpty) = [a, b, c] := by
    simp [List.filter, hae, hbe, hce]
  unfold pathJoin
  simp only [hf, hj, if_neg hne]
  generalize a ++ '/' :: (b ++ '/' :: c) = p at hsplit hhead hlast hne hj
  unfold pathNormalize
  have hd : decide (p.head? = some '/') = false := by simpa using hhead
  simp only [if_neg hne, hsplit, hd, Bool.not_false, hnorm, hj, if_neg hhead, if_neg hlast]

/-- The last clause of the scan invariant after one more character is read. -/
theorem ExtScan.Inv.shift {n : Nat} {done : Str} {s : ExtScan} (c : Char)
    (h : ∀ sd e, s.startDot = some sd → s.endPos = some e →
      ∃ pre mid tail, done = pre ++ mid ++ tail ∧ sd = n + 1 + pre.length ∧ e = sd + mid.length ∧
        ∀ c ∈ mid, c ≠ '/') :
    ∀ sd e, s.startDot = some sd → s.endPos = some e →
      ∃ pre mid tail, c :: done = pre ++ mid ++ tail ∧ sd = n + pre.length ∧ e = sd + mid.length ∧
        ∀ c ∈ mid, c ≠ '/' := by
  intro sd e h1 h2
  obtain ⟨pre, mid, tail, hd, hsd, he, hm⟩ := h sd e h1 h2
  exact ⟨c :: pre, mid, tail, by simp [hd], by simp; omega, he, hm⟩

/-- An iteration of the scan keeps the scan invariant. -/
theorem extnameStep_inv (n : Nat) (done : Str) (c : Char) (s : ExtScan)
    (h : ExtScan.Inv (n + 1) done s) : ExtScan.Inv n (c :: done) (extnameStep s n c) := by
  obtain ⟨hA, hB, hC, hD⟩ := h
  have hD' := ExtScan.Inv.shift c hD
  obtain ⟨sd, sp, ep, ms, pd, st⟩ := s
  simp only at hA hB hC hD'
  cases st with
  | true => exact ⟨hA, hB, fun hs => by simp [extnameStep] at hs, hD'⟩
  | false =>
    have hC1 := hC rfl
    by_cases h2 : c = '/'
    · subst h2
      cases ms with
      | true =>
        have he := hA rfl
        subst he
        exact ⟨fun _ => rfl, hB, fun _ e hee => by simp [extnameStep] at hee,
          fun sd e _ hee => by simp [extnameStep] at hee⟩
      | false =>
        exact ⟨fun hm => by simp [extnameStep] at hm, by simpa [extnameStep] using hB,
          fun hs => by simp [extnameStep] at hs, by simpa [extnameStep] using hD'⟩
    · cases ep with
      | none =>
        have hsd := hB rfl
        subst hsd
        by_cases h4 : c = '.'
        · subst h4
          refine ⟨fun hm => by simp [extnameStep] at hm, fun he => by simp [extnameStep] at he, ?_, ?_⟩
          · intro _ e he
            simp [extnameStep] at he
            exact ⟨['.'], done, by simp, by simp [← he], by simp⟩
          · intro sd e hsd' he
            simp [extnameStep] at he hsd'
            exact ⟨[], ['.'], done, by simp, by simp [← hsd'], by simp [← he, ← hsd'], by simp⟩
        · refine ⟨fun hm => by simp [extnameStep, h2, h4] at hm,
            fun he => by simp [extnameStep, h2, h4] at he, ?_, ?_⟩
          · intro _ e he
            simp [extnameStep, h2, h4] at he
            exact ⟨[c], done, by simp, by simp [← he], by simpa using h2⟩
          · intro sd e hsd'
            simp [extnameStep, h2, h4] at hsd'
      | some e0 =>
        obtain ⟨run, tail, hrun, he0, hrunc⟩ := hC1 e0 rfl
        have hms : ms = false := by
          cases ms with
          | true => simp at hA
          | false => rfl
        subst hms
        have hC' : ∃ run tail, c :: done = run ++ tail ∧
            e0 = n + run.length ∧ ∀ x ∈ run, x ≠ '/' := by
          refine ⟨c :: run, tail, by simp [hrun], by simp [he0]; omega, ?_⟩
          intro x hx
          simp only [List.mem_cons] at hx
          rcases hx with rfl | hx
          · exact h2
          · exact hrunc x hx
        by_cases h4 : c = '.'
        · subst h4
          cases sd with
          | none =>
            refine ⟨fun hm => by simp [extnameStep] at hm, fun he => by simp [extnameStep] at he,
              ?_, ?_⟩
            · intro _ e he
              simp [extnameStep] at he
              subst he
              exact hC'
            · intro sd e hsd' he
              simp [extnameStep] at he hsd'
              subst he
              obtain ⟨run', tail', h1r, h2r, h3r⟩ := hC'
              exact ⟨[], run', tail', by simpa using h1r, by simp [← hsd'], by simp [← hsd', h2r], h3r⟩
          | some sd0 =>
            refine ⟨fun hm => by by_cases h5 : pd = 1 <;> simp [extnameStep, h5] at hm,
              fun he => by by_cases h5 : pd = 1 <;> simp [extnameStep, h5] at he, ?_, ?_⟩
            · intro _ e he
              have : e0 = e := by by_cases h5 : pd = 1 <;> simpa [extnameStep, h5] using he
              subst this
              exact hC'
            · intro sd e hsd' he
              have h6 : sd0 = sd := by by_cases h5 : pd = 1 <;> simpa [extnameStep, h5] using hsd'
              have h7 : e0 = e := by by_cases h5 : pd = 1 <;> simpa [extnameStep, h5] using he
              subst h6 h7
              exact hD' _ _ rfl rfl
        · cases sd with
          | none =>
            refine ⟨fun hm => by simp [extnameStep, h2, h4] at hm,
              fun he => by simp [extnameStep, h2, h4] at he, ?_, ?_⟩
            · intro _ e he
              simp [extnameStep, h2, h4] at he
              subst he
              exact hC'
            · intro sd e hsd'
              simp [extnameStep, h2, h4] at hsd'
          | some sd0 =>
            refine ⟨fun hm => by simp [extnameStep, h2, h4] at hm,
              fun he => by simp [extnameStep, h2, h4] at he, ?_, ?_⟩
            · intro _ e he
              simp [extnameStep, h2, h4] at he
              subst he
              exact hC'
            · intro sd e hsd' he
              simp [extnameStep, h2, h4] at hsd' he
              subst hsd' he
              exact hD' _ _ rfl rfl

/-- The scan keeps the scan invariant. -/
theorem extnameLoop_inv (l done : Str) (s : ExtScan) (h : ExtScan.Inv l.length done s) :
    ExtScan.Inv 0 (l.reverse ++ done) (extnameLoop l s) := by
  induction l generalizing done s with
  | nil => simpa [extnameLoop] using h
  | cons c l ih =>
    have := ih (c :: done) _ (extnameStep_inv l.length done c s h)
    simpa [extnameLoop] using this

/-- The extension returned by `path.extname` contains no slash. -/
theorem extname_no_slash (p : Str) : ∀ c ∈ extname p, c ≠ '/' := by
  have hinit : ExtScan.Inv p.reverse.length [] ExtScan.init :=
    ⟨fun _ => rfl, fun _ => rfl, fun _ e he => by simp [ExtScan.init] at he,
      fun sd e hsd => by simp [ExtScan.init] at hsd⟩
  have h := extnameLoop_inv p.reverse [] ExtScan.init hinit
  simp only [List.reverse_reverse, List.append_nil] at h
  obtain ⟨_, _, _, hD⟩ := h
  unfold extname
  intro c hc
  generalize extnameLoop p.reverse ExtScan.init = S at hD hc
  rcases hsd : S.startDot with _ | sd
  · simp [hsd] at hc
  · rcases he : S.endPos with _ | e
    · simp [hsd, he] at hc
    · obtain ⟨pre, mid, tail, hp, h1, h2, h3⟩ := hD sd e hsd he
      simp only [hsd, he] at hc
      split_ifs at hc
      · simp at hc
      · have : (p.drop sd).take (e - sd) = mid := by
          subst hp
          simp only [Nat.zero_add] at h1
          subst h1
          subst h2
          simp
        rw [this] at hc
        exact h3 c hc





/-! ## Downloads (`downloadAsset`, `downloadAssets`) -/

/-- Reading a key that was just set. -/
theorem mapGet_mapSet_self {β : Type} (m : List (Str × β)) (k : Str) (v : β) :
    mapGet (mapSet m k v) k = some v := by
  induction m with
  | nil => simp [mapSet, mapGet, List.lookup]
  | cons e m ih =>
    obtain ⟨k1, v1⟩ := e
    by_cases h : k1 = k
    · simp [mapSet, mapGet, List.lookup, h]
    · have h' : (k == k1) = false := by simpa using fun h2 => h h2.symm
      simp only [mapSet, if_neg h, mapGet, List.lookup, h']
      exact ih

/-- Reading another key than the one that was just set. -/
theorem mapGet_mapSet_of_ne {β : Type} (m : List (Str × β)) (k k2 : Str) (v : β) (hne : k2 ≠ k) :
    mapGet (mapSet m k v) k2 = mapGet m k2 := by
  induction m with
  | nil =>
    have h' : (k2 == k) = false := by simpa using hne
    simp [mapSet, mapGet, List.lookup, h']
  | cons e m ih =>
    obtain ⟨k1, v1⟩ := e
    by_cases h : k1 = k
    · subst h
      have h' : (k2 == k1) = false := by simpa using hne
      simp [mapSet, mapGet, List.lookup, h']
    · simp only [mapSet, if_neg h, mapGet, List.lookup]
      cases hk : k2 == k1
      · exact ih
      · rfl

/-- A value found by `lookup` is the second component of an entry. -/
theorem lookup_mem_values (l : List (Str × Str)) (k v : Str) (h : l.lookup k = some v) :
    v ∈ l.map Prod.snd := by
  induction l with
  | nil => simp [List.lookup] at h
  | cons e l ih =>
    obtain ⟨k1, v1⟩ := e
    simp only [List.lookup] at h
    cases hk : k == k1
    · simp only [hk] at h
      simp [ih h]
    · simp only [hk, Option.some.injEq] at h
      simp [h]

/-- Lower-casing a character never produces a slash out of another character. -/
theorem toLower_ne_slash (c : Char) (h : c ≠ '/') : c.toLower ≠ '/' := by
  have key : ∀ n, n < 91 → 65 ≤ n → Char.ofNat (n + 32) ≠ '/' := by decide
  unfold Char.toLower
  dsimp only
  split_ifs with h1
  · exact key c.toNat (by omega) h1.1
  · exact h

/-- The extension returned by `getExtension` contains no slash. -/
theorem getExtension_no_slash (P : Platform) (url contentType ext : Str)
    (h : getExtension P url contentType = .text ext) : ∀ c ∈ ext, c ≠ '/' := by
  have htable : ∀ e ∈ mimeToExt.map Prod.snd, ∀ c ∈ e, c ≠ '/' := by decide
  unfold getExtension at h
  split at h
  · rename_i e he
    simp only [ExtValue.text.injEq] at h
    subst h
    unfold urlExtension at he
    split at he
    · dsimp only at he
      split_ifs at he
      simp only [Option.some.injEq] at he
      subst he
      intro c hc
      simp only [toLowerCase, List.mem_map] at hc
      obtain ⟨x, hx, rfl⟩ := hc
      exact toLower_ne_slash x (extname_no_slash _ x hx)
    · simp at he
  · simp only at h
    split at h
    · rename_i e he
      simp only [ExtValue.text.injEq] at h
      subst h
      exact htable _ (lookup_mem_values _ _ _ he)
    · split_ifs at h
      simp only [ExtValue.text.injEq] at h
      subst h
      simp

/-- Every category returned by `getAssetType` is one of seven words. -/
theorem getAssetType_mem (P : Platform) (url contentType t : Str)
    (h : getAssetType P url contentType = some t) : t ∈ assetCategories := by
  unfold getAssetType at h
  split at h
  · simp at h
  · simp only at h
    split_ifs at h <;> simp only [Option.some.injEq] at h <;> subst h <;>
      first
      | decide
      | (unfold assetTypeOfMime; split_ifs <;> decide)

/-- The local path of a stored asset is the concatenation that the source
builds with `path.join`. -/
theorem localPath_eq (P : Platform) (url contentType assetType ext : Str)
    (htype : getAssetType P url contentType = some assetType)
    (hext : getExtension P url contentType = .text ext) :
    pathJoin ["assets".toList, assetType, hashString url ++ ext]
      = "assets/".toList ++ assetType ++ "/".toList ++ hashString url ++ ext := by
  have hcat : ∀ t ∈ assetCategories, PlainSegment t := by
    intro t ht
    simp only [assetCategories, List.mem_cons, List.mem_singleton, List.not_mem_nil, or_false] at ht
    rcases ht with rfl | rfl | rfl | rfl | rfl | rfl | rfl <;>
      exact ⟨by decide, by decide, by decide, by decide⟩
  have hhash := hashString_spec url
  have hfile : PlainSegment (hashString url ++ ext) := by
    refine ⟨?_, ?_, ?_, ?_⟩
    · intro h0
      have := congrArg List.length h0
      simp [hhash.1] at this
    · intro c hc
      simp only [List.mem_append] at hc
      rcases hc with hc | hc
      · intro h0
        subst h0
        have := hhash.2 _ hc
        revert this
        decide
      · exact getExtension_no_slash P url contentType ext hext c hc
    · intro h0
      have := congrArg List.length h0
      simp [hhash.1] at this
      omega
    · intro h0
      have := congrArg List.length h0
      simp [hhash.1] at this
      omega
  rw [pathJoin_plain _ _ _ ⟨by decide, by decide, by decide, by decide⟩
    (hcat _ (getAssetType_mem P url contentType assetType htype)) hfile]
  simp

/-- What a successful download does to the asset map. -/
theorem downloadAsset_success (P : Platform) (env : Env) (outputPath : Str) (st : ClonerState)
    (asset : Asset) (response : Response) (contentType buffer assetType ext : Str)
    (hget : env.get asset.url = .ok response) (hok : response.ok = true)
    (hct : response.contentTypeOrEmpty = contentType)
    (hbody : response.body = .ok buffer)
    (htype : getAssetType P asset.url contentType = some assetType)
    (hext : getExtension P asset.url contentType = .text ext)
    (hwrite : env.writeFile (pathJoin [outputPath,
      "assets/".toList ++ assetType ++ "/".toList ++ hashString asset.url ++ ext]) = none) :
    (downloadAsset P env outputPath st asset).assetMap
      = mapSet (mapSet st.assetMap asset.url
          ("assets/".toList ++ assetType ++ "/".toList ++ hashString asset.url ++ ext))
          asset.originalUrl
          ("assets/".toList ++ assetType ++ "/".toList ++ hashString asset.url ++ ext) := by
  have hpath := localPath_eq P asset.url contentType assetType ext htype hext
  subst hct
  unfold downloadAsset
  simp only [hget, hok, Bool.not_true, Bool.false_eq_true, if_false, htype, generateAssetFilename,
    hext, hbody, hpath, hwrite]

/-- The local path of a stored asset: when the transport answers with a success
status and the content type `contentType`, the body is read and the file is
written, and `getAssetType` and `getExtension` return `assetType` and `ext` for
the asset's URL and that content type, then after `downloadAsset` the asset map
sends both the asset's URL and its original reference text to the local path
`"assets/" + assetType + "/" + hashString(url) + ext`; `hashString(url)` is a
text of twelve hexadecimal digits computed from the URL alone, and the map does
not depend on the category tag of the asset. -/
theorem downloadAsset_maps_both (P : Platform) (env : Env) (outputPath : Str) (st : ClonerState)
    (asset : Asset) (response : Response) (contentType buffer assetType ext : Str)
    (hget : env.get asset.url = .ok response) (hok : response.ok = true)
    (hct : response.contentTypeOrEmpty = contentType)
    (hbody : response.body = .ok buffer)
    (htype : getAssetType P asset.url contentType = some assetType)
    (hext : getExtension P asset.url contentType = .text ext)
    (hwrite : env.writeFile (pathJoin [outputPath,
      "assets/".toList ++ assetType ++ "/".toList ++ hashString asset.url ++ ext]) = none) :
    mapGet (downloadAsset P env outputPath st asset).assetMap asset.url
      = some ("assets/".toList ++ assetType ++ "/".toList ++ hashString asset.url ++ ext) ∧
    mapGet (downloadAsset P env outputPath st asset).assetMap asset.originalUrl
      = some ("assets/".toList ++ assetType ++ "/".toList ++ hashString asset.url ++ ext) ∧
    (hashString asset.url).length = 12 ∧
    (∀ c ∈ hashString asset.url, isLowerHex c = true) ∧
    (∀ tag : Str, (downloadAsset P env outputPath st { asset with type := tag }).assetMap
      = (downloadAsset P env outputPath st asset).assetMap) := by
  have htag : ∀ tag : Str, (downloadAsset P env outputPath st { asset with type := tag }).assetMap
      = (downloadAsset P env outputPath st asset).assetMap := fun _ => rfl
  rw [downloadAsset_success P env outputPath st asset response contentType buffer assetType ext
    hget hok hct hbody htype hext hwrite] at htag ⊢
  refine ⟨?_, mapGet_mapSet_self _ _ _, (hashString_spec _).1, (hashString_spec _).2, htag⟩
  by_cases h : asset.url = asset.originalUrl
  · rw [← h]
    exact mapGet_mapSet_self _ _ _
  · rw [mapGet_mapSet_of_ne _ _ _ _ h]
    exact mapGet_mapSet_self _ _ _

/-- C7: if the transport throws, or answers with a status that is not a success,
or the write of the asset's file throws, then `downloadAsset` returns (it is a
total function) a state with the same asset map, the same set of downloaded
assets and the same table of retained stylesheets, and one more log entry, a
warning. -/
theorem downloadAsset_failure_frame (P : Platform) (env : Env) (outputPath : Str)
    (st : ClonerState) (asset : Asset)
    (hfail : (∃ message, env.get asset.url = .error message) ∨
      (∃ response, env.get asset.url = .ok response ∧ response.ok = false) ∨
      (∃ response, env.get asset.url = .ok response ∧
        ∀ assetType filename,
          getAssetType P asset.url response.contentTypeOrEmpty = some assetType →
          generateAssetFilename P asset.url response.contentTypeOrEmpty = some filename →
          ∃ message, env.writeFile (pathJoin [outputPath,
            pathJoin ["assets".toList, assetType, filename]]) = some message)) :
    (downloadAsset P env outputPath st asset).assetMap = st.assetMap ∧
    (downloadAsset P env outputPath st asset).downloadedAssets = st.downloadedAssets ∧
    (downloadAsset P env outputPath st asset).cssUrls = st.cssUrls ∧
    ∃ message, (downloadAsset P env outputPath st asset).logs
      = st.logs ++ [("warning".toList, message)] := by
  rcases hfail with ⟨message, h⟩ | ⟨response, h, hok⟩ | ⟨response, h, hw⟩
  · simp [downloadAsset, h, ClonerState.log]
  · simp [downloadAsset, h, hok, ClonerState.log]
  · unfold downloadAsset
    simp only [h]
    split_ifs
    · simp [ClonerState.log]
    · split
      · rename_i assetType filename h1 h2
        split
        · simp [ClonerState.log]
        · obtain ⟨message, hm⟩ := hw assetType filename h1 h2
          rw [hm]
          simp [ClonerState.log]
      · simp [ClonerState.log]

/-- Witness of C7: a `404` answer for `https://x.test/missing.png` leaves the
maps of `exampleState` as they were. -/
theorem downloadAsset_failure_frame_witness :
    (downloadAsset nodePlatform envNotFound "/out".toList exampleState
      exampleMissingAsset).assetMap = exampleState.assetMap ∧
    (downloadAsset nodePlatform envNotFound "/out".toList exampleState
      exampleMissingAsset).downloadedAssets = exampleState.downloadedAssets ∧
    (downloadAsset nodePlatform envNotFound "/out".toList exampleState
      exampleMissingAsset).cssUrls = exampleState.cssUrls ∧
    ∃ message, (downloadAsset nodePlatform envNotFound "/out".toList exampleState
      exampleMissingAsset).logs = exampleState.logs ++ [("warning".toList, message)] :=
  downloadAsset_failure_frame nodePlatform envNotFound "/out".toList exampleState
    exampleMissingAsset (Or.inr (Or.inl ⟨_, rfl, rfl⟩))

/-- An instance of the local path of a stored asset: `https://x.test/a.png`,
discovered with the tag `css` and served as `image/png`, is stored under
`assets/images/`. -/
theorem downloadAsset_maps_both_witness :
    mapGet (downloadAsset nodePlatform envPng "/out".toList exampleState examplePngAsset).assetMap
      "https://x.test/a.png".toList
      = some ("assets/".toList ++ "images".toList ++ "/".toList ++
          hashString "https://x.test/a.png".toList ++ ".png".toList) ∧
    mapGet (downloadAsset nodePlatform envPng "/out".toList exampleState examplePngAsset).assetMap
      "a.png".toList
      = some ("assets/".toList ++ "images".toList ++ "/".toList ++
          hashString "https://x.test/a.png".toList ++ ".png".toList) :=
  have h := downloadAsset_maps_both nodePlatform envPng "/out".toList exampleState examplePngAsset
    responsePng "image/png".toList "PNG".toList "images".toList ".png".toList
    rfl rfl rfl rfl (by decide) (by decide) rfl
  ⟨h.1, h.2.1⟩

/-! ## Rewriting (`rewriteHtml`) -/

/-- A replacement with a pattern that matches nowhere returns the text. -/
theorem replaceGo_of_no_match (cz : Char → Char) (p : Pattern) (nGroups : Nat)
    (template before text : Str) (h : matchesSomewhere cz p text = false) :
    replaceGo cz p nGroups template 0 before text = text := by
  induction text generalizing before with
  | nil =>
    have hn : matchAt cz p [] = none := by
      cases hm : matchAt cz p [] <;> simp_all [matchesSomewhere]
    simp [replaceGo, hn]
  | cons c t ih =>
    simp only [matchesSomewhere, Bool.or_eq_false_iff] at h
    have hn : matchAt cz p (c :: t) = none := by
      cases hm : matchAt cz p (c :: t) <;> simp_all
    simp [replaceGo, hn, ih _ h.2]

/-- An occurrence in the tail of a text is an occurrence in the text. -/
theorem includesCI_cons (cz : Char → Char) (c : Char) (t key : Str)
    (h : includesCI cz t key = true) : includesCI cz (c :: t) key = true := by
  simp [includesCI, h]

/-- An occurrence in a suffix of a text is an occurrence in the text. -/
theorem includesCI_of_suffix (cz : Char → Char) (t1 t key : Str) (hs : t1 <:+ t)
    (h : includesCI cz t1 key = true) : includesCI cz t key = true := by
  obtain ⟨pre, rfl⟩ := hs
  induction pre with
  | nil => simpa using h
  | cons c pre ih => exact includesCI_cons cz c _ key ih

/-- A key that is a prefix of a text occurs in it. -/
theorem includesCI_of_prefixCI (cz : Char → Char) (t key : Str)
    (h : prefixCI cz key t = true) : includesCI cz t key = true := by
  cases t with
  | nil =>
    cases key with
    | nil => rfl
    | cons x k => simp [prefixCI] at h
  | cons c t => simp [includesCI, h]

/-- A match of the greedy repetition is a match of its continuation on a
suffix of the text. -/
theorem starLoop_suffix (cz : Char → Char) (a : Atom)
    (k : MatchState → Str → Option (MatchState × Str)) (st : MatchState) (t : Str)
    (r : MatchState × Str) (h : starLoop cz a k st t = some r) :
    ∃ st1 t1, t1 <:+ t ∧ k st1 t1 = some r := by
  induction t generalizing st with
  | nil => exact ⟨st, [], List.suffix_refl _, by simpa [starLoop] using h⟩
  | cons c t ih =>
    simp only [starLoop] at h
    split_ifs at h with hc
    · cases hrec : starLoop cz a k (st.push c) t with
      | some r1 =>
        simp only [hrec, Option.some.injEq] at h
        subst h
        obtain ⟨st1, t1, hs, hk⟩ := ih _ hrec
        exact ⟨st1, t1, hs.trans (List.suffix_cons c t), hk⟩
      | none =>
        simp only [hrec] at h
        exact ⟨st, c :: t, List.suffix_refl _, h⟩
    · exact ⟨st, c :: t, List.suffix_refl _, h⟩

/-- A word of an alternation leaves a suffix of the text. -/
theorem matchWord_suffix (cz : Char → Char) (w : Str) (st st1 : MatchState) (t t1 : Str)
    (h : matchWord cz w st t = some (st1, t1)) : t1 <:+ t := by
  induction w generalizing st t with
  | nil =>
    simp only [matchWord, Option.some.injEq, Prod.mk.injEq] at h
    exact h.2 ▸ List.suffix_refl _
  | cons x w ih =>
    cases t with
    | nil => simp [matchWord] at h
    | cons c t =>
      simp only [matchWord] at h
      split_ifs at h
      exact (ih _ _ h).trans (List.suffix_cons c t)

/-- A match of an alternation is a match of its continuation on a suffix of
the text. -/
theorem altLoop_suffix (cz : Char → Char) (k : MatchState → Str → Option (MatchState × Str))
    (st : MatchState) (t : Str) (ws : List Str) (r : MatchState × Str)
    (h : altLoop cz k st t ws = some r) : ∃ st1 t1, t1 <:+ t ∧ k st1 t1 = some r := by
  induction ws with
  | nil => simp [altLoop] at h
  | cons w ws ih =>
    simp only [altLoop] at h
    split at h
    · rename_i st1 t1 hw
      split at h
      · rename_i r1 hk
        simp only [Option.some.injEq] at h
        subst h
        exact ⟨st1, t1, matchWord_suffix cz w st st1 t t1 hw, hk⟩
      · exact ih h
    · exact ih h

/-- A match of a pattern that starts with the characters of a key starts with
an occurrence of the key. -/
theorem matchNodes_literal (cz : Char → Char) (key : Str) (post : Pattern) (st : MatchState)
    (t : Str) (r : MatchState × Str) (h : matchNodes cz (literal key ++ post) st t = some r) :
    prefixCI cz key t = true := by
  induction key generalizing st t with
  | nil => rfl
  | cons x key ih =>
    cases t with
    | nil => simp [literal, matchNodes] at h
    | cons c t =>
      simp only [literal, List.map_cons, List.cons_append, matchNodes, Atom.test] at h
      split_ifs at h with hc
      simp only [prefixCI, hc, Bool.true_and]
      exact ih _ _ h

/-- A match of a pattern that contains the characters of a key contains an
occurrence of the key. -/
theorem matchNodes_includes (cz : Char → Char) (key : Str) (pre post : Pattern)
    (st : MatchState) (t : Str) (r : MatchState × Str)
    (h : matchNodes cz (pre ++ (literal key ++ post)) st t = some r) :
    includesCI cz t key = true := by
  induction pre generalizing st t with
  | nil => exact includesCI_of_prefixCI cz t key (matchNodes_literal cz key post st t r h)
  | cons n pre ih =>
    cases n with
    | one a =>
      cases t with
      | nil => simp [matchNodes] at h
      | cons c t =>
        simp only [List.cons_append, matchNodes] at h
        split_ifs at h
        exact includesCI_cons cz c t key (ih _ _ h)
    | opt a =>
      cases t with
      | nil =>
        simp only [List.cons_append, matchNodes] at h
        exact ih _ _ h
      | cons c t =>
        simp only [List.cons_append, matchNodes] at h
        split_ifs at h
        · split at h
          · rename_i r1 h1
            simp only [Option.some.injEq] at h
            subst h
            exact includesCI_cons cz c t key (ih _ _ h1)
          · exact ih _ _ h
        · exact ih _ _ h
    | star a =>
      simp only [List.cons_append, matchNodes] at h
      obtain ⟨st1, t1, hs, hk⟩ := starLoop_suffix cz a _ st t r h
      exact includesCI_of_suffix cz t1 t key hs (ih _ _ hk)
    | plus a =>
      cases t with
      | nil => simp [matchNodes] at h
      | cons c t =>
        simp only [List.cons_append, matchNodes] at h
        split_ifs at h
        obtain ⟨st1, t1, hs, hk⟩ := starLoop_suffix cz a _ _ t r h
        exact includesCI_cons cz c t key (includesCI_of_suffix cz t1 t key hs (ih _ _ hk))
    | alt ws =>
      simp only [List.cons_append, matchNodes] at h
      obtain ⟨st1, t1, hs, hk⟩ := altLoop_suffix cz _ st t ws r h
      exact includesCI_of_suffix cz t1 t key hs (ih _ _ hk)
    | groupOpen =>
      simp only [List.cons_append, matchNodes] at h
      exact ih _ _ h
    | groupClose =>
      simp only [List.cons_append, matchNodes] at h
      exact ih _ _ h

/-- A pattern that contains the characters of a key matches nowhere in a text
in which the key does not occur. -/
theorem matchesSomewhere_of_not_includes (cz : Char → Char) (key : Str) (pre post : Pattern)
    (text : Str) (h : includesCI cz text key = false) :
    matchesSomewhere cz (pre ++ (literal key ++ post)) text = false := by
  have hat : ∀ t, includesCI cz t key = false →
      matchAt cz (pre ++ (literal key ++ post)) t = none := by
    intro t ht
    unfold matchAt
    split
    · rename_i st rest hm
      have := matchNodes_includes cz key pre post _ t _ hm
      simp [ht] at this
    · rfl
  induction text with
  | nil => simp [matchesSomewhere, hat [] h]
  | cons c t ih =>
    have h2 : includesCI cz t key = false := by
      simp only [includesCI, Bool.or_eq_false_iff] at h
      exact h.2
    simp [matchesSomewhere, hat _ h, ih h2]

/-- The loop body of `rewriteHtml` leaves a text in which the key does not
occur as it is. -/
theorem rewriteEntry_of_not_includes (cz : Char → Char) (text : Str) (entry : Str × Str)
    (h : includesCI cz text entry.1 = false) : rewriteEntry cz text entry = text := by
  have h1 : matchesSomewhere cz (attrPattern entry.1) text = false :=
    matchesSomewhere_of_not_includes cz entry.1
      [ .groupOpen, .alt ["src".toList, "href".toList, "content".toList], .groupClose,
        .one (.lit '='), .one (.anyOf ['"', '\'']) ] [ .one (.anyOf ['"', '\'']) ] text h
  have h2 : matchesSomewhere cz (srcsetPattern entry.1) text = false :=
    matchesSomewhere_of_not_includes cz entry.1 []
      [ .groupOpen, .plus .space, .plus .digit, .one (.anyOf ['w', 'x']), .groupClose ] text h
  have h3 : matchesSomewhere cz (urlFuncPattern entry.1) text = false := by
    have := matchesSomewhere_of_not_includes cz entry.1
      (literal "url".toList ++
        [ .star .space, .one (.lit '('), .star .space, .opt (.anyOf ['\'', '"']) ])
      [ .opt (.anyOf ['\'', '"']), .star .space, .one (.lit ')') ] text h
    simpa [urlFuncPattern, List.append_assoc] using this
  unfold rewriteEntry replaceAll
  simp only [replaceGo_of_no_match cz _ _ _ _ text h1, replaceGo_of_no_match cz _ _ _ _ text h2,
    replaceGo_of_no_match cz _ _ _ _ text h3]

/-- Sorting the entries of a map keeps its entries. -/
theorem mem_insertByKeyLength (e x : Str × Str) (l : List (Str × Str))
    (h : x ∈ insertByKeyLength e l) : x = e ∨ x ∈ l := by
  induction l with
  | nil => simpa [insertByKeyLength] using h
  | cons y l ih =>
    simp only [insertByKeyLength] at h
    split_ifs at h
    · simpa using h
    · simp only [List.mem_cons] at h ⊢
      rcases h with h | h
      · exact Or.inr (Or.inl h)
      · rcases ih h with h | h
        · exact Or.inl h
        · exact Or.inr (Or.inr h)

/-- Every entry of the sorted list is an entry of the map. -/
theorem mem_of_mem_sortByKeyLength (entries : List (Str × Str)) (x : Str × Str)
    (h : x ∈ sortByKeyLength entries) : x ∈ entries := by
  have key : ∀ (l acc : List (Str × Str)),
      x ∈ l.foldl (fun acc e => insertByKeyLength e acc) acc → x ∈ acc ∨ x ∈ l := by
    intro l
    induction l with
    | nil => intro acc h; exact Or.inl h
    | cons e l ih =>
      intro acc h
      rcases ih _ h with h | h
      · rcases mem_insertByKeyLength e x acc h with h | h
        · exact Or.inr (by simp [h])
        · exact Or.inl h
      · exact Or.inr (List.mem_cons_of_mem e h)
  rcases key entries [] h with h | h
  · simp at h
  · exact h

/-- C10, as amended: for every platform, asset map and markup text in which no
key of the map occurs as a substring under the comparison of the `i` flag
(characters compared after canonicalisation, so up to letter case) and in which
the pattern `<base[^>]*>` matches nowhere, `rewriteHtml` returns the markup
text unchanged. -/
theorem rewriteHtml_of_no_key (P : Platform) (assetMap : List (Str × Str)) (html : Str)
    (hkeys : ∀ entry ∈ assetMap, includesCI P.canonicalize html entry.1 = false)
    (hbase : matchesSomewhere P.canonicalize basePattern html = false) :
    rewriteHtml P assetMap html = html := by
  have hfold : ∀ l : List (Str × Str),
      (∀ entry ∈ l, includesCI P.canonicalize html entry.1 = false) →
      l.foldl (rewriteEntry P.canonicalize) html = html := by
    intro l
    induction l with
    | nil => intro _; rfl
    | cons e l ih =>
      intro hl
      rw [List.foldl_cons, rewriteEntry_of_not_includes P.canonicalize html e
        (hl e (List.mem_cons_self e l))]
      exact ih fun x hx => hl x (List.mem_cons_of_mem e hx)
  unfold rewriteHtml replaceAll
  rw [hfold _ fun x hx => hkeys x (mem_of_mem_sortByKeyLength assetMap x hx)]
  exact replaceGo_of_no_match _ _ _ _ _ _ hbase

/-- Witness of C10 as amended: the key `a.png` does not occur in
`<img src="b.png">`. -/
theorem rewriteHtml_of_no_key_witness :
    rewriteHtml nodePlatform [("a.png".toList, "assets/images/0123456789ab.png".toList)]
      "<img src=\"b.png\">".toList = "<img src=\"b.png\">".toList :=
  rewriteHtml_of_no_key nodePlatform [("a.png".toList, "assets/images/0123456789ab.png".toList)]
    "<img src=\"b.png\">".toList (by decide) (by decide)

/-- C10 fails as stated: the key `a.png` does not occur verbatim in
`<img src="A.PNG">`, which has no `base` element, and `rewriteHtml` rewrites
the attribute all the same. -/
theorem rewriteHtml_case_counterexample :
    includes "<img src=\"A.PNG\">".toList "a.png".toList = false ∧
    matchesSomewhere nodePlatform.canonicalize basePattern "<img src=\"A.PNG\">".toList = false ∧
    rewriteHtml nodePlatform [("a.png".toList, "assets/images/0123456789ab.png".toList)]
      "<img src=\"A.PNG\">".toList
      = "<img src=\"assets/images/0123456789ab.png\">".toList := by
  decide

/-- C9, the code at the failing input: `https://cdn.test/a.png` is a srcset
candidate that is not a key of the map, the key `a.png` is a suffix of it, and
`rewriteHtml` replaces that suffix. -/
theorem rewriteHtml_suffix_corrupts :
    mapGet [("a.png".toList, "assets/images/0123456789ab.png".toList)]
      "https://cdn.test/a.png".toList = none ∧
    rewriteHtml nodePlatform [("a.png".toList, "assets/images/0123456789ab.png".toList)]
      "<img srcset=\"https://cdn.test/a.png 2x\">".toList
      = "<img srcset=\"https://cdn.test/assets/images/0123456789ab.png 2x\">".toList := by
  decide


/-- C8, the code at the failing input: the asset `https://x.test/a` is fetched with
the status 200 and the content type `constructor`, and every write would
succeed; the lookup `mimeToExt['constructor']` yields an inherited value that is
not a string, `getAssetType` throws, and `downloadAsset` leaves the asset map
empty: neither the URL nor the reference text is mapped. -/
theorem downloadAsset_inherited_content_type :
    (envConstructor.get examplePlainAsset.url).toOption.map (fun r => (r.ok, r.contentType))
      = some (true, some "constructor".toList) ∧
    getExtension nodePlatform examplePlainAsset.url "constructor".toList = .inherited ∧
    getAssetType nodePlatform examplePlainAsset.url "constructor".toList = none ∧
    (downloadAsset nodePlatform envConstructor "/out".toList emptyState
      examplePlainAsset).assetMap = [] ∧
    (downloadAsset nodePlatform envConstructor "/out".toList emptyState
      examplePlainAsset).logs
      = [("warning".toList, ("Error downloading https://x.test/a: " ++
          "getExtension(...).toLowerCase is not a function").toList)] := by
  decide


/-! ## URL normalisation and resolution (`normalizeUrl`, `resolveUrl`) -/

/-- A text that does not start with white space is its own left trim. -/
theorem trimStart_eq_self (s : Str) (h : ∀ c, s.head? = some c → isJsSpace c = false) :
    trimStart s = s := by
  cases s with
  | nil => rfl
  | cons c s => simp [trimStart, h c rfl]

/-- Left trimming stops before a text that does not start with white space. -/
theorem trimStart_append (a r : Str) (h : ∀ c, r.head? = some c → isJsSpace c = false) :
    trimStart (a ++ r) = trimStart a ++ r := by
  induction a with
  | nil => simpa [trimStart] using trimStart_eq_self r h
  | cons c a ih =>
    simp only [List.cons_append, trimStart]
    split_ifs
    · exact ih
    · rfl

/-- The left trim of a text is a suffix of it. -/
theorem trimStart_suffix (s : Str) : trimStart s <:+ s := by
  induction s with
  | nil => exact List.suffix_refl _
  | cons c s ih =>
    simp only [trimStart]
    split_ifs
    · exact ih.trans (List.suffix_cons c s)
    · exact List.suffix_refl _

/-- The trim of a text without leading white space is a prefix of it. -/
theorem jsTrim_prefix (s : Str) (h : ∀ c, s.head? = some c → isJsSpace c = false) :
    jsTrim s <+: s := by
  unfold jsTrim
  rw [trimStart_eq_self s h]
  obtain ⟨pre, hpre⟩ := trimStart_suffix s.reverse
  refine ⟨pre.reverse, ?_⟩
  have := congrArg List.reverse hpre
  simpa using this

/-- Trimming commutes with putting `https://` in front of a text without
leading white space. -/
theorem jsTrim_https (s : Str) (h : ∀ c, s.head? = some c → isJsSpace c = false) :
    jsTrim ("https://".toList ++ s) = "https://".toList ++ jsTrim s := by
  have h1 : trimStart ("https://".toList ++ s) = "https://".toList ++ s := by
    apply trimStart_eq_self
    intro c hc
    have : c = 'h' := by simpa using hc.symm
    subst this
    decide
  have h2 : trimStart (s.reverse ++ "https://".toList.reverse)
      = trimStart s.reverse ++ "https://".toList.reverse := by
    apply trimStart_append
    intro c hc
    have : c = '/' := by simpa using hc.symm
    subst this
    decide
  unfold jsTrim
  rw [h1, List.reverse_append, h2, trimStart_eq_self s h, List.reverse_append,
    List.reverse_reverse]

/-- C20: for every platform and every input `s` that has no leading white space
and does not begin with `http://` or `https://`, `normalizeUrl(s)` and
`normalizeUrl("https://" + s)` have the same outcome: both return the same URL
string, or both fail with the error `Invalid URL` (the message names the input
of each call). -/
theorem normalizeUrl_scheme_default (P : Platform) (s : Str)
    (hlead : ∀ c, s.head? = some c → isJsSpace c = false)
    (hhttp : startsWith s "http://".toList = false)
    (hhttps : startsWith s "https://".toList = false) :
    (∃ url, normalizeUrl P s = .ok url ∧ normalizeUrl P ("https://".toList ++ s) = .ok url) ∨
    (normalizeUrl P s = .error ("Invalid URL: ".toList ++ s) ∧
      normalizeUrl P ("https://".toList ++ s)
        = .error ("Invalid URL: ".toList ++ ("https://".toList ++ s))) := by
  have hpre := jsTrim_prefix s hlead
  have n1 : startsWith (jsTrim s) "http://".toList = false := by
    cases h : startsWith (jsTrim s) "http://".toList
    · rfl
    · have h' : "http://".toList <+: jsTrim s := by simpa [startsWith] using h
      have : startsWith s "http://".toList = true := by
        simpa [startsWith] using h'.trans hpre
      rw [hhttp] at this
      exact absurd this (by decide)
  have n2 : startsWith (jsTrim s) "https://".toList = false := by
    cases h : startsWith (jsTrim s) "https://".toList
    · rfl
    · have h' : "https://".toList <+: jsTrim s := by simpa [startsWith] using h
      have : startsWith s "https://".toList = true := by
        simpa [startsWith] using h'.trans hpre
      rw [hhttps] at this
      exact absurd this (by decide)
  have m2 : startsWith ("https://".toList ++ jsTrim s) "https://".toList = true := by
    simp [startsWith]
  have e1 : normalizeUrl P s =
      match P.parseUrl ("https://".toList ++ jsTrim s) with
      | some parsed =>
        if parsed.protocol ∈ ["http:".toList, "https:".toList] then .ok parsed.href
        else .error ("Invalid URL: ".toList ++ s)
      | none => .error ("Invalid URL: ".toList ++ s) := by
    simp only [normalizeUrl, n1, n2, Bool.not_false, Bool.and_self, if_true]
  have e2 : normalizeUrl P ("https://".toList ++ s) =
      match P.parseUrl ("https://".toList ++ jsTrim s) with
      | some parsed =>
        if parsed.protocol ∈ ["http:".toList, "https:".toList] then .ok parsed.href
        else .error ("Invalid URL: ".toList ++ ("https://".toList ++ s))
      | none => .error ("Invalid URL: ".toList ++ ("https://".toList ++ s)) := by
    simp only [normalizeUrl, jsTrim_https s hlead, m2, Bool.not_true, Bool.and_false,
      Bool.false_eq_true, if_false]
  rw [e1, e2]
  cases P.parseUrl ("https://".toList ++ jsTrim s) with
  | none => exact Or.inr ⟨rfl, rfl⟩
  | some parsed =>
    by_cases hp : parsed.protocol ∈ ["http:".toList, "https:".toList]
    · exact Or.inl ⟨parsed.href, by simp only [hp, if_true], by simp only [hp, if_true]⟩
    · exact Or.inr ⟨by simp only [hp, if_false], by simp only [hp, if_false]⟩

/-- Witness of C20: the input `example.com/p`. -/
theorem normalizeUrl_scheme_default_witness :
    (∃ url, normalizeUrl nodePlatform "example.com/p".toList = .ok url ∧
      normalizeUrl nodePlatform ("https://".toList ++ "example.com/p".toList) = .ok url) ∨
    (normalizeUrl nodePlatform "example.com/p".toList
        = .error ("Invalid URL: ".toList ++ "example.com/p".toList) ∧
      normalizeUrl nodePlatform ("https://".toList ++ "example.com/p".toList)
        = .error ("Invalid URL: ".toList ++ ("https://".toList ++ "example.com/p".toList))) :=
  normalizeUrl_scheme_default nodePlatform "example.com/p".toList (by decide) (by decide)
    (by decide)

/-- The URL parser of the concrete platform fails on every reference when the
base does not parse. -/
theorem stdParseWithBase_of_base_none (ref base : Str) (h : stdParse base = none) :
    stdParseWithBase ref base = none := by
  unfold stdParse at h
  unfold stdParseWithBase
  cases hb : parseRecord base with
  | none => rfl
  | some b => simp [hb] at h

/-- C15: `resolveUrl` is a total function, and for every platform, base and
reference it returns the reference itself, unchanged, when the reference is
empty or a data-URI, when the reference begins with `//` and `new URL(base)`
throws, and when the reference does not begin with `//` and
`new URL(ref, base)` throws (the base or the reference does not parse). -/
theorem resolveUrl_returns_reference (P : Platform) (base ref : Str)
    (h : ref = [] ∨ isDataUrl ref = true ∨
      (startsWith ref "//".toList = true ∧ P.parseUrl base = none) ∨
      (startsWith ref "//".toList = false ∧ P.parseUrlWithBase ref base = none)) :
    resolveUrl P base ref = ref := by
  unfold resolveUrl
  rcases h with h | h | ⟨h1, h2⟩ | ⟨h1, h2⟩
  · simp [h]
  · simp [h]
  · split_ifs
    · rfl
    · simp only [h2]
  · split_ifs with h3 h4
    · rfl
    · rw [h1] at h4
      exact absurd h4 (by decide)
    · simp only [h2]

/-- Witness of C15: the scheme-relative reference `//c.test/x` against the base
`not a url`, which does not parse. -/
theorem resolveUrl_returns_reference_witness :
    resolveUrl nodePlatform "not a url".toList "//c.test/x".toList = "//c.test/x".toList :=
  resolveUrl_returns_reference nodePlatform "not a url".toList "//c.test/x".toList
    (Or.inr (Or.inr (Or.inl ⟨by decide, by decide⟩)))

/-- C14, as amended: for every platform and base, and every reference that is
not empty and not a data-URI: when the reference does not begin with `//` and
standard resolution `new URL(ref, base)` succeeds, `resolveUrl` returns its
`href`; when the reference begins with `//` and the base parses, `resolveUrl`
returns the protocol of the base followed by the reference as written. -/
theorem resolveUrl_standard (P : Platform) (base ref : Str)
    (hne : ref ≠ []) (hdata : isDataUrl ref = false) :
    (startsWith ref "//".toList = false →
      ∀ u, P.parseUrlWithBase ref base = some u → resolveUrl P base ref = u.href) ∧
    (startsWith ref "//".toList = true →
      ∀ b, P.parseUrl base = some b → resolveUrl P base ref = b.protocol ++ ref) := by
  have he : ref.isEmpty = false := by cases ref <;> simp_all
  constructor
  · intro h u hu
    simp only [resolveUrl, he, hdata, h, hu, Bool.or_self, Bool.false_eq_true, if_false]
  · intro h b hb
    simp only [resolveUrl, he, hdata, h, hb, Bool.or_self, Bool.false_eq_true, if_false, if_true]

/-- Witness of C14 as amended: against `https://x.test/dir/page.html` the
reference `../a.png` gives `https://x.test/a.png` and the reference
`//c.test/a.png` gives `https://c.test/a.png`. -/
theorem resolveUrl_standard_witness :
    resolveUrl nodePlatform "https://x.test/dir/page.html".toList "../a.png".toList
      = "https://x.test/a.png".toList ∧
    resolveUrl nodePlatform "https://x.test/dir/page.html".toList "//c.test/a.png".toList
      = "https://c.test/a.png".toList :=
  ⟨(resolveUrl_standard nodePlatform "https://x.test/dir/page.html".toList "../a.png".toList
      (by decide) (by decide)).1 (by decide)
      ((nodePlatform.parseUrlWithBase "../a.png".toList
        "https://x.test/dir/page.html".toList).getD ⟨[], [], []⟩) (by decide),
   (resolveUrl_standard nodePlatform "https://x.test/dir/page.html".toList
      "//c.test/a.png".toList (by decide) (by decide)).2 (by decide)
      ((nodePlatform.parseUrl "https://x.test/dir/page.html".toList).getD ⟨[], [], []⟩)
      (by decide)⟩

/-- C14 fails as stated: against the base `https://x.test/d/` standard
resolution of the scheme-relative reference `//c.test/a/../b.png` succeeds with
`https://c.test/b.png`, and `resolveUrl` returns `https://c.test/a/../b.png`. -/
theorem resolveUrl_scheme_relative_counterexample :
    (nodePlatform.parseUrlWithBase "//c.test/a/../b.png".toList "https://x.test/d/".toList).map
        Url.href = some "https://c.test/b.png".toList ∧
    resolveUrl nodePlatform "https://x.test/d/".toList "//c.test/a/../b.png".toList
      = "https://c.test/a/../b.png".toList := by
  decide




/-! ## Auto-scroll (`autoScroll`) -/

/-- What the loop of `autoScroll` returns when it is entered with the stability
counter of the specification, below three so far, and `n` iterations left of
twenty. -/
theorem autoScrollLoop_spec (measure : Nat → Nat) (n : Nat) (s : ScrollState)
    (hn : s.readings + n = 20)
    (hcount : s.sameHeightCount = stabilityCount measure s.readings)
    (hlast : s.lastHeight = previousReading measure s.readings)
    (hbelow : ∀ k, k ≤ s.readings → stabilityCount measure k < 3)
    (hstab : s.stabilized = false) :
    (autoScrollLoop measure n s).readings ≤ 20 ∧
    (∀ k, k < (autoScrollLoop measure n s).readings → stabilityCount measure k < 3) ∧
    ((autoScrollLoop measure n s).stabilized = true →
      stabilityCount measure (autoScrollLoop measure n s).readings = 3) ∧
    ((autoScrollLoop measure n s).stabilized = false →
      (autoScrollLoop measure n s).readings = 20 ∧ stabilityCount measure 20 < 3) := by
  induction n generalizing s with
  | zero =>
    simp only [autoScrollLoop]
    have h20 : s.readings = 20 := by omega
    refine ⟨by omega, fun k hk => hbelow k (by omega), fun h => ?_, fun _ => ⟨h20, ?_⟩⟩
    · rw [hstab] at h
      exact absurd h (by decide)
    · exact h20 ▸ hbelow _ (le_refl _)
  | succ n ih =>
    have hnext : stabilityCount measure (s.readings + 1)
        = if measure s.readings = s.lastHeight then s.sameHeightCount + 1 else 0 := by
      simp only [stabilityCount, hlast, hcount]
    simp only [autoScrollLoop]
    by_cases heq : measure s.readings = s.lastHeight
    · by_cases h3 : s.sameHeightCount + 1 ≥ 3
      · simp only [heq, h3, if_true]
        have hc := hbelow s.readings (le_refl _)
        rw [← hcount] at hc
        refine ⟨by omega, fun k hk => hbelow k (by omega), fun _ => ?_, fun h => ?_⟩
        · rw [hnext, if_pos heq]
          omega
        · exact absurd h (by decide)
      · simp only [heq, h3, if_true, if_false]
        apply ih
        · simp only; omega
        · simp only [hnext, if_pos heq]
        · exact heq.symm
        · intro k hk
          simp only at hk
          rcases Nat.lt_or_ge k (s.readings + 1) with h | h
          · exact hbelow k (by omega)
          · have : k = s.readings + 1 := by omega
            subst this
            rw [hnext, if_pos heq]
            omega
        · rfl
    · simp only [heq, if_false]
      apply ih
      · simp only; omega
      · simp only [hnext, if_neg heq]
      · simp only [previousReading]
      · intro k hk
        simp only at hk
        rcases Nat.lt_or_ge k (s.readings + 1) with h | h
        · exact hbelow k (by omega)
        · have : k = s.readings + 1 := by omega
          subst this
          rw [hnext, if_neg heq]
          omega
      · rfl

/-- The loop of `autoScroll` only appends events. -/
theorem autoScroll_last_event (measure : Nat → Nat) :
    (autoScroll measure).events.getLast? = some ScrollEvent.scrolledToTop := by
  simp [autoScroll]

/-- C13: for every sequence of measured heights, `autoScroll` takes at most
twenty readings; the stability counter (incremented when a reading equals the
previous one, the value before the first reading being zero, and reset
otherwise) is below three after every smaller number of readings; when the
loop breaks the counter is three after the last reading, and otherwise twenty
readings were taken and the counter is still below three; the last thing
`autoScroll` does is to scroll back to the top.  On the heights
100, 200, 300, 300, 300, 300 it stops stabilised after six readings, the fourth
reading of 300. -/
theorem autoScroll_stopping_rule :
    (∀ measure : Nat → Nat,
      (autoScroll measure).readings ≤ 20 ∧
      (∀ k, k < (autoScroll measure).readings → stabilityCount measure k < 3) ∧
      ((autoScroll measure).stabilized = true →
        stabilityCount measure (autoScroll measure).readings = 3) ∧
      ((autoScroll measure).stabilized = false →
        (autoScroll measure).readings = 20 ∧ stabilityCount measure 20 < 3) ∧
      (autoScroll measure).events.getLast? = some ScrollEvent.scrolledToTop) ∧
    (autoScroll (readingsOf [100, 200, 300, 300, 300, 300])).readings = 6 ∧
    (autoScroll (readingsOf [100, 200, 300, 300, 300, 300])).stabilized = true ∧
    (autoScroll (readingsOf [100, 200, 300, 300, 300, 300])).lastHeight = 300 ∧
    (autoScroll (readingsOf [100, 200, 300, 300, 300, 300])).sameHeightCount = 3 := by
  refine ⟨fun measure => ?_, by decide, by decide, by decide, by decide⟩
  have h := autoScrollLoop_spec measure 20
    { lastHeight := 0, sameHeightCount := 0, readings := 0, stabilized := false, events := [] }
    rfl rfl rfl (fun k hk => by
      have : k = 0 := by simpa using hk
      subst this
      simp [stabilityCount]) rfl
  exact ⟨h.1, h.2.1, h.2.2.1, h.2.2.2, autoScroll_last_event measure⟩





/-! ## Srcset values (`parseSrcset`) -/

/-- A text without the separator is a single piece. -/
theorem splitComma_plain (a : Str) (h : ∀ c ∈ a, c ≠ ',') : splitComma a = [a] := by
  unfold splitComma
  induction a with
  | nil => rfl
  | cons c a ih =>
    have hc : c ≠ ',' := h c (List.mem_cons_self c a)
    simp [splitOnP, hc, ih (fun x hx => h x (List.mem_cons_of_mem c hx))]

/-- The first piece of a text is what precedes its first comma. -/
theorem splitComma_append (a rest : Str) (h : ∀ c ∈ a, c ≠ ',') :
    splitComma (a ++ ',' :: rest) = a :: splitComma rest := by
  unfold splitComma
  induction a with
  | nil => simp [splitOnP]
  | cons c a ih =>
    have hc : c ≠ ',' := h c (List.mem_cons_self c a)
    simp [splitOnP, hc, ih (fun x hx => h x (List.mem_cons_of_mem c hx))]

/-- A text that neither starts nor ends with white space is its own trim. -/
theorem jsTrim_eq_self (s : Str) (hhead : ∀ c, s.head? = some c → isJsSpace c = false)
    (hlast : ∀ c, s.getLast? = some c → isJsSpace c = false) : jsTrim s = s := by
  unfold jsTrim
  rw [trimStart_eq_self s hhead, trimStart_eq_self s.reverse (by simpa using hlast),
    List.reverse_reverse]

/-- The index of the last space of a text that ends with a space and a run of
other characters. -/
theorem lastSpaceIndex_append (u d : Str) (hd : ∀ x ∈ d, x ≠ ' ') :
    lastSpaceIndex (u ++ ' ' :: d) = some u.length := by
  have hfind : d.reverse.findIdx? (· == ' ') = none := by
    rw [List.findIdx?_eq_none_iff]
    intro x hx
    simpa using hd x (by simpa using hx)
  unfold lastSpaceIndex
  simp only [List.indexOf?, List.reverse_append, List.reverse_cons, List.append_assoc,
    List.singleton_append, List.findIdx?_append, hfind, List.findIdx?_cons, beq_self_eq_true,
    if_true, Option.none_or, Option.map_some', List.length_reverse, List.length_append,
    List.length_cons]
  congr 1
  omega

/-- A text without a space has no last space. -/
theorem lastSpaceIndex_none (u : Str) (hu : ∀ x ∈ u, x ≠ ' ') : lastSpaceIndex u = none := by
  have hfind : u.reverse.findIdx? (· == ' ') = none := by
    rw [List.findIdx?_eq_none_iff]
    intro x hx
    simpa using hu x (by simpa using hx)
  simp [lastSpaceIndex, List.indexOf?, hfind]

/-- `parseSrcset` on a value that is not empty. -/
theorem parseSrcset_eq (srcset : Str) (h : srcset ≠ []) :
    parseSrcset srcset
      = ((splitComma srcset).map srcsetPartUrl).filter fun url =>
          !url.isEmpty && !isDataUrl url := by
  have he : srcset.isEmpty = false := by cases srcset <;> simp_all
  simp only [parseSrcset, he, Bool.false_eq_true, if_false]
  rfl

/-- The text of a clean candidate starts and ends with a character that is not
white space. -/
theorem render_clean (c : SrcsetCandidate) (hne : c.url ≠ []) (hu : CommaFree c.url)
    (hd : ∀ d, c.descriptor = some d → d ≠ [] ∧ CommaFree d) :
    (∀ x, c.render.head? = some x → isJsSpace x = false) ∧
    (∀ x, c.render.getLast? = some x → isJsSpace x = false) ∧
    (∀ x ∈ c.render, x ≠ ',') := by
  obtain ⟨url, descriptor⟩ := c
  simp only at hne hu hd
  cases descriptor with
  | none =>
    simp only [SrcsetCandidate.render]
    refine ⟨fun x hx => (hu x (List.mem_of_mem_head? hx)).1,
      fun x hx => (hu x (List.mem_of_getLast?_eq_some hx)).1, fun x hx => (hu x hx).2⟩
  | some d =>
    obtain ⟨hdne, hdc⟩ := hd d rfl
    simp only [SrcsetCandidate.render]
    refine ⟨fun x hx => ?_, fun x hx => ?_, fun x hx => ?_⟩
    · cases url with
      | nil => exact absurd rfl hne
      | cons y url =>
        simp only [List.cons_append, List.head?_cons, Option.some.injEq] at hx
        subst hx
        exact (hu _ (List.mem_cons_self _ _)).1
    · have hl : (url ++ ' ' :: d).getLast? = d.getLast? := by
        rw [List.getLast?_append_of_ne_nil _ (by simp)]
        cases d with
        | nil => exact absurd rfl hdne
        | cons y d => simp [List.getLast?_cons_cons]
      rw [hl] at hx
      exact (hdc x (List.mem_of_getLast?_eq_some hx)).1
    · simp only [List.mem_append, List.mem_cons] at hx
      rcases hx with hx | rfl | hx
      · exact (hu x hx).2
      · decide
      · exact (hdc x hx).2

/-- The callback of `parseSrcset` returns the URL of a clean candidate, also
when the piece starts with the space that follows a comma. -/
theorem srcsetPartUrl_render (c : SrcsetCandidate) (hne : c.url ≠ []) (hu : CommaFree c.url)
    (hd : ∀ d, c.descriptor = some d → d ≠ [] ∧ CommaFree d) :
    srcsetPartUrl c.render = c.url ∧ srcsetPartUrl (' ' :: c.render) = c.url := by
  obtain ⟨h1, h2, _⟩ := render_clean c hne hu hd
  have hne' : c.render ≠ [] := by
    unfold SrcsetCandidate.render
    cases c.descriptor <;> simp [hne]
  have ht : jsTrim c.render = c.render := jsTrim_eq_self _ h1 h2
  have ht2 : jsTrim (' ' :: c.render) = c.render := by
    unfold jsTrim
    have : trimStart (' ' :: c.render) = c.render := by
      rw [trimStart, if_pos (by decide)]
      exact trimStart_eq_self _ h1
    rw [this, trimStart_eq_self c.render.reverse (by simpa using h2), List.reverse_reverse]
  have hurl : jsTrim c.url = c.url :=
    jsTrim_eq_self _ (fun x hx => (hu x (List.mem_of_mem_head? hx)).1)
      (fun x hx => (hu x (List.mem_of_getLast?_eq_some hx)).1)
  have hsp : ∀ s : Str, CommaFree s → ∀ x ∈ s, x ≠ ' ' := by
    intro s hs x hx hxe
    subst hxe
    have := (hs _ hx).1
    revert this
    decide
  have key : (match lastSpaceIndex c.render with
      | some spaceIndex =>
        if spaceIndex > 0 then jsTrim (c.render.take spaceIndex) else c.render
      | none => c.render) = c.url := by
    obtain ⟨url, descriptor⟩ := c
    cases descriptor with
    | none =>
      simp only [SrcsetCandidate.render]
      rw [lastSpaceIndex_none url (hsp url hu)]
    | some d =>
      simp only [SrcsetCandidate.render]
      rw [lastSpaceIndex_append url d (hsp d (hd d rfl).2)]
      have hpos : url.length > 0 := List.length_pos.mpr hne
      simp only [hpos, if_true, List.take_left']
      exact hurl
  constructor
  · simp only [srcsetPartUrl, ht]
    exact key
  · simp only [srcsetPartUrl, ht2]
    exact key

/-- The pieces of a srcset value built from clean candidates. -/
theorem splitComma_renderSrcset (c : SrcsetCandidate) (rest : List SrcsetCandidate) (pre : Str)
    (hpre : ∀ x ∈ pre, x ≠ ',')
    (hclean : ∀ c1 ∈ c :: rest, ∀ x ∈ c1.render, x ≠ ',') :
    splitComma (pre ++ renderSrcset (c :: rest))
      = (pre ++ c.render) :: rest.map fun c1 => ' ' :: c1.render := by
  induction rest generalizing c pre with
  | nil =>
    have : renderSrcset [c] = c.render := by simp [renderSrcset, List.intercalate]
    rw [this]
    apply splitComma_plain
    intro x hx
    simp only [List.mem_append] at hx
    rcases hx with hx | hx
    · exact hpre x hx
    · exact hclean c (List.mem_cons_self _ _) x hx
  | cons c2 rest ih =>
    have hr : renderSrcset (c :: c2 :: rest)
        = c.render ++ ',' :: ([' '] ++ renderSrcset (c2 :: rest)) := by
      simp [renderSrcset, List.intercalate]
    rw [hr, ← List.append_assoc, splitComma_append]
    · rw [ih c2 [' '] (by decide) (fun c1 h1 => hclean c1 (List.mem_cons_of_mem _ h1))]
      simp
    · intro x hx
      simp only [List.mem_append] at hx
      rcases hx with hx | hx
      · exact hpre x hx
      · exact hclean c (List.mem_cons_self _ _) x hx

/-- C17, as amended: for every list of candidates whose URLs are not empty,
contain neither white space nor a comma and are not data-URIs, each optionally
followed by a space and a non-empty descriptor without white space or comma,
`parseSrcset` applied to the candidates joined by a comma and a space returns
the URLs of the candidates in order. -/
theorem parseSrcset_renderSrcset (cs : List SrcsetCandidate)
    (hurl : ∀ c ∈ cs, c.url ≠ [] ∧ CommaFree c.url ∧ isDataUrl c.url = false)
    (hdesc : ∀ c ∈ cs, ∀ d, c.descriptor = some d → d ≠ [] ∧ CommaFree d) :
    parseSrcset (renderSrcset cs) = cs.map SrcsetCandidate.url := by
  cases cs with
  | nil => rfl
  | cons c rest =>
    have hclean : ∀ c1 ∈ c :: rest, ∀ x ∈ c1.render, x ≠ ',' := fun c1 h1 =>
      (render_clean c1 (hurl c1 h1).1 (hurl c1 h1).2.1 (hdesc c1 h1)).2.2
    have hne : renderSrcset (c :: rest) ≠ [] := by
      intro h0
      have hs := splitComma_renderSrcset c rest [] (by simp) hclean
      simp only [List.nil_append] at hs
      rw [h0] at hs
      have hc : c.render = [] := by
        have := congrArg List.head? hs
        simpa [splitComma, splitOnP] using this.symm
      have : c.url = [] := by
        unfold SrcsetCandidate.render at hc
        cases hd : c.descriptor <;> simp_all
      exact (hurl c (List.mem_cons_self _ _)).1 this
    rw [parseSrcset_eq _ hne]
    have hs := splitComma_renderSrcset c rest [] (by simp) hclean
    simp only [List.nil_append] at hs
    rw [hs]
    have hmap : ((c.render :: rest.map fun c1 => ' ' :: c1.render).map srcsetPartUrl)
        = (c :: rest).map SrcsetCandidate.url := by
      simp only [List.map_cons, List.map_map]
      congr 1
      · exact (srcsetPartUrl_render c (hurl c (List.mem_cons_self _ _)).1
          (hurl c (List.mem_cons_self _ _)).2.1 (hdesc c (List.mem_cons_self _ _))).1
      · apply List.map_congr_left
        intro c1 h1
        have h1' : c1 ∈ c :: rest := List.mem_cons_of_mem _ h1
        exact (srcsetPartUrl_render c1 (hurl c1 h1').1 (hurl c1 h1').2.1 (hdesc c1 h1')).2
    rw [hmap, List.filter_eq_self]
    intro u hu
    simp only [List.mem_map] at hu
    obtain ⟨c1, h1, rfl⟩ := hu
    have he : c1.url.isEmpty = false := by
      have := (hurl c1 h1).1
      cases h : c1.url <;> simp_all
    simp [he, (hurl c1 h1).2.2]

/-- Witness of C17 as amended: the value `a.png 480w, b.png 2x, c.png`. -/
theorem parseSrcset_renderSrcset_witness :
    parseSrcset (renderSrcset
      [ { url := "a.png".toList, descriptor := some "480w".toList },
        { url := "b.png".toList, descriptor := some "2x".toList },
        { url := "c.png".toList, descriptor := none } ])
      = [ "a.png".toList, "b.png".toList, "c.png".toList ] :=
  parseSrcset_renderSrcset _ (by unfold CommaFree; decide) (by unfold CommaFree; decide)

/-- C17 fails as stated: the value `https://x.test/a,b.png 1x, c.png 2x` has the
two candidates `https://x.test/a,b.png` and `c.png`, and `parseSrcset` returns
three URLs, the first candidate being cut at its comma. -/
theorem parseSrcset_comma_counterexample :
    renderSrcset
      [ { url := "https://x.test/a,b.png".toList, descriptor := some "1x".toList },
        { url := "c.png".toList, descriptor := some "2x".toList } ]
      = "https://x.test/a,b.png 1x, c.png 2x".toList ∧
    parseSrcset "https://x.test/a,b.png 1x, c.png 2x".toList
      = [ "https://x.test/a".toList, "b.png".toList, "c.png".toList ] := by
  decide




/-! ## Removal of `base` elements (`rewriteHtml`) -/

/-- The scan passes over the characters of a match without looking at them. -/
theorem replaceGo_skip (cz : Char → Char) (p : Pattern) (nGroups : Nat) (template : Str)
    (x before t : Str) :
    replaceGo cz p nGroups template x.length before (x ++ t)
      = replaceGo cz p nGroups template 0 (x.reverse ++ before) t := by
  induction x generalizing before with
  | nil => rfl
  | cons c x ih =>
    simp only [List.length_cons, List.cons_append, replaceGo, List.reverse_cons,
      List.append_assoc, List.singleton_append]
    exact ih (c :: before)

/-- The scan copies a character at which the pattern does not match. -/
theorem replaceGo_cons_none (cz : Char → Char) (p : Pattern) (nGroups : Nat) (template : Str)
    (before : Str) (c : Char) (t : Str) (h : matchAt cz p (c :: t) = none) :
    replaceGo cz p nGroups template 0 before (c :: t)
      = c :: replaceGo cz p nGroups template 0 (c :: before) t := by
  simp [replaceGo, h]

/-- The scan replaces a match that is not empty and passes over it. -/
theorem replaceGo_cons_some (cz : Char → Char) (p : Pattern) (nGroups : Nat) (template : Str)
    (before : Str) (c : Char) (t : Str) (m : Match) (h : matchAt cz p (c :: t) = some m)
    (hlen : m.matched.length ≠ 0) :
    replaceGo cz p nGroups template 0 before (c :: t)
      = getSubstitution m nGroups before.reverse ((c :: t).drop m.matched.length) template ++
          replaceGo cz p nGroups template (m.matched.length - 1) (c :: before) t := by
  simp [replaceGo, h, hlen]

/-- The scan copies a text in which no match starts. -/
theorem replaceGo_prefix (cz : Char → Char) (p : Pattern) (nGroups : Nat) (template : Str)
    (a before t : Str) (hno : matchStartsIn cz p a t = false) :
    replaceGo cz p nGroups template 0 before (a ++ t)
      = a ++ replaceGo cz p nGroups template 0 (a.reverse ++ before) t := by
  induction a generalizing before with
  | nil => rfl
  | cons c a ih =>
    simp only [matchStartsIn, Bool.or_eq_false_iff] at hno
    have h0 : matchAt cz p (c :: (a ++ t)) = none := by
      cases h : matchAt cz p (c :: (a ++ t)) with
      | none => rfl
      | some m =>
        have h1 := hno.1
        simp only [List.cons_append, h, Option.isSome_some] at h1
        exact absurd h1 (by decide)
    rw [List.cons_append, replaceGo_cons_none _ _ _ _ _ _ _ h0, ih (c :: before) hno.2]
    simp

/-- With the empty template the scan deletes a match that is not empty and
goes on after it. -/
theorem replaceGo_match (cz : Char → Char) (p : Pattern) (nGroups : Nat)
    (tag before t : Str) (m : Match) (hm : matchAt cz p (tag ++ t) = some m)
    (htag : m.matched = tag) (hne : tag ≠ []) :
    replaceGo cz p nGroups [] 0 before (tag ++ t)
      = replaceGo cz p nGroups [] 0 (tag.reverse ++ before) t := by
  cases tag with
  | nil => exact absurd rfl hne
  | cons c x =>
    have hm' : matchAt cz p (c :: (x ++ t)) = some m := hm
    have hlen : m.matched.length = x.length + 1 := by rw [htag]; rfl
    rw [List.cons_append, replaceGo_cons_some _ _ _ _ _ _ _ m hm' (by omega), hlen]
    have := replaceGo_skip cz p nGroups [] x (c :: before) t
    simpa [getSubstitution] using this

/-- Nothing is consumed by standing still. -/
theorem Consumed.refl (st : MatchState) (t : Str) : Consumed st t st t :=
  ⟨[], rfl, rfl⟩

/-- Consumption composes. -/
theorem Consumed.trans {st st1 st2 : MatchState} {t t1 t2 : Str}
    (h1 : Consumed st t st1 t1) (h2 : Consumed st1 t1 st2 t2) : Consumed st t st2 t2 := by
  obtain ⟨x, hx, hc⟩ := h1
  obtain ⟨y, hy, hd⟩ := h2
  exact ⟨x ++ y, by rw [hx, hy, List.append_assoc], by rw [hd, hc]; simp⟩

/-- One character is consumed by a push. -/
theorem Consumed.push (st : MatchState) (c : Char) (t : Str) :
    Consumed st (c :: t) (st.push c) t :=
  ⟨[c], rfl, rfl⟩

/-- The greedy repetition consumes a run of characters before its
continuation starts. -/
theorem starLoop_consumed (cz : Char → Char) (a : Atom)
    (k : MatchState → Str → Option (MatchState × Str)) (st : MatchState) (t : Str)
    (r : MatchState × Str) (h : starLoop cz a k st t = some r) :
    ∃ st1 t1, Consumed st t st1 t1 ∧ k st1 t1 = some r := by
  induction t generalizing st with
  | nil => exact ⟨st, [], Consumed.refl _ _, by simpa [starLoop] using h⟩
  | cons c t ih =>
    simp only [starLoop] at h
    split_ifs at h with hc
    · cases hrec : starLoop cz a k (st.push c) t with
      | some r1 =>
        simp only [hrec, Option.some.injEq] at h
        subst h
        obtain ⟨st1, t1, hs, hk⟩ := ih _ hrec
        exact ⟨st1, t1, (Consumed.push st c t).trans hs, hk⟩
      | none =>
        simp only [hrec] at h
        exact ⟨st, c :: t, Consumed.refl _ _, h⟩
    · exact ⟨st, c :: t, Consumed.refl _ _, h⟩

/-- A word of an alternation consumes a prefix of the text. -/
theorem matchWord_consumed (cz : Char → Char) (w : Str) (st st1 : MatchState) (t t1 : Str)
    (h : matchWord cz w st t = some (st1, t1)) : Consumed st t st1 t1 := by
  induction w generalizing st t with
  | nil =>
    simp only [matchWord, Option.some.injEq, Prod.mk.injEq] at h
    obtain ⟨rfl, rfl⟩ := h
    exact Consumed.refl _ _
  | cons x w ih =>
    cases t with
    | nil => simp [matchWord] at h
    | cons c t =>
      simp only [matchWord] at h
      split_ifs at h
      exact (Consumed.push st c t).trans (ih _ _ h)

/-- An alternation consumes a prefix of the text before its continuation
starts. -/
theorem altLoop_consumed (cz : Char → Char) (k : MatchState → Str → Option (MatchState × Str))
    (st : MatchState) (t : Str) (ws : List Str) (r : MatchState × Str)
    (h : altLoop cz k st t ws = some r) :
    ∃ st1 t1, Consumed st t st1 t1 ∧ k st1 t1 = some r := by
  induction ws with
  | nil => simp [altLoop] at h
  | cons w ws ih =>
    simp only [altLoop] at h
    split at h
    · rename_i st1 t1 hw
      split at h
      · rename_i r1 hk
        simp only [Option.some.injEq] at h
        subst h
        exact ⟨st1, t1, matchWord_consumed cz w st st1 t t1 hw, hk⟩
      · exact ih h
    · exact ih h

/-- A match consumes a prefix of the text: the characters it has consumed are
the characters by which the text got shorter. -/
theorem matchNodes_consumed (cz : Char → Char) (p : Pattern) (st : MatchState) (t : Str)
    (r : MatchState × Str) (h : matchNodes cz p st t = some r) : Consumed st t r.1 r.2 := by
  induction p generalizing st t with
  | nil =>
    simp only [matchNodes, Option.some.injEq] at h
    subst h
    exact Consumed.refl _ _
  | cons n p ih =>
    cases n with
    | one a =>
      cases t with
      | nil => simp [matchNodes] at h
      | cons c t =>
        simp only [matchNodes] at h
        split_ifs at h
        exact (Consumed.push st c t).trans (ih _ _ h)
    | opt a =>
      cases t with
      | nil =>
        simp only [matchNodes] at h
        exact ih _ _ h
      | cons c t =>
        simp only [matchNodes] at h
        split_ifs at h
        · split at h
          · rename_i r1 h1
            simp only [Option.some.injEq] at h
            subst h
            exact (Consumed.push st c t).trans (ih _ _ h1)
          · exact ih _ _ h
        · exact ih _ _ h
    | star a =>
      simp only [matchNodes] at h
      obtain ⟨st1, t1, hs, hk⟩ := starLoop_consumed cz a _ st t r h
      exact hs.trans (ih _ _ hk)
    | plus a =>
      cases t with
      | nil => simp [matchNodes] at h
      | cons c t =>
        simp only [matchNodes] at h
        split_ifs at h
        obtain ⟨st1, t1, hs, hk⟩ := starLoop_consumed cz a _ _ t r h
        exact ((Consumed.push st c t).trans hs).trans (ih _ _ hk)
    | alt ws =>
      simp only [matchNodes] at h
      obtain ⟨st1, t1, hs, hk⟩ := altLoop_consumed cz _ st t ws r h
      exact hs.trans (ih _ _ hk)
    | groupOpen =>
      simp only [matchNodes] at h
      have := ih _ _ h
      exact this
    | groupClose =>
      simp only [matchNodes] at h
      have := ih _ _ h
      exact this

/-- The text matched at a position is a prefix of the text. -/
theorem matchAt_prefix (cz : Char → Char) (p : Pattern) (t : Str) (m : Match)
    (h : matchAt cz p t = some m) : ∃ rest, t = m.matched ++ rest := by
  unfold matchAt at h
  split at h
  · rename_i st rest hm
    simp only [Option.some.injEq] at h
    subst h
    obtain ⟨x, hx, hc⟩ := matchNodes_consumed cz p _ t _ hm
    simp only [List.append_nil] at hc
    exact ⟨rest, by simp [hc, hx]⟩
  · simp at h

/-- A match of a pattern that starts with a single-character element is not
empty. -/
theorem matchAt_one_ne_nil (cz : Char → Char) (a : Atom) (p : Pattern) (t : Str) (m : Match)
    (h : matchAt cz (.one a :: p) t = some m) : m.matched ≠ [] := by
  unfold matchAt at h
  split at h
  · rename_i st rest hm
    simp only [Option.some.injEq] at h
    subst h
    cases t with
    | nil => simp [matchNodes] at hm
    | cons c t =>
      simp only [matchNodes] at hm
      split_ifs at hm
      obtain ⟨x, hx, hc⟩ := matchNodes_consumed cz p _ t _ hm
      simp only at hc
      rw [hc]
      simp [MatchState.push]
  · simp at h

/-- With the empty template the result of the scan does not depend on the
text before the scanned part. -/
theorem replaceGo_before (cz : Char → Char) (p : Pattern) (nGroups skip : Nat)
    (t before1 before2 : Str) :
    replaceGo cz p nGroups [] skip before1 t = replaceGo cz p nGroups [] skip before2 t := by
  induction t generalizing skip before1 before2 with
  | nil =>
    cases skip with
    | zero => cases h : matchAt cz p [] <;> simp [replaceGo, h, getSubstitution]
    | succ k => simp [replaceGo]
  | cons c t ih =>
    cases skip with
    | zero =>
      cases h : matchAt cz p (c :: t) with
      | none =>
        rw [replaceGo_cons_none _ _ _ _ _ _ _ h, replaceGo_cons_none _ _ _ _ _ _ _ h,
          ih 0 (c :: before1) (c :: before2)]
      | some m =>
        by_cases hl : m.matched.length = 0
        · simp only [replaceGo, h, hl, if_true, getSubstitution, List.nil_append]
          rw [ih 0 (c :: before1) (c :: before2)]
        · rw [replaceGo_cons_some _ _ _ _ _ _ _ m h hl, replaceGo_cons_some _ _ _ _ _ _ _ m h hl,
            ih _ (c :: before1) (c :: before2)]
          simp [getSubstitution]
    | succ k =>
      simp only [replaceGo]
      exact ih k (c :: before1) (c :: before2)

/-- C19, as amended: `rewriteHtml` deletes the matches of `<base[^>]*>` that one
scan from left to right finds in the rewritten text.  When the text rewritten
for the entries of the map is `a ++ tag ++ b`, no match starts inside `a`, and
the pattern matches `tag` at the start of `tag ++ b`, the result is `a`
followed by what the scan returns for `b`; it is `a ++ b` when the pattern
matches nowhere in `b`. -/
theorem rewriteHtml_strips_base (P : Platform) (assetMap : List (Str × Str))
    (html a tag b : Str)
    (hbody : (sortByKeyLength assetMap).foldl (rewriteEntry P.canonicalize) html
      = a ++ tag ++ b)
    (hno : matchStartsIn P.canonicalize basePattern a (tag ++ b) = false)
    (htag : (matchAt P.canonicalize basePattern (tag ++ b)).map Match.matched = some tag) :
    rewriteHtml P assetMap html = a ++ rewriteHtml P [] b ∧
    (matchesSomewhere P.canonicalize basePattern b = false →
      rewriteHtml P assetMap html = a ++ b) := by
  obtain ⟨m, hm, hmt⟩ : ∃ m, matchAt P.canonicalize basePattern (tag ++ b) = some m ∧
      m.matched = tag := by
    cases h : matchAt P.canonicalize basePattern (tag ++ b) with
    | none => simp [h] at htag
    | some m => exact ⟨m, rfl, by simpa [h] using htag⟩
  have hne : tag ≠ [] := by
    rw [← hmt]
    exact matchAt_one_ne_nil P.canonicalize (.lit '<') _ _ m hm
  have hstrip : rewriteHtml P assetMap html
      = a ++ replaceGo P.canonicalize basePattern 0 [] 0 (tag.reverse ++ (a.reverse ++ []))
          b := by
    unfold rewriteHtml replaceAll
    rw [hbody, List.append_assoc, replaceGo_prefix _ _ _ _ a [] (tag ++ b) hno,
      replaceGo_match _ _ _ tag _ b m hm hmt hne]
  have hempty : rewriteHtml P [] b
      = replaceGo P.canonicalize basePattern 0 [] 0 [] b := rfl
  have hres : rewriteHtml P assetMap html = a ++ rewriteHtml P [] b := by
    rw [hstrip, hempty, replaceGo_before P.canonicalize basePattern 0 0 b _ []]
  refine ⟨hres, fun hb => ?_⟩
  rw [hres, hempty, replaceGo_of_no_match _ _ _ _ _ _ hb]

/-- Witness of C19 as amended: the `base` element of
`<head><base href="/"><title>x`. -/
theorem rewriteHtml_strips_base_witness :
    rewriteHtml nodePlatform [] "<head><base href=\"/\"><title>x".toList
      = "<head>".toList ++ rewriteHtml nodePlatform [] "<title>x".toList ∧
    (matchesSomewhere nodePlatform.canonicalize basePattern "<title>x".toList = false →
      rewriteHtml nodePlatform [] "<head><base href=\"/\"><title>x".toList
        = "<head>".toList ++ "<title>x".toList) :=
  rewriteHtml_strips_base nodePlatform [] "<head><base href=\"/\"><title>x".toList
    "<head>".toList "<base href=\"/\">".toList "<title>x".toList (by decide) (by decide)
    (by decide)

/-- C19 fails as stated: from `<ba<base>se>` the scan deletes the inner tag and
returns `<base>`, a text in which the pattern matches; and it deletes
`<basefont size="3">`, which is not a `base` element. -/
theorem rewriteHtml_base_counterexample :
    rewriteHtml nodePlatform [] "<ba<base>se>".toList = "<base>".toList ∧
    matchesSomewhere nodePlatform.canonicalize basePattern
      (rewriteHtml nodePlatform [] "<ba<base>se>".toList) = true ∧
    rewriteHtml nodePlatform [] "<basefont size=\"3\">x".toList = "x".toList := by
  decide

/-- The loop body of `rewriteHtml` leaves a text in which none of the three
patterns of the key matches as it is. -/
theorem rewriteEntry_of_no_match (cz : Char → Char) (text : Str) (entry : Str × Str)
    (h1 : matchesSomewhere cz (attrPattern entry.1) text = false)
    (h2 : matchesSomewhere cz (srcsetPattern entry.1) text = false)
    (h3 : matchesSomewhere cz (urlFuncPattern entry.1) text = false) :
    rewriteEntry cz text entry = text := by
  unfold rewriteEntry replaceAll
  simp only [replaceGo_of_no_match cz _ _ _ _ text h1, replaceGo_of_no_match cz _ _ _ _ text h2,
    replaceGo_of_no_match cz _ _ _ _ text h3]

/-! ## URLs of a style sheet (`extractCssUrls`) -/

/-- The scan passes over the characters of a match. -/
theorem captureGo_skip (cz : Char → Char) (p : Pattern) (x t : Str) :
    captureGo cz p x.length (x ++ t) = captureGo cz p 0 t := by
  induction x with
  | nil => cases t <;> rfl
  | cons c x ih => simpa [captureGo] using ih

/-- The scan finds nothing in a text in which no match starts. -/
theorem captureGo_prefix (cz : Char → Char) (p : Pattern) (a t : Str)
    (hno : matchStartsIn cz p a t = false) :
    captureGo cz p 0 (a ++ t) = captureGo cz p 0 t := by
  induction a with
  | nil => rfl
  | cons c a ih =>
    simp only [matchStartsIn, Bool.or_eq_false_iff] at hno
    have h0 : matchAt cz p (c :: (a ++ t)) = none := by
      cases h : matchAt cz p (c :: (a ++ t)) with
      | none => rfl
      | some m =>
        have h1 := hno.1
        simp only [List.cons_append, h, Option.isSome_some] at h1
        exact absurd h1 (by decide)
    rw [List.cons_append, captureGo, h0]
    exact ih hno.2

/-- The scan reports the group of a match that is not empty and goes on after
the match. -/
theorem captureGo_match (cz : Char → Char) (p : Pattern) (x t : Str) (m : Match)
    (hm : matchAt cz p (x ++ t) = some m) (hx : m.matched = x) (hne : x ≠ []) :
    captureGo cz p 0 (x ++ t) = m.group.getD [] :: captureGo cz p 0 t := by
  cases x with
  | nil => exact absurd rfl hne
  | cons c x =>
    have hm' : matchAt cz p (c :: (x ++ t)) = some m := hm
    rw [List.cons_append, captureGo, hm']
    simp only [hx, List.length_cons, Nat.add_sub_cancel]
    rw [captureGo_skip cz p x t]

/-- The elements of the pattern of `extractCssUrls`. -/
theorem cssUrlPattern_eq : cssUrlPattern =
    [ .one (.lit 'u'), .one (.lit 'r'), .one (.lit 'l'), .star .space, .one (.lit '('),
      .star .space, .opt (.anyOf ['\'', '"']),
      .groupOpen, .plus (.noneOf ['\'', '"', ')'] true), .groupClose,
      .opt (.anyOf ['\'', '"']), .star .space, .one (.lit ')') ] := rfl

/-- One step of the matcher at an element that matches one character. -/
theorem matchNodes_one (cz : Char → Char) (a : Atom) (ns : Pattern) (st : MatchState)
    (c : Char) (t : Str) :
    matchNodes cz (.one a :: ns) st (c :: t)
      = if a.test cz c then matchNodes cz ns (st.push c) t else none := by
  rw [matchNodes]

/-- One step of the matcher at a greedy repetition. -/
theorem matchNodes_star (cz : Char → Char) (a : Atom) (ns : Pattern) (st : MatchState)
    (t : Str) :
    matchNodes cz (.star a :: ns) st t = starLoop cz a (matchNodes cz ns) st t := by
  rw [matchNodes]

/-- A repetition stops at once in front of a character that the atom does not
match. -/
theorem starLoop_stop (cz : Char → Char) (a : Atom)
    (k : MatchState → Str → Option (MatchState × Str)) (st : MatchState) (t : Str)
    (h : ∀ c, t.head? = some c → a.test cz c = false) : starLoop cz a k st t = k st t := by
  cases t with
  | nil => rfl
  | cons c t => simp [starLoop, h c rfl]

/-- A greedy repetition runs over the characters that the atom matches up to a
character that it does not match, when the rest of the pattern matches there. -/
theorem starLoop_run (cz : Char → Char) (a : Atom)
    (k : MatchState → Str → Option (MatchState × Str)) (u rest : Str) (st : MatchState)
    (r : MatchState × Str) (hu : ∀ c ∈ u, a.test cz c = true)
    (hrest : ∀ c, rest.head? = some c → a.test cz c = false)
    (hk : k { st with consumed := u.reverse ++ st.consumed } rest = some r) :
    starLoop cz a k st (u ++ rest) = some r := by
  induction u generalizing st with
  | nil =>
    rw [List.nil_append, starLoop_stop cz a k st rest hrest]
    simpa using hk
  | cons c u ih =>
    have hc : a.test cz c = true := hu c (List.mem_cons_self c u)
    have := ih (st.push c) (fun x hx => hu x (List.mem_cons_of_mem c hx))
      (by simpa [MatchState.push] using hk)
    simp [starLoop, hc, this]

/-- Where `\s*\(` matches, the text is white space followed by an opening
parenthesis. -/
theorem starLoop_space_paren (cz : Char → Char) (hcz : SeparatesDelimiters cz) (ns : Pattern)
    (st : MatchState) (t : Str) (r : MatchState × Str)
    (h : starLoop cz .space (matchNodes cz (.one (.lit '(') :: ns)) st t = some r) :
    ∃ sp rest, t = sp ++ '(' :: rest ∧ ∀ c ∈ sp, isJsSpace c = true := by
  induction t generalizing st r with
  | nil => simp [starLoop, matchNodes] at h
  | cons c t ih =>
    have hk : matchNodes cz (.one (.lit '(') :: ns) st (c :: t) = some r →
        ∃ sp rest, c :: t = sp ++ '(' :: rest ∧ ∀ x ∈ sp, isJsSpace x = true := by
      intro h1
      simp only [matchNodes] at h1
      split_ifs at h1 with h2
      have : c = '(' := hcz '(' (by simp) c (by simpa [Atom.test] using h2)
      exact ⟨[], t, by simp [this], by simp⟩
    simp only [starLoop] at h
    split_ifs at h with hs
    · cases h3 : starLoop cz .space (matchNodes cz (.one (.lit '(') :: ns)) (st.push c) t with
      | some r1 =>
        obtain ⟨sp, rest, h4, h5⟩ := ih (st.push c) r1 h3
        refine ⟨c :: sp, rest, by simp [h4], ?_⟩
        intro x hx
        rcases List.mem_cons.1 hx with rfl | hx
        · simpa [Atom.test] using hs
        · exact h5 x hx
      | none =>
        rw [h3] at h
        exact hk h
    · exact hk h

/-- Where `url\s*\(` matches, the text is three characters, none of them an
opening parenthesis, white space and an opening parenthesis. -/
theorem urlParen_shape (cz : Char → Char) (hcz : SeparatesDelimiters cz) (ns : Pattern)
    (st : MatchState) (t : Str)
    (h : (matchNodes cz (.one (.lit 'u') :: .one (.lit 'r') :: .one (.lit 'l') :: .star .space ::
      .one (.lit '(') :: ns) st t).isSome = true) :
    ∃ x1 x2 x3 sp rest, t = x1 :: x2 :: x3 :: (sp ++ '(' :: rest) ∧
      (∀ c ∈ sp, isJsSpace c = true) ∧ x1 ≠ '(' ∧ x2 ≠ '(' ∧ x3 ≠ '(' := by
  have hne : ∀ x : Char, x ≠ '(' → ∀ c, cz x = cz c → c ≠ '(' := by
    intro x hx c hc h0
    subst h0
    exact hx (hcz '(' (by simp) x hc.symm)
  rcases t with _ | ⟨x1, _ | ⟨x2, _ | ⟨x3, t⟩⟩⟩
  · simp [matchNodes] at h
  · simp only [matchNodes] at h
    split_ifs at h <;> simp at h
  · simp only [matchNodes] at h
    split_ifs at h <;> simp at h
  · rw [matchNodes_one, matchNodes_one, matchNodes_one, matchNodes_star] at h
    split_ifs at h with h1 h2 h3
    · cases h4 : starLoop cz .space (matchNodes cz (.one (.lit '(') :: ns))
          ((st.push x1).push x2 |>.push x3) t with
      | none => rw [h4] at h; simp at h
      | some r =>
        obtain ⟨sp, rest, h5, h6⟩ := starLoop_space_paren cz hcz _ _ _ _ h4
        exact ⟨x1, x2, x3, sp, rest, by rw [h5], h6,
          hne 'u' (by decide) x1 (by simpa [Atom.test] using h1),
          hne 'r' (by decide) x2 (by simpa [Atom.test] using h2),
          hne 'l' (by decide) x3 (by simpa [Atom.test] using h3)⟩
    all_goals simp at h

/-- Where the pattern of `extractCssUrls` matches, the text is three characters,
none of them an opening parenthesis, white space and an opening parenthesis. -/
theorem cssUrl_match_shape (cz : Char → Char) (hcz : SeparatesDelimiters cz) (t : Str)
    (h : (matchAt cz cssUrlPattern t).isSome = true) :
    ∃ x1 x2 x3 sp rest, t = x1 :: x2 :: x3 :: (sp ++ '(' :: rest) ∧
      (∀ c ∈ sp, isJsSpace c = true) ∧ x1 ≠ '(' ∧ x2 ≠ '(' ∧ x3 ≠ '(' := by
  apply urlParen_shape cz hcz _ { consumed := [], groupStart := 0, group := none } t
  unfold matchAt at h
  rw [cssUrlPattern_eq] at h
  cases h1 : matchNodes cz _ { consumed := [], groupStart := 0, group := none } t with
  | none => rw [h1] at h; simp at h
  | some r => rfl

/-- Two texts that agree and are cut at their first opening parenthesis agree
before it. -/
theorem eq_of_append_paren (l r l1 r1 : Str) (hl : '(' ∉ l) (hl1 : '(' ∉ l1)
    (h : l ++ '(' :: r = l1 ++ '(' :: r1) : l = l1 := by
  induction l generalizing l1 with
  | nil =>
    cases l1 with
    | nil => rfl
    | cons c l1 =>
      simp only [List.nil_append, List.cons_append, List.cons.injEq] at h
      exact absurd (h.1 ▸ List.mem_cons_self _ _) hl1
  | cons c l ih =>
    cases l1 with
    | nil =>
      simp only [List.nil_append, List.cons_append, List.cons.injEq] at h
      exact absurd (h.1 ▸ List.mem_cons_self _ _) hl
    | cons c1 l1 =>
      simp only [List.cons_append, List.cons.injEq] at h
      rw [h.1, ih l1 (fun hm => hl (List.mem_cons_of_mem _ hm))
        (fun hm => hl1 (List.mem_cons_of_mem _ hm)) h.2]

/-- The pattern of `extractCssUrls` does not match at a position before
`url(` from which there is no opening parenthesis up to that of `url(`. -/
theorem cssUrl_no_match_before (cz : Char → Char) (hcz : SeparatesDelimiters cz)
    (a tail : Str) (hne : a ≠ []) (ha : '(' ∉ a) :
    matchAt cz cssUrlPattern (a ++ ("url(".toList ++ tail)) = none := by
  cases h : matchAt cz cssUrlPattern (a ++ ("url(".toList ++ tail)) with
  | none => rfl
  | some m =>
    exfalso
    obtain ⟨x1, x2, x3, sp, rest, h1, hsp, h2, h3, h4⟩ :=
      cssUrl_match_shape cz hcz _ (by rw [h]; rfl)
    have hsp0 : '(' ∉ sp := fun hm => absurd (hsp _ hm) (by decide)
    have h5 : x1 :: x2 :: x3 :: sp = a ++ ['u', 'r', 'l'] := by
      apply eq_of_append_paren _ rest _ tail
      · simp only [List.mem_cons, not_or]
        exact ⟨fun h0 => h2 h0.symm, fun h0 => h3 h0.symm, fun h0 => h4 h0.symm, hsp0⟩
      · simp only [List.mem_append, List.mem_cons, not_or]
        exact ⟨ha, by decide, by decide, by decide, by simp⟩
      · rw [← List.cons_append, ← List.cons_append, ← List.cons_append] at h1
        simpa using h1.symm
    have hlen := congrArg List.length h5
    simp only [List.length_cons, List.length_append, List.length_nil] at hlen
    have hl : sp.length = a.length := by omega
    have hsp1 : sp ≠ [] := by
      intro h0
      rw [h0] at hl
      exact hne (List.length_eq_zero.1 hl.symm)
    have h6 := congrArg List.getLast? h5
    rw [List.getLast?_append] at h6
    simp only [List.getLast?_cons_cons] at h6
    have h7 : sp.getLast? = some 'l' := by
      cases sp with
      | nil => exact absurd rfl hsp1
      | cons y sp => simpa [List.getLast?_cons_cons] using h6
    exact absurd (hsp _ (List.mem_of_getLast?_eq_some h7)) (by decide)

/-- No match of the pattern of `extractCssUrls` starts in a text without an
opening parenthesis that is followed by `:url(`. -/
theorem cssUrl_matchStartsIn (cz : Char → Char) (hcz : SeparatesDelimiters cz)
    (a tail : Str) (ha : '(' ∉ a) :
    matchStartsIn cz cssUrlPattern (a ++ [':']) ("url(".toList ++ tail) = false := by
  have key : ∀ b : Str, '(' ∉ b →
      matchStartsIn cz cssUrlPattern b ("url(".toList ++ tail) = false := by
    intro b
    induction b with
    | nil => intro _; rfl
    | cons c b ih =>
      intro hb
      have h0 := cssUrl_no_match_before cz hcz (c :: b) tail (by simp) hb
      simp only [matchStartsIn, Bool.or_eq_false_iff]
      refine ⟨?_, ih fun hm => hb (List.mem_cons_of_mem _ hm)⟩
      rw [show c :: b ++ ("url(".toList ++ tail) = (c :: b) ++ ("url(".toList ++ tail) from rfl,
        h0]
      rfl
  apply key
  simp only [List.mem_append, List.mem_singleton, not_or]
  exact ⟨ha, by decide⟩

/-- An optional element is passed over in front of a character that its atom
does not match. -/
theorem matchNodes_opt_skip (cz : Char → Char) (a : Atom) (ns : Pattern) (st : MatchState)
    (t : Str) (h : ∀ c, t.head? = some c → a.test cz c = false) :
    matchNodes cz (.opt a :: ns) st t = matchNodes cz ns st t := by
  cases t with
  | nil => rw [matchNodes]
  | cons c t => rw [matchNodes]; simp [h c rfl]

/-- An optional element takes a character that its atom matches when the rest
of the pattern matches after it. -/
theorem matchNodes_opt_take (cz : Char → Char) (a : Atom) (ns : Pattern) (st : MatchState)
    (c : Char) (t : Str) (r : MatchState × Str) (hc : a.test cz c = true)
    (h : matchNodes cz ns (st.push c) t = some r) :
    matchNodes cz (.opt a :: ns) st (c :: t) = some r := by
  rw [matchNodes]
  simp [hc, h]

/-- One step of the matcher at a greedy repetition that takes at least one
character. -/
theorem matchNodes_plus (cz : Char → Char) (a : Atom) (ns : Pattern) (st : MatchState)
    (c : Char) (t : Str) :
    matchNodes cz (.plus a :: ns) st (c :: t)
      = if a.test cz c then starLoop cz a (matchNodes cz ns) (st.push c) t else none := by
  rw [matchNodes]

/-- One step of the matcher at the start of the group. -/
theorem matchNodes_groupOpen (cz : Char → Char) (ns : Pattern) (st : MatchState) (t : Str) :
    matchNodes cz (.groupOpen :: ns) st t
      = matchNodes cz ns { st with groupStart := st.consumed.length } t := by
  rw [matchNodes]

/-- One step of the matcher at the end of the group. -/
theorem matchNodes_groupClose (cz : Char → Char) (ns : Pattern) (st : MatchState) (t : Str) :
    matchNodes cz (.groupClose :: ns) st t
      = matchNodes cz ns
          { st with group := some ((st.consumed.take (st.consumed.length - st.groupStart)).reverse) }
          t := by
  rw [matchNodes]

/-- The end of the pattern of `extractCssUrls`, `['"]?\s*\)`, on the closing
quote and parenthesis of a declaration. -/
theorem cssUrl_close (cz : Char → Char) (hcz : SeparatesDelimiters cz) (q : CssQuote)
    (st : MatchState) (tail : Str) :
    matchNodes cz [.opt (.anyOf ['\'', '"']), .star .space, .one (.lit ')')] st
        (q.text ++ ')' :: tail)
      = some ({ st with consumed := ')' :: (q.text.reverse ++ st.consumed) }, tail) := by
  have h1 : ¬ cz '\'' = cz ')' := fun h => absurd (hcz '\'' (by simp) ')' h) (by decide)
  have h2 : ¬ cz '"' = cz ')' := fun h => absurd (hcz '"' (by simp) ')' h) (by decide)
  have hend : ∀ st1 : MatchState,
      matchNodes cz [.star .space, .one (.lit ')')] st1 (')' :: tail)
        = some (st1.push ')', tail) := by
    intro st1
    rw [matchNodes_star, starLoop_stop _ _ _ _ _ (by simp [Atom.test, isJsSpace]),
      matchNodes_one]
    simp [Atom.test, matchNodes]
  cases q with
  | bare =>
    rw [matchNodes_opt_skip _ _ _ _ _ (by simp [CssQuote.text, Atom.test, h1, h2])]
    simpa [CssQuote.text, MatchState.push] using hend st
  | single =>
    exact matchNodes_opt_take _ _ _ _ _ _ _ (by simp [Atom.test])
      (by simpa [CssQuote.text, MatchState.push] using hend (st.push '\''))
  | double =>
    exact matchNodes_opt_take _ _ _ _ _ _ _ (by simp [Atom.test])
      (by simpa [CssQuote.text, MatchState.push] using hend (st.push '"'))

/-- The group of the pattern of `extractCssUrls` on the URL of a declaration:
the greedy repetition takes the whole URL. -/
theorem cssUrl_group (cz : Char → Char) (hcz : SeparatesDelimiters cz) (q : CssQuote)
    (u tail : Str) (hu : UrlToken u) (st : MatchState) :
    matchNodes cz [.groupOpen, .plus (.noneOf ['\'', '"', ')'] true), .groupClose,
        .opt (.anyOf ['\'', '"']), .star .space, .one (.lit ')')] st
        (u ++ (q.text ++ ')' :: tail))
      = some ({ consumed := ')' :: (q.text.reverse ++ (u.reverse ++ st.consumed)),
                groupStart := st.consumed.length, group := some u }, tail) := by
  have htest : ∀ c ∈ u, Atom.test cz (.noneOf ['\'', '"', ')'] true) c = true := by
    intro c hc
    obtain ⟨h1, h2, h3, _, h5⟩ := hu.2 c hc
    have e1 : ¬ cz '\'' = cz c := fun h => h2 (hcz '\'' (by simp) c h)
    have e2 : ¬ cz '"' = cz c := fun h => h3 (hcz '"' (by simp) c h)
    have e3 : ¬ cz ')' = cz c := fun h => h5 (hcz ')' (by simp) c h)
    simp [Atom.test, e1, e2, e3, h1]
  obtain ⟨hne, _⟩ := hu
  cases u with
  | nil => exact absurd rfl hne
  | cons c0 u1 =>
    rw [matchNodes_groupOpen, List.cons_append, matchNodes_plus,
      if_pos (htest c0 (List.mem_cons_self _ _))]
    apply starLoop_run cz _ _ u1 _ _ _ (fun c hc => htest c (List.mem_cons_of_mem _ hc))
    · cases q <;> simp [CssQuote.text, Atom.test]
    · rw [matchNodes_groupClose, cssUrl_close cz hcz]
      have hlen : (u1.reverse ++ c0 :: st.consumed).length - st.consumed.length
          = (u1.reverse ++ [c0]).length := by simp; omega
      have happ : u1.reverse ++ c0 :: st.consumed = (u1.reverse ++ [c0]) ++ st.consumed := by
        simp
      simp only [MatchState.push, hlen]
      rw [happ, List.take_left']
      · simp
      · rfl

/-- The pattern of `extractCssUrls` on `url(`, the quote, the URL, the quote
and the closing parenthesis of a declaration: the match is this text and the
group is the URL. -/
theorem cssUrl_matchAt_decl (cz : Char → Char) (hcz : SeparatesDelimiters cz) (q : CssQuote)
    (u tail : Str) (hu : UrlToken u) :
    matchAt cz cssUrlPattern ("url(".toList ++ (q.text ++ (u ++ (q.text ++ ')' :: tail))))
      = some { matched := "url(".toList ++ (q.text ++ (u ++ (q.text ++ [')']))),
               group := some u } := by
  have hhead : ∀ c, (q.text ++ (u ++ (q.text ++ ')' :: tail))).head? = some c →
      Atom.test cz .space c = false := by
    intro c hc
    obtain ⟨hne, hall⟩ := hu
    cases u with
    | nil => exact absurd rfl hne
    | cons c0 u1 =>
      have h0 := (hall c0 (List.mem_cons_self _ _)).1
      cases q <;> simp [CssQuote.text] at hc <;> subst hc <;>
        first
        | exact h0
        | exact (by decide : isJsSpace '\'' = false)
  have hq : ∀ st : MatchState,
      matchNodes cz [.opt (.anyOf ['\'', '"']), .groupOpen,
          .plus (.noneOf ['\'', '"', ')'] true), .groupClose,
          .opt (.anyOf ['\'', '"']), .star .space, .one (.lit ')')] st
          (q.text ++ (u ++ (q.text ++ ')' :: tail)))
        = some ({ consumed := ')' :: (q.text.reverse ++ (u.reverse ++
                    (q.text.reverse ++ st.consumed))),
                  groupStart := (q.text.reverse ++ st.consumed).length, group := some u },
                tail) := by
    intro st
    cases q with
    | bare =>
      rw [matchNodes_opt_skip]
      · simpa [CssQuote.text] using cssUrl_group cz hcz .bare u tail hu st
      · intro c hc
        obtain ⟨hne, hall⟩ := hu
        cases u with
        | nil => exact absurd rfl hne
        | cons c0 u1 =>
          have h2 := (hall c0 (List.mem_cons_self _ _)).2
          have e1 : ¬ cz '\'' = cz c0 := fun h => h2.1 (hcz '\'' (by simp) c0 h)
          have e2 : ¬ cz '"' = cz c0 := fun h => h2.2.1 (hcz '"' (by simp) c0 h)
          simp [CssQuote.text] at hc
          subst hc
          simp [Atom.test, e1, e2]
    | single =>
      exact matchNodes_opt_take _ _ _ _ _ _ _ (by simp [Atom.test])
        (by simpa [CssQuote.text, MatchState.push] using
          cssUrl_group cz hcz .single u tail hu (st.push '\''))
    | double =>
      exact matchNodes_opt_take _ _ _ _ _ _ _ (by simp [Atom.test])
        (by simpa [CssQuote.text, MatchState.push] using
          cssUrl_group cz hcz .double u tail hu (st.push '"'))
  unfold matchAt
  rw [cssUrlPattern_eq]
  have htext : "url(".toList ++ (q.text ++ (u ++ (q.text ++ ')' :: tail)))
      = 'u' :: 'r' :: 'l' :: '(' :: (q.text ++ (u ++ (q.text ++ ')' :: tail))) := rfl
  rw [htext, matchNodes_one, if_pos (by simp [Atom.test]), matchNodes_one,
    if_pos (by simp [Atom.test]), matchNodes_one, if_pos (by simp [Atom.test]),
    matchNodes_star, starLoop_stop _ _ _ _ _ (by simp [Atom.test, isJsSpace]),
    matchNodes_one, if_pos (by simp [Atom.test]), matchNodes_star,
    starLoop_stop _ _ _ _ _ hhead, hq]
  simp [MatchState.push]

/-- The pattern of `extractCssUrls` matches nowhere in a text without an
opening parenthesis. -/
theorem captureGo_no_paren (cz : Char → Char) (hcz : SeparatesDelimiters cz) (t : Str)
    (ht : '(' ∉ t) : captureGo cz cssUrlPattern 0 t = [] := by
  induction t with
  | nil => rfl
  | cons c t ih =>
    have h0 : matchAt cz cssUrlPattern (c :: t) = none := by
      cases h : matchAt cz cssUrlPattern (c :: t) with
      | none => rfl
      | some m =>
        exfalso
        obtain ⟨x1, x2, x3, sp, rest, h1, _⟩ := cssUrl_match_shape cz hcz _ (by rw [h]; rfl)
        apply ht
        rw [h1]
        simp
    rw [captureGo, h0]
    exact ih fun hm => ht (List.mem_cons_of_mem _ hm)

/-- The groups that the scan of `extractCssUrls` finds in a style sheet made of
declarations, after a text without an opening parenthesis, are the URLs of the
declarations. -/
theorem captureGo_renderCss (cz : Char → Char) (hcz : SeparatesDelimiters cz)
    (ds : List CssDeclaration) (hprop : ∀ d ∈ ds, '(' ∉ d.property)
    (hurl : ∀ d ∈ ds, UrlToken d.url) (a : Str) (ha : '(' ∉ a) :
    captureGo cz cssUrlPattern 0 (a ++ renderCss ds) = ds.map CssDeclaration.url := by
  induction ds generalizing a with
  | nil => simpa [renderCss] using captureGo_no_paren cz hcz a ha
  | cons d ds ih =>
    have htext : a ++ renderCss (d :: ds)
        = ((a ++ d.property) ++ [':']) ++ ("url(".toList ++ (d.quote.text ++ (d.url ++
            (d.quote.text ++ ')' :: ([';'] ++ renderCss ds))))) := by
      simp [renderCss, CssDeclaration.render]
    have hap : '(' ∉ a ++ d.property := by
      simp only [List.mem_append, not_or]
      exact ⟨ha, hprop d (List.mem_cons_self _ _)⟩
    have hm := cssUrl_matchAt_decl cz hcz d.quote d.url ([';'] ++ renderCss ds)
      (hurl d (List.mem_cons_self _ _))
    have hsplit : "url(".toList ++ (d.quote.text ++ (d.url ++
          (d.quote.text ++ ')' :: ([';'] ++ renderCss ds))))
        = ("url(".toList ++ (d.quote.text ++ (d.url ++ (d.quote.text ++ [')'])))) ++
            ([';'] ++ renderCss ds) := by
      simp
    rw [htext, captureGo_prefix cz _ _ _ (cssUrl_matchStartsIn cz hcz _ _ hap), hsplit]
    rw [hsplit] at hm
    rw [captureGo_match cz _ _ _ _ hm rfl (by simp),
      ih (fun x hx => hprop x (List.mem_cons_of_mem _ hx))
        (fun x hx => hurl x (List.mem_cons_of_mem _ hx)) [';'] (by decide)]
    rfl

/-- The canonicalisation of the concrete platform identifies no other
character with a parenthesis or a quote. -/
theorem asciiCanonicalize_separates : SeparatesDelimiters asciiCanonicalize := by
  intro x hx c h
  have tab : ∀ n, n < 123 → 97 ≤ n → 65 ≤ (Char.ofNat (n - 32)).toNat := by decide
  have key : ∀ y : Char, y.toNat < 65 → c.toUpper = y → c = y := by
    intro y hy hc
    unfold Char.toUpper at hc
    dsimp only at hc
    split_ifs at hc with h1
    · exfalso
      have := tab c.toNat (by omega) h1.1
      rw [hc] at this
      omega
    · exact hc
  simp only [List.mem_cons, List.mem_singleton] at hx
  unfold asciiCanonicalize at h
  rcases hx with rfl | rfl | rfl | rfl | hx
  · exact key _ (by decide) h.symm
  · exact key _ (by decide) h.symm
  · exact key _ (by decide) h.symm
  · exact key _ (by decide) h.symm
  · simp at hx

/-- C16: for every canonicalisation that identifies no other character with a
parenthesis or a quote, and every list of declarations `p:url(q u q);` in which
`p` has no opening parenthesis, `q` is no quote, a single quote or a double
quote, and `u` is not empty and free of white space, quotes and parentheses,
`extractCssUrls` applied to the declarations written one after the other
returns, in order, the URLs that are not data-URIs and do not begin with `#`. -/
theorem extractCssUrls_renderCss (cz : Char → Char) (hcz : SeparatesDelimiters cz)
    (ds : List CssDeclaration) (hprop : ∀ d ∈ ds, '(' ∉ d.property)
    (hurl : ∀ d ∈ ds, UrlToken d.url) :
    extractCssUrls cz (renderCss ds)
      = (ds.map CssDeclaration.url).filter fun u =>
          !isDataUrl u && !startsWith u "#".toList := by
  unfold extractCssUrls
  have h := captureGo_renderCss cz hcz ds hprop hurl [] (by simp)
  rw [List.nil_append] at h
  rw [h]
  apply List.filter_congr
  intro u hu
  obtain ⟨d, hd, rfl⟩ := List.mem_map.1 hu
  have hne := (hurl d hd).1
  cases h0 : d.url with
  | nil => exact absurd h0 hne
  | cons c t => simp

/-- Witness of C16: four declarations, one with each quoting, one with a
fragment and one with a data-URI. -/
theorem extractCssUrls_renderCss_witness :
    renderCss
      [ { property := "background".toList, quote := .single, url := "b.png".toList },
        { property := "filter".toList, quote := .bare, url := "#blur".toList },
        { property := "cursor".toList, quote := .double,
          url := "data:image/png;base64,AAAA".toList },
        { property := "border-image".toList, quote := .bare, url := "../img/c.svg".toList } ]
      = ("background:url('b.png');filter:url(#blur);" ++
          "cursor:url(\"data:image/png;base64,AAAA\");border-image:url(../img/c.svg);").toList ∧
    extractCssUrls asciiCanonicalize (renderCss
      [ { property := "background".toList, quote := .single, url := "b.png".toList },
        { property := "filter".toList, quote := .bare, url := "#blur".toList },
        { property := "cursor".toList, quote := .double,
          url := "data:image/png;base64,AAAA".toList },
        { property := "border-image".toList, quote := .bare, url := "../img/c.svg".toList } ])
      = [ "b.png".toList, "../img/c.svg".toList ] :=
  ⟨by decide,
    extractCssUrls_renderCss asciiCanonicalize asciiCanonicalize_separates _ (by decide)
      (by unfold UrlToken; decide)⟩


/-! ## Style sheets (`processCssAssets`) -/

/-- A text in which the separator does not occur is a single piece. -/
theorem jsSplitGo_of_not_includes (sep cur text : Str) (h : includes text sep = false) :
    jsSplitGo sep 0 cur text = [cur.reverse ++ text] := by
  induction text generalizing cur with
  | nil => simp [jsSplitGo]
  | cons c t ih =>
    simp only [includes, Bool.or_eq_false_iff] at h
    have h1 : startsWith (c :: t) sep = false := h.1
    rw [jsSplitGo, h1]
    simp only [Bool.false_eq_true, if_false]
    rw [ih (c :: cur) h.2]
    simp

/-- Replacing a key that does not occur in a style sheet changes nothing. -/
theorem rewriteCssEntry_of_not_includes (cwd cssLocalPath text : Str) (entry : Str × Str)
    (h : includes text entry.1 = false) :
    rewriteCssEntry cwd cssLocalPath text entry = text := by
  have hne : entry.1 ≠ [] := by
    intro h0
    rw [h0] at h
    cases text <;> simp [includes] at h
  unfold rewriteCssEntry jsSplit
  simp only [if_neg hne, jsSplitGo_of_not_includes entry.1 [] text h]
  simp [List.intercalate]

/-- Replacing the keys of a map none of which occurs in a style sheet changes
nothing. -/
theorem foldl_rewriteCssEntry_of_not_includes (cwd cssLocalPath text : Str)
    (assetMap : List (Str × Str)) (h : ∀ e ∈ assetMap, includes text e.1 = false) :
    assetMap.foldl (rewriteCssEntry cwd cssLocalPath) text = text := by
  induction assetMap with
  | nil => rfl
  | cons e m ih =>
    rw [List.foldl_cons, rewriteCssEntry_of_not_includes _ _ _ _ (h e (List.mem_cons_self _ _))]
    exact ih fun x hx => h x (List.mem_cons_of_mem _ hx)

/-- A nested reference whose fetch fails changes at most the log. -/
theorem processCssUrl_of_fails (P : Platform) (env : Env) (outputPath cssUrl : Str)
    (st : ClonerState) (url : Str) (h : fetchFails env (resolveUrl P cssUrl url) = true) :
    ∃ logs, processCssUrl P env outputPath cssUrl st url = { st with logs := logs } := by
  unfold processCssUrl
  split_ifs with h1
  · exact ⟨st.logs, rfl⟩
  · dsimp only
    split_ifs with h2
    · exact ⟨st.logs, rfl⟩
    · unfold fetchFails at h
      split
      · exact ⟨_, rfl⟩
      · rename_i response hget
        rw [hget] at h
        have hok : response.ok = false := by simpa using h
        simp only [hok, Bool.false_eq_true, if_false]
        exact ⟨st.logs, rfl⟩

/-- Nested references whose fetches all fail change at most the log. -/
theorem foldl_processCssUrl_of_fails (P : Platform) (env : Env) (outputPath cssUrl : Str)
    (urls : List Str) (st : ClonerState)
    (h : ∀ url ∈ urls, fetchFails env (resolveUrl P cssUrl url) = true) :
    ∃ logs, urls.foldl (processCssUrl P env outputPath cssUrl) st = { st with logs := logs } := by
  induction urls generalizing st with
  | nil => exact ⟨st.logs, rfl⟩
  | cons u urls ih =>
    obtain ⟨l1, h1⟩ := processCssUrl_of_fails P env outputPath cssUrl st u
      (h u (List.mem_cons_self _ _))
    obtain ⟨l2, h2⟩ := ih { st with logs := l1 } fun x hx => h x (List.mem_cons_of_mem _ hx)
    exact ⟨l2, by rw [List.foldl_cons, h1, h2]⟩

/-- The outer loop of `processCssAssets` when every nested fetch fails, no key
of the asset map occurs in a style sheet and every write succeeds. -/
theorem processCssEntries_of_fails (P : Platform) (env : Env) (cwd outputPath : Str)
    (entries : List (Str × CssData)) (st : ClonerState)
    (hfail : ∀ entry ∈ entries, ∀ url ∈ extractCssUrls P.canonicalize entry.2.content,
      fetchFails env (resolveUrl P entry.1 url) = true)
    (hkeys : ∀ entry ∈ entries, ∀ e ∈ st.assetMap, includes entry.2.content e.1 = false)
    (hwrite : ∀ entry ∈ entries,
      env.writeFile (pathJoin [outputPath, entry.2.localPath]) = none) :
    (processCssEntries P env cwd outputPath entries st).2 = none ∧
    (processCssEntries P env cwd outputPath entries st).1.assetMap = st.assetMap ∧
    (processCssEntries P env cwd outputPath entries st).1.files
      = entries.foldl (fun files entry =>
          mapSet files (pathJoin [outputPath, entry.2.localPath]) entry.2.content) st.files := by
  induction entries generalizing st with
  | nil => exact ⟨rfl, rfl, rfl⟩
  | cons entry rest ih =>
    obtain ⟨logs, hl⟩ := foldl_processCssUrl_of_fails P env outputPath entry.1
      (extractCssUrls P.canonicalize entry.2.content) st (hfail entry (List.mem_cons_self _ _))
    have hstep : processCssEntry P env cwd outputPath st entry
        = ({ st with logs := logs,
                     files := mapSet st.files (pathJoin [outputPath, entry.2.localPath])
                       entry.2.content }, none) := by
      unfold processCssEntry
      simp only [hl, hwrite entry (List.mem_cons_self _ _)]
      rw [foldl_rewriteCssEntry_of_not_includes _ _ _ _ (hkeys entry (List.mem_cons_self _ _))]
    rw [processCssEntries, hstep]
    have := ih { st with logs := logs,
                         files := mapSet st.files (pathJoin [outputPath, entry.2.localPath])
                           entry.2.content }
      (fun x hx => hfail x (List.mem_cons_of_mem _ hx))
      (fun x hx => hkeys x (List.mem_cons_of_mem _ hx))
      (fun x hx => hwrite x (List.mem_cons_of_mem _ hx))
    exact this

/-- C12 fails as stated.  The style sheet `background:url('b.png')` fetched from
`https://x.test/css/s.css` has the nested reference `b.png`, which resolves to
`https://x.test/css/b.png`; when the asset map holds the key `b.png` of an image
of the page, the text written back after the nested fetch has failed (status
404, or transport error) is `background:url('../images/0123456789ab.png')`,
in which the reference `url('b.png')` no longer occurs. -/
theorem processCssAssets_failed_reference_counterexample :
    extractCssUrls nodePlatform.canonicalize "background:url('b.png')".toList
      = ["b.png".toList] ∧
    resolveUrl nodePlatform "https://x.test/css/s.css".toList "b.png".toList
      = "https://x.test/css/b.png".toList ∧
    fetchFails envNotFound "https://x.test/css/b.png".toList = true ∧
    fetchFails envOffline "https://x.test/css/b.png".toList = true ∧
    mapGet (processCssAssets nodePlatform envNotFound "/srv/app".toList "/out".toList
        exampleCssState).1.files "/out/assets/css/ba9876543210.css".toList
      = some "background:url('../images/0123456789ab.png')".toList ∧
    mapGet (processCssAssets nodePlatform envOffline "/srv/app".toList "/out".toList
        exampleCssState).1.files "/out/assets/css/ba9876543210.css".toList
      = some "background:url('../images/0123456789ab.png')".toList ∧
    includes "background:url('../images/0123456789ab.png')".toList "url('b.png')".toList
      = false := by
  decide

/-- An entry of a map after `set` was in the map before or is the entry set. -/
theorem mem_mapSet {β : Type} (m : List (Str × β)) (k : Str) (v : β) (e : Str × β)
    (h : e ∈ mapSet m k v) : e ∈ m ∨ e = (k, v) := by
  induction m with
  | nil => simpa [mapSet] using h
  | cons e1 m ih =>
    obtain ⟨k1, v1⟩ := e1
    simp only [mapSet] at h
    split_ifs at h with h1
    · rcases List.mem_cons.1 h with h2 | h2
      · exact Or.inr h2
      · exact Or.inl (List.mem_cons_of_mem _ h2)
    · rcases List.mem_cons.1 h with h2 | h2
      · exact Or.inl (h2 ▸ List.mem_cons_self _ _)
      · rcases ih h2 with h3 | h3
        · exact Or.inl (List.mem_cons_of_mem _ h3)
        · exact Or.inr h3

/-- Setting a key that is neither empty nor a data-URI keeps the keys of an
asset map neither empty nor data-URIs. -/
theorem KeysOk.mapSet {m : List (Str × Str)} (h : KeysOk m) (k v : Str) (hk : k ≠ [])
    (hd : isDataUrl k = false) : KeysOk (mapSet m k v) := by
  intro e he
  rcases mem_mapSet m k v e he with h1 | h1
  · exact h e h1
  · rw [h1]
    exact ⟨hk, hd⟩

/-- The URL and the reference text of every asset that `addAsset` emits are
neither empty nor data-URIs. -/
theorem addAsset_keys (P : Platform) (finalUrl : Str) (d : Discovery) (url type : Str)
    (h : ∀ a ∈ d.assets, (a.url ≠ [] ∧ isDataUrl a.url = false) ∧
      (a.originalUrl ≠ [] ∧ isDataUrl a.originalUrl = false)) :
    ∀ a ∈ (addAsset P finalUrl d url type).assets, (a.url ≠ [] ∧ isDataUrl a.url = false) ∧
      (a.originalUrl ≠ [] ∧ isDataUrl a.originalUrl = false) := by
  unfold addAsset
  split_ifs with h1
  · exact h
  · dsimp only
    split_ifs with h2
    · intro a ha
      rcases List.mem_append.1 ha with h3 | h3
      · exact h a h3
      · simp only [List.mem_singleton] at h3
        subst h3
        simp only [Bool.or_eq_true, not_or, Bool.not_eq_true] at h1
        simp only [Bool.and_eq_true, Bool.not_eq_true'] at h2
        refine ⟨⟨?_, h2.1.2⟩, ?_, h1.1.2⟩
        · intro h0
          have h3 := h2.1.1
          dsimp only at h0
          rw [h0] at h3
          exact absurd h3 (by decide)
        · intro h0
          have h3 := h1.1.1
          dsimp only at h0
          rw [h0] at h3
          exact absurd h3 (by decide)
    · exact h

/-- The URL and the reference text of every asset of `collectAssets` are
neither empty nor data-URIs. -/
theorem collectAssets_keys (P : Platform) (finalUrl : Str) (doc : Document) :
    ∀ a ∈ collectAssets P finalUrl doc, (a.url ≠ [] ∧ isDataUrl a.url = false) ∧
      (a.originalUrl ≠ [] ∧ isDataUrl a.originalUrl = false) := by
  have key : ∀ (refs : List (Str × Str)) (d : Discovery),
      (∀ a ∈ d.assets, (a.url ≠ [] ∧ isDataUrl a.url = false) ∧
        (a.originalUrl ≠ [] ∧ isDataUrl a.originalUrl = false)) →
      ∀ a ∈ (refs.foldl (fun d r => addAsset P finalUrl d r.1 r.2) d).assets,
        (a.url ≠ [] ∧ isDataUrl a.url = false) ∧
        (a.originalUrl ≠ [] ∧ isDataUrl a.originalUrl = false) := by
    intro refs
    induction refs with
    | nil => intro d h; exact h
    | cons r refs ih => intro d h; exact ih _ (addAsset_keys P finalUrl d r.1 r.2 h)
  exact key _ _ (fun a ha => by simp at ha)

/-- A call of `downloadAsset` on an asset whose URL and reference text are
neither empty nor data-URIs keeps the keys of the asset map so. -/
theorem downloadAsset_keys (P : Platform) (env : Env) (outputPath : Str) (st : ClonerState)
    (asset : Asset) (h : KeysOk st.assetMap)
    (hu : asset.url ≠ [] ∧ isDataUrl asset.url = false)
    (ho : asset.originalUrl ≠ [] ∧ isDataUrl asset.originalUrl = false) :
    KeysOk (downloadAsset P env outputPath st asset).assetMap := by
  unfold downloadAsset
  dsimp only
  split
  · exact h
  · split_ifs
    · exact h
    · split
      · split
        · exact h
        · split
          · exact h
          · exact (h.mapSet _ _ hu.1 hu.2).mapSet _ _ ho.1 ho.2
      · exact h

/-- The URLs returned by `extractCssUrls` are not empty. -/
theorem extractCssUrls_ne_nil (cz : Char → Char) (text : Str) :
    ∀ u ∈ extractCssUrls cz text, u ≠ [] := by
  intro u hu h0
  unfold extractCssUrls at hu
  have := (List.mem_filter.1 hu).2
  simp [h0] at this

/-- The body of the inner loop of `processCssAssets` on a URL that is not empty
keeps the keys of the asset map neither empty nor data-URIs. -/
theorem processCssUrl_keys (P : Platform) (env : Env) (outputPath cssUrl : Str)
    (st : ClonerState) (url : Str) (h : KeysOk st.assetMap) (hne : url ≠ []) :
    KeysOk (processCssUrl P env outputPath cssUrl st url).assetMap := by
  unfold processCssUrl
  split_ifs with h1
  · exact h
  · dsimp only
    split_ifs with h2
    · exact h
    · simp only [Bool.or_eq_true, not_or, Bool.not_eq_true] at h1 h2
      have hr : resolveUrl P cssUrl url ≠ [] := by
        intro h0
        simp [h0] at h2
      split
      · exact h
      · split_ifs
        · split
          · split
            · exact h
            · split
              · exact h
              · exact (h.mapSet _ _ hr h2.1.2).mapSet _ _ hne h1.2
          · exact h
        · exact h

/-- The inner loop of `processCssAssets` keeps the keys of the asset map
neither empty nor data-URIs. -/
theorem foldl_processCssUrl_keys (P : Platform) (env : Env) (outputPath cssUrl : Str)
    (urls : List Str) (st : ClonerState) (h : KeysOk st.assetMap) (hne : ∀ u ∈ urls, u ≠ []) :
    KeysOk (urls.foldl (processCssUrl P env outputPath cssUrl) st).assetMap := by
  induction urls generalizing st with
  | nil => exact h
  | cons u urls ih =>
    exact ih _ (processCssUrl_keys P env outputPath cssUrl st u h (hne u (List.mem_cons_self _ _)))
      fun x hx => hne x (List.mem_cons_of_mem _ hx)

/-- The body of the outer loop of `processCssAssets` keeps the keys of the asset
map neither empty nor data-URIs, whether the final write throws or not. -/
theorem processCssEntry_keys (P : Platform) (env : Env) (cwd outputPath : Str)
    (st : ClonerState) (entry : Str × CssData) (h : KeysOk st.assetMap) :
    KeysOk (processCssEntry P env cwd outputPath st entry).1.assetMap := by
  have h1 := foldl_processCssUrl_keys P env outputPath entry.1
    (extractCssUrls P.canonicalize entry.2.content) st h
    (extractCssUrls_ne_nil P.canonicalize entry.2.content)
  unfold processCssEntry
  dsimp only
  split
  · exact h1
  · exact h1

/-- The outer loop of `processCssAssets` keeps the keys of the asset map neither
empty nor data-URIs, whether it ends normally or not. -/
theorem processCssEntries_keys (P : Platform) (env : Env) (cwd outputPath : Str)
    (entries : List (Str × CssData)) (st : ClonerState) (h : KeysOk st.assetMap) :
    KeysOk (processCssEntries P env cwd outputPath entries st).1.assetMap := by
  induction entries generalizing st with
  | nil => exact h
  | cons entry rest ih =>
    have h1 := processCssEntry_keys P env cwd outputPath st entry h
    rw [processCssEntries]
    split
    · rename_i st1 message heq
      rw [heq] at h1
      exact h1
    · rename_i st1 heq
      rw [heq] at h1
      exact ih st1 h1

/-- C18: in every state that a cloner reaches from an empty asset map by calls
of `downloadAsset` on assets produced by `collectAssets` and by runs of
`processCssAssets` (ending normally or not), no key of the asset map is empty
and no key is a data-URI. -/
theorem assetMap_keys (P : Platform) (st : ClonerState) (h : Reachable P st) :
    ∀ e ∈ st.assetMap, e.1 ≠ [] ∧ isDataUrl e.1 = false := by
  induction h with
  | start st h0 =>
    intro e he
    rw [h0] at he
    simp at he
  | download env outputPath finalUrl doc asset st _ hmem ih =>
    have ha := collectAssets_keys P finalUrl doc asset hmem
    exact downloadAsset_keys P env outputPath st asset ih ha.1 ha.2
  | css env cwd outputPath st _ ih =>
    exact processCssEntries_keys P env cwd outputPath st.cssUrls st ih

/-- Witness of C18: the image of `exampleDocument` is downloaded into the empty
state, then `processCssAssets` runs; the asset map then has the keys
`https://x.test/a.png` and `a.png`. -/
theorem assetMap_keys_witness :
    (processCssAssets nodePlatform envPng "/srv/app".toList "/out".toList
        (downloadAsset nodePlatform envPng "/out".toList emptyState
          exampleImageAsset)).1.assetMap.map Prod.fst
      = ["https://x.test/a.png".toList, "a.png".toList] ∧
    ∀ e ∈ (processCssAssets nodePlatform envPng "/srv/app".toList "/out".toList
        (downloadAsset nodePlatform envPng "/out".toList emptyState
          exampleImageAsset)).1.assetMap,
      e.1 ≠ [] ∧ isDataUrl e.1 = false :=
  ⟨by decide,
    assetMap_keys nodePlatform _
      (Reachable.css envPng "/srv/app".toList "/out".toList _
        (Reachable.download envPng "/out".toList "https://x.test/".toList exampleDocument
          exampleImageAsset emptyState (Reachable.start emptyState rfl) (by decide)))⟩


/-! ## Reference texts and the asset map (`collectAssets`, `downloadAssets`) -/

/-- A call of `addAsset` keeps the assets found so far. -/
theorem addAsset_mono (P : Platform) (finalUrl : Str) (d : Discovery) (url type : Str)
    (a : Asset) (h : a ∈ d.assets) : a ∈ (addAsset P finalUrl d url type).assets := by
  unfold addAsset
  split_ifs with h1
  · exact h
  · dsimp only
    split_ifs with h2
    · exact List.mem_append_left _ h
    · exact h

/-- Calls of `addAsset` keep the assets found so far. -/
theorem foldl_addAsset_mono (P : Platform) (finalUrl : Str) (refs : List (Str × Str))
    (d : Discovery) (a : Asset) (h : a ∈ d.assets) :
    a ∈ (refs.foldl (fun d r => addAsset P finalUrl d r.1 r.2) d).assets := by
  induction refs generalizing d with
  | nil => exact h
  | cons r refs ih => exact ih _ (addAsset_mono P finalUrl d r.1 r.2 a h)

/-- An asset after a call of `addAsset` was there before or carries the
reference text of the call. -/
theorem addAsset_origin (P : Platform) (finalUrl : Str) (d : Discovery) (url type : Str)
    (a : Asset) (h : a ∈ (addAsset P finalUrl d url type).assets) :
    a ∈ d.assets ∨ a.originalUrl = url := by
  unfold addAsset at h
  split_ifs at h with h1
  · exact Or.inl h
  · dsimp only at h
    split_ifs at h with h2
    · rcases List.mem_append.1 h with h3 | h3
      · exact Or.inl h3
      · simp only [List.mem_singleton] at h3
        exact Or.inr (by rw [h3])
    · exact Or.inl h

/-- An asset after calls of `addAsset` was there before or carries the
reference text of one of the calls. -/
theorem foldl_addAsset_origin (P : Platform) (finalUrl : Str) (refs : List (Str × Str))
    (d : Discovery) (a : Asset)
    (h : a ∈ (refs.foldl (fun d r => addAsset P finalUrl d r.1 r.2) d).assets) :
    a ∈ d.assets ∨ ∃ x ∈ refs, a.originalUrl = x.1 := by
  induction refs generalizing d with
  | nil => exact Or.inl h
  | cons r refs ih =>
    rcases ih _ h with h1 | ⟨x, hx, h1⟩
    · rcases addAsset_origin P finalUrl d r.1 r.2 a h1 with h2 | h2
      · exact Or.inl h2
      · exact Or.inr ⟨r, List.mem_cons_self _ _, h2⟩
    · exact Or.inr ⟨x, List.mem_cons_of_mem _ hx, h1⟩

/-- The assets of a reference list: each one carries a reference text of the
list and its resolution, and no two have the same URL. -/
theorem addAssets_spec (P : Platform) (finalUrl : Str) (refs : List (Str × Str)) :
    (∀ a ∈ addAssets P finalUrl refs,
      (∃ x ∈ refs, a.originalUrl = x.1) ∧ a.url = resolveUrl P finalUrl a.originalUrl) ∧
    ∀ a ∈ addAssets P finalUrl refs, ∀ b ∈ addAssets P finalUrl refs, a.url = b.url → a = b := by
  have hinv := foldl_addAsset_inv P finalUrl refs { assets := [], seenUrls := [] }
    ⟨rfl, List.nodup_nil, fun a ha => by simp at ha⟩
  refine ⟨fun a ha => ⟨?_, hinv.2.2 a ha⟩, fun a ha b hb hab => ?_⟩
  · rcases foldl_addAsset_origin P finalUrl refs _ a ha with h | h
    · simp at h
    · exact h
  · exact List.inj_on_of_nodup_map hinv.2.1 ha hb hab

/-- Discovery takes up the first reference that resolves to a URL, when the
resolved URLs of the earlier references resolve to themselves. -/
theorem addAssets_first_reference (P : Platform) (finalUrl : Str) (pre post : List (Str × Str))
    (r1 t1 : Str)
    (hfirst : ∀ x ∈ pre, resolveUrl P finalUrl x.1 ≠ resolveUrl P finalUrl r1)
    (hnormal : ∀ x ∈ pre, resolveUrl P finalUrl (resolveUrl P finalUrl x.1)
      = resolveUrl P finalUrl x.1)
    (h1 : r1 ≠ []) (h1d : isDataUrl r1 = false)
    (hU : resolveUrl P finalUrl r1 ≠ []) (hUd : isDataUrl (resolveUrl P finalUrl r1) = false) :
    ({ url := resolveUrl P finalUrl r1, type := t1, originalUrl := r1 } : Asset)
      ∈ addAssets P finalUrl (pre ++ (r1, t1) :: post) := by
  unfold addAssets
  rw [List.foldl_append, List.foldl_cons]
  apply foldl_addAsset_mono
  have hinv := foldl_addAsset_inv P finalUrl pre { assets := [], seenUrls := [] }
    ⟨rfl, List.nodup_nil, fun a ha => by simp at ha⟩
  generalize hd : pre.foldl (fun d r => addAsset P finalUrl d r.1 r.2)
    { assets := [], seenUrls := [] } = d at hinv
  have hseen : ∀ u ∈ d.seenUrls, ∃ x ∈ pre, resolveUrl P finalUrl x.1 = u := by
    intro u hu
    rw [hinv.1] at hu
    obtain ⟨a, ha, rfl⟩ := List.mem_map.1 hu
    have ha' : a ∈ (pre.foldl (fun d r => addAsset P finalUrl d r.1 r.2)
        { assets := [], seenUrls := [] }).assets := by rw [hd]; exact ha
    rcases foldl_addAsset_origin P finalUrl pre _ a ha' with h | ⟨x, hx, h⟩
    · simp at h
    · exact ⟨x, hx, by rw [hinv.2.2 a ha, h]⟩
  have hUseen : resolveUrl P finalUrl r1 ∉ d.seenUrls := by
    intro h
    obtain ⟨x, hx, hxu⟩ := hseen _ h
    exact hfirst x hx hxu
  have hrseen : r1 ∉ d.seenUrls := by
    intro h
    obtain ⟨x, hx, hxu⟩ := hseen _ h
    have h2 := hnormal x hx
    rw [hxu] at h2
    exact hfirst x hx (by rw [hxu, h2])
  have e1 : r1.isEmpty = false := by cases r1 <;> simp_all
  have e2 : (resolveUrl P finalUrl r1).isEmpty = false := by
    cases h : resolveUrl P finalUrl r1 <;> simp_all
  simp [addAsset, e1, h1d, e2, hUd, hUseen, hrseen]

/-- A download does not touch a key that is neither the URL nor the reference
text of its asset. -/
theorem downloadAsset_get_other (P : Platform) (env : Env) (outputPath : Str)
    (st : ClonerState) (asset : Asset) (k : Str) (hu : k ≠ asset.url)
    (ho : k ≠ asset.originalUrl) :
    mapGet (downloadAsset P env outputPath st asset).assetMap k = mapGet st.assetMap k := by
  unfold downloadAsset
  dsimp only
  split
  · rfl
  · split_ifs
    · rfl
    · split
      · split
        · rfl
        · split
          · rfl
          · simp only
            rw [mapGet_mapSet_of_ne _ _ _ _ ho, mapGet_mapSet_of_ne _ _ _ _ hu]
      · rfl

/-- Downloads do not touch a key that is neither the URL nor the reference text
of any of their assets. -/
theorem foldl_downloadAsset_get_other (P : Platform) (env : Env) (outputPath : Str)
    (l : List Asset) (st : ClonerState) (k : Str)
    (h : ∀ b ∈ l, k ≠ b.url ∧ k ≠ b.originalUrl) :
    mapGet (l.foldl (downloadAsset P env outputPath) st).assetMap k = mapGet st.assetMap k := by
  induction l generalizing st with
  | nil => rfl
  | cons b l ih =>
    rw [List.foldl_cons, ih _ fun x hx => h x (List.mem_cons_of_mem _ hx),
      downloadAsset_get_other P env outputPath st b k (h b (List.mem_cons_self _ _)).1
        (h b (List.mem_cons_self _ _)).2]

/-- The whole of `downloadAssets` does not touch a key that is neither the URL
nor the reference text of any asset, whatever the order of completion. -/
theorem downloadAssetsFrom_get_other (P : Platform) (env : Env) (outputPath : Str)
    (completion : List Asset → List Asset) (hperm : ∀ batch, (completion batch).Perm batch)
    (assets : List Asset) (k : Str) (h : ∀ b ∈ assets, k ≠ b.url ∧ k ≠ b.originalUrl)
    (fuel i : Nat) (st : ClonerState) :
    mapGet (downloadAssetsFrom P env outputPath completion assets fuel i st).assetMap k
      = mapGet st.assetMap k := by
  induction fuel generalizing i st with
  | zero => rfl
  | succ fuel ih =>
    rw [downloadAssetsFrom]
    split_ifs with hi
    · dsimp only
      rw [ih]
      simp only [ClonerState.log]
      apply foldl_downloadAsset_get_other
      intro b hb
      exact h b (List.mem_of_mem_drop (List.mem_of_mem_take ((hperm _).mem_iff.1 hb)))
    · rfl

/-- A key that a stored asset sets keeps its local path through downloads of
assets that do not touch it, and gets it when the asset is among them. -/
theorem foldl_downloadAsset_get (P : Platform) (env : Env) (outputPath : Str)
    (a : Asset) (k localPath : Str)
    (hset : ∀ st : ClonerState,
      mapGet (downloadAsset P env outputPath st a).assetMap k = some localPath)
    (l : List Asset) (hl : ∀ b ∈ l, b = a ∨ (k ≠ b.url ∧ k ≠ b.originalUrl))
    (st : ClonerState) (h : mapGet st.assetMap k = some localPath ∨ a ∈ l) :
    mapGet (l.foldl (downloadAsset P env outputPath) st).assetMap k = some localPath := by
  induction l generalizing st with
  | nil =>
    rcases h with h | h
    · exact h
    · simp at h
  | cons b l ih =>
    rw [List.foldl_cons]
    apply ih (fun x hx => hl x (List.mem_cons_of_mem _ hx))
    rcases hl b (List.mem_cons_self _ _) with hb | hb
    · left
      rw [hb]
      exact hset st
    · rcases h with h | h
      · left
        rw [downloadAsset_get_other P env outputPath st b k hb.1 hb.2]
        exact h
      · rcases List.mem_cons.1 h with h2 | h2
        · left
          rw [← h2]
          exact hset st
        · exact Or.inr h2

/-- After `downloadAssets`, whatever the order of completion, a key that a
stored asset sets and that no other asset touches has the local path of that
asset. -/
theorem downloadAssetsFrom_get (P : Platform) (env : Env) (outputPath : Str)
    (completion : List Asset → List Asset) (hperm : ∀ batch, (completion batch).Perm batch)
    (assets : List Asset) (a : Asset) (k localPath : Str)
    (hset : ∀ st : ClonerState,
      mapGet (downloadAsset P env outputPath st a).assetMap k = some localPath)
    (hl : ∀ b ∈ assets, b = a ∨ (k ≠ b.url ∧ k ≠ b.originalUrl))
    (fuel i : Nat) (st : ClonerState)
    (h : mapGet st.assetMap k = some localPath ∨
      (a ∈ assets.drop i ∧ assets.length ≤ i + 10 * fuel)) :
    mapGet (downloadAssetsFrom P env outputPath completion assets fuel i st).assetMap k
      = some localPath := by
  induction fuel generalizing i st with
  | zero =>
    rcases h with h | ⟨h, hlen⟩
    · exact h
    · rw [List.drop_eq_nil_of_le (by omega)] at h
      simp at h
  | succ fuel ih =>
    rw [downloadAssetsFrom]
    split_ifs with hi
    · dsimp only
      apply ih
      have hbatch : ∀ b ∈ completion ((assets.drop i).take 10),
          b = a ∨ (k ≠ b.url ∧ k ≠ b.originalUrl) := fun b hb =>
        hl b (List.mem_of_mem_drop (List.mem_of_mem_take ((hperm _).mem_iff.1 hb)))
      rcases h with h | ⟨h, hlen⟩
      · left
        simp only [ClonerState.log]
        exact foldl_downloadAsset_get P env outputPath a k localPath hset _ hbatch st (Or.inl h)
      · rw [← List.take_append_drop 10 (assets.drop i)] at h
        rcases List.mem_append.1 h with h2 | h2
        · left
          simp only [ClonerState.log]
          exact foldl_downloadAsset_get P env outputPath a k localPath hset _ hbatch st
            (Or.inr ((hperm _).mem_iff.2 h2))
        · right
          rw [List.drop_drop] at h2
          refine ⟨by simpa [Nat.add_comm] using h2, by omega⟩
    · rcases h with h | ⟨h, hlen⟩
      · exact h
      · rw [List.drop_eq_nil_of_le (by omega)] at h
        simp at h

/-- C6, as amended: take any list of references of a document in which the
resolved URLs resolve to themselves, a reference text `r1` that is the first one
to resolve to the URL `U`, and a text `r2`, different from `r1` and from `U`,
that resolves to `U` as well.  Discovery keeps for `U` the asset with `r1` as
its reference text, and when `U` is fetched and stored, the asset map after
`collectAssets` and `downloadAssets`, started with an empty map and whatever the
order in which the downloads of a batch complete, sends `U` and `r1` to the same
local path and has no key `r2`. -/
theorem assetMap_first_reference (P : Platform) (env : Env) (outputPath finalUrl : Str)
    (completion : List Asset → List Asset) (st : ClonerState) (pre post : List (Str × Str))
    (r1 t1 r2 : Str) (response : Response) (buffer assetType ext : Str)
    (hperm : ∀ batch, (completion batch).Perm batch)
    (hst : st.assetMap = [])
    (hfirst : ∀ x ∈ pre, resolveUrl P finalUrl x.1 ≠ resolveUrl P finalUrl r1)
    (hnormal : ∀ x ∈ pre ++ (r1, t1) :: post,
      resolveUrl P finalUrl (resolveUrl P finalUrl x.1) = resolveUrl P finalUrl x.1)
    (h1 : r1 ≠ []) (h1d : isDataUrl r1 = false)
    (hU : resolveUrl P finalUrl r1 ≠ []) (hUd : isDataUrl (resolveUrl P finalUrl r1) = false)
    (hsame : resolveUrl P finalUrl r2 = resolveUrl P finalUrl r1)
    (h21 : r2 ≠ r1) (h2U : r2 ≠ resolveUrl P finalUrl r1)
    (hget : env.get (resolveUrl P finalUrl r1) = .ok response) (hok : response.ok = true)
    (hbody : response.body = .ok buffer)
    (htype : getAssetType P (resolveUrl P finalUrl r1) response.contentTypeOrEmpty
      = some assetType)
    (hext : getExtension P (resolveUrl P finalUrl r1) response.contentTypeOrEmpty = .text ext)
    (hwrite : env.writeFile (pathJoin [outputPath, "assets/".toList ++ assetType ++
      "/".toList ++ hashString (resolveUrl P finalUrl r1) ++ ext]) = none) :
    ({ url := resolveUrl P finalUrl r1, type := t1, originalUrl := r1 } : Asset)
      ∈ addAssets P finalUrl (pre ++ (r1, t1) :: post) ∧
    ∃ localPath,
      mapGet (downloadAssets P env outputPath completion
        (addAssets P finalUrl (pre ++ (r1, t1) :: post)) st).assetMap
        (resolveUrl P finalUrl r1) = some localPath ∧
      mapGet (downloadAssets P env outputPath completion
        (addAssets P finalUrl (pre ++ (r1, t1) :: post)) st).assetMap r1 = some localPath ∧
      mapGet (downloadAssets P env outputPath completion
        (addAssets P finalUrl (pre ++ (r1, t1) :: post)) st).assetMap r2 = none := by
  have hmem := addAssets_first_reference P finalUrl pre post r1 t1 hfirst
    (fun x hx => hnormal x (List.mem_append_left _ hx)) h1 h1d hU hUd
  obtain ⟨hspec, hinj⟩ := addAssets_spec P finalUrl (pre ++ (r1, t1) :: post)
  generalize hrefs : pre ++ (r1, t1) :: post = refs at *
  have hr1 : resolveUrl P finalUrl (resolveUrl P finalUrl r1) = resolveUrl P finalUrl r1 :=
    hnormal (r1, t1) (by rw [← hrefs]; simp)
  generalize hUdef : resolveUrl P finalUrl r1 = U at *
  -- the only asset with the URL `U`, the reference text `U` or `r1`, or the URL `r1`
  have hown : ∀ b ∈ addAssets P finalUrl refs,
      (b.url = U ∨ b.originalUrl = U ∨ b.originalUrl = r1 ∨ b.url = r1) →
      b = { url := U, type := t1, originalUrl := r1 } := by
    intro b hb hcase
    apply hinj b hb _ hmem
    obtain ⟨⟨x, hx, hbx⟩, hburl⟩ := hspec b hb
    rcases hcase with h | h | h | h
    · exact h
    · show b.url = U
      rw [hburl, h, hr1]
    · show b.url = U
      rw [hburl, h, hUdef]
    · show b.url = U
      have h2 := hnormal x hx
      rw [← hbx, ← hburl, h, hUdef] at h2
      rw [h, ← h2]
  have hr2 : ∀ b ∈ addAssets P finalUrl refs, r2 ≠ b.url ∧ r2 ≠ b.originalUrl := by
    intro b hb
    obtain ⟨⟨x, hx, hbx⟩, hburl⟩ := hspec b hb
    constructor
    · intro h
      have h2 := hnormal x hx
      rw [← hbx, ← hburl, ← h, hsame] at h2
      exact h2U h2.symm
    · intro h
      have hb2 : b.url = U := by rw [hburl, ← h, hsame]
      have := hown b hb (Or.inl hb2)
      rw [this] at h
      exact h21 h
  have hsucc : ∀ st0 : ClonerState,
      (downloadAsset P env outputPath st0 { url := U, type := t1, originalUrl := r1 }).assetMap
        = mapSet (mapSet st0.assetMap U
            ("assets/".toList ++ assetType ++ "/".toList ++ hashString U ++ ext)) r1
            ("assets/".toList ++ assetType ++ "/".toList ++ hashString U ++ ext) := fun st0 =>
    downloadAsset_success P env outputPath st0 _ response _ buffer assetType ext hget hok rfl
      hbody htype hext hwrite
  have hsetU : ∀ st0 : ClonerState,
      mapGet (downloadAsset P env outputPath st0
        { url := U, type := t1, originalUrl := r1 }).assetMap U
        = some ("assets/".toList ++ assetType ++ "/".toList ++ hashString U ++ ext) := by
    intro st0
    rw [hsucc st0]
    by_cases h : U = r1
    · rw [← h]
      exact mapGet_mapSet_self _ _ _
    · rw [mapGet_mapSet_of_ne _ _ _ _ h]
      exact mapGet_mapSet_self _ _ _
  have hsetr : ∀ st0 : ClonerState,
      mapGet (downloadAsset P env outputPath st0
        { url := U, type := t1, originalUrl := r1 }).assetMap r1
        = some ("assets/".toList ++ assetType ++ "/".toList ++ hashString U ++ ext) := by
    intro st0
    rw [hsucc st0]
    exact mapGet_mapSet_self _ _ _
  refine ⟨hmem, "assets/".toList ++ assetType ++ "/".toList ++ hashString U ++ ext,
    ?_, ?_, ?_⟩
  · unfold downloadAssets
    apply downloadAssetsFrom_get P env outputPath completion hperm _ _ _ _ hsetU
    · intro b hb
      by_cases h : U = b.url
      · exact Or.inl (hown b hb (Or.inl h.symm))
      · by_cases h2 : U = b.originalUrl
        · exact Or.inl (hown b hb (Or.inr (Or.inl h2.symm)))
        · exact Or.inr ⟨h, h2⟩
    · right
      exact ⟨by simpa using hmem, by omega⟩
  · unfold downloadAssets
    apply downloadAssetsFrom_get P env outputPath completion hperm _ _ _ _ hsetr
    · intro b hb
      by_cases h : r1 = b.url
      · exact Or.inl (hown b hb (Or.inr (Or.inr (Or.inr h.symm))))
      · by_cases h2 : r1 = b.originalUrl
        · exact Or.inl (hown b hb (Or.inr (Or.inr (Or.inl h2.symm))))
        · exact Or.inr ⟨h, h2⟩
    · right
      exact ⟨by simpa using hmem, by omega⟩
  · unfold downloadAssets
    rw [downloadAssetsFrom_get_other P env outputPath completion hperm _ r2 hr2, hst]
    rfl

/-- Witness of C6 as amended: the images `logo.png`, `a.png` and `./a.png` of a
document of the page `https://x.test/`, the downloads of a batch completing in
reverse order. -/
theorem assetMap_first_reference_witness :
    ({ url := "https://x.test/a.png".toList, type := "images".toList,
       originalUrl := "a.png".toList } : Asset)
      ∈ collectAssets nodePlatform "https://x.test/".toList
          { exampleDocument with
            imgSrcs := ["logo.png".toList, "a.png".toList, "./a.png".toList] } ∧
    ∃ localPath,
      mapGet (downloadAssets nodePlatform envPng "/out".toList List.reverse
        (collectAssets nodePlatform "https://x.test/".toList
          { exampleDocument with
            imgSrcs := ["logo.png".toList, "a.png".toList, "./a.png".toList] })
        emptyState).assetMap "https://x.test/a.png".toList = some localPath ∧
      mapGet (downloadAssets nodePlatform envPng "/out".toList List.reverse
        (collectAssets nodePlatform "https://x.test/".toList
          { exampleDocument with
            imgSrcs := ["logo.png".toList, "a.png".toList, "./a.png".toList] })
        emptyState).assetMap "a.png".toList = some localPath ∧
      mapGet (downloadAssets nodePlatform envPng "/out".toList List.reverse
        (collectAssets nodePlatform "https://x.test/".toList
          { exampleDocument with
            imgSrcs := ["logo.png".toList, "a.png".toList, "./a.png".toList] })
        emptyState).assetMap "./a.png".toList = none :=
  assetMap_first_reference nodePlatform envPng "/out".toList "https://x.test/".toList
    List.reverse emptyState [("logo.png".toList, "images".toList)]
    [("./a.png".toList, "images".toList)] "a.png".toList "images".toList "./a.png".toList
    responsePng "PNG".toList "images".toList ".png".toList
    (fun batch => List.reverse_perm batch) rfl (by decide) (by decide) (by decide) (by decide)
    (by decide) (by decide) (by decide) (by decide) (by decide) rfl rfl rfl (by decide)
    (by decide) rfl

/-- C6 fails as stated: on the page `https://x.test/` the reference texts
`a.png` and `./a.png` resolve to the same URL, which is fetched and stored, and
the asset map has keys for the URL and for `a.png` but none for `./a.png`. -/
theorem assetMap_second_reference_counterexample :
    resolveUrl nodePlatform "https://x.test/".toList "a.png".toList
      = "https://x.test/a.png".toList ∧
    resolveUrl nodePlatform "https://x.test/".toList "./a.png".toList
      = "https://x.test/a.png".toList ∧
    ((downloadAssets nodePlatform envPng "/out".toList (fun batch => batch)
      (addAssets nodePlatform "https://x.test/".toList
        [("a.png".toList, "images".toList), ("./a.png".toList, "images".toList)])
      emptyState).assetMap.map Prod.fst)
      = ["https://x.test/a.png".toList, "a.png".toList] ∧
    mapGet (downloadAssets nodePlatform envPng "/out".toList (fun batch => batch)
      (addAssets nodePlatform "https://x.test/".toList
        [("a.png".toList, "images".toList), ("./a.png".toList, "images".toList)])
      emptyState).assetMap "./a.png".toList = none := by
  decide

/-- Why the resolved URLs are required to resolve to themselves.  The reference
`//x.test/./a.png` is only given the protocol of the page, so its resolved URL
`https://x.test/./a.png` is not normalised; that text is then a key of the asset
map although, as a reference, it resolves to the URL of `a.png`, met first. -/
theorem assetMap_unnormalised_reference_example :
    resolveUrl nodePlatform "https://x.test/".toList "//x.test/./a.png".toList
      = "https://x.test/./a.png".toList ∧
    resolveUrl nodePlatform "https://x.test/".toList "https://x.test/./a.png".toList
      = "https://x.test/a.png".toList ∧
    ((downloadAssets nodePlatform envPng "/out".toList (fun batch => batch)
      (addAssets nodePlatform "https://x.test/".toList
        [("a.png".toList, "images".toList), ("//x.test/./a.png".toList, "images".toList),
         ("https://x.test/./a.png".toList, "images".toList)])
      emptyState).assetMap.map Prod.fst)
      = ["https://x.test/a.png".toList, "a.png".toList, "https://x.test/./a.png".toList,
         "//x.test/./a.png".toList] := by
  decide


/-- The scan of `split` never returns an empty list. -/
theorem jsSplitGo_ne_nil (sep : Str) (skip : Nat) (cur text : Str) :
    jsSplitGo sep skip cur text ≠ [] := by
  induction text generalizing skip cur with
  | nil => simp [jsSplitGo]
  | cons c t ih =>
    cases skip with
    | zero =>
      rw [jsSplitGo]
      split_ifs
      · simp
      · exact ih _ _
    | succ k =>
      rw [jsSplitGo]
      exact ih _ _

/-- Joining a list of pieces of which the first is followed by others. -/
theorem intercalate_cons_of_ne_nil (rel x : Str) (rest : List Str) (h : rest ≠ []) :
    rel.intercalate (x :: rest) = x ++ rel ++ rel.intercalate rest := by
  cases rest with
  | nil => exact absurd rfl h
  | cons y ys => simp [List.intercalate, List.intersperse]

/-- The piece being read goes in front of the joined pieces. -/
theorem intercalate_jsSplitGo (rel sep : Str) (skip : Nat) (cur text : Str) :
    rel.intercalate (jsSplitGo sep skip cur text)
      = cur.reverse ++ rel.intercalate (jsSplitGo sep skip [] text) := by
  induction text generalizing skip cur with
  | nil => simp [jsSplitGo, List.intercalate]
  | cons c t ih =>
    cases skip with
    | zero =>
      simp only [jsSplitGo]
      split_ifs
      · rw [intercalate_cons_of_ne_nil _ _ _ (jsSplitGo_ne_nil _ _ _ _),
          intercalate_cons_of_ne_nil _ _ _ (jsSplitGo_ne_nil _ _ _ _)]
        simp
      · rw [ih 0 (c :: cur), ih 0 [c]]
        simp
    | succ k =>
      simp only [jsSplitGo]
      exact ih k cur

/-- `split` and `join` copy a character at which the separator does not start. -/
theorem splitJoin_copy (rel sep : Str) (c : Char) (t : Str)
    (h : startsWith (c :: t) sep = false) :
    rel.intercalate (jsSplitGo sep 0 [] (c :: t))
      = c :: rel.intercalate (jsSplitGo sep 0 [] t) := by
  rw [jsSplitGo, h]
  simp only [Bool.false_eq_true, if_false]
  rw [intercalate_jsSplitGo]
  rfl

/-- The scan of `split` passes over the characters of a separator. -/
theorem jsSplitGo_skip (sep x cur t : Str) :
    jsSplitGo sep x.length cur (x ++ t) = jsSplitGo sep 0 cur t := by
  induction x with
  | nil => cases t <;> rfl
  | cons c x ih => simpa [jsSplitGo] using ih

/-- `split` and `join` replace a separator at the start of the text. -/
theorem splitJoin_match (rel sep t : Str) (hne : sep ≠ []) :
    rel.intercalate (jsSplitGo sep 0 [] (sep ++ t))
      = rel ++ rel.intercalate (jsSplitGo sep 0 [] t) := by
  cases sep with
  | nil => exact absurd rfl hne
  | cons c x =>
    have hs : startsWith (c :: (x ++ t)) (c :: x) = true := by
      simp [startsWith]
    rw [List.cons_append, jsSplitGo, hs]
    simp only [if_true, List.length_cons, Nat.add_sub_cancel]
    rw [jsSplitGo_skip, intercalate_cons_of_ne_nil _ _ _ (jsSplitGo_ne_nil _ _ _ _)]
    simp

/-- A key that cannot overlap a text is not empty. -/
theorem canOverlap_ne_nil (key text : Str) (h : canOverlap key text = false) : key ≠ [] := by
  intro h0
  simp [canOverlap, h0] at h

/-- A key that cannot overlap a text does not start at a position of the text,
whatever follows the text. -/
theorem canOverlap_inside (key text : Str) (h : canOverlap key text = false)
    (s1 s2 after : Str) (hs : text = s1 ++ s2) (hne : s2 ≠ []) :
    startsWith (s2 ++ after) key = false := by
  cases hsw : startsWith (s2 ++ after) key with
  | false => rfl
  | true =>
    exfalso
    have h1 : key <+: s2 ++ after := by simpa [startsWith] using hsw
    have h2 : key <+: s2 ∨ s2 <+: key :=
      List.prefix_or_prefix_of_prefix h1 (List.prefix_append s2 after)
    have hp : s1.length < text.length := by
      rw [hs, List.length_append]
      have := List.length_pos.2 hne
      omega
    have hd : text.drop s1.length = s2 := by rw [hs]; simp
    have : prefixEither key (text.drop s1.length) = true := by
      rw [hd]
      unfold prefixEither
      rcases h2 with h2 | h2
      · simp [List.isPrefixOf_iff_prefix.2 h2]
      · simp [List.isPrefixOf_iff_prefix.2 h2]
    have h3 : (List.range text.length).any (fun p => prefixEither key (text.drop p)) = true :=
      List.any_eq_true.2 ⟨s1.length, List.mem_range.2 hp, this⟩
    simp [canOverlap, h3] at h

/-- A key that cannot overlap a text and starts before the text ends before
it. -/
theorem canOverlap_before (key text : Str) (h : canOverlap key text = false) (hne : text ≠ [])
    (b after : Str) (hsw : key <+: b ++ (text ++ after)) : key <+: b := by
  rcases List.prefix_or_prefix_of_prefix hsw (List.prefix_append b (text ++ after)) with h1 | h1
  · exact h1
  · obtain ⟨k2, hk⟩ := h1
    by_cases hk2 : k2 = []
    · rw [hk2, List.append_nil] at hk
      rw [hk]
    · exfalso
      have h2 : k2 <+: text ++ after := by
        rw [← hk] at hsw
        exact (List.prefix_append_right_inj b).1 hsw
      by_cases hb : b = []
      · rw [hb, List.nil_append] at hk
        have := canOverlap_inside key text h [] text after rfl hne
        rw [hk] at h2
        simp [startsWith, List.isPrefixOf_iff_prefix.2 h2] at this
      · have h3 : k2 <+: text ∨ text <+: k2 :=
          List.prefix_or_prefix_of_prefix h2 (List.prefix_append text after)
        have hd : key.drop b.length = k2 := by rw [← hk]; simp
        have hlen : b.length < key.length := by
          rw [← hk, List.length_append]
          have := List.length_pos.2 hk2
          omega
        have : prefixEither (key.drop b.length) text = true := by
          rw [hd]
          unfold prefixEither
          rcases h3 with h3 | h3
          · simp [List.isPrefixOf_iff_prefix.2 h3]
          · simp [List.isPrefixOf_iff_prefix.2 h3]
        have h4 : (List.range key.length).any
            (fun i => decide (0 < i) && prefixEither (key.drop i) text) = true :=
          List.any_eq_true.2 ⟨b.length, List.mem_range.2 hlen, by
            simp [this, List.length_pos.2 hb]⟩
        simp [canOverlap, h4] at h

/-- `split` and `join` copy a text that the separator cannot overlap, once the
scan has reached it. -/
theorem splitJoin_through (rel key text after : Str) (h : canOverlap key text = false)
    (s1 s2 : Str) (hs : text = s1 ++ s2) :
    rel.intercalate (jsSplitGo key 0 [] (s2 ++ after))
      = s2 ++ rel.intercalate (jsSplitGo key 0 [] after) := by
  induction s2 generalizing s1 with
  | nil => rfl
  | cons c s2 ih =>
    rw [List.cons_append, splitJoin_copy rel key c (s2 ++ after)
      (canOverlap_inside key text h s1 (c :: s2) after hs (by simp)),
      ih (s1 ++ [c]) (by simp [hs])]
    rfl

/-- `split` and `join` with a separator that cannot overlap a part of the text
leave that part in place. -/
theorem splitJoin_keeps (rel key text : Str) (h : canOverlap key text = false) (hne : text ≠ [])
    (n : Nat) (b after : Str) (hn : b.length ≤ n) :
    ∃ b2, rel.intercalate (jsSplitGo key 0 [] (b ++ (text ++ after)))
      = b2 ++ (text ++ rel.intercalate (jsSplitGo key 0 [] after)) := by
  induction n generalizing b with
  | zero =>
    have hb : b = [] := List.length_eq_zero.1 (Nat.le_zero.1 hn)
    subst hb
    exact ⟨[], by
      rw [List.nil_append, splitJoin_through rel key text after h [] text rfl]
      rfl⟩
  | succ n ih =>
    cases b with
    | nil =>
      exact ⟨[], by
        rw [List.nil_append, splitJoin_through rel key text after h [] text rfl]
        rfl⟩
    | cons c b1 =>
      cases hsw : startsWith (c :: b1 ++ (text ++ after)) key with
      | false =>
        obtain ⟨b2, hb2⟩ := ih b1 (by simpa using hn)
        refine ⟨c :: b2, ?_⟩
        have hsw2 : startsWith (c :: (b1 ++ (text ++ after))) key = false := hsw
        rw [List.cons_append, splitJoin_copy rel key c _ hsw2, hb2]
        rfl
      | true =>
        have h1 : key <+: (c :: b1) ++ (text ++ after) := by simpa [startsWith] using hsw
        obtain ⟨b3, hb3⟩ := canOverlap_before key text h hne (c :: b1) after h1
        have hkne := canOverlap_ne_nil key text h
        have hlen : b3.length ≤ n := by
          have := congrArg List.length hb3
          rw [List.length_append] at this
          have hk := List.length_pos.2 hkne
          simp only [List.length_cons] at this hn
          omega
        obtain ⟨b2, hb2⟩ := ih b3 hlen
        refine ⟨rel ++ b2, ?_⟩
        rw [← hb3, List.append_assoc, splitJoin_match rel key _ hkne, hb2]
        simp

/-- One step of the rewriting of a style sheet, for a key that cannot overlap a
part of the text, leaves that part in place. -/
theorem rewriteCssEntry_keeps (cwd cssLocalPath ref : Str) (hne : ref ≠ [])
    (entry : Str × Str) (h : canOverlap entry.1 ref = false) (b after : Str) :
    ∃ b2 after2, rewriteCssEntry cwd cssLocalPath (b ++ ref ++ after) entry
      = b2 ++ ref ++ after2 := by
  unfold rewriteCssEntry jsSplit
  simp only [if_neg (canOverlap_ne_nil _ _ h)]
  obtain ⟨b2, hb2⟩ := splitJoin_keeps
    ((pathRelative cwd (pathDirname cssLocalPath) entry.2).map fun c =>
      if c = '\\' then '/' else c) entry.1 ref h hne b.length b after (Nat.le_refl _)
  exact ⟨b2, _, by rw [List.append_assoc, hb2, List.append_assoc]⟩

/-- The rewriting of a style sheet with keys none of which can overlap a part
of the text leaves that part in place. -/
theorem foldl_rewriteCssEntry_keeps (cwd cssLocalPath ref : Str) (hne : ref ≠ [])
    (assetMap : List (Str × Str)) (h : ∀ e ∈ assetMap, canOverlap e.1 ref = false)
    (b after : Str) :
    ∃ b2 after2, assetMap.foldl (rewriteCssEntry cwd cssLocalPath) (b ++ ref ++ after)
      = b2 ++ ref ++ after2 := by
  induction assetMap generalizing b after with
  | nil => exact ⟨b, after, rfl⟩
  | cons e m ih =>
    obtain ⟨b1, a1, h1⟩ := rewriteCssEntry_keeps cwd cssLocalPath ref hne e
      (h e (List.mem_cons_self _ _)) b after
    rw [List.foldl_cons, h1]
    exact ih (fun x hx => h x (List.mem_cons_of_mem _ hx)) b1 a1

/-- A key of the asset map after the body of the inner loop of
`processCssAssets` was there before, or it is the URL or its resolution and the
fetch did not fail. -/
theorem processCssUrl_key (P : Platform) (env : Env) (outputPath cssUrl : Str)
    (st : ClonerState) (url : Str) (e : Str × Str)
    (h : e ∈ (processCssUrl P env outputPath cssUrl st url).assetMap) :
    e ∈ st.assetMap ∨ (fetchFails env (resolveUrl P cssUrl url) = false ∧
      (e.1 = url ∨ e.1 = resolveUrl P cssUrl url)) := by
  unfold processCssUrl at h
  split_ifs at h with h1
  · exact Or.inl h
  · dsimp only at h
    split_ifs at h with h2
    · exact Or.inl h
    · split at h
      · exact Or.inl h
      · rename_i response hget
        split_ifs at h with hok
        · split at h
          · split at h
            · exact Or.inl h
            · split at h
              · exact Or.inl h
              · have hf : fetchFails env (resolveUrl P cssUrl url) = false := by
                  simp [fetchFails, hget, hok]
                rcases mem_mapSet _ _ _ _ h with h3 | h3
                · rcases mem_mapSet _ _ _ _ h3 with h4 | h4
                  · exact Or.inl h4
                  · exact Or.inr ⟨hf, Or.inr (by rw [h4])⟩
                · exact Or.inr ⟨hf, Or.inl (by rw [h3])⟩
          · exact Or.inl h
        · exact Or.inl h

/-- A key of the asset map after the inner loop of `processCssAssets` was there
before, or it is one of the URLs or its resolution and the fetch did not fail. -/
theorem foldl_processCssUrl_key (P : Platform) (env : Env) (outputPath cssUrl : Str)
    (urls : List Str) (st : ClonerState) (e : Str × Str)
    (h : e ∈ (urls.foldl (processCssUrl P env outputPath cssUrl) st).assetMap) :
    e ∈ st.assetMap ∨ ∃ url ∈ urls, fetchFails env (resolveUrl P cssUrl url) = false ∧
      (e.1 = url ∨ e.1 = resolveUrl P cssUrl url) := by
  induction urls generalizing st with
  | nil => exact Or.inl h
  | cons u urls ih =>
    rcases ih _ h with h1 | ⟨url, hu, h1⟩
    · rcases processCssUrl_key P env outputPath cssUrl st u e h1 with h2 | h2
      · exact Or.inl h2
      · exact Or.inr ⟨u, List.mem_cons_self _ _, h2⟩
    · exact Or.inr ⟨url, List.mem_cons_of_mem _ hu, h1⟩

/-- The body of the outer loop of `processCssAssets` writes a text that
contains a part of the fetched text, when no key that the asset map holds at
that point can overlap that part, every nested URL either fails to be fetched
or cannot overlap it, and the write succeeds. -/
theorem processCssEntry_keeps (P : Platform) (env : Env) (cwd outputPath : Str)
    (st : ClonerState) (entry : Str × CssData) (before ref after : Str)
    (hcontent : entry.2.content = before ++ ref ++ after) (hne : ref ≠ [])
    (hmap : ∀ e ∈ st.assetMap, canOverlap e.1 ref = false)
    (hnested : ∀ url ∈ extractCssUrls P.canonicalize entry.2.content,
      fetchFails env (resolveUrl P entry.1 url) = true ∨
      (canOverlap url ref = false ∧ canOverlap (resolveUrl P entry.1 url) ref = false))
    (hwrite : env.writeFile (pathJoin [outputPath, entry.2.localPath]) = none) :
    (processCssEntry P env cwd outputPath st entry).2 = none ∧
    ∃ before2 after2,
      mapGet (processCssEntry P env cwd outputPath st entry).1.files
        (pathJoin [outputPath, entry.2.localPath]) = some (before2 ++ ref ++ after2) := by
  have hkeys : ∀ e ∈ ((extractCssUrls P.canonicalize entry.2.content).foldl
      (processCssUrl P env outputPath entry.1) st).assetMap, canOverlap e.1 ref = false := by
    intro e he
    rcases foldl_processCssUrl_key P env outputPath entry.1 _ st e he with h1 | ⟨url, hu, hf, h1⟩
    · exact hmap e h1
    · rcases hnested url hu with h2 | h2
      · rw [hf] at h2
        exact absurd h2 (by decide)
      · rcases h1 with h1 | h1
        · rw [h1]
          exact h2.1
        · rw [h1]
          exact h2.2
  generalize hm : ((extractCssUrls P.canonicalize entry.2.content).foldl
      (processCssUrl P env outputPath entry.1) st).assetMap = m at hkeys
  obtain ⟨b2, a2, h2⟩ := foldl_rewriteCssEntry_keeps cwd entry.2.localPath ref hne m hkeys
    before after
  unfold processCssEntry
  simp only [hwrite, hm]
  refine ⟨trivial, b2, a2, ?_⟩
  rw [mapGet_mapSet_self, hcontent, h2]

/-- A key of the asset map after the body of the outer loop of
`processCssAssets` was there before, or it is a nested URL of the style sheet
or its resolution and the fetch did not fail. -/
theorem processCssEntry_key (P : Platform) (env : Env) (cwd outputPath : Str)
    (st : ClonerState) (entry : Str × CssData) (e : Str × Str)
    (h : e ∈ (processCssEntry P env cwd outputPath st entry).1.assetMap) :
    e ∈ st.assetMap ∨ ∃ url ∈ extractCssUrls P.canonicalize entry.2.content,
      fetchFails env (resolveUrl P entry.1 url) = false ∧
      (e.1 = url ∨ e.1 = resolveUrl P entry.1 url) := by
  apply foldl_processCssUrl_key P env outputPath entry.1 _ st e
  unfold processCssEntry at h
  dsimp only at h
  split at h
  · exact h
  · exact h

/-- The outer loop of `processCssAssets` over a list of style sheets followed by
another list. -/
theorem processCssEntries_append (P : Platform) (env : Env) (cwd outputPath : Str)
    (l1 l2 : List (Str × CssData)) (st : ClonerState)
    (h : (processCssEntries P env cwd outputPath l1 st).2 = none) :
    processCssEntries P env cwd outputPath (l1 ++ l2) st
      = processCssEntries P env cwd outputPath l2
          (processCssEntries P env cwd outputPath l1 st).1 := by
  induction l1 generalizing st with
  | nil => rfl
  | cons entry rest ih =>
    rw [List.cons_append, processCssEntries]
    rw [processCssEntries] at h ⊢
    split
    · rename_i st1 message heq
      rw [heq] at h
      simp at h
    · rename_i st1 heq
      simp only [heq] at h ⊢
      exact ih st1 h

/-- The outer loop of `processCssAssets` over style sheets whose writes all
succeed ends normally, and a key of the asset map afterwards was there before,
or it is a nested URL of one of the style sheets or its resolution and the
fetch did not fail. -/
theorem processCssEntries_key (P : Platform) (env : Env) (cwd outputPath : Str)
    (l : List (Str × CssData)) (st : ClonerState)
    (hwrite : ∀ sheet ∈ l, env.writeFile (pathJoin [outputPath, sheet.2.localPath]) = none) :
    (processCssEntries P env cwd outputPath l st).2 = none ∧
    ∀ e ∈ (processCssEntries P env cwd outputPath l st).1.assetMap,
      e ∈ st.assetMap ∨ ∃ sheet ∈ l, ∃ url ∈ extractCssUrls P.canonicalize sheet.2.content,
        fetchFails env (resolveUrl P sheet.1 url) = false ∧
        (e.1 = url ∨ e.1 = resolveUrl P sheet.1 url) := by
  induction l generalizing st with
  | nil => exact ⟨rfl, fun e he => Or.inl he⟩
  | cons entry rest ih =>
    have hw := hwrite entry (List.mem_cons_self _ _)
    have hnone : (processCssEntry P env cwd outputPath st entry).2 = none := by
      unfold processCssEntry
      simp only [hw]
    have hkey := processCssEntry_key P env cwd outputPath st entry
    rw [processCssEntries]
    split
    · rename_i st1 message heq
      rw [heq] at hnone
      simp at hnone
    · rename_i st1 heq
      rw [heq] at hkey
      obtain ⟨h1, h2⟩ := ih st1 fun x hx => hwrite x (List.mem_cons_of_mem _ hx)
      refine ⟨h1, fun e he => ?_⟩
      rcases h2 e he with h3 | ⟨sheet, hs, h3⟩
      · rcases hkey e h3 with h4 | h4
        · exact Or.inl h4
        · exact Or.inr ⟨entry, List.mem_cons_self _ _, h4⟩
      · exact Or.inr ⟨sheet, List.mem_cons_of_mem _ hs, h3⟩

/-- C12, as amended: take a run of `processCssAssets`, a retained style sheet
and a part `ref` of its fetched text, such as a nested `url()` reference whose
fetch fails.  If no key of the asset map at the start of the run can overlap
`ref`, every nested URL of the style sheets up to this one either fails to be
fetched or cannot overlap `ref`, neither as written nor resolved, and the
writes of the style sheets up to this one succeed, then once the loop has
handled the style sheet its file holds a text that contains `ref`, and the run
goes on from that state with the remaining style sheets. -/
theorem processCssAssets_keeps_reference (P : Platform) (env : Env) (cwd outputPath : Str)
    (st : ClonerState) (pre post : List (Str × CssData)) (entry : Str × CssData)
    (before ref after : Str)
    (hsheets : st.cssUrls = pre ++ entry :: post)
    (hcontent : entry.2.content = before ++ ref ++ after) (hne : ref ≠ [])
    (hmap : ∀ e ∈ st.assetMap, canOverlap e.1 ref = false)
    (hnested : ∀ sheet ∈ pre ++ [entry],
      ∀ url ∈ extractCssUrls P.canonicalize sheet.2.content,
        fetchFails env (resolveUrl P sheet.1 url) = true ∨
        (canOverlap url ref = false ∧ canOverlap (resolveUrl P sheet.1 url) ref = false))
    (hwrite : ∀ sheet ∈ pre ++ [entry],
      env.writeFile (pathJoin [outputPath, sheet.2.localPath]) = none) :
    (∃ before2 after2,
      mapGet (processCssEntries P env cwd outputPath (pre ++ [entry]) st).1.files
        (pathJoin [outputPath, entry.2.localPath]) = some (before2 ++ ref ++ after2)) ∧
    processCssAssets P env cwd outputPath st
      = processCssEntries P env cwd outputPath post
          (processCssEntries P env cwd outputPath (pre ++ [entry]) st).1 := by
  obtain ⟨hpre, hprekeys⟩ := processCssEntries_key P env cwd outputPath pre st
    fun x hx => hwrite x (List.mem_append_left _ hx)
  have hall := (processCssEntries_key P env cwd outputPath (pre ++ [entry]) st hwrite).1
  have hmap1 : ∀ e ∈ (processCssEntries P env cwd outputPath pre st).1.assetMap,
      canOverlap e.1 ref = false := by
    intro e he
    rcases hprekeys e he with h1 | ⟨sheet, hs, url, hu, hf, h1⟩
    · exact hmap e h1
    · rcases hnested sheet (List.mem_append_left _ hs) url hu with h2 | h2
      · rw [hf] at h2
        exact absurd h2 (by decide)
      · rcases h1 with h1 | h1
        · rw [h1]
          exact h2.1
        · rw [h1]
          exact h2.2
  have hbody := processCssEntry_keeps P env cwd outputPath
    (processCssEntries P env cwd outputPath pre st).1 entry before ref after hcontent hne hmap1
    (hnested entry (by simp)) (hwrite entry (by simp))
  have hstep : processCssEntries P env cwd outputPath (pre ++ [entry]) st
      = ((processCssEntry P env cwd outputPath
          (processCssEntries P env cwd outputPath pre st).1 entry).1, none) := by
    rw [processCssEntries_append P env cwd outputPath pre [entry] st hpre, processCssEntries]
    split
    · rename_i st1 message heq
      rw [heq] at hbody
      simp at hbody
    · rename_i st1 heq
      rw [heq]
      rfl
  constructor
  · rw [hstep]
    exact hbody.2
  · unfold processCssAssets
    rw [hsheets, show pre ++ entry :: post = (pre ++ [entry]) ++ post by simp,
      processCssEntries_append P env cwd outputPath (pre ++ [entry]) post st hall]

/-- Witness of C12 as amended: the style sheet
`a{background:url('ok.png')}b{background:url('bad.png')}` fetched from
`https://x.test/css/s.css`; `ok.png` is fetched and stored and becomes a key,
the fetch of `bad.png` is answered with the status 404, and the text written
back contains `url('bad.png')`. -/
theorem processCssAssets_keeps_reference_witness :
    (processCssAssets nodePlatform envMixed "/srv/app".toList "/out".toList
        exampleMixedState).1.assetMap.map Prod.fst
      = ["https://x.test/css/s.css".toList, "css/s.css".toList,
         "https://x.test/css/ok.png".toList, "ok.png".toList] ∧
    fetchFails envMixed "https://x.test/css/bad.png".toList = true ∧
    (∃ before2 after2,
      mapGet (processCssEntries nodePlatform envMixed "/srv/app".toList "/out".toList
          exampleMixedState.cssUrls exampleMixedState).1.files
        "/out/assets/css/ba9876543210.css".toList
        = some (before2 ++ "url('bad.png')".toList ++ after2)) ∧
    processCssAssets nodePlatform envMixed "/srv/app".toList "/out".toList exampleMixedState
      = processCssEntries nodePlatform envMixed "/srv/app".toList "/out".toList []
          (processCssEntries nodePlatform envMixed "/srv/app".toList "/out".toList
            exampleMixedState.cssUrls exampleMixedState).1 :=
  ⟨by decide, by decide,
    processCssAssets_keeps_reference nodePlatform envMixed "/srv/app".toList "/out".toList
      exampleMixedState [] []
      ("https://x.test/css/s.css".toList,
        { content := "a\x7bbackground:url('ok.png')\x7db\x7bbackground:url('bad.png')\x7d".toList,
          localPath := "assets/css/ba9876543210.css".toList })
      "a\x7bbackground:url('ok.png')\x7db\x7bbackground:".toList "url('bad.png')".toList "\x7d".toList
      rfl (by decide) (by decide) (by decide) (by decide) (by decide)⟩

/-! ## Idempotence (`rewriteHtml`) -/

/-- The state after consuming the characters of `x`. -/
theorem matchWord_decompose (cz : Char → Char) (w : Str) (st st1 : MatchState) (t t1 : Str)
    (h : matchWord cz w st t = some (st1, t1)) :
    ∃ x, t = x ++ t1 ∧ w.map cz = x.map cz ∧
      st1 = { st with consumed := x.reverse ++ st.consumed } := by
  induction w generalizing st t with
  | nil =>
    simp only [matchWord, Option.some.injEq, Prod.mk.injEq] at h
    obtain ⟨rfl, rfl⟩ := h
    exact ⟨[], rfl, rfl, rfl⟩
  | cons x w ih =>
    cases t with
    | nil => simp [matchWord] at h
    | cons c t =>
      simp only [matchWord] at h
      split_ifs at h with hc
      obtain ⟨y, hy, hm, hs⟩ := ih _ _ h
      refine ⟨c :: y, by rw [hy]; rfl, ?_, ?_⟩
      · simp only [List.map_cons, hm]
        rw [eq_of_beq hc]
      · rw [hs]
        simp [MatchState.push]

/-- A word of an alternation matches a text that is equal to it up to
canonicalisation. -/
theorem matchWord_of_map (cz : Char → Char) (w x : Str) (h : w.map cz = x.map cz)
    (st : MatchState) (t : Str) :
    matchWord cz w st (x ++ t) = some ({ st with consumed := x.reverse ++ st.consumed }, t) := by
  induction w generalizing st x with
  | nil =>
    cases x with
    | nil => rfl
    | cons c x => simp at h
  | cons k w ih =>
    cases x with
    | nil => simp at h
    | cons c x =>
      simp only [List.map_cons, List.cons.injEq] at h
      simp only [List.cons_append, matchWord, h.1, beq_self_eq_true, if_true]
      have := ih x h.2 (st.push c)
      simpa [MatchState.push] using this

/-- The greedy repetition consumes a run of characters that the atom matches
before its continuation starts. -/
theorem starLoop_decompose (cz : Char → Char) (a : Atom)
    (k : MatchState → Str → Option (MatchState × Str)) (st : MatchState) (t : Str)
    (r : MatchState × Str) (h : starLoop cz a k st t = some r) :
    ∃ u t1, t = u ++ t1 ∧ (∀ c ∈ u, a.test cz c = true) ∧
      k { st with consumed := u.reverse ++ st.consumed } t1 = some r := by
  induction t generalizing st with
  | nil => exact ⟨[], [], rfl, by simp, by simpa [starLoop] using h⟩
  | cons c t ih =>
    simp only [starLoop] at h
    split_ifs at h with hc
    · cases hrec : starLoop cz a k (st.push c) t with
      | some r1 =>
        simp only [hrec, Option.some.injEq] at h
        subst h
        obtain ⟨u, t1, ht, hu, hk⟩ := ih _ hrec
        refine ⟨c :: u, t1, by rw [ht]; rfl, ?_, ?_⟩
        · intro x hx
          rcases List.mem_cons.1 hx with rfl | hx
          · exact hc
          · exact hu x hx
        · simpa [MatchState.push] using hk
      | none =>
        simp only [hrec] at h
        exact ⟨[], c :: t, rfl, by simp, by simpa using h⟩
    · exact ⟨[], c :: t, rfl, by simp, by simpa using h⟩

/-- The greedy repetition succeeds when its continuation succeeds after some
run of characters that the atom matches. -/
theorem starLoop_isSome (cz : Char → Char) (a : Atom)
    (k : MatchState → Str → Option (MatchState × Str)) (u t1 : Str)
    (hu : ∀ c ∈ u, a.test cz c = true) (hk : ∀ st, (k st t1).isSome = true) (st : MatchState) :
    (starLoop cz a k st (u ++ t1)).isSome = true := by
  induction u generalizing st with
  | nil =>
    cases t1 with
    | nil => simpa [starLoop] using hk st
    | cons c t =>
      simp only [List.nil_append, starLoop]
      split_ifs
      · cases hrec : starLoop cz a k (st.push c) t with
        | some r1 => rfl
        | none => exact hk st
      · exact hk st
  | cons c u ih =>
    simp only [List.cons_append, starLoop, hu c (List.mem_cons_self c u), if_true]
    have := ih (fun x hx => hu x (List.mem_cons_of_mem c hx)) (st.push c)
    cases hrec : starLoop cz a k (st.push c) (u ++ t1) with
    | some r1 => rfl
    | none => simp [hrec] at this

/-- A successful alternation has read one of its words and continued. -/
theorem altLoop_decompose (cz : Char → Char) (k : MatchState → Str → Option (MatchState × Str))
    (st : MatchState) (t : Str) (ws : List Str) (r : MatchState × Str)
    (h : altLoop cz k st t ws = some r) :
    ∃ w ∈ ws, ∃ x t1, t = x ++ t1 ∧ w.map cz = x.map cz ∧
      k { st with consumed := x.reverse ++ st.consumed } t1 = some r := by
  induction ws with
  | nil => simp [altLoop] at h
  | cons w ws ih =>
    simp only [altLoop] at h
    split at h
    · rename_i st1 t1 hw
      split at h
      · rename_i r1 hk
        simp only [Option.some.injEq] at h
        subst h
        obtain ⟨x, hx, hm, hs⟩ := matchWord_decompose cz w st st1 t t1 hw
        exact ⟨w, List.mem_cons_self w ws, x, t1, hx, hm, by rw [← hs]; exact hk⟩
      · obtain ⟨w1, hw1, hr⟩ := ih h
        exact ⟨w1, List.mem_cons_of_mem w hw1, hr⟩
    · obtain ⟨w1, hw1, hr⟩ := ih h
      exact ⟨w1, List.mem_cons_of_mem w hw1, hr⟩

/-- The alternation succeeds when its continuation succeeds after one of its
words. -/
theorem altLoop_isSome (cz : Char → Char) (k : MatchState → Str → Option (MatchState × Str))
    (ws : List Str) (w : Str) (hw : w ∈ ws) (x t1 : Str) (hm : w.map cz = x.map cz)
    (hk : ∀ st, (k st t1).isSome = true) (st : MatchState) :
    (altLoop cz k st (x ++ t1) ws).isSome = true := by
  induction ws with
  | nil => simp at hw
  | cons v ws ih =>
    simp only [altLoop]
    split
    · rename_i st1 t2 hv
      split
      · rfl
      · rcases List.mem_cons.1 hw with rfl | hw
        · rename_i hnone
          rw [matchWord_of_map cz w x hm st t1] at hv
          simp only [Option.some.injEq, Prod.mk.injEq] at hv
          obtain ⟨rfl, rfl⟩ := hv
          have := hk { st with consumed := x.reverse ++ st.consumed }
          simp [hnone] at this
        · exact ih hw
    · rename_i hnone
      rcases List.mem_cons.1 hw with rfl | hw
      · rw [matchWord_of_map cz w x hm st t1] at hnone
        simp at hnone
      · exact ih hw

/-- Soundness of the matcher: what it consumes is a text that the pattern
matches. -/
theorem matchNodes_sound (cz : Char → Char) (p : Pattern) (st : MatchState) (t : Str)
    (r : MatchState × Str) (h : matchNodes cz p st t = some r) :
    ∃ x, t = x ++ r.2 ∧ r.1.consumed = x.reverse ++ st.consumed ∧ Matches cz p x := by
  induction p generalizing st t with
  | nil =>
    simp only [matchNodes, Option.some.injEq] at h
    subst h
    exact ⟨[], rfl, rfl, rfl⟩
  | cons n p ih =>
    cases n with
    | one a =>
      cases t with
      | nil => simp [matchNodes] at h
      | cons c t =>
        simp only [matchNodes] at h
        split_ifs at h with hc
        obtain ⟨x, hx, hcons, hm⟩ := ih _ _ h
        exact ⟨c :: x, by rw [hx]; rfl, by simp [hcons, MatchState.push],
          c, x, rfl, hc, hm⟩
    | opt a =>
      have hskip : matchNodes cz p st t = some r →
          ∃ x, t = x ++ r.2 ∧ r.1.consumed = x.reverse ++ st.consumed ∧
            Matches cz (.opt a :: p) x := by
        intro h1
        obtain ⟨x, hx, hcons, hm⟩ := ih _ _ h1
        exact ⟨x, hx, hcons, Or.inr hm⟩
      cases t with
      | nil =>
        simp only [matchNodes] at h
        exact hskip h
      | cons c t =>
        simp only [matchNodes] at h
        split_ifs at h with hc
        · cases hrec : matchNodes cz p (st.push c) t with
          | some r1 =>
            simp only [hrec, Option.some.injEq] at h
            subst h
            obtain ⟨x, hx, hcons, hm⟩ := ih _ _ hrec
            exact ⟨c :: x, by rw [hx]; rfl, by simp [hcons, MatchState.push],
              Or.inl ⟨c, x, rfl, hc, hm⟩⟩
          | none =>
            simp only [hrec] at h
            exact hskip h
        · exact hskip h
    | star a =>
      simp only [matchNodes] at h
      obtain ⟨u, t1, ht, hu, hk⟩ := starLoop_decompose cz a _ st t r h
      obtain ⟨x, hx, hcons, hm⟩ := ih _ _ hk
      exact ⟨u ++ x, by rw [ht, hx, List.append_assoc], by simp [hcons],
        u, x, rfl, hu, hm⟩
    | plus a =>
      cases t with
      | nil => simp [matchNodes] at h
      | cons c t =>
        simp only [matchNodes] at h
        split_ifs at h with hc
        obtain ⟨u, t1, ht, hu, hk⟩ := starLoop_decompose cz a _ _ t r h
        obtain ⟨x, hx, hcons, hm⟩ := ih _ _ hk
        exact ⟨c :: (u ++ x), by rw [ht, hx]; simp, by simp [hcons, MatchState.push],
          c, u, x, rfl, hc, hu, hm⟩
    | alt ws =>
      simp only [matchNodes] at h
      obtain ⟨w, hw, y, t1, ht, hy, hk⟩ := altLoop_decompose cz _ st t ws r h
      obtain ⟨x, hx, hcons, hm⟩ := ih _ _ hk
      exact ⟨y ++ x, by rw [ht, hx, List.append_assoc], by simp [hcons],
        w, hw, y, x, rfl, hy, hm⟩
    | groupOpen =>
      simp only [matchNodes] at h
      obtain ⟨x, hx, hcons, hm⟩ := ih _ _ h
      exact ⟨x, hx, hcons, hm⟩
    | groupClose =>
      simp only [matchNodes] at h
      obtain ⟨x, hx, hcons, hm⟩ := ih _ _ h
      exact ⟨x, hx, hcons, hm⟩

/-- Completeness of the matcher: it succeeds at the start of every text that
begins with a text that the pattern matches. -/
theorem matchNodes_complete (cz : Char → Char) (p : Pattern) (x : Str)
    (h : Matches cz p x) (st : MatchState) (rest : Str) :
    (matchNodes cz p st (x ++ rest)).isSome = true := by
  induction p generalizing st x with
  | nil =>
    simp only [Matches] at h
    subst h
    rfl
  | cons n p ih =>
    cases n with
    | one a =>
      obtain ⟨c, r1, rfl, hc, hm⟩ := h
      simp only [List.cons_append, matchNodes, hc, if_true]
      exact ih r1 hm _
    | opt a =>
      rcases h with ⟨c, r1, rfl, hc, hm⟩ | hm
      · simp only [List.cons_append, matchNodes, hc, if_true]
        have := ih r1 hm (st.push c)
        cases hrec : matchNodes cz p (st.push c) (r1 ++ rest) with
        | some r => rfl
        | none => simp [hrec] at this
      · have h0 := ih x hm st
        cases hx : x ++ rest with
        | nil =>
          simp only [matchNodes]
          rw [← hx]
          exact h0
        | cons c t =>
          simp only [matchNodes]
          rw [hx] at h0
          split_ifs
          · cases hrec : matchNodes cz p (st.push c) t with
            | some r => rfl
            | none => exact h0
          · exact h0
    | star a =>
      obtain ⟨u, r1, rfl, hu, hm⟩ := h
      simp only [matchNodes, List.append_assoc]
      exact starLoop_isSome cz a _ u (r1 ++ rest) hu (fun st1 => ih r1 hm st1) st
    | plus a =>
      obtain ⟨c, u, r1, rfl, hc, hu, hm⟩ := h
      simp only [List.cons_append, matchNodes, hc, if_true, List.append_assoc]
      exact starLoop_isSome cz a _ u (r1 ++ rest) hu (fun st1 => ih r1 hm st1) _
    | alt ws =>
      obtain ⟨w, hw, y, r1, rfl, hy, hm⟩ := h
      simp only [matchNodes, List.append_assoc]
      exact altLoop_isSome cz _ ws w hw y (r1 ++ rest) hy (fun st1 => ih r1 hm st1) st
    | groupOpen =>
      simp only [matchNodes]
      exact ih x h _
    | groupClose =>
      simp only [matchNodes]
      exact ih x h _

/-- A match at the start of a text is a text that the pattern matches,
followed by the rest of the text. -/
theorem matchAt_sound (cz : Char → Char) (p : Pattern) (t : Str) (m : Match)
    (h : matchAt cz p t = some m) : Matches cz p m.matched ∧ ∃ rest, t = m.matched ++ rest := by
  unfold matchAt at h
  split at h
  · rename_i st rest hm
    simp only [Option.some.injEq] at h
    subst h
    obtain ⟨x, hx, hc, hmx⟩ := matchNodes_sound cz p _ t _ hm
    simp only [List.append_nil] at hc
    simp only [hc, List.reverse_reverse]
    exact ⟨hmx, rest, hx⟩
  · simp at h

/-- The pattern matches at the start of every text that begins with a text
that it matches. -/
theorem matchAt_complete (cz : Char → Char) (p : Pattern) (x rest : Str)
    (h : Matches cz p x) : matchAt cz p (x ++ rest) ≠ none := by
  unfold matchAt
  have := matchNodes_complete cz p x h { consumed := [], groupStart := 0, group := none } rest
  cases hm : matchNodes cz p { consumed := [], groupStart := 0, group := none } (x ++ rest) with
  | some r => simp
  | none => simp [hm] at this

/-- A pattern that matches nowhere in a text, position by position. -/
theorem noMatch_of_matchesSomewhere (cz : Char → Char) (p : Pattern) (t : Str)
    (h : matchesSomewhere cz p t = false) : NoMatch cz p t := by
  induction t with
  | nil =>
    intro a b hab
    have hb : b = [] := by
      cases a with
      | nil => exact hab.symm
      | cons c a => simp at hab
    subst hb
    simp only [matchesSomewhere] at h
    cases hm : matchAt cz p [] with
    | none => rfl
    | some m => simp [hm] at h
  | cons c t ih =>
    simp only [matchesSomewhere, Bool.or_eq_false_iff] at h
    intro a b hab
    cases a with
    | nil =>
      simp only [List.nil_append] at hab
      subst hab
      cases hm : matchAt cz p (c :: t) with
      | none => rfl
      | some m => simp [hm] at h
    | cons x a =>
      simp only [List.cons_append, List.cons.injEq] at hab
      exact ih h.2 a b hab.2

/-- A pattern that matches at no position of a text matches nowhere in it. -/
theorem matchesSomewhere_of_noMatch (cz : Char → Char) (p : Pattern) (t : Str)
    (h : NoMatch cz p t) : matchesSomewhere cz p t = false := by
  induction t with
  | nil => simp [matchesSomewhere, h [] [] rfl]
  | cons c t ih =>
    simp only [matchesSomewhere, Bool.or_eq_false_iff]
    refine ⟨by simp [h [] (c :: t) rfl], ih fun a b hab => h (c :: a) b (by rw [hab]; rfl)⟩

/-- The first match of a scan: either the pattern matches nowhere and the scan
copies the text, or the text is a part in which no match starts, a match, and
a rest, and the result is the part, the replacement, and the scan of the
rest. -/
theorem replaceGo_first (cz : Char → Char) (p : Pattern) (nGroups : Nat) (template : Str)
    (hne : ∀ t m, matchAt cz p t = some m → m.matched ≠ []) (s before : Str) :
    (NoMatch cz p s ∧ replaceGo cz p nGroups template 0 before s = s) ∨
    ∃ pre m s2 b1 a1 before2, s = pre ++ (m.matched ++ s2) ∧
      matchAt cz p (m.matched ++ s2) = some m ∧
      (∀ a b, pre = a ++ b → b ≠ [] → matchAt cz p (b ++ (m.matched ++ s2)) = none) ∧
      replaceGo cz p nGroups template 0 before s
        = pre ++ (getSubstitution m nGroups b1 a1 template ++
            replaceGo cz p nGroups template 0 before2 s2) := by
  induction s generalizing before with
  | nil =>
    have h0 : matchAt cz p [] = none := by
      cases hm : matchAt cz p [] with
      | none => rfl
      | some m =>
        obtain ⟨rest, hr⟩ := matchAt_prefix cz p [] m hm
        have := hne [] m hm
        cases hmm : m.matched with
        | nil => exact absurd hmm this
        | cons c x => rw [hmm] at hr; simp at hr
    left
    refine ⟨?_, by simp [replaceGo, h0]⟩
    intro a b hab
    have hb : b = [] := by
      cases a with
      | nil => exact hab.symm
      | cons c a => simp at hab
    rw [hb]
    exact h0
  | cons c t ih =>
    cases hm : matchAt cz p (c :: t) with
    | none =>
      rw [replaceGo_cons_none _ _ _ _ _ _ _ hm]
      rcases ih (c :: before) with ⟨hno, heq⟩ | ⟨pre, m, s2, b1, a1, before2, hs, hmt, hpre, heq⟩
      · left
        refine ⟨?_, by rw [heq]⟩
        intro a b hab
        cases a with
        | nil =>
          simp only [List.nil_append] at hab
          rw [← hab]
          exact hm
        | cons x a =>
          simp only [List.cons_append, List.cons.injEq] at hab
          exact hno a b hab.2
      · right
        refine ⟨c :: pre, m, s2, b1, a1, before2, by rw [hs]; rfl, hmt, ?_, by rw [heq]; rfl⟩
        intro a b hab hb
        cases a with
        | nil =>
          simp only [List.nil_append] at hab
          rw [← hab, List.cons_append, ← hs]
          exact hm
        | cons x a =>
          simp only [List.cons_append, List.cons.injEq] at hab
          exact hpre a b hab.2 hb
    | some m =>
      right
      have hmne := hne _ m hm
      obtain ⟨rest, hr⟩ := matchAt_prefix cz p _ m hm
      cases hmm : m.matched with
      | nil => exact absurd hmm hmne
      | cons d x =>
        rw [hmm] at hr
        simp only [List.cons_append, List.cons.injEq] at hr
        obtain ⟨rfl, rfl⟩ := hr
        refine ⟨[], m, rest, before.reverse, (c :: (x ++ rest)).drop m.matched.length,
          x.reverse ++ (c :: before), by rw [hmm]; rfl, by rw [hmm]; exact hm, ?_, ?_⟩
        · intro a b hab hb
          cases a with
          | nil => exact absurd hab.symm hb
          | cons y a => simp at hab
        · rw [replaceGo_cons_some _ _ _ _ _ _ _ m hm (by rw [hmm]; simp), hmm]
          simp only [List.length_cons, Nat.add_sub_cancel, List.nil_append]
          rw [replaceGo_skip]

/-- The scan of a replacement leaves no match of a second pattern, when the
second pattern matches in the text only where the first one does, no match of
the second pattern starts inside a replacement, and a match of the second
pattern that runs into a replacement is found in the text as well. -/
theorem replaceGo_noMatch (cz : Char → Char) (pX pY : Pattern) (nGroups : Nat) (template : Str)
    (Block : Str → Str → Prop)
    (hne : ∀ t m, matchAt cz pX t = some m → m.matched ≠ [])
    (hblock : ∀ t m, matchAt cz pX t = some m →
      ∀ b a, Block m.matched (getSubstitution m nGroups b a template))
    (htouch : ∀ m rep, Block m rep → ∀ c1 tail r rest, c1 ≠ [] → Matches cz pY r →
      r ++ rest = c1 ++ (rep ++ tail) → c1.length < r.length →
      ∃ r1 rest1, Matches cz pY r1 ∧ c1 ++ m = r1 ++ rest1)
    (hinside : ∀ m rep, Block m rep → ∀ a1 r2 tail r rest, rep = a1 ++ r2 → r2 ≠ [] →
      Matches cz pY r → r ++ rest = r2 ++ tail → False)
    (n : Nat) (s : Str) (hn : s.length ≤ n)
    (hs : ∀ a b, s = a ++ b → matchAt cz pX b = none → matchAt cz pY b = none) (before : Str) :
    NoMatch cz pY (replaceGo cz pX nGroups template 0 before s) := by
  induction n generalizing s before with
  | zero =>
    have : s = [] := List.length_eq_zero.1 (by omega)
    subst this
    rcases replaceGo_first cz pX nGroups template hne [] before with
      ⟨hno, heq⟩ | ⟨pre, m, s2, b1, a1, before2, hs2, hmt, hpre, heq⟩
    · rw [heq]
      intro a b hab
      exact hs a b hab (hno a b hab)
    · have := hne _ m hmt
      cases hmm : m.matched with
      | nil => exact absurd hmm this
      | cons c x => rw [hmm] at hs2; cases pre <;> simp at hs2
  | succ n ih =>
    rcases replaceGo_first cz pX nGroups template hne s before with
      ⟨hno, heq⟩ | ⟨pre, m, s2, b1, a1, before2, hs2, hmt, hpre, heq⟩
    · rw [heq]
      intro a b hab
      exact hs a b hab (hno a b hab)
    · have hmne := hne _ m hmt
      have hB := hblock _ m hmt b1 a1
      have hlen : s2.length ≤ n := by
        have h1 : 0 < m.matched.length := List.length_pos.2 hmne
        have h2 := congrArg List.length hs2
        simp only [List.length_append] at h2
        omega
      have hrest := ih s2 hlen
        (fun a b hab => hs (pre ++ (m.matched ++ a)) b (by rw [hs2, hab]; simp)) before2
      rw [heq]
      generalize getSubstitution m nGroups b1 a1 template = rep at hB
      generalize replaceGo cz pX nGroups template 0 before2 s2 = o2 at hrest
      intro a b hab
      cases hY2 : matchAt cz pY b with
      | none => rfl
      | some my =>
        exfalso
        obtain ⟨hmy, rest, hbr⟩ := matchAt_sound cz pY b my hY2
        rcases List.append_eq_append_iff.1 hab with ⟨a2, ha, hb⟩ | ⟨c1, hp, hb⟩
        · -- the position is in the replacement or after it
          rcases List.append_eq_append_iff.1 hb with ⟨r2, hr, hb2⟩ | ⟨c2, hc2, hb2⟩
          · have := hrest r2 b hb2
            rw [hY2] at this
            simp at this
          · by_cases hr2 : c2 = []
            · subst hr2
              simp only [List.nil_append] at hb2
              have := hrest [] b (by simpa using hb2.symm)
              rw [hY2] at this
              simp at this
            · exact hinside _ rep hB a2 c2 o2 my.matched rest hc2 hr2 hmy
                (by rw [← hbr, hb2])
        · -- the position is in the part before the match
          by_cases hc : c1 = []
          · subst hc
            simp only [List.nil_append] at hb
            refine hinside _ rep hB [] rep o2 my.matched rest rfl ?_ hmy (by rw [← hbr, hb])
            intro hrep
            subst hrep
            simp only [List.nil_append] at hb
            have := hrest [] b (by simpa using hb.symm)
            rw [hY2] at this
            simp at this
          · have hx := hpre a c1 hp hc
            have hy := hs a (c1 ++ (m.matched ++ s2)) (by rw [hs2, hp]; simp) hx
            by_cases hl : c1.length < my.matched.length
            · obtain ⟨r1, rest1, hr1, he⟩ := htouch _ rep hB c1 o2 my.matched rest hc hmy
                (by rw [← hbr, hb]) hl
              apply matchAt_complete cz pY r1 (rest1 ++ s2) hr1
              rw [← List.append_assoc, ← he, List.append_assoc]
              exact hy
            · have hpre2 : my.matched <+: c1 := by
                have h1 : my.matched <+: b := ⟨rest, hbr.symm⟩
                have h2 : c1 <+: b := ⟨rep ++ o2, hb.symm⟩
                exact List.prefix_of_prefix_length_le h1 h2 (by omega)
              obtain ⟨a3, ha3⟩ := hpre2
              apply matchAt_complete cz pY my.matched (a3 ++ (m.matched ++ s2)) hmy
              rw [← List.append_assoc, ha3]
              exact hy

/-- A template character other than `$` stands for itself. -/
theorem getSubstitution_cons (m : Match) (nGroups : Nat) (before after : Str) (c : Char)
    (r : Str) (hc : c ≠ '$') :
    getSubstitution m nGroups before after (c :: r)
      = c :: getSubstitution m nGroups before after r := by
  rw [getSubstitution] <;> intros <;> contradiction

/-- A template without `$` stands for itself. -/
theorem getSubstitution_plain (m : Match) (nGroups : Nat) (before after : Str) (r : Str)
    (hr : ∀ c ∈ r, c ≠ '$') : getSubstitution m nGroups before after r = r := by
  induction r with
  | nil => rfl
  | cons c r ih =>
    rw [getSubstitution_cons _ _ _ _ _ _ (hr c (List.mem_cons_self c r)),
      ih fun x hx => hr x (List.mem_cons_of_mem c hx)]

/-- A template without `$` before its end. -/
theorem getSubstitution_append (m : Match) (nGroups : Nat) (before after : Str) (r r2 : Str)
    (hr : ∀ c ∈ r, c ≠ '$') :
    getSubstitution m nGroups before after (r ++ r2)
      = r ++ getSubstitution m nGroups before after r2 := by
  induction r with
  | nil => rfl
  | cons c r ih =>
    rw [List.cons_append, getSubstitution_cons _ _ _ _ _ _ (hr c (List.mem_cons_self c r)),
      ih fun x hx => hr x (List.mem_cons_of_mem c hx)]
    rfl

/-- The template of the attribute replacement. -/
theorem getSubstitution_attr (m : Match) (before after localPath : Str)
    (hl : ∀ c ∈ localPath, c ≠ '$') :
    getSubstitution m 1 before after ("$1=\"".toList ++ localPath ++ "\"".toList)
      = m.group.getD [] ++ '=' :: '"' :: (localPath ++ ['"']) := by
  have h1 : "$1=\"".toList ++ localPath ++ "\"".toList
      = '$' :: '1' :: '=' :: ('"' :: (localPath ++ ['"'])) := by
    simp
  have e : ∀ rest : Str, getSubstitution m 1 before after ('$' :: '1' :: '=' :: rest)
      = if ('1'.isDigit = true ∧ '='.isDigit = true ∧
            1 ≤ ('1'.toNat - 48) * 10 + ('='.toNat - 48) ∧
            ('1'.toNat - 48) * 10 + ('='.toNat - 48) ≤ 1) then
          m.group.getD [] ++ getSubstitution m 1 before after rest
        else if ('1'.isDigit = true ∧ 1 ≤ '1'.toNat - 48 ∧ '1'.toNat - 48 ≤ 1) then
          m.group.getD [] ++ getSubstitution m 1 before after ('=' :: rest)
        else '$' :: getSubstitution m 1 before after ('1' :: '=' :: rest) := by
    intro rest
    rw [getSubstitution] <;> decide
  rw [h1, e]
  have h2 : ¬ ('1'.isDigit = true ∧ '='.isDigit = true ∧
      1 ≤ ('1'.toNat - 48) * 10 + ('='.toNat - 48) ∧
      ('1'.toNat - 48) * 10 + ('='.toNat - 48) ≤ 1) := by decide
  have h3 : '1'.isDigit = true ∧ 1 ≤ '1'.toNat - 48 ∧ '1'.toNat - 48 ≤ 1 := by decide
  rw [if_neg h2, if_pos h3, getSubstitution_cons _ _ _ _ _ _ (by decide),
    getSubstitution_cons _ _ _ _ _ _ (by decide), getSubstitution_append _ _ _ _ _ _ hl]
  rfl

/-- The template of the srcset replacement. -/
theorem getSubstitution_srcset (m : Match) (before after localPath : Str)
    (hl : ∀ c ∈ localPath, c ≠ '$') :
    getSubstitution m 1 before after (localPath ++ "$1".toList)
      = localPath ++ m.group.getD [] := by
  rw [getSubstitution_append _ _ _ _ _ _ hl]
  rfl

/-- The template of the `url()` replacement. -/
theorem getSubstitution_urlFunc (m : Match) (before after localPath : Str)
    (hl : ∀ c ∈ localPath, c ≠ '$') :
    getSubstitution m 0 before after ("url(\"".toList ++ localPath ++ "\")".toList)
      = "url(\"".toList ++ localPath ++ "\")".toList := by
  apply getSubstitution_plain
  intro c hc
  simp only [List.mem_append] at hc
  rcases hc with (hc | hc) | hc
  · revert c; decide
  · exact hl c hc
  · revert c; decide

/-- The texts matched by two patterns one after the other. -/
theorem matches_append (cz : Char → Char) (p q : Pattern) (r : Str) :
    Matches cz (p ++ q) r ↔ ∃ x y, r = x ++ y ∧ Matches cz p x ∧ Matches cz q y := by
  induction p generalizing r with
  | nil =>
    simp only [List.nil_append, Matches]
    constructor
    · intro h
      exact ⟨[], r, rfl, rfl, h⟩
    · rintro ⟨x, y, rfl, rfl, h⟩
      exact h
  | cons n p ih =>
    cases n with
    | one a =>
      simp only [List.cons_append, Matches, List.append_eq, ih]
      constructor
      · rintro ⟨c, r1, rfl, hc, x, y, rfl, hx, hy⟩
        exact ⟨c :: x, y, rfl, ⟨c, x, rfl, hc, hx⟩, hy⟩
      · rintro ⟨x1, y, rfl, ⟨c, x, rfl, hc, hx⟩, hy⟩
        exact ⟨c, x ++ y, rfl, hc, x, y, rfl, hx, hy⟩
    | opt a =>
      simp only [List.cons_append, Matches, List.append_eq, ih]
      constructor
      · rintro (⟨c, r1, rfl, hc, x, y, rfl, hx, hy⟩ | ⟨x, y, rfl, hx, hy⟩)
        · exact ⟨c :: x, y, rfl, Or.inl ⟨c, x, rfl, hc, hx⟩, hy⟩
        · exact ⟨x, y, rfl, Or.inr hx, hy⟩
      · rintro ⟨x1, y, rfl, (⟨c, x, rfl, hc, hx⟩ | hx), hy⟩
        · exact Or.inl ⟨c, x ++ y, rfl, hc, x, y, rfl, hx, hy⟩
        · exact Or.inr ⟨x1, y, rfl, hx, hy⟩
    | star a =>
      simp only [List.cons_append, Matches, List.append_eq, ih]
      constructor
      · rintro ⟨u, r1, rfl, hu, x, y, rfl, hx, hy⟩
        exact ⟨u ++ x, y, by simp, ⟨u, x, rfl, hu, hx⟩, hy⟩
      · rintro ⟨x1, y, rfl, ⟨u, x, rfl, hu, hx⟩, hy⟩
        exact ⟨u, x ++ y, by simp, hu, x, y, rfl, hx, hy⟩
    | plus a =>
      simp only [List.cons_append, Matches, List.append_eq, ih]
      constructor
      · rintro ⟨c, u, r1, rfl, hc, hu, x, y, rfl, hx, hy⟩
        exact ⟨c :: (u ++ x), y, by simp, ⟨c, u, x, rfl, hc, hu, hx⟩, hy⟩
      · rintro ⟨x1, y, rfl, ⟨c, u, x, rfl, hc, hu, hx⟩, hy⟩
        exact ⟨c, u, x ++ y, by simp, hc, hu, x, y, rfl, hx, hy⟩
    | alt ws =>
      simp only [List.cons_append, Matches, List.append_eq, ih]
      constructor
      · rintro ⟨w, hw, u, r1, rfl, hu, x, y, rfl, hx, hy⟩
        exact ⟨u ++ x, y, by simp, ⟨w, hw, u, x, rfl, hu, hx⟩, hy⟩
      · rintro ⟨x1, y, rfl, ⟨w, hw, u, x, rfl, hu, hx⟩, hy⟩
        exact ⟨w, hw, u, x ++ y, by simp, hu, x, y, rfl, hx, hy⟩
    | groupOpen =>
      simp only [List.cons_append, Matches, List.append_eq, ih]
    | groupClose =>
      simp only [List.cons_append, Matches, List.append_eq, ih]

/-- The literal pattern of a key matches the texts that are equal to the key
up to canonicalisation. -/
theorem matches_literal (cz : Char → Char) (key x : Str) :
    Matches cz (literal key) x ↔ key.map cz = x.map cz := by
  induction key generalizing x with
  | nil =>
    simp only [literal, List.map_nil, Matches]
    constructor
    · rintro rfl
      rfl
    · intro h
      cases x with
      | nil => rfl
      | cons c x => simp at h
  | cons k key ih =>
    have hl : literal (k :: key) = .one (.lit k) :: literal key := rfl
    rw [hl]
    simp only [Matches, Atom.test, beq_iff_eq]
    constructor
    · rintro ⟨c, r1, rfl, hc, hm⟩
      simp only [List.map_cons, hc, (ih r1).1 hm]
    · intro h
      cases x with
      | nil => simp at h
      | cons c x =>
        simp only [List.map_cons, List.cons.injEq] at h
        exact ⟨c, x, rfl, h.1, (ih x).2 h.2⟩

/-- A match of a pattern that begins with a part without group marks: the part
consumes a text that it matches, changes nothing else in the state, and the
rest of the pattern goes on from there. -/
theorem matchNodes_append_decompose (cz : Char → Char) (p q : Pattern) (hp : GroupFree p)
    (st : MatchState) (t : Str) (r : MatchState × Str)
    (h : matchNodes cz (p ++ q) st t = some r) :
    ∃ x t1, t = x ++ t1 ∧ Matches cz p x ∧
      matchNodes cz q { st with consumed := x.reverse ++ st.consumed } t1 = some r := by
  induction p generalizing st t with
  | nil => exact ⟨[], t, rfl, rfl, h⟩
  | cons n p ih =>
    have hp1 : GroupFree p := fun x hx => hp x (List.mem_cons_of_mem n hx)
    cases n with
    | one a =>
      cases t with
      | nil => simp [List.cons_append, matchNodes] at h
      | cons c t =>
        simp only [List.cons_append, matchNodes, List.append_eq] at h
        split_ifs at h with hc
        obtain ⟨x, t1, hx, hm, hk⟩ := ih hp1 _ _ h
        exact ⟨c :: x, t1, by rw [hx]; rfl, ⟨c, x, rfl, hc, hm⟩,
          by simpa [MatchState.push] using hk⟩
    | opt a =>
      have hskip : matchNodes cz (p ++ q) st t = some r →
          ∃ x t1, t = x ++ t1 ∧ Matches cz (.opt a :: p) x ∧
            matchNodes cz q { st with consumed := x.reverse ++ st.consumed } t1 = some r := by
        intro h1
        obtain ⟨x, t1, hx, hm, hk⟩ := ih hp1 _ _ h1
        exact ⟨x, t1, hx, Or.inr hm, hk⟩
      cases t with
      | nil =>
        simp only [List.cons_append, matchNodes, List.append_eq] at h
        exact hskip h
      | cons c t =>
        simp only [List.cons_append, matchNodes, List.append_eq] at h
        split_ifs at h with hc
        · cases hrec : matchNodes cz (p ++ q) (st.push c) t with
          | some r1 =>
            simp only [hrec, Option.some.injEq] at h
            subst h
            obtain ⟨x, t1, hx, hm, hk⟩ := ih hp1 _ _ hrec
            exact ⟨c :: x, t1, by rw [hx]; rfl, Or.inl ⟨c, x, rfl, hc, hm⟩,
              by simpa [MatchState.push] using hk⟩
          | none =>
            simp only [hrec] at h
            exact hskip h
        · exact hskip h
    | star a =>
      simp only [List.cons_append, matchNodes, List.append_eq] at h
      obtain ⟨u, t1, ht, hu, hk⟩ := starLoop_decompose cz a _ st t r h
      obtain ⟨x, t2, hx, hm, hk2⟩ := ih hp1 _ _ hk
      exact ⟨u ++ x, t2, by rw [ht, hx, List.append_assoc], ⟨u, x, rfl, hu, hm⟩,
        by simpa using hk2⟩
    | plus a =>
      cases t with
      | nil => simp [List.cons_append, matchNodes] at h
      | cons c t =>
        simp only [List.cons_append, matchNodes, List.append_eq] at h
        split_ifs at h with hc
        obtain ⟨u, t1, ht, hu, hk⟩ := starLoop_decompose cz a _ _ t r h
        obtain ⟨x, t2, hx, hm, hk2⟩ := ih hp1 _ _ hk
        exact ⟨c :: (u ++ x), t2, by rw [ht, hx]; simp, ⟨c, u, x, rfl, hc, hu, hm⟩,
          by simpa [MatchState.push] using hk2⟩
    | alt ws =>
      simp only [List.cons_append, matchNodes, List.append_eq] at h
      obtain ⟨w, hw, y, t1, ht, hy, hk⟩ := altLoop_decompose cz _ st t ws r h
      obtain ⟨x, t2, hx, hm, hk2⟩ := ih hp1 _ _ hk
      exact ⟨y ++ x, t2, by rw [ht, hx, List.append_assoc], ⟨w, hw, y, x, rfl, hy, hm⟩,
        by simpa using hk2⟩
    | groupOpen => exact absurd rfl (hp _ (List.mem_cons_self _ _)).1
    | groupClose => exact absurd rfl (hp _ (List.mem_cons_self _ _)).2

/-- The literal pattern of a text has no group marks. -/
theorem groupFree_literal (key : Str) : GroupFree (literal key) := by
  intro n hn
  simp only [literal, List.mem_map] at hn
  obtain ⟨c, _, rfl⟩ := hn
  exact ⟨by simp, by simp⟩

/-- Upper-casing changes the lower-case letters of ASCII only. -/
theorem upperCode_cases (c : Char) :
    (97 ≤ c.toNat ∧ c.toNat ≤ 122 ∧ upperCode c = c.toNat - 32) ∨
    ((c.toNat < 97 ∨ 122 < c.toNat) ∧ c.toUpper = c ∧ upperCode c = c.toNat) := by
  have tab : ∀ n, n < 123 → 97 ≤ n → (Char.ofNat (n - 32)).toNat = n - 32 := by decide
  unfold upperCode Char.toUpper
  dsimp only
  split_ifs with h
  · left
    have h1 : 97 ≤ c.toNat := h.1
    have h2 : c.toNat ≤ 122 := h.2
    exact ⟨h1, h2, tab c.toNat (by omega) h1⟩
  · right
    have h1 : c.toNat < 97 ∨ 122 < c.toNat := by
      by_contra hcon
      apply h
      constructor
      · show 97 ≤ c.toNat
        omega
      · show c.toNat ≤ 122
        omega
    exact ⟨h1, rfl, rfl⟩

/-- Two characters with the same code are equal. -/
theorem char_eq_of_toNat (c d : Char) (h : c.toNat = d.toNat) : c = d := by
  apply Char.ext
  apply UInt32.ext
  exact h

/-- A delimiter is not a letter, and its code is that of white space, of a
quote or of a parenthesis. -/
theorem isDelim_code (c : Char) (h : isDelim c = true) :
    upperCode c = c.toNat ∧
    (c.toNat = 9 ∨ c.toNat = 10 ∨ c.toNat = 11 ∨ c.toNat = 12 ∨ c.toNat = 13 ∨ c.toNat = 32 ∨
      c.toNat = 34 ∨ c.toNat = 39 ∨ c.toNat = 40 ∨ c.toNat = 41 ∨ 160 ≤ c.toNat) := by
  have hn : c.toNat = 9 ∨ c.toNat = 10 ∨ c.toNat = 11 ∨ c.toNat = 12 ∨ c.toNat = 13 ∨
      c.toNat = 32 ∨ c.toNat = 34 ∨ c.toNat = 39 ∨ c.toNat = 40 ∨ c.toNat = 41 ∨
      160 ≤ c.toNat := by
    simp only [isDelim, isJsSpace, Bool.or_eq_true, beq_iff_eq, Bool.and_eq_true,
      decide_eq_true_eq] at h
    rcases h with (((h | h) | h) | h) | h
    · omega
    · subst h; decide
    · subst h; decide
    · subst h; decide
    · subst h; decide
  refine ⟨?_, hn⟩
  rcases upperCode_cases c with ⟨h1, h2, _⟩ | ⟨_, _, h3⟩
  · omega
  · exact h3

/-- A character of a local path does not have the code of `<`. -/
theorem isPathChar_code (c : Char) (h : isPathChar c = true) : upperCode c ≠ 60 := by
  intro h0
  have h1 : c.toNat = 60 := by
    rcases upperCode_cases c with ⟨h1, h2, h3⟩ | ⟨_, _, h3⟩ <;> omega
  have h2 : c = '<' := char_eq_of_toNat c '<' h1
  rw [h2] at h
  exact absurd h (by decide)

/-- The code of a digit. -/
theorem isDigit_code (c : Char) (h : c.isDigit = true) :
    48 ≤ upperCode c ∧ upperCode c ≤ 57 := by
  simp only [Char.isDigit, Bool.and_eq_true, decide_eq_true_eq] at h
  have h3 : 48 ≤ c.toNat := h.1
  have h4 : c.toNat ≤ 57 := h.2
  rcases upperCode_cases c with ⟨h1, h2, h3⟩ | ⟨_, _, h3⟩ <;> omega

/-- Characters that the canonicalisation identifies have the same code after
upper-casing, when one of them is in ASCII. -/
theorem upperCode_of_caseFold (cz : Char → Char) (hcz : CaseFold cz) (c d : Char)
    (hd : d.toNat < 128) (h : cz c = cz d) : upperCode c = upperCode d := by
  unfold upperCode
  rw [hcz.2 c d hd h]

/-- The canonicalisation identifies a delimiter only with itself. -/
theorem isDelim_of_caseFold (cz : Char → Char) (hcz : CaseFold cz) (c d : Char)
    (h : cz c = cz d) : isDelim c = isDelim d := by
  have key : ∀ a b : Char, cz a = cz b → isDelim b = true → isDelim a = true := by
    intro a b hab hb
    by_cases hs : isJsSpace b = true
    · have := hcz.1 a b hab
      simp [isDelim, this, hs]
    · have hb2 := isDelim_code b hb
      have hlt : b.toNat < 128 := by
        rcases hb2.2 with h | h | h | h | h | h | h | h | h | h | h
        any_goals omega
        exfalso
        simp only [isDelim, Bool.or_eq_true, beq_iff_eq] at hb
        rcases hb with (((hb | hb) | hb) | hb) | hb
        · exact hs hb
        all_goals (subst hb; revert h; decide)
      have hu := upperCode_of_caseFold cz hcz a b hlt hab
      have hab2 : a = b := by
        apply char_eq_of_toNat
        rcases upperCode_cases a with ⟨h1, h2, h3⟩ | ⟨_, _, h3⟩ <;> omega
      rw [hab2]
      exact hb
  cases hd : isDelim d with
  | true => exact key c d h hd
  | false =>
    cases hc : isDelim c with
    | true => rw [key d c h.symm hc] at hd; exact absurd hd (by decide)
    | false => rfl

/-- The canonicalisation identifies an ASCII character that is not a letter
only with itself. -/
theorem eq_of_caseFold_symbol (cz : Char → Char) (hcz : CaseFold cz) (x c : Char)
    (hx : x.toNat < 65 ∨ (90 < x.toNat ∧ x.toNat < 97) ∨ (122 < x.toNat ∧ x.toNat < 128))
    (h : cz x = cz c) : c = x := by
  have hu := upperCode_of_caseFold cz hcz c x (by omega) h.symm
  apply char_eq_of_toNat
  rcases upperCode_cases c with ⟨h1, h2, h3⟩ | ⟨_, _, h3⟩ <;>
    rcases upperCode_cases x with ⟨h4, h5, h6⟩ | ⟨_, _, h6⟩ <;> omega

/-- A text that is equal to an ASCII text up to canonicalisation has the same
codes after upper-casing. -/
theorem map_upperCode_of_caseFold (cz : Char → Char) (hcz : CaseFold cz) (key x : Str)
    (hk : ∀ c ∈ key, c.toNat < 128) (h : key.map cz = x.map cz) :
    x.map upperCode = key.map upperCode := by
  induction key generalizing x with
  | nil =>
    cases x with
    | nil => rfl
    | cons c x => simp at h
  | cons k key ih =>
    cases x with
    | nil => simp at h
    | cons c x =>
      simp only [List.map_cons, List.cons.injEq] at h
      simp only [List.map_cons]
      rw [upperCode_of_caseFold cz hcz c k (hk k (List.mem_cons_self k key)) h.1.symm,
        ih x (fun y hy => hk y (List.mem_cons_of_mem k hy)) h.2]

/-- A text that is equal to a text without delimiters up to canonicalisation
has no delimiter. -/
theorem not_isDelim_of_map (cz : Char → Char) (hcz : CaseFold cz) (key x : Str)
    (hk : ∀ c ∈ key, isDelim c = false) (h : key.map cz = x.map cz) :
    ∀ c ∈ x, isDelim c = false := by
  induction key generalizing x with
  | nil =>
    cases x with
    | nil => simp
    | cons c x => simp at h
  | cons k key ih =>
    cases x with
    | nil => simp
    | cons c x =>
      simp only [List.map_cons, List.cons.injEq] at h
      intro y hy
      rcases List.mem_cons.1 hy with rfl | hy
      · rw [isDelim_of_caseFold cz hcz y k h.1.symm]
        exact hk k (List.mem_cons_self k key)
      · exact ih x (fun z hz => hk z (List.mem_cons_of_mem k hz)) h.2 y hy

/-- A character with the code of a letter or a digit is no delimiter. -/
theorem not_isDelim_of_code (c : Char) (h : 42 ≤ upperCode c ∧ upperCode c ≤ 127) :
    isDelim c = false := by
  cases hd : isDelim c with
  | false => rfl
  | true =>
    have := isDelim_code c hd
    omega

/-- A character of a local path is no delimiter. -/
theorem not_isDelim_of_isPathChar (c : Char) (h : isPathChar c = true) : isDelim c = false := by
  cases hd : isDelim c with
  | false => rfl
  | true =>
    simp only [isPathChar, hd, Bool.true_or, Bool.not_true] at h
    exact absurd h (by decide)

/-- The words that the attribute pattern reads before the equals sign: two
characters at least, all letters, the first one `s` followed by `r`, or `h`,
or `c`. -/
theorem attrWord_shape (cz : Char → Char) (hcz : CaseFold cz) (w : Str)
    (h : Matches cz [.alt ["src".toList, "href".toList, "content".toList]] w) :
    (∀ c ∈ w, 65 ≤ upperCode c ∧ upperCode c ≤ 90) ∧
    ∃ c0 c1 w1, w = c0 :: c1 :: w1 ∧
      ((upperCode c0 = 83 ∧ upperCode c1 = 82) ∨ upperCode c0 = 72 ∨ upperCode c0 = 67) := by
  simp only [Matches, List.mem_cons, List.mem_singleton, List.not_mem_nil, or_false] at h
  obtain ⟨v, hv, x, r1, rfl, hx, rfl⟩ := h
  rw [List.append_nil]
  have hc := map_upperCode_of_caseFold cz hcz v x
  rcases hv with rfl | rfl | rfl
  · have h1 : x.map upperCode = [83, 82, 67] := (hc (by decide) hx).trans (by decide)
    simp only [List.map_eq_cons_iff, List.map_eq_nil_iff] at h1
    obtain ⟨c0, _, rfl, h0, c1, _, rfl, h1, c2, _, rfl, h2, rfl⟩ := h1
    refine ⟨?_, c0, c1, [c2], rfl, Or.inl ⟨h0, h1⟩⟩
    intro c hc
    simp only [List.mem_cons, List.mem_singleton, List.not_mem_nil, or_false] at hc
    rcases hc with rfl | rfl | rfl <;> omega
  · have h1 : x.map upperCode = [72, 82, 69, 70] := (hc (by decide) hx).trans (by decide)
    simp only [List.map_eq_cons_iff, List.map_eq_nil_iff] at h1
    obtain ⟨c0, _, rfl, h0, c1, _, rfl, h1, c2, _, rfl, h2, c3, _, rfl, h3, rfl⟩ := h1
    refine ⟨?_, c0, c1, [c2, c3], rfl, Or.inr (Or.inl h0)⟩
    intro c hc
    simp only [List.mem_cons, List.mem_singleton, List.not_mem_nil, or_false] at hc
    rcases hc with rfl | rfl | rfl | rfl <;> omega
  · have h1 : x.map upperCode = [67, 79, 78, 84, 69, 78, 84] :=
      (hc (by decide) hx).trans (by decide)
    simp only [List.map_eq_cons_iff, List.map_eq_nil_iff] at h1
    obtain ⟨c0, _, rfl, h0, c1, _, rfl, h1, c2, _, rfl, h2, c3, _, rfl, h3, c4, _, rfl, h4,
      c5, _, rfl, h5, c6, _, rfl, h6, rfl⟩ := h1
    refine ⟨?_, c0, c1, [c2, c3, c4, c5, c6], rfl, Or.inr (Or.inr h0)⟩
    intro c hc
    simp only [List.mem_cons, List.mem_singleton, List.not_mem_nil, or_false] at hc
    rcases hc with rfl | rfl | rfl | rfl | rfl | rfl | rfl <;> omega

/-- The equals sign of a pattern matches the equals sign only. -/
theorem test_lit_symbol (cz : Char → Char) (hcz : CaseFold cz) (x c : Char)
    (hx : x.toNat < 65 ∨ (90 < x.toNat ∧ x.toNat < 97) ∨ (122 < x.toNat ∧ x.toNat < 128))
    (h : (Atom.lit x).test cz c = true) : c = x := by
  simp only [Atom.test, beq_iff_eq] at h
  exact eq_of_caseFold_symbol cz hcz x c hx h

/-- The class of the two quotes matches the two quotes only. -/
theorem test_quote (cz : Char → Char) (hcz : CaseFold cz) (c : Char)
    (h : (Atom.anyOf ['"', '\'']).test cz c = true) : c = '"' ∨ c = '\'' := by
  simp only [Atom.test, List.any_cons, List.any_nil, Bool.or_false, Bool.or_eq_true,
    beq_iff_eq] at h
  rcases h with h | h
  · exact Or.inl (eq_of_caseFold_symbol cz hcz _ c (by decide) h)
  · exact Or.inr (eq_of_caseFold_symbol cz hcz _ c (by decide) h)

/-- The class of the two quotes in the other order. -/
theorem test_quote2 (cz : Char → Char) (hcz : CaseFold cz) (c : Char)
    (h : (Atom.anyOf ['\'', '"']).test cz c = true) : c = '"' ∨ c = '\'' := by
  simp only [Atom.test, List.any_cons, List.any_nil, Bool.or_false, Bool.or_eq_true,
    beq_iff_eq] at h
  rcases h with h | h
  · exact Or.inr (eq_of_caseFold_symbol cz hcz _ c (by decide) h)
  · exact Or.inl (eq_of_caseFold_symbol cz hcz _ c (by decide) h)

/-- The class `[wx]` matches the letters `w` and `x` in either case. -/
theorem test_wx (cz : Char → Char) (hcz : CaseFold cz) (c : Char)
    (h : (Atom.anyOf ['w', 'x']).test cz c = true) : upperCode c = 87 ∨ upperCode c = 88 := by
  simp only [Atom.test, List.any_cons, List.any_nil, Bool.or_false, Bool.or_eq_true,
    beq_iff_eq] at h
  rcases h with h | h
  · exact Or.inl (upperCode_of_caseFold cz hcz c 'w' (by decide) h.symm)
  · exact Or.inr (upperCode_of_caseFold cz hcz c 'x' (by decide) h.symm)

/-- The texts that the attribute pattern matches: a word, the equals sign, a
quote, a text equal to the key up to canonicalisation, and a quote. -/
theorem matches_attr (cz : Char → Char) (hcz : CaseFold cz) (key r : Str)
    (h : Matches cz (attrPattern key) r) :
    ∃ w q x q1, r = w ++ '=' :: q :: (x ++ [q1]) ∧ Matches cz attrWords w ∧
      (q = '"' ∨ q = '\'') ∧ (q1 = '"' ∨ q1 = '\'') ∧ key.map cz = x.map cz := by
  unfold attrPattern at h
  simp only [List.cons_append, List.nil_append, Matches, List.append_eq] at h
  obtain ⟨v, hv, w, r1, rfl, hw, c, r2, rfl, hc, q, r3, rfl, hq, hm⟩ := h
  rw [matches_append] at hm
  obtain ⟨x, y, rfl, hx, hy⟩ := hm
  simp only [Matches] at hy
  obtain ⟨q1, r4, rfl, hq1, rfl⟩ := hy
  have hc2 := test_lit_symbol cz hcz '=' c (by decide) hc
  subst hc2
  refine ⟨w, q, x, q1, rfl, ?_, test_quote cz hcz q hq, test_quote cz hcz q1 hq1,
    (matches_literal cz key x).1 hx⟩
  simp only [attrWords, Matches]
  exact ⟨v, hv, w, [], by simp, hw, rfl⟩

/-- A word, the equals sign, a quote, a text equal to the key up to
canonicalisation, and a quote are matched by the attribute pattern. -/
theorem matches_attr_of (cz : Char → Char) (key w x : Str) (q q1 : Char)
    (hw : Matches cz attrWords w) (hq : q = '"' ∨ q = '\'') (hq1 : q1 = '"' ∨ q1 = '\'')
    (hx : key.map cz = x.map cz) :
    Matches cz (attrPattern key) (w ++ '=' :: q :: (x ++ [q1])) := by
  have hquote : ∀ c, (c = '"' ∨ c = '\'') → (Atom.anyOf ['"', '\'']).test cz c = true := by
    intro c hc
    simp only [Atom.test, List.any_cons, List.any_nil, Bool.or_false, Bool.or_eq_true,
      beq_iff_eq]
    rcases hc with rfl | rfl
    · exact Or.inl rfl
    · exact Or.inr rfl
  unfold attrPattern
  simp only [List.cons_append, List.nil_append, Matches, List.append_eq]
  simp only [attrWords, Matches] at hw
  obtain ⟨v, hv, w1, r1, rfl, hw1, rfl⟩ := hw
  refine ⟨v, hv, w1, '=' :: q :: (x ++ [q1]), by simp, hw1, '=', _, rfl, by simp [Atom.test],
    q, _, rfl, hquote q hq, ?_⟩
  rw [matches_append]
  refine ⟨x, [q1], rfl, (matches_literal cz key x).2 hx, ?_⟩
  simp only [Matches]
  exact ⟨q1, [], rfl, hquote q1 hq1, rfl⟩

/-- The texts that the descriptor part of the srcset pattern matches: white
space, digits, and `w` or `x`. -/
theorem matches_descriptor (cz : Char → Char) (hcz : CaseFold cz) (g : Str)
    (h : Matches cz descriptorPattern g) :
    ∃ s0 sp d0 ds c, g = s0 :: (sp ++ d0 :: (ds ++ [c])) ∧ isJsSpace s0 = true ∧
      (∀ s ∈ sp, isJsSpace s = true) ∧ d0.isDigit = true ∧ (∀ d ∈ ds, d.isDigit = true) ∧
      (upperCode c = 87 ∨ upperCode c = 88) := by
  simp only [descriptorPattern, Matches] at h
  obtain ⟨s0, sp, r1, rfl, hs0, hsp, d0, ds, r2, rfl, hd0, hds, c, r3, rfl, hc, rfl⟩ := h
  exact ⟨s0, sp, d0, ds, c, rfl, hs0, hsp, hd0, hds, test_wx cz hcz c hc⟩

/-- The texts that the srcset pattern matches: a text equal to the key up to
canonicalisation, and a descriptor. -/
theorem matches_srcset (cz : Char → Char) (key r : Str)
    (h : Matches cz (srcsetPattern key) r) :
    ∃ x g, r = x ++ g ∧ key.map cz = x.map cz ∧ Matches cz descriptorPattern g := by
  unfold srcsetPattern at h
  rw [matches_append] at h
  obtain ⟨x, g, rfl, hx, hg⟩ := h
  exact ⟨x, g, rfl, (matches_literal cz key x).1 hx, hg⟩

/-- The texts that the `url()` pattern matches. -/
theorem matches_urlFunc (cz : Char → Char) (hcz : CaseFold cz) (key r : Str)
    (h : Matches cz (urlFuncPattern key) r) :
    ∃ u sp1 sp2 q1 x q2 sp3,
      r = u ++ (sp1 ++ '(' :: (sp2 ++ (q1 ++ (x ++ (q2 ++ (sp3 ++ [')'])))))) ∧
      u.map upperCode = [85, 82, 76] ∧
      (∀ s ∈ sp1, isJsSpace s = true) ∧ (∀ s ∈ sp2, isJsSpace s = true) ∧
      (∀ s ∈ sp3, isJsSpace s = true) ∧
      (q1 = [] ∨ q1 = ['"'] ∨ q1 = ['\'']) ∧ (q2 = [] ∨ q2 = ['"'] ∨ q2 = ['\'']) ∧
      key.map cz = x.map cz := by
  unfold urlFuncPattern at h
  rw [List.append_assoc, List.append_assoc, matches_append] at h
  obtain ⟨u, r1, rfl, hu, h⟩ := h
  simp only [List.cons_append, List.nil_append, Matches, List.append_eq] at h
  obtain ⟨sp1, r2, rfl, hsp1, c, r3, rfl, hc, sp2, r4, rfl, hsp2, h⟩ := h
  have hc2 := test_lit_symbol cz hcz '(' c (by decide) hc
  subst hc2
  have hu2 : u.map upperCode = [85, 82, 76] :=
    (map_upperCode_of_caseFold cz hcz _ u (by decide) ((matches_literal cz _ u).1 hu)).trans
      (by decide)
  have hend : ∀ r5, Matches cz (literal key ++ [.opt (.anyOf ['\'', '"']), .star .space,
      .one (.lit ')')]) r5 →
      ∃ x q2 sp3, r5 = x ++ (q2 ++ (sp3 ++ [')'])) ∧ (∀ s ∈ sp3, isJsSpace s = true) ∧
        (q2 = [] ∨ q2 = ['"'] ∨ q2 = ['\'']) ∧ key.map cz = x.map cz := by
    intro r5 h5
    rw [matches_append] at h5
    obtain ⟨x, y, rfl, hx, hy⟩ := h5
    simp only [Matches] at hy
    have hx2 := (matches_literal cz key x).1 hx
    rcases hy with ⟨q, r6, rfl, hq, sp3, r7, rfl, hsp3, c2, r8, rfl, hc2, rfl⟩ |
      ⟨sp3, r7, rfl, hsp3, c2, r8, rfl, hc2, rfl⟩
    · have := test_lit_symbol cz hcz ')' c2 (by decide) hc2
      subst this
      refine ⟨x, [q], sp3, by simp, hsp3, ?_, hx2⟩
      rcases test_quote2 cz hcz q hq with rfl | rfl
      · exact Or.inr (Or.inl rfl)
      · exact Or.inr (Or.inr rfl)
    · have := test_lit_symbol cz hcz ')' c2 (by decide) hc2
      subst this
      exact ⟨x, [], sp3, by simp, hsp3, Or.inl rfl, hx2⟩
  rcases h with ⟨q, r5, rfl, hq, h5⟩ | h5
  · obtain ⟨x, q2, sp3, rfl, hsp3, hq2, hx⟩ := hend _ h5
    refine ⟨u, sp1, sp2, [q], x, q2, sp3, by simp, hu2, hsp1, hsp2, hsp3, ?_, hq2, hx⟩
    rcases test_quote2 cz hcz q hq with rfl | rfl
    · exact Or.inr (Or.inl rfl)
    · exact Or.inr (Or.inr rfl)
  · obtain ⟨x, q2, sp3, rfl, hsp3, hq2, hx⟩ := hend _ h5
    exact ⟨u, sp1, sp2, [], x, q2, sp3, by simp, hu2, hsp1, hsp2, hsp3, Or.inl rfl, hq2, hx⟩

/-- No match of the attribute pattern is empty. -/
theorem matches_attr_ne_nil (cz : Char → Char) (key : Str) :
    ¬ Matches cz (attrPattern key) [] := by
  intro h
  unfold attrPattern at h
  simp only [List.cons_append, List.nil_append, Matches, List.append_eq] at h
  obtain ⟨v, hv, w, r1, h0, hw, c, r2, rfl, hc, _⟩ := h
  simp at h0

/-- A match of the attribute pattern and the text that replaces it. -/
theorem attr_block (cz : Char → Char) (hcz : CaseFold cz) (key localPath : Str)
    (hl : ∀ c ∈ localPath, c ≠ '$') (t : Str) (mt : Match)
    (h : matchAt cz (attrPattern key) t = some mt) (b a : Str) :
    AttrBlock cz localPath mt.matched
      (getSubstitution mt 1 b a ("$1=\"".toList ++ localPath ++ "\"".toList)) := by
  rw [getSubstitution_attr mt b a localPath hl]
  unfold matchAt at h
  split at h
  · rename_i st rest hm
    simp only [Option.some.injEq] at h
    subst h
    have e : attrPattern key = .groupOpen :: (attrWords ++ (.groupClose ::
        (([.one (.lit '='), .one (.anyOf ['"', '\''])] ++ literal key ++
          [.one (.anyOf ['"', '\''])]) ++ []))) := by
      simp [attrPattern, attrWords]
    have gfW : GroupFree attrWords := by
      intro n hn
      simp only [attrWords, List.mem_singleton] at hn
      subst hn
      exact ⟨by simp, by simp⟩
    have gfR : GroupFree ([.one (.lit '='), .one (.anyOf ['"', '\''])] ++ literal key ++
        [.one (.anyOf ['"', '\''])]) := by
      intro n hn
      simp only [List.mem_append, List.mem_cons, List.mem_singleton, List.not_mem_nil,
        or_false] at hn
      rcases hn with ((rfl | rfl) | hn) | rfl
      · exact ⟨by simp, by simp⟩
      · exact ⟨by simp, by simp⟩
      · exact groupFree_literal key n hn
      · exact ⟨by simp, by simp⟩
    rw [e, matchNodes_groupOpen] at hm
    obtain ⟨w, t1, ht, hw, hk⟩ := matchNodes_append_decompose cz attrWords _ gfW _ _ _ hm
    rw [matchNodes_groupClose] at hk
    obtain ⟨y, t2, ht2, hy, hk2⟩ := matchNodes_append_decompose cz _ [] gfR _ _ _ hk
    simp only [matchNodes, Option.some.injEq, Prod.mk.injEq] at hk2
    obtain ⟨rfl, rfl⟩ := hk2
    simp only [List.append_nil, List.length_nil, Nat.sub_zero, List.length_reverse,
      List.take_length, List.reverse_reverse, List.reverse_append, Option.getD_some]
    rw [List.append_assoc, matches_append] at hy
    obtain ⟨y1, y2, rfl, hy1, hy2⟩ := hy
    simp only [Matches] at hy1
    obtain ⟨c, r2, rfl, hc, q, r3, rfl, hq, rfl⟩ := hy1
    have hc2 := test_lit_symbol cz hcz '=' c (by decide) hc
    subst hc2
    have htake : (List.take w.length w.reverse).reverse = w := by
      rw [← List.length_reverse w, List.take_length, List.reverse_reverse]
    exact ⟨w, q, y2, by simp, test_quote cz hcz q hq, hw, by rw [htake]⟩
  · simp at h

/-- A match of the srcset pattern and the text that replaces it. -/
theorem srcset_block (cz : Char → Char) (key localPath : Str)
    (hl : ∀ c ∈ localPath, c ≠ '$') (t : Str) (mt : Match)
    (h : matchAt cz (srcsetPattern key) t = some mt) (b a : Str) :
    SrcsetBlock cz localPath mt.matched
      (getSubstitution mt 1 b a (localPath ++ "$1".toList)) := by
  rw [getSubstitution_srcset mt b a localPath hl]
  unfold matchAt at h
  split at h
  · rename_i st rest hm
    simp only [Option.some.injEq] at h
    subst h
    have e : srcsetPattern key = literal key ++ (.groupOpen :: (descriptorPattern ++
        [.groupClose])) := by
      simp [srcsetPattern, descriptorPattern]
    have gfD : GroupFree descriptorPattern := by
      intro n hn
      simp only [descriptorPattern, List.mem_cons, List.mem_singleton, List.not_mem_nil,
        or_false] at hn
      rcases hn with rfl | rfl | rfl <;> exact ⟨by simp, by simp⟩
    rw [e] at hm
    obtain ⟨x, t1, ht, hx, hk⟩ :=
      matchNodes_append_decompose cz _ _ (groupFree_literal key) _ _ _ hm
    rw [matchNodes_groupOpen] at hk
    obtain ⟨g, t2, ht2, hg, hk2⟩ := matchNodes_append_decompose cz _ _ gfD _ _ _ hk
    rw [matchNodes_groupClose] at hk2
    simp only [matchNodes, Option.some.injEq, Prod.mk.injEq] at hk2
    obtain ⟨rfl, rfl⟩ := hk2
    refine ⟨g, hg, ?_⟩
    simp
  · simp at h

/-- A match of the `url()` pattern and the text that replaces it. -/
theorem urlFunc_block (localPath : Str) (hl : ∀ c ∈ localPath, c ≠ '$') (mt : Match)
    (b a : Str) :
    UrlBlock localPath mt.matched
      (getSubstitution mt 0 b a ("url(\"".toList ++ localPath ++ "\")".toList)) := by
  rw [getSubstitution_urlFunc mt b a localPath hl]
  simp [UrlBlock]

/-- Two ways to write a text as a run of characters outside a class followed
by a character of the class are the same. -/
theorem split_at_first (p : Char → Bool) (a a1 b b1 : Str) (d d1 : Char)
    (ha : ∀ c ∈ a, p c = false) (hd : p d = true) (ha1 : ∀ c ∈ a1, p c = false)
    (hd1 : p d1 = true) (h : a ++ d :: b = a1 ++ d1 :: b1) : a = a1 ∧ d = d1 ∧ b = b1 := by
  induction a generalizing a1 with
  | nil =>
    cases a1 with
    | nil =>
      simp only [List.nil_append, List.cons.injEq] at h
      exact ⟨rfl, h.1, h.2⟩
    | cons c a1 =>
      simp only [List.nil_append, List.cons_append, List.cons.injEq] at h
      have := ha1 c (List.mem_cons_self c a1)
      rw [← h.1, hd] at this
      exact absurd this (by decide)
  | cons x a ih =>
    cases a1 with
    | nil =>
      simp only [List.nil_append, List.cons_append, List.cons.injEq] at h
      have := ha x (List.mem_cons_self x a)
      rw [h.1, hd1] at this
      exact absurd this (by decide)
    | cons c a1 =>
      simp only [List.cons_append, List.cons.injEq] at h
      obtain ⟨h1, h2, h3⟩ := ih a1 (fun y hy => ha y (List.mem_cons_of_mem x hy))
        (fun y hy => ha1 y (List.mem_cons_of_mem c hy)) h.2
      exact ⟨by rw [h.1, h1], h2, h3⟩

/-- Two ways to write a text as a run of characters that are no delimiters
followed by a delimiter are the same. -/
theorem split_at_delim (a a1 b b1 : Str) (d d1 : Char)
    (ha : ∀ c ∈ a, isDelim c = false) (hd : isDelim d = true)
    (ha1 : ∀ c ∈ a1, isDelim c = false) (hd1 : isDelim d1 = true)
    (h : a ++ d :: b = a1 ++ d1 :: b1) : a = a1 ∧ d = d1 ∧ b = b1 :=
  split_at_first isDelim a a1 b b1 d d1 ha hd ha1 hd1 h

/-- Two ways to write a text as a run of white space followed by another
character are the same. -/
theorem split_at_nonspace (a a1 b b1 : Str) (d d1 : Char)
    (ha : ∀ c ∈ a, isJsSpace c = true) (hd : isJsSpace d = false)
    (ha1 : ∀ c ∈ a1, isJsSpace c = true) (hd1 : isJsSpace d1 = false)
    (h : a ++ d :: b = a1 ++ d1 :: b1) : a = a1 ∧ d = d1 ∧ b = b1 :=
  split_at_first (fun c => !isJsSpace c) a a1 b b1 d d1 (fun c hc => by simp [ha c hc])
    (by simp [hd]) (fun c hc => by simp [ha1 c hc]) (by simp [hd1]) h

/-- White space is a delimiter. -/
theorem isDelim_of_isJsSpace (c : Char) (h : isJsSpace c = true) : isDelim c = true := by
  simp [isDelim, h]

/-- A suffix of a text in two parts starts in the first part or in the
second. -/
theorem suffix_append_cases (a1 r2 x y : Str) (h : a1 ++ r2 = x ++ y) :
    (∃ x1 x2, x = x1 ++ x2 ∧ a1 = x1 ∧ r2 = x2 ++ y) ∨
    (∃ y1 y2, y = y1 ++ y2 ∧ a1 = x ++ y1 ∧ r2 = y2) := by
  rcases List.append_eq_append_iff.1 h with ⟨a2, h1, h2⟩ | ⟨c2, h1, h2⟩
  · exact Or.inl ⟨a1, a2, h1, rfl, h2⟩
  · exact Or.inr ⟨c2, r2, h2, h1, rfl⟩

/-- A suffix of a text that is not empty starts at its first character or
later. -/
theorem suffix_cons_cases (a1 r2 y : Str) (c : Char) (h : a1 ++ r2 = c :: y) :
    (a1 = [] ∧ r2 = c :: y) ∨ ∃ a2, a1 = c :: a2 ∧ a2 ++ r2 = y := by
  cases a1 with
  | nil => exact Or.inl ⟨rfl, h⟩
  | cons x a2 =>
    simp only [List.cons_append, List.cons.injEq] at h
    exact Or.inr ⟨a2, by rw [h.1], h.2⟩

/-- A match that runs into a text from a part before it ends with a part that
is not empty and with which the text starts. -/
theorem touch_split (r rest c1 z : Str) (h : r ++ rest = c1 ++ z)
    (hl : c1.length < r.length) : ∃ r2, r2 ≠ [] ∧ r = c1 ++ r2 ∧ r2 ++ rest = z := by
  rcases List.append_eq_append_iff.1 h with ⟨a2, h1, h2⟩ | ⟨c2, h1, h2⟩
  · have := congrArg List.length h1
    simp only [List.length_append] at this
    omega
  · refine ⟨c2, ?_, h1, h2.symm⟩
    rintro rfl
    rw [h1] at hl
    simp at hl

/-- The key of a pattern is not the end of a local path, so a text that is
equal to the key up to canonicalisation is not the end of the local path. -/
theorem not_end_of_path (cz : Char → Char) (key x l1 l2 : Str)
    (hx : key.map cz = x.map cz) (hG : ¬ key.map cz <:+ (l1 ++ l2).map cz) : x ≠ l2 := by
  rintro rfl
  apply hG
  rw [hx, List.map_append]
  exact List.suffix_append _ _

/-- The local path is not the end of a key, so it is not the end of a text
that is equal to the key up to canonicalisation. -/
theorem not_end_of_key (cz : Char → Char) (key x1 x2 localPath : Str)
    (hx : key.map cz = (x1 ++ x2).map cz) (hG : ¬ localPath.map cz <:+ key.map cz) :
    x2 ≠ localPath := by
  rintro rfl
  apply hG
  rw [hx, List.map_append]
  exact List.suffix_append _ _

/-- A quote is a delimiter. -/
theorem isDelim_of_quote (q : Char) (h : q = '"' ∨ q = '\'') : isDelim q = true := by
  rcases h with rfl | rfl <;> decide

/-- The characters of a word of the attribute pattern and the equals sign are
no delimiters. -/
theorem not_isDelim_word (w : Str) (hw : ∀ c ∈ w, 65 ≤ upperCode c ∧ upperCode c ≤ 90) :
    ∀ c ∈ w ++ ['='], isDelim c = false := by
  intro c hc
  rcases List.mem_append.1 hc with hc | hc
  · exact not_isDelim_of_code c (by have := hw c hc; omega)
  · simp only [List.mem_singleton] at hc
    subst hc
    decide

/-- A suffix of a run without delimiters followed by a delimiter `e`, when the
suffix with what follows it starts with a run `o` and a delimiter `d`: either
the suffix starts in the run, `o` is the end of the run and `d` is `e`, or the
suffix starts after `e`. -/
theorem run_suffix (a1 r2 t run rest o s : Str) (e d : Char)
    (hrun : ∀ c ∈ run, isDelim c = false) (he : isDelim e = true)
    (ho : ∀ c ∈ o, isDelim c = false) (hone : o ≠ []) (hd : isDelim d = true)
    (hz : r2 ++ t = o ++ d :: s) (h : a1 ++ r2 = run ++ e :: rest) :
    (∃ run1, run = run1 ++ o ∧ a1 = run1 ∧ d = e ∧ s = rest ++ t) ∨
    (∃ a2, a1 = run ++ e :: a2 ∧ a2 ++ r2 = rest) := by
  rcases suffix_append_cases _ _ _ _ h with ⟨x1, x2, hx, ha, hr⟩ | ⟨y1, y2, hy, ha, rfl⟩
  · left
    have hz2 : x2 ++ e :: (rest ++ t) = o ++ d :: s := by
      rw [← hz, hr]
      simp
    obtain ⟨h1, h2, h3⟩ := split_at_delim _ _ _ _ _ _
      (fun c hc => hrun c (by rw [hx]; exact List.mem_append_right _ hc)) he ho hd hz2
    exact ⟨x1, by rw [hx, h1], ha, h2.symm, h3.symm⟩
  · rcases suffix_cons_cases _ _ _ _ hy.symm with ⟨_, h3⟩ | ⟨a2, ha2, h3⟩
    · exfalso
      have hz2 : [] ++ e :: (rest ++ t) = o ++ d :: s := by
        rw [← hz, h3]
        simp
      obtain ⟨h1, _, _⟩ := split_at_delim _ _ _ _ _ _ (by simp) he ho hd hz2
      exact hone h1.symm
    · exact Or.inr ⟨a2, by rw [ha, ha2], h3⟩

/-- A suffix of a run of delimiters followed by a text, when the suffix with
what follows it starts with a character that is no delimiter, is a suffix of
the text. -/
theorem delim_suffix (a1 r2 t ds rest o s : Str) (d : Char)
    (hds : ∀ c ∈ ds, isDelim c = true) (ho : ∀ c ∈ o, isDelim c = false) (hone : o ≠ [])
    (hz : r2 ++ t = o ++ d :: s) (h : a1 ++ r2 = ds ++ rest) :
    ∃ a2, a1 = ds ++ a2 ∧ a2 ++ r2 = rest := by
  rcases suffix_append_cases _ _ _ _ h with ⟨x1, x2, hx, ha, hr⟩ | ⟨y1, y2, hy, ha, rfl⟩
  · cases x2 with
    | nil => exact ⟨[], by rw [ha, hx]; simp, by rw [hr]; simp⟩
    | cons e x3 =>
      exfalso
      cases o with
      | nil => exact hone rfl
      | cons c o1 =>
        rw [hr] at hz
        simp only [List.cons_append, List.cons.injEq] at hz
        have h1 := hds e (by rw [hx]; simp)
        have h2 := ho c (List.mem_cons_self c o1)
        rw [← hz.1, h1] at h2
        exact absurd h2 (by decide)
  · exact ⟨y1, ha, hy.symm⟩

/-- The suffixes of a text of the form of the attribute pattern: word, equals
sign, quote, reference and quote. -/
theorem attr_suffix_head (w x a1 r2 t o s : Str) (q q1 d : Char)
    (hw : ∀ c ∈ w ++ ['='], isDelim c = false) (hq : isDelim q = true)
    (hx : ∀ c ∈ x, isDelim c = false) (hq1 : isDelim q1 = true)
    (ho : ∀ c ∈ o, isDelim c = false) (hone : o ≠ []) (hd : isDelim d = true)
    (hr : r2 ≠ []) (hz : r2 ++ t = o ++ d :: s)
    (h : a1 ++ r2 = w ++ '=' :: q :: (x ++ [q1])) :
    (∃ w1, w ++ ['='] = w1 ++ o ∧ d = q ∧ s = x ++ q1 :: t) ∨
    (∃ x1, x = x1 ++ o ∧ a1 = w ++ '=' :: q :: x1 ∧ d = q1 ∧ s = t) := by
  have h0 : a1 ++ r2 = (w ++ ['=']) ++ q :: (x ++ [q1]) := by
    rw [h]
    simp
  rcases run_suffix a1 r2 t _ _ o s q d hw hq ho hone hd hz h0 with
    ⟨w1, h1, _, h2, h3⟩ | ⟨a2, ha, h1⟩
  · exact Or.inl ⟨w1, h1, h2, by rw [h3]; simp⟩
  · rcases run_suffix a2 r2 t _ _ o s q1 d hx hq1 ho hone hd hz h1 with
      ⟨x1, h2, h3, h4, h5⟩ | ⟨a3, _, h2⟩
    · exact Or.inr ⟨x1, h2, by rw [ha, h3]; simp, h4, by rw [h5]; simp⟩
    · simp only [List.append_eq_nil] at h2
      exact absurd h2.2 hr

/-- The suffixes of a text of the form of the srcset pattern: reference, white
space, digits and unit. -/
theorem srcset_suffix_head (x sp ds a1 r2 t o s : Str) (s0 d0 c d : Char)
    (hx : ∀ y ∈ x, isDelim y = false) (hs0 : isJsSpace s0 = true)
    (hsp : ∀ y ∈ sp, isJsSpace y = true)
    (ho : ∀ y ∈ o, isDelim y = false) (hone : o ≠ []) (hd : isDelim d = true)
    (hz : r2 ++ t = o ++ d :: s)
    (h : a1 ++ r2 = x ++ s0 :: (sp ++ d0 :: (ds ++ [c]))) :
    (∃ x1, x = x1 ++ o ∧ d = s0 ∧ s = (sp ++ d0 :: (ds ++ [c])) ++ t) ∨
    (∃ e1, d0 :: (ds ++ [c]) = e1 ++ r2) := by
  rcases run_suffix a1 r2 t _ _ o s s0 d hx (isDelim_of_isJsSpace s0 hs0) ho hone hd hz h with
    ⟨x1, h1, _, h2, h3⟩ | ⟨a2, _, h1⟩
  · exact Or.inl ⟨x1, h1, h2, h3⟩
  · obtain ⟨a3, _, h2⟩ := delim_suffix a2 r2 t sp _ o s d
      (fun y hy => isDelim_of_isJsSpace y (hsp y hy)) ho hone hz h1
    exact Or.inr ⟨a3, h2.symm⟩

/-- The suffixes of a text of the form of the `url()` pattern: the word,
delimiters, the reference, and delimiters. -/
theorem urlFunc_suffix_head (u x open1 close1 a1 r2 t o s : Str) (e1 e2 d : Char)
    (hu : ∀ y ∈ u, isDelim y = false) (he1 : isDelim e1 = true)
    (hopen : ∀ y ∈ open1, isDelim y = true)
    (hx : ∀ y ∈ x, isDelim y = false) (he2 : isDelim e2 = true)
    (hclose : ∀ y ∈ close1, isDelim y = true)
    (ho : ∀ y ∈ o, isDelim y = false) (hone : o ≠ []) (hd : isDelim d = true)
    (hr : r2 ≠ []) (hz : r2 ++ t = o ++ d :: s)
    (h : a1 ++ r2 = u ++ e1 :: (open1 ++ (x ++ e2 :: close1))) :
    (∃ u1, u = u1 ++ o ∧ d :: s = e1 :: (open1 ++ (x ++ e2 :: close1)) ++ t) ∨
    (∃ x1, x = x1 ++ o ∧ d :: s = e2 :: close1 ++ t) := by
  rcases run_suffix a1 r2 t _ _ o s e1 d hu he1 ho hone hd hz h with
    ⟨u1, h1, _, h2, h3⟩ | ⟨a2, _, h1⟩
  · exact Or.inl ⟨u1, h1, by rw [h2, h3]; simp⟩
  · obtain ⟨a3, _, h2⟩ := delim_suffix a2 r2 t open1 _ o s d hopen ho hone hz h1
    rcases run_suffix a3 r2 t _ _ o s e2 d hx he2 ho hone hd hz h2 with
      ⟨x1, h3, _, h4, h5⟩ | ⟨a4, _, h3⟩
    · exact Or.inr ⟨x1, h3, by rw [h4, h5]; simp⟩
    · obtain ⟨a5, _, h4⟩ := delim_suffix a4 r2 t close1 [] o s d hclose ho hone hz
        (by rw [h3]; simp)
      simp only [List.append_eq_nil] at h4
      exact absurd h4.2 hr

/-- The characters of a text with the codes of `url` are no delimiters, and
none of them is an equals sign or the first letter of `assets`. -/
theorem url_codes (u : Str) (h : u.map upperCode = [85, 82, 76]) :
    ∀ c ∈ u, upperCode c = 85 ∨ upperCode c = 82 ∨ upperCode c = 76 := by
  intro c hc
  have := List.mem_map_of_mem upperCode hc
  rw [h] at this
  simpa using this

/-- A text with the codes of `url` has no delimiter. -/
theorem not_isDelim_url (u : Str) (h : u.map upperCode = [85, 82, 76]) :
    ∀ c ∈ u, isDelim c = false := by
  intro c hc
  apply not_isDelim_of_code
  have := url_codes u h c hc
  omega

/-- The opening delimiters of the `url()` pattern start with white space or
with the parenthesis. -/
theorem url_open_head (sp1 sp2 q1 y : Str) (e : Char) (s : Str)
    (hsp1 : ∀ c ∈ sp1, isJsSpace c = true)
    (h : sp1 ++ '(' :: (sp2 ++ (q1 ++ y)) = e :: s) : isJsSpace e = true ∨ e = '(' := by
  cases sp1 with
  | nil =>
    simp only [List.nil_append, List.cons.injEq] at h
    exact Or.inr h.1.symm
  | cons c sp =>
    simp only [List.cons_append, List.cons.injEq] at h
    rw [← h.1]
    exact Or.inl (hsp1 c (List.mem_cons_self c sp))

/-- The opening delimiters of the `url()` pattern are delimiters. -/
theorem url_open_delims (sp1 sp2 q1 : Str) (hsp1 : ∀ c ∈ sp1, isJsSpace c = true)
    (hsp2 : ∀ c ∈ sp2, isJsSpace c = true) (hq1 : q1 = [] ∨ q1 = ['"'] ∨ q1 = ['\'']) :
    ∀ c ∈ sp1 ++ '(' :: (sp2 ++ q1), isDelim c = true := by
  intro c hc
  simp only [List.mem_append, List.mem_cons] at hc
  rcases hc with hc | rfl | hc | hc
  · exact isDelim_of_isJsSpace c (hsp1 c hc)
  · decide
  · exact isDelim_of_isJsSpace c (hsp2 c hc)
  · rcases hq1 with rfl | rfl | rfl
    · simp at hc
    · simp only [List.mem_singleton] at hc
      subst hc
      decide
    · simp only [List.mem_singleton] at hc
      subst hc
      decide

/-- The closing delimiters of the `url()` pattern are delimiters. -/
theorem url_close_delims (q2 sp3 : Str) (hsp3 : ∀ c ∈ sp3, isJsSpace c = true)
    (hq2 : q2 = [] ∨ q2 = ['"'] ∨ q2 = ['\'']) :
    ∀ c ∈ q2 ++ (sp3 ++ [')']), isDelim c = true := by
  intro c hc
  simp only [List.mem_append, List.mem_singleton] at hc
  rcases hc with hc | hc | rfl
  · rcases hq2 with rfl | rfl | rfl
    · simp at hc
    · simp only [List.mem_singleton] at hc
      subst hc
      decide
    · simp only [List.mem_singleton] at hc
      subst hc
      decide
  · exact isDelim_of_isJsSpace c (hsp3 c hc)
  · decide

/-- The opening delimiters of the `url()` pattern before a reference, read on
a parenthesis and a double quote: the reference follows them. -/
theorem url_open_paren_quote (sp1 sp2 q1 x y z : Str)
    (hsp1 : ∀ c ∈ sp1, isJsSpace c = true) (hsp2 : ∀ c ∈ sp2, isJsSpace c = true)
    (hq1 : q1 = [] ∨ q1 = ['"'] ∨ q1 = ['\''])
    (hx : ∀ c ∈ x, isDelim c = false) (hxne : x ≠ [])
    (h : sp1 ++ '(' :: (sp2 ++ (q1 ++ (x ++ y))) = '(' :: '"' :: z) : x ++ y = z := by
  cases sp1 with
  | cons c sp =>
    simp only [List.cons_append, List.cons.injEq] at h
    have := hsp1 c (List.mem_cons_self c sp)
    rw [h.1] at this
    exact absurd this (by decide)
  | nil =>
    simp only [List.nil_append, List.cons.injEq, true_and] at h
    cases sp2 with
    | cons c sp =>
      simp only [List.cons_append, List.cons.injEq] at h
      have := hsp2 c (List.mem_cons_self c sp)
      rw [h.1] at this
      exact absurd this (by decide)
    | nil =>
      simp only [List.nil_append] at h
      rcases hq1 with rfl | rfl | rfl
      · cases x with
        | nil => exact absurd rfl hxne
        | cons c x1 =>
          simp only [List.nil_append, List.cons_append, List.cons.injEq] at h
          have := hx c (List.mem_cons_self c x1)
          rw [h.1] at this
          exact absurd this (by decide)
      · simpa using h
      · simp at h

/-- The opening delimiters of the `url()` pattern do not read a descriptor:
after the white space comes a parenthesis, not a digit. -/
theorem url_open_descriptor (sp1 sp2 q1 y sp z : Str) (s0 d0 : Char)
    (hsp1 : ∀ c ∈ sp1, isJsSpace c = true)
    (hs0 : isJsSpace s0 = true) (hsp : ∀ c ∈ sp, isJsSpace c = true)
    (hd0 : d0.isDigit = true)
    (h : sp1 ++ '(' :: (sp2 ++ (q1 ++ y)) = s0 :: (sp ++ d0 :: z)) : False := by
  have hd : isJsSpace d0 = false := by
    cases hsd : isJsSpace d0 with
    | false => rfl
    | true =>
      have h1 := isDelim_code d0 (isDelim_of_isJsSpace d0 hsd)
      have h2 := isDigit_code d0 hd0
      omega
  have h2 : sp1 ++ '(' :: (sp2 ++ (q1 ++ y)) = (s0 :: sp) ++ d0 :: z := by
    rw [h]
    rfl
  obtain ⟨_, h3, _⟩ := split_at_nonspace _ _ _ _ _ _ hsp1 (by decide)
    (fun c hc => by
      rcases List.mem_cons.1 hc with rfl | hc
      · exact hs0
      · exact hsp c hc) hd h2
  rw [← h3] at hd0
  exact absurd hd0 (by decide)

/-- The closing delimiters of the `url()` pattern do not read a double quote
followed by a character that is no delimiter. -/
theorem url_close_quote (q2 sp3 y z : Str) (c : Char)
    (hsp3 : ∀ c ∈ sp3, isJsSpace c = true) (hq2 : q2 = [] ∨ q2 = ['"'] ∨ q2 = ['\''])
    (hc : isDelim c = false)
    (h : q2 ++ (sp3 ++ [')']) ++ y = '"' :: c :: z) : False := by
  have key : ∀ e s, sp3 ++ [')'] ++ y = e :: s → isDelim e = true := by
    intro e s he
    cases sp3 with
    | nil =>
      simp only [List.nil_append, List.singleton_append, List.cons.injEq] at he
      rw [← he.1]
      decide
    | cons x sp =>
      simp only [List.cons_append, List.cons.injEq] at he
      rw [← he.1]
      exact isDelim_of_isJsSpace x (hsp3 x (List.mem_cons_self x sp))
  rcases hq2 with rfl | rfl | rfl
  · have := key '"' (c :: z) (by simpa using h)
    have h2 : isJsSpace '"' = false := by decide
    cases sp3 with
    | nil => simp at h
    | cons x sp =>
      simp only [List.nil_append, List.cons_append, List.cons.injEq] at h
      have := hsp3 x (List.mem_cons_self x sp)
      rw [h.1, h2] at this
      exact absurd this (by decide)
  · have := key c z (by simpa using h)
    rw [hc] at this
    exact absurd this (by decide)
  · simp at h

/-- The closing delimiters of the `url()` pattern do not start with an opening
parenthesis. -/
theorem url_close_paren (q2 sp3 y z : Str)
    (hsp3 : ∀ c ∈ sp3, isJsSpace c = true) (hq2 : q2 = [] ∨ q2 = ['"'] ∨ q2 = ['\''])
    (h : q2 ++ (sp3 ++ [')']) ++ y = '(' :: z) : False := by
  rcases hq2 with rfl | rfl | rfl
  · cases sp3 with
    | nil => simp at h
    | cons x sp =>
      simp only [List.nil_append, List.cons_append, List.cons.injEq] at h
      have := hsp3 x (List.mem_cons_self x sp)
      rw [h.1] at this
      exact absurd this (by decide)
  · simp at h
  · simp at h

/-- The texts that the `url()` pattern matches, with the delimiters before and
after the reference as runs that are not empty. -/
theorem matches_urlFunc_runs (cz : Char → Char) (hcz : CaseFold cz) (key r : Str)
    (h : Matches cz (urlFuncPattern key) r) :
    ∃ u e1 open1 x e2 close1 sp1 sp2 q1 q2 sp3,
      r = u ++ e1 :: (open1 ++ (x ++ e2 :: close1)) ∧
      e1 :: open1 = sp1 ++ '(' :: (sp2 ++ q1) ∧ e2 :: close1 = q2 ++ (sp3 ++ [')']) ∧
      u.map upperCode = [85, 82, 76] ∧
      (∀ s ∈ sp1, isJsSpace s = true) ∧ (∀ s ∈ sp2, isJsSpace s = true) ∧
      (∀ s ∈ sp3, isJsSpace s = true) ∧
      (q1 = [] ∨ q1 = ['"'] ∨ q1 = ['\'']) ∧ (q2 = [] ∨ q2 = ['"'] ∨ q2 = ['\'']) ∧
      key.map cz = x.map cz := by
  obtain ⟨u, sp1, sp2, q1, x, q2, sp3, rfl, hu, hsp1, hsp2, hsp3, hq1, hq2, hx⟩ :=
    matches_urlFunc cz hcz key r h
  obtain ⟨e1, open1, he1⟩ : ∃ e1 open1, sp1 ++ '(' :: (sp2 ++ q1) = e1 :: open1 := by
    cases sp1 with
    | nil => exact ⟨_, _, rfl⟩
    | cons c sp => exact ⟨_, _, rfl⟩
  obtain ⟨e2, close1, he2⟩ : ∃ e2 close1, q2 ++ (sp3 ++ [')']) = e2 :: close1 := by
    rcases hq2 with rfl | rfl | rfl
    · cases sp3 with
      | nil => exact ⟨_, _, rfl⟩
      | cons c sp => exact ⟨_, _, rfl⟩
    · exact ⟨_, _, rfl⟩
    · exact ⟨_, _, rfl⟩
  refine ⟨u, e1, open1, x, e2, close1, sp1, sp2, q1, q2, sp3, ?_, he1.symm, he2.symm, hu, hsp1,
    hsp2, hsp3, hq1, hq2, hx⟩
  have e : u ++ (sp1 ++ '(' :: (sp2 ++ (q1 ++ (x ++ (q2 ++ (sp3 ++ [')']))))))
      = u ++ ((sp1 ++ '(' :: (sp2 ++ q1)) ++ (x ++ (q2 ++ (sp3 ++ [')'])))) := by
    simp
  rw [e, he1, he2]
  rfl

/-- A text that is equal to a key that is not empty is not empty. -/
theorem ne_nil_of_map (cz : Char → Char) (key x : Str) (hne : key ≠ [])
    (hx : key.map cz = x.map cz) : x ≠ [] := by
  rintro rfl
  cases key with
  | nil => exact hne rfl
  | cons k key => simp at hx

/-- The replacement of an attribute: the word and the equals sign without a
delimiter, and the first characters of the word. -/
theorem attrBlock_shape (cz : Char → Char) (hcz : CaseFold cz) (localPath m rep : Str)
    (hB : AttrBlock cz localPath m rep) :
    ∃ w0 q0 rest0 c0 c1 w1, m = w0 ++ '=' :: q0 :: rest0 ∧ (q0 = '"' ∨ q0 = '\'') ∧
      Matches cz attrWords w0 ∧ rep = w0 ++ '=' :: '"' :: (localPath ++ ['"']) ∧
      (∀ c ∈ w0 ++ ['='], isDelim c = false) ∧
      (∀ c ∈ w0, 65 ≤ upperCode c ∧ upperCode c ≤ 90) ∧ w0 = c0 :: c1 :: w1 ∧
      ((upperCode c0 = 83 ∧ upperCode c1 = 82) ∨ upperCode c0 = 72 ∨ upperCode c0 = 67) := by
  obtain ⟨w0, q0, rest0, hm, hq0, hw0, hrep⟩ := hB
  obtain ⟨hw0c, c0, c1, w1, hwe, hwh⟩ := attrWord_shape cz hcz w0 hw0
  exact ⟨w0, q0, rest0, c0, c1, w1, hm, hq0, hw0, hrep, not_isDelim_word w0 hw0c, hw0c, hwe,
    hwh⟩

/-- The code of the equals sign. -/
theorem upperCode_eq : upperCode '=' = 61 := by decide

/-- No match of the attribute pattern of a key starts inside the replacement
of an attribute. -/
theorem attr_inside_attrRep (cz : Char → Char) (hcz : CaseFold cz) (key localPath : Str)
    (hkey : ∀ c ∈ key, isDelim c = false)
    (hpath : ∀ c ∈ localPath, isPathChar c = true)
    (hG1 : ¬ key.map cz <:+ localPath.map cz)
    (m rep : Str) (hB : AttrBlock cz localPath m rep) (a1 r2 tail r rest : Str)
    (hsplit : rep = a1 ++ r2) (hr2 : r2 ≠ []) (hr : Matches cz (attrPattern key) r)
    (h : r ++ rest = r2 ++ tail) : False := by
  obtain ⟨w0, q0, rest0, c0, c1, w1, hm, hq0, hw0, hrep, hw0d, hw0c, hw0e, hw0h⟩ :=
    attrBlock_shape cz hcz localPath m rep hB
  obtain ⟨w, q, x, q1, rfl, hw, hq, hq1, hx⟩ := matches_attr cz hcz key r hr
  have hxd := not_isDelim_of_map cz hcz key x hkey hx
  obtain ⟨hwc, _⟩ := attrWord_shape cz hcz w hw
  have hld : ∀ c ∈ localPath, isDelim c = false :=
    fun c hc => not_isDelim_of_isPathChar c (hpath c hc)
  have hz : r2 ++ tail = (w ++ ['=']) ++ q :: (x ++ q1 :: rest) := by
    rw [← h]
    simp
  rcases attr_suffix_head w0 localPath a1 r2 tail (w ++ ['=']) (x ++ q1 :: rest) '"' '"' q
    hw0d (by decide) hld (by decide) (not_isDelim_word w hwc) (by simp)
    (isDelim_of_quote q hq) hr2 hz (by rw [← hsplit, hrep]) with
    ⟨w2, _, _, h3⟩ | ⟨l1, h1, _, _, _⟩
  · obtain ⟨h4, _, _⟩ := split_at_delim _ _ _ _ _ _ hxd (isDelim_of_quote q1 hq1) hld
      (by decide) h3
    exact not_end_of_path cz key x [] localPath hx hG1 h4
  · have : isPathChar '=' = true := hpath '=' (by rw [h1]; simp)
    exact absurd this (by decide)

/-- No match of the srcset pattern of a key starts inside the replacement of
an attribute. -/
theorem srcset_inside_attrRep (cz : Char → Char) (hcz : CaseFold cz) (key localPath : Str)
    (hkey : ∀ c ∈ key, isDelim c = false) (hne : key ≠ [])
    (hpath : ∀ c ∈ localPath, isPathChar c = true)
    (m rep : Str) (hB : AttrBlock cz localPath m rep) (a1 r2 tail r rest : Str)
    (hsplit : rep = a1 ++ r2) (hr2 : r2 ≠ []) (hr : Matches cz (srcsetPattern key) r)
    (h : r ++ rest = r2 ++ tail) : False := by
  obtain ⟨w0, q0, rest0, c0, c1, w1, hm, hq0, hw0, hrep, hw0d, hw0c, hw0e, hw0h⟩ :=
    attrBlock_shape cz hcz localPath m rep hB
  obtain ⟨x, g, rfl, hx, hg⟩ := matches_srcset cz key r hr
  obtain ⟨s0, sp, d0, ds, c, rfl, hs0, hsp, hd0, hds, hc⟩ := matches_descriptor cz hcz g hg
  have hxd := not_isDelim_of_map cz hcz key x hkey hx
  have hld : ∀ c ∈ localPath, isDelim c = false :=
    fun c hc => not_isDelim_of_isPathChar c (hpath c hc)
  have hz : r2 ++ tail = x ++ s0 :: ((sp ++ d0 :: (ds ++ [c])) ++ rest) := by
    rw [← h]
    simp
  have hq : isJsSpace '"' = false := by decide
  rcases attr_suffix_head w0 localPath a1 r2 tail x _ '"' '"' s0
    hw0d (by decide) hld (by decide) hxd (ne_nil_of_map cz key x hne hx)
    (isDelim_of_isJsSpace s0 hs0) hr2 hz (by rw [← hsplit, hrep]) with
    ⟨w2, _, h2, _⟩ | ⟨l1, _, _, h2, _⟩
  · rw [h2, hq] at hs0
    exact absurd hs0 (by decide)
  · rw [h2, hq] at hs0
    exact absurd hs0 (by decide)

/-- No match of the `url()` pattern of a key starts inside the replacement of
an attribute. -/
theorem urlFunc_inside_attrRep (cz : Char → Char) (hcz : CaseFold cz) (key localPath : Str)
    (hpath : ∀ c ∈ localPath, isPathChar c = true)
    (m rep : Str) (hB : AttrBlock cz localPath m rep) (a1 r2 tail r rest : Str)
    (hsplit : rep = a1 ++ r2) (hr2 : r2 ≠ []) (hr : Matches cz (urlFuncPattern key) r)
    (h : r ++ rest = r2 ++ tail) : False := by
  obtain ⟨w0, q0, rest0, c0, c1, w1, hm, hq0, hw0, hrep, hw0d, hw0c, hw0e, hw0h⟩ :=
    attrBlock_shape cz hcz localPath m rep hB
  obtain ⟨u, e1, open1, x, e2, close1, sp1, sp2, q1, q2, sp3, rfl, he1, he2, hu, hsp1, hsp2,
    hsp3, hq1, hq2, hx⟩ := matches_urlFunc_runs cz hcz key r hr
  have hld : ∀ c ∈ localPath, isDelim c = false :=
    fun c hc => not_isDelim_of_isPathChar c (hpath c hc)
  have hz : r2 ++ tail = u ++ e1 :: ((open1 ++ (x ++ e2 :: close1)) ++ rest) := by
    rw [← h]
    simp
  have hopen := url_open_delims sp1 sp2 q1 hsp1 hsp2 hq1
  rw [← he1] at hopen
  have hune : u ≠ [] := by
    rintro rfl
    simp at hu
  have hhead := url_open_head sp1 sp2 q1 [] e1 open1 hsp1 (by rw [he1]; simp)
  have hq : isJsSpace '"' = false := by decide
  rcases attr_suffix_head w0 localPath a1 r2 tail u _ '"' '"' e1
    hw0d (by decide) hld (by decide) (not_isDelim_url u hu) hune
    (hopen e1 (List.mem_cons_self _ _)) hr2 hz (by rw [← hsplit, hrep]) with
    ⟨w2, _, h2, _⟩ | ⟨l1, _, _, h2, _⟩
  · rcases hhead with h3 | h3
    · rw [h2, hq] at h3
      exact absurd h3 (by decide)
    · rw [h2] at h3
      exact absurd h3 (by decide)
  · rcases hhead with h3 | h3
    · rw [h2, hq] at h3
      exact absurd h3 (by decide)
    · rw [h2] at h3
      exact absurd h3 (by decide)

/-- The replacement of a srcset candidate: the local path and the parts of the
descriptor. -/
theorem srcsetBlock_shape (cz : Char → Char) (hcz : CaseFold cz) (localPath m rep : Str)
    (hB : SrcsetBlock cz localPath m rep) :
    ∃ s0 sp d0 ds c, rep = localPath ++ s0 :: (sp ++ d0 :: (ds ++ [c])) ∧
      isJsSpace s0 = true ∧ (∀ s ∈ sp, isJsSpace s = true) ∧
      (∀ y ∈ d0 :: ds, 48 ≤ upperCode y ∧ upperCode y ≤ 57) ∧
      (upperCode c = 87 ∨ upperCode c = 88) := by
  obtain ⟨g, hg, hrep⟩ := hB
  obtain ⟨s0, sp, d0, ds, c, rfl, hs0, hsp, hd0, hds, hc⟩ := matches_descriptor cz hcz g hg
  refine ⟨s0, sp, d0, ds, c, hrep, hs0, hsp, ?_, hc⟩
  intro y hy
  rcases List.mem_cons.1 hy with rfl | hy
  · exact isDigit_code y hd0
  · exact isDigit_code y (hds y hy)

/-- A suffix of a descriptor that is not empty: digits and the unit. -/
theorem descriptor_suffix (e1 r2 ds : Str) (d0 c : Char) (hr : r2 ≠ [])
    (h : d0 :: (ds ++ [c]) = e1 ++ r2) : ∃ r3, r2 = r3 ++ [c] ∧ ∀ y ∈ r3, y ∈ d0 :: ds := by
  have h2 : e1 ++ r2 = (d0 :: ds) ++ [c] := by
    rw [← h]
    rfl
  rcases suffix_append_cases _ _ _ _ h2 with ⟨x1, x2, hx, _, h3⟩ | ⟨y1, y2, hy, _, rfl⟩
  · exact ⟨x2, h3, fun y hy => by rw [hx]; exact List.mem_append_right _ hy⟩
  · cases y1 with
    | nil => exact ⟨[], by simpa using hy.symm, by simp⟩
    | cons y y3 =>
      simp only [List.cons_append, List.cons.injEq] at hy
      have h0 := hy.2.symm
      simp only [List.append_eq_nil] at h0
      exact absurd h0.2 hr

/-- The codes of the characters of a descriptor. -/
theorem descriptor_codes (ds : Str) (d0 c y : Char)
    (hds : ∀ y ∈ d0 :: ds, 48 ≤ upperCode y ∧ upperCode y ≤ 57)
    (hc : upperCode c = 87 ∨ upperCode c = 88) (hy : y ∈ d0 :: (ds ++ [c])) :
    (48 ≤ upperCode y ∧ upperCode y ≤ 57) ∨ upperCode y = 87 ∨ upperCode y = 88 := by
  have hy2 : y ∈ (d0 :: ds) ++ [c] := hy
  rcases List.mem_append.1 hy2 with h | h
  · exact Or.inl (hds y h)
  · simp only [List.mem_singleton] at h
    subst h
    exact Or.inr hc

/-- The first character of a suffix that is not empty is in the text. -/
theorem head_mem_of_suffix (e1 r2 tail s full : Str) (y : Char) (hr : r2 ≠ [])
    (hfull : full = e1 ++ r2) (hz : r2 ++ tail = y :: s) : y ∈ full := by
  cases r2 with
  | nil => exact absurd rfl hr
  | cons c r3 =>
    simp only [List.cons_append, List.cons.injEq] at hz
    rw [hfull, ← hz.1]
    simp

/-- A key that begins, up to canonicalisation, with digits followed by `w` or
`x` begins like a descriptor. -/
theorem startsLikeDescriptor_of_map (cz : Char → Char) (hcz : CaseFold cz) (key ds e : Str)
    (c : Char) (hds : ∀ d ∈ ds, 48 ≤ upperCode d ∧ upperCode d ≤ 57)
    (hc : upperCode c = 87 ∨ upperCode c = 88)
    (hx : key.map cz = (ds ++ c :: e).map cz) : startsLikeDescriptor key = true := by
  induction ds generalizing key with
  | nil =>
    cases key with
    | nil => simp at hx
    | cons k key =>
      simp only [List.nil_append, List.map_cons, List.cons.injEq] at hx
      have hlt : c.toNat < 128 := by
        rcases upperCode_cases c with ⟨h1, h2, h3⟩ | ⟨_, _, h3⟩ <;> omega
      have hk := upperCode_of_caseFold cz hcz k c hlt hx.1
      have hnd : k.isDigit = false := by
        cases hkd : k.isDigit with
        | false => rfl
        | true =>
          have := isDigit_code k hkd
          omega
      unfold startsLikeDescriptor
      simp only [List.dropWhile, hnd]
      have hk2 : k.toUpper.toNat = 87 ∨ k.toUpper.toNat = 88 := by
        unfold upperCode at hk hc
        omega
      rcases hk2 with h | h
      · have : k.toUpper = 'W' := char_eq_of_toNat _ _ h
        simp [this]
      · have : k.toUpper = 'X' := char_eq_of_toNat _ _ h
        simp [this]
  | cons d ds ih =>
    cases key with
    | nil => simp at hx
    | cons k key =>
      simp only [List.cons_append, List.map_cons, List.cons.injEq] at hx
      have hd := hds d (List.mem_cons_self d ds)
      have hdn : d.toNat < 65 := by
        rcases upperCode_cases d with ⟨h1, h2, h3⟩ | ⟨_, _, h3⟩ <;> omega
      have hkd : k = d := eq_of_caseFold_symbol cz hcz d k (Or.inl hdn) hx.1.symm
      have hdig : k.isDigit = true := by
        rw [hkd]
        have h1 : 48 ≤ d.toNat ∧ d.toNat ≤ 57 := by
          rcases upperCode_cases d with ⟨h1, h2, h3⟩ | ⟨_, _, h3⟩ <;> omega
        simp only [Char.isDigit, Bool.and_eq_true, decide_eq_true_eq]
        exact ⟨h1.1, h1.2⟩
      have := ih key (fun y hy => hds y (List.mem_cons_of_mem d hy)) hx.2
      unfold startsLikeDescriptor at this ⊢
      simp only [List.dropWhile, hdig]
      exact this

/-- No match of the attribute pattern of a key starts inside the replacement
of a srcset candidate. -/
theorem attr_inside_srcsetRep (cz : Char → Char) (hcz : CaseFold cz) (key localPath : Str)
    (hpath : ∀ c ∈ localPath, isPathChar c = true)
    (m rep : Str) (hB : SrcsetBlock cz localPath m rep) (a1 r2 tail r rest : Str)
    (hsplit : rep = a1 ++ r2) (hr2 : r2 ≠ []) (hr : Matches cz (attrPattern key) r)
    (h : r ++ rest = r2 ++ tail) : False := by
  obtain ⟨s0, sp, d0, ds, c, hrep, hs0, hsp, hds, hc⟩ :=
    srcsetBlock_shape cz hcz localPath m rep hB
  obtain ⟨w, q, x, q1, rfl, hw, hq, hq1, hx⟩ := matches_attr cz hcz key r hr
  obtain ⟨hwc, c0, c1, w1, hwe, hwh⟩ := attrWord_shape cz hcz w hw
  have hld : ∀ c ∈ localPath, isDelim c = false :=
    fun c hc => not_isDelim_of_isPathChar c (hpath c hc)
  have hz : r2 ++ tail = (w ++ ['=']) ++ q :: (x ++ q1 :: rest) := by
    rw [← h]
    simp
  rcases srcset_suffix_head localPath sp ds a1 r2 tail (w ++ ['=']) _ s0 d0 c q
    hld hs0 hsp (not_isDelim_word w hwc) (by simp) (isDelim_of_quote q hq) hz
    (by rw [← hsplit, hrep]) with ⟨l1, h1, _, _⟩ | ⟨e1, h1⟩
  · have : isPathChar '=' = true := hpath '=' (by rw [h1]; simp)
    exact absurd this (by decide)
  · have hmem := descriptor_codes ds d0 c c0 hds hc
      (head_mem_of_suffix e1 r2 tail _ _ c0 hr2 h1 (by rw [hz, hwe]; rfl))
    omega

/-- No match of the srcset pattern of a key starts inside the replacement of a
srcset candidate. -/
theorem srcset_inside_srcsetRep (cz : Char → Char) (hcz : CaseFold cz) (key localPath : Str)
    (hkey : ∀ c ∈ key, isDelim c = false) (hne : key ≠ [])
    (hdescr : startsLikeDescriptor key = false)
    (hpath : ∀ c ∈ localPath, isPathChar c = true)
    (hG1 : ¬ key.map cz <:+ localPath.map cz)
    (m rep : Str) (hB : SrcsetBlock cz localPath m rep) (a1 r2 tail r rest : Str)
    (hsplit : rep = a1 ++ r2) (hr2 : r2 ≠ []) (hr : Matches cz (srcsetPattern key) r)
    (h : r ++ rest = r2 ++ tail) : False := by
  obtain ⟨s0, sp, d0, ds, c, hrep, hs0, hsp, hds, hc⟩ :=
    srcsetBlock_shape cz hcz localPath m rep hB
  obtain ⟨x, g, rfl, hx, hg⟩ := matches_srcset cz key r hr
  obtain ⟨t0, tp, f0, fs, b, rfl, ht0, htp, hf0, hfs, hb⟩ := matches_descriptor cz hcz g hg
  have hxd := not_isDelim_of_map cz hcz key x hkey hx
  have hld : ∀ c ∈ localPath, isDelim c = false :=
    fun c hc => not_isDelim_of_isPathChar c (hpath c hc)
  have hz : r2 ++ tail = x ++ t0 :: ((tp ++ f0 :: (fs ++ [b])) ++ rest) := by
    rw [← h]
    simp
  rcases srcset_suffix_head localPath sp ds a1 r2 tail x _ s0 d0 c t0
    hld hs0 hsp hxd (ne_nil_of_map cz key x hne hx) (isDelim_of_isJsSpace t0 ht0) hz
    (by rw [← hsplit, hrep]) with ⟨l1, h1, _, _⟩ | ⟨e1, h1⟩
  · rw [h1] at hG1
    exact not_end_of_path cz key x l1 x hx hG1 rfl
  · -- the match starts in the descriptor
    obtain ⟨r3, hr3, hr3d⟩ := descriptor_suffix e1 r2 ds d0 c hr2 h1
    have hstart : ∀ e, x = r3 ++ c :: e → False := by
      intro e he
      rw [he] at hx
      have := startsLikeDescriptor_of_map cz hcz key r3 e c (fun y hy => hds y (hr3d y hy)) hc hx
      rw [hdescr] at this
      exact absurd this (by decide)
    rw [hr3] at hz
    rcases List.append_eq_append_iff.1 hz with ⟨a2, h2, _⟩ | ⟨c2, h2, h3⟩
    · exact hstart a2 (by rw [h2]; simp)
    · cases c2 with
      | nil => exact hstart [] (by simpa using h2.symm)
      | cons y c3 =>
        simp only [List.cons_append, List.cons.injEq] at h3
        have hy : y ∈ r3 ++ [c] := by rw [h2]; simp
        have hcode : (48 ≤ upperCode y ∧ upperCode y ≤ 57) ∨ upperCode y = 87 ∨
            upperCode y = 88 := by
          rcases List.mem_append.1 hy with h4 | h4
          · exact Or.inl (hds y (hr3d y h4))
          · simp only [List.mem_singleton] at h4
            subst h4
            exact Or.inr hc
        have hdel := isDelim_code y (by rw [← h3.1]; exact isDelim_of_isJsSpace t0 ht0)
        omega

/-- No match of the `url()` pattern of a key starts inside the replacement of
a srcset candidate. -/
theorem urlFunc_inside_srcsetRep (cz : Char → Char) (hcz : CaseFold cz) (key localPath : Str)
    (hpath : ∀ c ∈ localPath, isPathChar c = true)
    (m rep : Str) (hB : SrcsetBlock cz localPath m rep) (a1 r2 tail r rest : Str)
    (hsplit : rep = a1 ++ r2) (hr2 : r2 ≠ []) (hr : Matches cz (urlFuncPattern key) r)
    (h : r ++ rest = r2 ++ tail) : False := by
  obtain ⟨s0, sp, d0, ds, c, hrep, hs0, hsp, hds, hc⟩ :=
    srcsetBlock_shape cz hcz localPath m rep hB
  obtain ⟨u, e1, open1, x, e2, close1, sp1, sp2, q1, q2, sp3, rfl, he1, he2, hu, hsp1, hsp2,
    hsp3, hq1, hq2, hx⟩ := matches_urlFunc_runs cz hcz key r hr
  have hld : ∀ c ∈ localPath, isDelim c = false :=
    fun c hc => not_isDelim_of_isPathChar c (hpath c hc)
  have hz : r2 ++ tail = u ++ e1 :: ((open1 ++ (x ++ e2 :: close1)) ++ rest) := by
    rw [← h]
    simp
  have hopen := url_open_delims sp1 sp2 q1 hsp1 hsp2 hq1
  rw [← he1] at hopen
  have hune : u ≠ [] := by
    rintro rfl
    simp at hu
  rcases srcset_suffix_head localPath sp ds a1 r2 tail u _ s0 d0 c e1
    hld hs0 hsp (not_isDelim_url u hu) hune (hopen e1 (List.mem_cons_self _ _)) hz
    (by rw [← hsplit, hrep]) with ⟨l1, _, h2, h3⟩ | ⟨e3, h1⟩
  · have h4 : sp1 ++ '(' :: (sp2 ++ (q1 ++ ((x ++ e2 :: close1) ++ rest)))
        = s0 :: (sp ++ d0 :: ((ds ++ [c]) ++ tail)) := by
      have h5 : sp1 ++ '(' :: (sp2 ++ (q1 ++ ((x ++ e2 :: close1) ++ rest)))
          = (sp1 ++ '(' :: (sp2 ++ q1)) ++ ((x ++ e2 :: close1) ++ rest) := by simp
      rw [h5, ← he1, h2]
      simp only [List.cons_append, List.cons.injEq, true_and]
      rw [List.append_assoc] at h3
      rw [h3]
      simp
    have hd0 : d0.isDigit = true := by
      have h6 := hds d0 (List.mem_cons_self _ _)
      have h7 : 48 ≤ d0.toNat ∧ d0.toNat ≤ 57 := by
        rcases upperCode_cases d0 with ⟨h1, h2, h3⟩ | ⟨_, _, h3⟩ <;> omega
      simp only [Char.isDigit, Bool.and_eq_true, decide_eq_true_eq]
      exact ⟨h7.1, h7.2⟩
    exact url_open_descriptor sp1 sp2 q1 _ sp _ s0 d0 hsp1 hs0 hsp hd0 h4
  · obtain ⟨u0, u1, hu0⟩ : ∃ u0 u1, u = u0 :: u1 := by
      cases u with
      | nil => exact absurd rfl hune
      | cons a b => exact ⟨a, b, rfl⟩
    have hmem := descriptor_codes ds d0 c u0 hds hc
      (head_mem_of_suffix e3 r2 tail _ _ u0 hr2 h1 (by rw [hz, hu0]; rfl))
    have := url_codes u hu u0 (by rw [hu0]; simp)
    omega

/-- The replacement of a `url()` form as a word, delimiters, the local path and
delimiters. -/
theorem urlBlock_shape (localPath m rep : Str) (hB : UrlBlock localPath m rep) :
    rep = ['u', 'r', 'l'] ++ '(' :: (['"'] ++ (localPath ++ '"' :: [')'])) := by
  rw [hB]
  simp

/-- No match of the attribute pattern of a key starts inside the replacement
of a `url()` form. -/
theorem attr_inside_urlRep (cz : Char → Char) (hcz : CaseFold cz) (key localPath : Str)
    (hpath : ∀ c ∈ localPath, isPathChar c = true)
    (m rep : Str) (hB : UrlBlock localPath m rep) (a1 r2 tail r rest : Str)
    (hsplit : rep = a1 ++ r2) (hr2 : r2 ≠ []) (hr : Matches cz (attrPattern key) r)
    (h : r ++ rest = r2 ++ tail) : False := by
  have hrep := urlBlock_shape localPath m rep hB
  obtain ⟨w, q, x, q1, rfl, hw, hq, hq1, hx⟩ := matches_attr cz hcz key r hr
  obtain ⟨hwc, c0, c1, w1, hwe, hwh⟩ := attrWord_shape cz hcz w hw
  have hld : ∀ c ∈ localPath, isDelim c = false :=
    fun c hc => not_isDelim_of_isPathChar c (hpath c hc)
  have hz : r2 ++ tail = (w ++ ['=']) ++ q :: (x ++ q1 :: rest) := by
    rw [← h]
    simp
  rcases urlFunc_suffix_head ['u', 'r', 'l'] localPath ['"'] [')'] a1 r2 tail (w ++ ['=']) _
    '(' '"' q (by decide) (by decide) (by decide) hld (by decide) (by decide)
    (not_isDelim_word w hwc) (by simp) (isDelim_of_quote q hq) hr2 hz
    (by rw [← hsplit, hrep]) with ⟨u1, h1, _⟩ | ⟨l1, h1, _⟩
  · have hmem : '=' ∈ ['u', 'r', 'l'] := by rw [h1]; simp
    exact absurd hmem (by decide)
  · have : isPathChar '=' = true := hpath '=' (by rw [h1]; simp)
    exact absurd this (by decide)

/-- No match of the srcset pattern of a key starts inside the replacement of a
`url()` form. -/
theorem srcset_inside_urlRep (cz : Char → Char) (hcz : CaseFold cz) (key localPath : Str)
    (hkey : ∀ c ∈ key, isDelim c = false) (hne : key ≠ [])
    (hpath : ∀ c ∈ localPath, isPathChar c = true)
    (m rep : Str) (hB : UrlBlock localPath m rep) (a1 r2 tail r rest : Str)
    (hsplit : rep = a1 ++ r2) (hr2 : r2 ≠ []) (hr : Matches cz (srcsetPattern key) r)
    (h : r ++ rest = r2 ++ tail) : False := by
  have hrep := urlBlock_shape localPath m rep hB
  obtain ⟨x, g, rfl, hx, hg⟩ := matches_srcset cz key r hr
  obtain ⟨s0, sp, d0, ds, c, rfl, hs0, hsp, hd0, hds, hc⟩ := matches_descriptor cz hcz g hg
  have hxd := not_isDelim_of_map cz hcz key x hkey hx
  have hld : ∀ c ∈ localPath, isDelim c = false :=
    fun c hc => not_isDelim_of_isPathChar c (hpath c hc)
  have hz : r2 ++ tail = x ++ s0 :: ((sp ++ d0 :: (ds ++ [c])) ++ rest) := by
    rw [← h]
    simp
  rcases urlFunc_suffix_head ['u', 'r', 'l'] localPath ['"'] [')'] a1 r2 tail x _
    '(' '"' s0 (by decide) (by decide) (by decide) hld (by decide) (by decide)
    hxd (ne_nil_of_map cz key x hne hx) (isDelim_of_isJsSpace s0 hs0) hr2 hz
    (by rw [← hsplit, hrep]) with ⟨u1, _, h2⟩ | ⟨l1, _, h2⟩
  · simp only [List.cons_append, List.cons.injEq] at h2
    rw [h2.1] at hs0
    exact absurd hs0 (by decide)
  · simp only [List.cons_append, List.cons.injEq] at h2
    rw [h2.1] at hs0
    exact absurd hs0 (by decide)

/-- No match of the `url()` pattern of a key starts inside the replacement of
a `url()` form. -/
theorem urlFunc_inside_urlRep (cz : Char → Char) (hcz : CaseFold cz) (key localPath : Str)
    (hkey : ∀ c ∈ key, isDelim c = false) (hne : key ≠ [])
    (hpath : ∀ c ∈ localPath, isPathChar c = true)
    (hG1 : ¬ key.map cz <:+ localPath.map cz)
    (m rep : Str) (hB : UrlBlock localPath m rep) (a1 r2 tail r rest : Str)
    (hsplit : rep = a1 ++ r2) (hr2 : r2 ≠ []) (hr : Matches cz (urlFuncPattern key) r)
    (h : r ++ rest = r2 ++ tail) : False := by
  have hrep := urlBlock_shape localPath m rep hB
  obtain ⟨u, e1, open1, x, e2, close1, sp1, sp2, q1, q2, sp3, rfl, he1, he2, hu, hsp1, hsp2,
    hsp3, hq1, hq2, hx⟩ := matches_urlFunc_runs cz hcz key r hr
  have hxd := not_isDelim_of_map cz hcz key x hkey hx
  have hld : ∀ c ∈ localPath, isDelim c = false :=
    fun c hc => not_isDelim_of_isPathChar c (hpath c hc)
  have hz : r2 ++ tail = u ++ e1 :: ((open1 ++ (x ++ e2 :: close1)) ++ rest) := by
    rw [← h]
    simp
  have hopen := url_open_delims sp1 sp2 q1 hsp1 hsp2 hq1
  rw [← he1] at hopen
  have hclose := url_close_delims q2 sp3 hsp3 hq2
  rw [← he2] at hclose
  have hune : u ≠ [] := by
    rintro rfl
    simp at hu
  have hhead := url_open_head sp1 sp2 q1 [] e1 open1 hsp1 (by rw [he1]; simp)
  rcases urlFunc_suffix_head ['u', 'r', 'l'] localPath ['"'] [')'] a1 r2 tail u _
    '(' '"' e1 (by decide) (by decide) (by decide) hld (by decide) (by decide)
    (not_isDelim_url u hu) hune (hopen e1 (List.mem_cons_self _ _)) hr2 hz
    (by rw [← hsplit, hrep]) with ⟨u1, _, h2⟩ | ⟨l1, _, h2⟩
  · have h3 : sp1 ++ '(' :: (sp2 ++ (q1 ++ (x ++ (e2 :: close1 ++ rest))))
        = '(' :: '"' :: (localPath ++ '"' :: ')' :: tail) := by
      have h5 : sp1 ++ '(' :: (sp2 ++ (q1 ++ (x ++ (e2 :: close1 ++ rest))))
          = (sp1 ++ '(' :: (sp2 ++ q1)) ++ (x ++ (e2 :: close1 ++ rest)) := by simp
      rw [h5, ← he1]
      simpa using h2
    have h4 := url_open_paren_quote sp1 sp2 q1 x _ _ hsp1 hsp2 hq1 hxd
      (ne_nil_of_map cz key x hne hx) h3
    have h6 : x ++ e2 :: (close1 ++ rest) = localPath ++ '"' :: (')' :: tail) := by
      rw [← h4]
      simp
    obtain ⟨h7, _, _⟩ := split_at_delim _ _ _ _ _ _ hxd (hclose e2 (List.mem_cons_self _ _))
      hld (by decide) h6
    exact not_end_of_path cz key x [] localPath hx hG1 h7
  · simp only [List.cons_append, List.cons.injEq] at h2
    rcases hhead with h3 | h3
    · rw [h2.1] at h3
      exact absurd h3 (by decide)
    · rw [h2.1] at h3
      exact absurd h3 (by decide)

/-- A match of the attribute pattern that runs into the replacement of an
attribute ends at the quote that follows the equals sign, and the text before
the replacement has a match as well: the key ends with the word and the equals
sign. -/
theorem attr_touch_attrRep (cz : Char → Char) (hcz : CaseFold cz) (key localPath : Str)
    (hkey : ∀ c ∈ key, isDelim c = false)
    (hpath : ∀ c ∈ localPath, isPathChar c = true)
    (hG1 : ¬ key.map cz <:+ localPath.map cz)
    (m rep : Str) (hB : AttrBlock cz localPath m rep) (c1 tail r rest : Str)
    (hr : Matches cz (attrPattern key) r)
    (h : r ++ rest = c1 ++ (rep ++ tail)) (hl : c1.length < r.length) :
    ∃ r1 rest1, Matches cz (attrPattern key) r1 ∧ c1 ++ m = r1 ++ rest1 := by
  obtain ⟨w0, q0, rest0, c0, d1, w1, hm, hq0, hw0, hrep, hw0d, hw0c, hw0e, hw0h⟩ :=
    attrBlock_shape cz hcz localPath m rep hB
  obtain ⟨w, q, x, q1, rfl, hw, hq, hq1, hx⟩ := matches_attr cz hcz key r hr
  have hxd := not_isDelim_of_map cz hcz key x hkey hx
  obtain ⟨hwc, _⟩ := attrWord_shape cz hcz w hw
  have hld : ∀ c ∈ localPath, isDelim c = false :=
    fun c hc => not_isDelim_of_isPathChar c (hpath c hc)
  obtain ⟨r2, hr2, hrc, hz⟩ := touch_split _ rest c1 _ h hl
  have hz2 : r2 ++ rest = (w0 ++ ['=']) ++ '"' :: (localPath ++ '"' :: tail) := by
    rw [hz, hrep]
    simp
  rcases attr_suffix_head w x c1 r2 rest (w0 ++ ['=']) _ q q1 '"'
    (not_isDelim_word w hwc) (isDelim_of_quote q hq) hxd (isDelim_of_quote q1 hq1)
    hw0d (by simp) (by decide) hr2 hz2 hrc.symm with ⟨w2, _, _, h3⟩ | ⟨x1, h1, h2, _, _⟩
  · exfalso
    obtain ⟨h4, _, _⟩ := split_at_delim _ _ _ _ _ _ hld (by decide) hxd
      (isDelim_of_quote q1 hq1) h3
    exact not_end_of_path cz key x [] localPath hx hG1 h4.symm
  · refine ⟨w ++ '=' :: q :: (x ++ [q0]), rest0,
      matches_attr_of cz key w x q q0 hw hq hq0 hx, ?_⟩
    rw [h2, hm, h1]
    simp

/-- No match of the srcset pattern of a key runs into the replacement of an
attribute. -/
theorem srcset_touch_attrRep (cz : Char → Char) (hcz : CaseFold cz) (key localPath : Str)
    (hkey : ∀ c ∈ key, isDelim c = false)
    (m rep : Str) (hB : AttrBlock cz localPath m rep) (c1 tail r rest : Str)
    (hr : Matches cz (srcsetPattern key) r)
    (h : r ++ rest = c1 ++ (rep ++ tail)) (hl : c1.length < r.length) : False := by
  obtain ⟨w0, q0, rest0, c0, d1, w1, hm, hq0, hw0, hrep, hw0d, hw0c, hw0e, hw0h⟩ :=
    attrBlock_shape cz hcz localPath m rep hB
  obtain ⟨x, g, rfl, hx, hg⟩ := matches_srcset cz key r hr
  obtain ⟨s0, sp, d0, ds, c, rfl, hs0, hsp, hd0, hds, hc⟩ := matches_descriptor cz hcz g hg
  have hxd := not_isDelim_of_map cz hcz key x hkey hx
  obtain ⟨r2, hr2, hrc, hz⟩ := touch_split _ rest c1 _ h hl
  have hz2 : r2 ++ rest = (w0 ++ ['=']) ++ '"' :: (localPath ++ '"' :: tail) := by
    rw [hz, hrep]
    simp
  rcases srcset_suffix_head x sp ds c1 r2 rest (w0 ++ ['=']) _ s0 d0 c '"'
    hxd hs0 hsp hw0d (by simp) (by decide) hz2 hrc.symm with ⟨x1, _, h2, _⟩ | ⟨e1, h1⟩
  · rw [← h2] at hs0
    exact absurd hs0 (by decide)
  · have hdig : ∀ y ∈ d0 :: ds, 48 ≤ upperCode y ∧ upperCode y ≤ 57 := by
      intro y hy
      rcases List.mem_cons.1 hy with rfl | hy
      · exact isDigit_code y hd0
      · exact isDigit_code y (hds y hy)
    have hmem := descriptor_codes ds d0 c c0 hdig hc
      (head_mem_of_suffix e1 r2 rest _ _ c0 hr2 h1 (by rw [hz2, hw0e]; rfl))
    omega

/-- No match of the `url()` pattern of a key runs into the replacement of an
attribute. -/
theorem urlFunc_touch_attrRep (cz : Char → Char) (hcz : CaseFold cz) (key localPath : Str)
    (hkey : ∀ c ∈ key, isDelim c = false)
    (hassets : ∃ l1, localPath = 'a' :: 's' :: 's' :: l1)
    (m rep : Str) (hB : AttrBlock cz localPath m rep) (c1 tail r rest : Str)
    (hr : Matches cz (urlFuncPattern key) r)
    (h : r ++ rest = c1 ++ (rep ++ tail)) (hl : c1.length < r.length) : False := by
  obtain ⟨w0, q0, rest0, c0, d1, w1, hm, hq0, hw0, hrep, hw0d, hw0c, hw0e, hw0h⟩ :=
    attrBlock_shape cz hcz localPath m rep hB
  obtain ⟨u, e1, open1, x, e2, close1, sp1, sp2, q1, q2, sp3, rfl, he1, he2, hu, hsp1, hsp2,
    hsp3, hq1, hq2, hx⟩ := matches_urlFunc_runs cz hcz key r hr
  have hxd := not_isDelim_of_map cz hcz key x hkey hx
  have hopen := url_open_delims sp1 sp2 q1 hsp1 hsp2 hq1
  rw [← he1] at hopen
  have hclose := url_close_delims q2 sp3 hsp3 hq2
  rw [← he2] at hclose
  obtain ⟨r2, hr2, hrc, hz⟩ := touch_split _ rest c1 _ h hl
  have hz2 : r2 ++ rest = (w0 ++ ['=']) ++ '"' :: (localPath ++ '"' :: tail) := by
    rw [hz, hrep]
    simp
  rcases urlFunc_suffix_head u x open1 close1 c1 r2 rest (w0 ++ ['=']) _ e1 e2 '"'
    (not_isDelim_url u hu) (hopen e1 (List.mem_cons_self _ _))
    (fun y hy => hopen y (List.mem_cons_of_mem _ hy)) hxd
    (hclose e2 (List.mem_cons_self _ _)) (fun y hy => hclose y (List.mem_cons_of_mem _ hy))
    hw0d (by simp) (by decide) hr2 hz2 hrc.symm with ⟨u1, h1, _⟩ | ⟨x1, _, h2⟩
  · have := url_codes u hu '=' (by rw [h1]; simp)
    rw [upperCode_eq] at this
    omega
  · obtain ⟨l1, hl1⟩ := hassets
    have h3 : q2 ++ (sp3 ++ [')']) ++ rest = '"' :: 'a' :: ('s' :: 's' :: l1 ++ '"' :: tail) := by
      rw [← he2, ← h2, hl1]
      simp
    exact url_close_quote q2 sp3 rest _ 'a' hsp3 hq2 (by decide) h3

/-- The code of the first letter of `assets`. -/
theorem upperCode_a : upperCode 'a' = 65 := by decide

/-- The code of the first letter of `url`. -/
theorem upperCode_u : upperCode 'u' = 85 := by decide

/-- No match of the attribute pattern of a key runs into the replacement of a
srcset candidate. -/
theorem attr_touch_srcsetRep (cz : Char → Char) (hcz : CaseFold cz) (key localPath : Str)
    (hkey : ∀ c ∈ key, isDelim c = false)
    (hpath : ∀ c ∈ localPath, isPathChar c = true)
    (hassets : ∃ l1, localPath = 'a' :: 's' :: 's' :: l1)
    (m rep : Str) (hB : SrcsetBlock cz localPath m rep) (c1 tail r rest : Str)
    (hr : Matches cz (attrPattern key) r)
    (h : r ++ rest = c1 ++ (rep ++ tail)) (hl : c1.length < r.length) : False := by
  obtain ⟨s0, sp, d0, ds, c, hrep, hs0, hsp, hds, hc⟩ :=
    srcsetBlock_shape cz hcz localPath m rep hB
  obtain ⟨w, q, x, q1, rfl, hw, hq, hq1, hx⟩ := matches_attr cz hcz key r hr
  have hxd := not_isDelim_of_map cz hcz key x hkey hx
  obtain ⟨hwc, _⟩ := attrWord_shape cz hcz w hw
  have hld : ∀ c ∈ localPath, isDelim c = false :=
    fun c hc => not_isDelim_of_isPathChar c (hpath c hc)
  have hlne : localPath ≠ [] := by
    obtain ⟨l1, hl1⟩ := hassets
    rw [hl1]
    simp
  obtain ⟨r2, hr2, hrc, hz⟩ := touch_split _ rest c1 _ h hl
  have hz2 : r2 ++ rest = localPath ++ s0 :: ((sp ++ d0 :: (ds ++ [c])) ++ tail) := by
    rw [hz, hrep]
    simp
  have hnq : ∀ y, (y = '"' ∨ y = '\'') → isJsSpace y = false := by
    rintro y (rfl | rfl) <;> decide
  rcases attr_suffix_head w x c1 r2 rest localPath _ q q1 s0
    (not_isDelim_word w hwc) (isDelim_of_quote q hq) hxd (isDelim_of_quote q1 hq1)
    hld hlne (isDelim_of_isJsSpace s0 hs0) hr2 hz2 hrc.symm with
    ⟨w2, _, h2, _⟩ | ⟨x1, _, _, h2, _⟩
  · rw [h2, hnq q hq] at hs0
    exact absurd hs0 (by decide)
  · rw [h2, hnq q1 hq1] at hs0
    exact absurd hs0 (by decide)

/-- No match of the srcset pattern of a key runs into the replacement of a
srcset candidate. -/
theorem srcset_touch_srcsetRep (cz : Char → Char) (hcz : CaseFold cz) (key localPath : Str)
    (hkey : ∀ c ∈ key, isDelim c = false)
    (hpath : ∀ c ∈ localPath, isPathChar c = true)
    (hassets : ∃ l1, localPath = 'a' :: 's' :: 's' :: l1)
    (hG2 : ¬ localPath.map cz <:+ key.map cz)
    (m rep : Str) (hB : SrcsetBlock cz localPath m rep) (c1 tail r rest : Str)
    (hr : Matches cz (srcsetPattern key) r)
    (h : r ++ rest = c1 ++ (rep ++ tail)) (hl : c1.length < r.length) : False := by
  obtain ⟨s0, sp, d0, ds, c, hrep, hs0, hsp, hds, hc⟩ :=
    srcsetBlock_shape cz hcz localPath m rep hB
  obtain ⟨x, g, rfl, hx, hg⟩ := matches_srcset cz key r hr
  obtain ⟨t0, tp, f0, fs, b, rfl, ht0, htp, hf0, hfs, hb⟩ := matches_descriptor cz hcz g hg
  have hxd := not_isDelim_of_map cz hcz key x hkey hx
  have hld : ∀ c ∈ localPath, isDelim c = false :=
    fun c hc => not_isDelim_of_isPathChar c (hpath c hc)
  obtain ⟨l1, hl1⟩ := hassets
  have hlne : localPath ≠ [] := by
    rw [hl1]
    simp
  obtain ⟨r2, hr2, hrc, hz⟩ := touch_split _ rest c1 _ h hl
  have hz2 : r2 ++ rest = localPath ++ s0 :: ((sp ++ d0 :: (ds ++ [c])) ++ tail) := by
    rw [hz, hrep]
    simp
  rcases srcset_suffix_head x tp fs c1 r2 rest localPath _ t0 f0 b s0
    hxd ht0 htp hld hlne (isDelim_of_isJsSpace s0 hs0) hz2 hrc.symm with
    ⟨x1, h1, _, _⟩ | ⟨e1, h1⟩
  · rw [h1] at hx
    exact not_end_of_key cz key x1 localPath localPath hx hG2 rfl
  · have hdig : ∀ y ∈ f0 :: fs, 48 ≤ upperCode y ∧ upperCode y ≤ 57 := by
      intro y hy
      rcases List.mem_cons.1 hy with rfl | hy
      · exact isDigit_code y hf0
      · exact isDigit_code y (hfs y hy)
    have hmem := descriptor_codes fs f0 b 'a' hdig hb
      (head_mem_of_suffix e1 r2 rest _ _ 'a' hr2 h1 (by rw [hz2, hl1]; rfl))
    rw [upperCode_a] at hmem
    omega

/-- No match of the `url()` pattern of a key runs into the replacement of a
srcset candidate. -/
theorem urlFunc_touch_srcsetRep (cz : Char → Char) (hcz : CaseFold cz) (key localPath : Str)
    (hkey : ∀ c ∈ key, isDelim c = false)
    (hpath : ∀ c ∈ localPath, isPathChar c = true)
    (hassets : ∃ l1, localPath = 'a' :: 's' :: 's' :: l1)
    (hG2 : ¬ localPath.map cz <:+ key.map cz)
    (m rep : Str) (hB : SrcsetBlock cz localPath m rep) (c1 tail r rest : Str)
    (hr : Matches cz (urlFuncPattern key) r)
    (h : r ++ rest = c1 ++ (rep ++ tail)) (hl : c1.length < r.length) : False := by
  obtain ⟨s0, sp, d0, ds, c, hrep, hs0, hsp, hds, hc⟩ :=
    srcsetBlock_shape cz hcz localPath m rep hB
  obtain ⟨u, e1, open1, x, e2, close1, sp1, sp2, q1, q2, sp3, rfl, he1, he2, hu, hsp1, hsp2,
    hsp3, hq1, hq2, hx⟩ := matches_urlFunc_runs cz hcz key r hr
  have hxd := not_isDelim_of_map cz hcz key x hkey hx
  have hopen := url_open_delims sp1 sp2 q1 hsp1 hsp2 hq1
  rw [← he1] at hopen
  have hclose := url_close_delims q2 sp3 hsp3 hq2
  rw [← he2] at hclose
  have hld : ∀ c ∈ localPath, isDelim c = false :=
    fun c hc => not_isDelim_of_isPathChar c (hpath c hc)
  obtain ⟨l1, hl1⟩ := hassets
  have hlne : localPath ≠ [] := by
    rw [hl1]
    simp
  obtain ⟨r2, hr2, hrc, hz⟩ := touch_split _ rest c1 _ h hl
  have hz2 : r2 ++ rest = localPath ++ s0 :: ((sp ++ d0 :: (ds ++ [c])) ++ tail) := by
    rw [hz, hrep]
    simp
  rcases urlFunc_suffix_head u x open1 close1 c1 r2 rest localPath _ e1 e2 s0
    (not_isDelim_url u hu) (hopen e1 (List.mem_cons_self _ _))
    (fun y hy => hopen y (List.mem_cons_of_mem _ hy)) hxd
    (hclose e2 (List.mem_cons_self _ _)) (fun y hy => hclose y (List.mem_cons_of_mem _ hy))
    hld hlne (isDelim_of_isJsSpace s0 hs0) hr2 hz2 hrc.symm with ⟨u1, h1, _⟩ | ⟨x1, h1, _⟩
  · have := url_codes u hu 'a' (by rw [h1, hl1]; simp)
    rw [upperCode_a] at this
    omega
  · rw [h1] at hx
    exact not_end_of_key cz key x1 localPath localPath hx hG2 rfl

/-- No match of the attribute pattern of a key runs into the replacement of a
`url()` form. -/
theorem attr_touch_urlRep (cz : Char → Char) (hcz : CaseFold cz) (key localPath : Str)
    (hkey : ∀ c ∈ key, isDelim c = false)
    (m rep : Str) (hB : UrlBlock localPath m rep) (c1 tail r rest : Str)
    (hr : Matches cz (attrPattern key) r)
    (h : r ++ rest = c1 ++ (rep ++ tail)) (hl : c1.length < r.length) : False := by
  have hrep := urlBlock_shape localPath m rep hB
  obtain ⟨w, q, x, q1, rfl, hw, hq, hq1, hx⟩ := matches_attr cz hcz key r hr
  have hxd := not_isDelim_of_map cz hcz key x hkey hx
  obtain ⟨hwc, _⟩ := attrWord_shape cz hcz w hw
  obtain ⟨r2, hr2, hrc, hz⟩ := touch_split _ rest c1 _ h hl
  have hz2 : r2 ++ rest = ['u', 'r', 'l'] ++ '(' :: ('"' :: (localPath ++ '"' :: ')' :: tail)) := by
    rw [hz, hrep]
    simp
  rcases attr_suffix_head w x c1 r2 rest ['u', 'r', 'l'] _ q q1 '('
    (not_isDelim_word w hwc) (isDelim_of_quote q hq) hxd (isDelim_of_quote q1 hq1)
    (by decide) (by simp) (by decide) hr2 hz2 hrc.symm with
    ⟨w2, _, h2, _⟩ | ⟨x1, _, _, h2, _⟩
  · rcases hq with hq | hq <;> rw [hq] at h2 <;> exact absurd h2 (by decide)
  · rcases hq1 with hq | hq <;> rw [hq] at h2 <;> exact absurd h2 (by decide)

/-- No match of the srcset pattern of a key runs into the replacement of a
`url()` form. -/
theorem srcset_touch_urlRep (cz : Char → Char) (hcz : CaseFold cz) (key localPath : Str)
    (hkey : ∀ c ∈ key, isDelim c = false)
    (m rep : Str) (hB : UrlBlock localPath m rep) (c1 tail r rest : Str)
    (hr : Matches cz (srcsetPattern key) r)
    (h : r ++ rest = c1 ++ (rep ++ tail)) (hl : c1.length < r.length) : False := by
  have hrep := urlBlock_shape localPath m rep hB
  obtain ⟨x, g, rfl, hx, hg⟩ := matches_srcset cz key r hr
  obtain ⟨s0, sp, d0, ds, c, rfl, hs0, hsp, hd0, hds, hc⟩ := matches_descriptor cz hcz g hg
  have hxd := not_isDelim_of_map cz hcz key x hkey hx
  obtain ⟨r2, hr2, hrc, hz⟩ := touch_split _ rest c1 _ h hl
  have hz2 : r2 ++ rest = ['u', 'r', 'l'] ++ '(' :: ('"' :: (localPath ++ '"' :: ')' :: tail)) := by
    rw [hz, hrep]
    simp
  rcases srcset_suffix_head x sp ds c1 r2 rest ['u', 'r', 'l'] _ s0 d0 c '('
    hxd hs0 hsp (by decide) (by simp) (by decide) hz2 hrc.symm with ⟨x1, _, h2, _⟩ | ⟨e1, h1⟩
  · rw [← h2] at hs0
    exact absurd hs0 (by decide)
  · have hdig : ∀ y ∈ d0 :: ds, 48 ≤ upperCode y ∧ upperCode y ≤ 57 := by
      intro y hy
      rcases List.mem_cons.1 hy with rfl | hy
      · exact isDigit_code y hd0
      · exact isDigit_code y (hds y hy)
    have hmem := descriptor_codes ds d0 c 'u' hdig hc
      (head_mem_of_suffix e1 r2 rest _ _ 'u' hr2 h1 (by rw [hz2]; rfl))
    rw [upperCode_u] at hmem
    omega

/-- No match of the `url()` pattern of a key runs into the replacement of a
`url()` form. -/
theorem urlFunc_touch_urlRep (cz : Char → Char) (hcz : CaseFold cz) (key localPath : Str)
    (hkey : ∀ c ∈ key, isDelim c = false) (hne : key ≠ [])
    (hpath : ∀ c ∈ localPath, isPathChar c = true)
    (hG1 : ¬ key.map cz <:+ localPath.map cz)
    (m rep : Str) (hB : UrlBlock localPath m rep) (c1 tail r rest : Str)
    (hr : Matches cz (urlFuncPattern key) r)
    (h : r ++ rest = c1 ++ (rep ++ tail)) (hl : c1.length < r.length) : False := by
  have hrep := urlBlock_shape localPath m rep hB
  obtain ⟨u, e1, open1, x, e2, close1, sp1, sp2, q1, q2, sp3, rfl, he1, he2, hu, hsp1, hsp2,
    hsp3, hq1, hq2, hx⟩ := matches_urlFunc_runs cz hcz key r hr
  have hxd := not_isDelim_of_map cz hcz key x hkey hx
  have hopen := url_open_delims sp1 sp2 q1 hsp1 hsp2 hq1
  rw [← he1] at hopen
  have hclose := url_close_delims q2 sp3 hsp3 hq2
  rw [← he2] at hclose
  have hld : ∀ c ∈ localPath, isDelim c = false :=
    fun c hc => not_isDelim_of_isPathChar c (hpath c hc)
  obtain ⟨r2, hr2, hrc, hz⟩ := touch_split _ rest c1 _ h hl
  have hz2 : r2 ++ rest = ['u', 'r', 'l'] ++ '(' :: ('"' :: (localPath ++ '"' :: ')' :: tail)) := by
    rw [hz, hrep]
    simp
  rcases urlFunc_suffix_head u x open1 close1 c1 r2 rest ['u', 'r', 'l'] _ e1 e2 '('
    (not_isDelim_url u hu) (hopen e1 (List.mem_cons_self _ _))
    (fun y hy => hopen y (List.mem_cons_of_mem _ hy)) hxd
    (hclose e2 (List.mem_cons_self _ _)) (fun y hy => hclose y (List.mem_cons_of_mem _ hy))
    (by decide) (by simp) (by decide) hr2 hz2 hrc.symm with ⟨u1, _, h2⟩ | ⟨x1, _, h2⟩
  · have h3 : sp1 ++ '(' :: (sp2 ++ (q1 ++ (x ++ (e2 :: close1 ++ rest))))
        = '(' :: '"' :: (localPath ++ '"' :: ')' :: tail) := by
      have h5 : sp1 ++ '(' :: (sp2 ++ (q1 ++ (x ++ (e2 :: close1 ++ rest))))
          = (sp1 ++ '(' :: (sp2 ++ q1)) ++ (x ++ (e2 :: close1 ++ rest)) := by simp
      rw [h5, ← he1]
      simpa using h2.symm
    have h4 := url_open_paren_quote sp1 sp2 q1 x _ _ hsp1 hsp2 hq1 hxd
      (ne_nil_of_map cz key x hne hx) h3
    have h6 : x ++ e2 :: (close1 ++ rest) = localPath ++ '"' :: (')' :: tail) := by
      rw [← h4]
      simp
    obtain ⟨h7, _, _⟩ := split_at_delim _ _ _ _ _ _ hxd (hclose e2 (List.mem_cons_self _ _))
      hld (by decide) h6
    exact not_end_of_path cz key x [] localPath hx hG1 h7
  · have h3 : q2 ++ (sp3 ++ [')']) ++ rest = '(' :: ('"' :: (localPath ++ '"' :: ')' :: tail)) := by
      rw [← he2, h2]
    exact url_close_paren q2 sp3 rest _ hsp3 hq2 h3

/-- The texts that the start of a `base` tag matches: five characters with the
codes of `<BASE`. -/
theorem matches_baseStart (cz : Char → Char) (hcz : CaseFold cz) (z : Str)
    (h : Matches cz baseStart z) :
    ∃ z0 z1 z2 z3 z4, z = [z0, z1, z2, z3, z4] ∧ upperCode z0 = 60 ∧ upperCode z1 = 66 ∧
      upperCode z2 = 65 ∧ upperCode z3 = 83 ∧ upperCode z4 = 69 := by
  have h1 : z.map upperCode = [60, 66, 65, 83, 69] :=
    (map_upperCode_of_caseFold cz hcz _ z (by decide)
      ((matches_literal cz _ z).1 h)).trans (by decide)
  simp only [List.map_eq_cons_iff, List.map_eq_nil_iff] at h1
  obtain ⟨z0, _, rfl, h0, z1, _, rfl, h1, z2, _, rfl, h2, z3, _, rfl, h3, z4, _, rfl, h4,
    rfl⟩ := h1
  exact ⟨z0, z1, z2, z3, z4, rfl, h0, h1, h2, h3, h4⟩

/-- The start of a `base` tag does not begin inside a text without a
character with the code of `<`. -/
theorem baseStart_inside (cz : Char → Char) (hcz : CaseFold cz) (rep : Str)
    (hrep : ∀ c ∈ rep, upperCode c ≠ 60) (a1 r2 tail r rest : Str)
    (hsplit : rep = a1 ++ r2) (hr2 : r2 ≠ []) (hr : Matches cz baseStart r)
    (h : r ++ rest = r2 ++ tail) : False := by
  obtain ⟨z0, z1, z2, z3, z4, rfl, h0, _⟩ := matches_baseStart cz hcz r hr
  exact hrep z0 (head_mem_of_suffix a1 r2 tail _ rep z0 hr2 hsplit (by rw [← h]; rfl)) h0

/-- The replacement of an attribute has no character with the code of `<`. -/
theorem attrRep_codes (cz : Char → Char) (hcz : CaseFold cz) (localPath m rep : Str)
    (hpath : ∀ c ∈ localPath, isPathChar c = true) (hB : AttrBlock cz localPath m rep) :
    ∀ c ∈ rep, upperCode c ≠ 60 := by
  obtain ⟨w0, q0, rest0, c0, d1, w1, hm, hq0, hw0, hrep, hw0d, hw0c, hw0e, hw0h⟩ :=
    attrBlock_shape cz hcz localPath m rep hB
  intro c hc
  rw [hrep] at hc
  simp only [List.mem_append, List.mem_cons, List.mem_singleton, List.not_mem_nil,
    or_false] at hc
  rcases hc with hc | rfl | rfl | hc | rfl
  · have := hw0c c hc
    omega
  · decide
  · decide
  · exact isPathChar_code c (hpath c hc)
  · decide

/-- The replacement of a srcset candidate has no character with the code of
`<`. -/
theorem srcsetRep_codes (cz : Char → Char) (hcz : CaseFold cz) (localPath m rep : Str)
    (hpath : ∀ c ∈ localPath, isPathChar c = true) (hB : SrcsetBlock cz localPath m rep) :
    ∀ c ∈ rep, upperCode c ≠ 60 := by
  obtain ⟨s0, sp, d0, ds, c, hrep, hs0, hsp, hds, hc⟩ :=
    srcsetBlock_shape cz hcz localPath m rep hB
  intro y hy
  rw [hrep] at hy
  simp only [List.mem_append, List.mem_cons, List.mem_singleton, List.not_mem_nil,
    or_false] at hy
  rcases hy with hy | rfl | hy | rfl | hy | rfl
  · exact isPathChar_code y (hpath y hy)
  · have := isDelim_code y (isDelim_of_isJsSpace y hs0)
    omega
  · have := isDelim_code y (isDelim_of_isJsSpace y (hsp y hy))
    omega
  · have := hds y (List.mem_cons_self _ _)
    omega
  · have := hds y (List.mem_cons_of_mem _ hy)
    omega
  · omega

/-- The replacement of a `url()` form has no character with the code of
`<`. -/
theorem urlRep_codes (localPath m rep : Str)
    (hpath : ∀ c ∈ localPath, isPathChar c = true) (hB : UrlBlock localPath m rep) :
    ∀ c ∈ rep, upperCode c ≠ 60 := by
  intro c hc
  rw [hB] at hc
  simp only [List.mem_append, List.mem_cons, List.mem_singleton, List.not_mem_nil,
    or_false] at hc
  rcases hc with rfl | rfl | rfl | rfl | rfl | hc | rfl | rfl
  any_goals decide
  exact isPathChar_code c (hpath c hc)

/-- The ends of the start of a `base` tag: what a proper suffix that is not
empty begins with. -/
theorem baseStart_suffix (cz : Char → Char) (hcz : CaseFold cz) (c1 r2 r : Str)
    (hr : Matches cz baseStart r) (hc1 : c1 ≠ []) (hr2 : r2 ≠ []) (h : r = c1 ++ r2) :
    ∃ y ys, r2 = y :: ys ∧
      (upperCode y = 66 ∨ (upperCode y = 65 ∧ ∃ y1 y2 ys2, ys = y1 :: y2 :: ys2 ∧
          upperCode y2 = 69) ∨
        (upperCode y = 83 ∧ ∃ y1 ys1, ys = y1 :: ys1 ∧ upperCode y1 = 69) ∨
        upperCode y = 69) := by
  obtain ⟨z0, z1, z2, z3, z4, rfl, h0, h1, h2, h3, h4⟩ := matches_baseStart cz hcz r hr
  cases c1 with
  | nil => exact absurd rfl hc1
  | cons a0 c2 =>
    simp only [List.cons_append, List.cons.injEq] at h
    cases c2 with
    | nil =>
      simp only [List.nil_append] at h
      exact ⟨z1, _, h.2.symm, Or.inl h1⟩
    | cons a1 c3 =>
      simp only [List.cons_append, List.cons.injEq] at h
      cases c3 with
      | nil =>
        simp only [List.nil_append] at h
        exact ⟨z2, _, h.2.2.symm, Or.inr (Or.inl ⟨h2, z3, z4, [], rfl, h4⟩)⟩
      | cons a2 c4 =>
        simp only [List.cons_append, List.cons.injEq] at h
        cases c4 with
        | nil =>
          simp only [List.nil_append] at h
          exact ⟨z3, _, h.2.2.2.symm, Or.inr (Or.inr (Or.inl ⟨h3, z4, [], rfl, h4⟩))⟩
        | cons a3 c5 =>
          simp only [List.cons_append, List.cons.injEq] at h
          cases c5 with
          | nil =>
            simp only [List.nil_append] at h
            exact ⟨z4, _, h.2.2.2.2.symm, Or.inr (Or.inr (Or.inr h4))⟩
          | cons a4 c6 =>
            simp only [List.cons_append, List.cons.injEq] at h
            have := h.2.2.2.2.2
            simp only [List.nil_eq, List.append_eq_nil] at this
            exact absurd this.2 hr2

/-- The start of a `base` tag does not run into the replacement of an
attribute. -/
theorem baseStart_touch_attrRep (cz : Char → Char) (hcz : CaseFold cz) (localPath : Str)
    (m rep : Str) (hB : AttrBlock cz localPath m rep) (c1 tail r rest : Str)
    (hc1 : c1 ≠ []) (hr : Matches cz baseStart r)
    (h : r ++ rest = c1 ++ (rep ++ tail)) (hl : c1.length < r.length) : False := by
  obtain ⟨w0, q0, rest0, c0, d1, w1, hm, hq0, hw0, hrep, hw0d, hw0c, hw0e, hw0h⟩ :=
    attrBlock_shape cz hcz localPath m rep hB
  obtain ⟨r2, hr2, hrc, hz⟩ := touch_split _ rest c1 _ h hl
  obtain ⟨y, ys, hy, hcode⟩ := baseStart_suffix cz hcz c1 r2 r hr hc1 hr2 hrc
  rw [hy, hrep, hw0e] at hz
  simp only [List.cons_append, List.cons.injEq] at hz
  obtain ⟨hz1, hz2⟩ := hz
  subst hz1
  rcases hcode with h1 | ⟨h1, _⟩ | ⟨h1, y1, ys1, hys, h2⟩ | h1
  · omega
  · omega
  · rw [hys] at hz2
    simp only [List.cons_append, List.cons.injEq] at hz2
    rw [hz2.1] at h2
    omega
  · omega

/-- The start of a `base` tag does not run into the replacement of a srcset
candidate. -/
theorem baseStart_touch_srcsetRep (cz : Char → Char) (hcz : CaseFold cz) (localPath : Str)
    (hassets : ∃ l1, localPath = 'a' :: 's' :: 's' :: l1)
    (m rep : Str) (hB : SrcsetBlock cz localPath m rep) (c1 tail r rest : Str)
    (hc1 : c1 ≠ []) (hr : Matches cz baseStart r)
    (h : r ++ rest = c1 ++ (rep ++ tail)) (hl : c1.length < r.length) : False := by
  obtain ⟨g, hg, hrep⟩ := hB
  obtain ⟨l1, hl1⟩ := hassets
  obtain ⟨r2, hr2, hrc, hz⟩ := touch_split _ rest c1 _ h hl
  obtain ⟨y, ys, hy, hcode⟩ := baseStart_suffix cz hcz c1 r2 r hr hc1 hr2 hrc
  rw [hy, hrep, hl1] at hz
  simp only [List.cons_append, List.cons.injEq] at hz
  obtain ⟨hz1, hz2⟩ := hz
  subst hz1
  have e : upperCode 's' = 83 := by decide
  rcases hcode with h1 | ⟨h1, y1, y2, ys2, hys, h2⟩ | ⟨h1, _⟩ | h1
  · rw [upperCode_a] at h1
    omega
  · rw [hys] at hz2
    simp only [List.cons_append, List.cons.injEq] at hz2
    rw [hz2.2.1, e] at h2
    omega
  · rw [upperCode_a] at h1
    omega
  · rw [upperCode_a] at h1
    omega

/-- The start of a `base` tag does not run into the replacement of a `url()`
form. -/
theorem baseStart_touch_urlRep (cz : Char → Char) (hcz : CaseFold cz) (localPath : Str)
    (m rep : Str) (hB : UrlBlock localPath m rep) (c1 tail r rest : Str)
    (hc1 : c1 ≠ []) (hr : Matches cz baseStart r)
    (h : r ++ rest = c1 ++ (rep ++ tail)) (hl : c1.length < r.length) : False := by
  obtain ⟨r2, hr2, hrc, hz⟩ := touch_split _ rest c1 _ h hl
  obtain ⟨y, ys, hy, hcode⟩ := baseStart_suffix cz hcz c1 r2 r hr hc1 hr2 hrc
  rw [hy, hB] at hz
  simp only [List.cons_append, List.cons.injEq] at hz
  obtain ⟨hz1, hz2⟩ := hz
  subst hz1
  rcases hcode with h1 | ⟨h1, _⟩ | ⟨h1, _⟩ | h1 <;> rw [upperCode_u] at h1 <;> omega

/-- A replacement leaves no match of a second pattern that matched nowhere
before or is the pattern of the replacement itself. -/
theorem replaceAll_noMatch (cz : Char → Char) (pX pY : Pattern) (nGroups : Nat) (template : Str)
    (Block : Str → Str → Prop)
    (hne : ¬ Matches cz pX [])
    (hblock : ∀ t m, matchAt cz pX t = some m →
      ∀ b a, Block m.matched (getSubstitution m nGroups b a template))
    (htouch : ∀ m rep, Block m rep → ∀ c1 tail r rest, c1 ≠ [] → Matches cz pY r →
      r ++ rest = c1 ++ (rep ++ tail) → c1.length < r.length →
      ∃ r1 rest1, Matches cz pY r1 ∧ c1 ++ m = r1 ++ rest1)
    (hinside : ∀ m rep, Block m rep → ∀ a1 r2 tail r rest, rep = a1 ++ r2 → r2 ≠ [] →
      Matches cz pY r → r ++ rest = r2 ++ tail → False)
    (s : Str) (hs : NoMatch cz pY s ∨ pY = pX) :
    NoMatch cz pY (replaceAll cz pX nGroups template s) := by
  unfold replaceAll
  apply replaceGo_noMatch cz pX pY nGroups template Block ?_ hblock htouch hinside s.length s
    (Nat.le_refl _)
  · intro a b hab hx
    rcases hs with hs | hs
    · exact hs a b hab
    · rw [hs]
      exact hx
  · intro t m hm
    obtain ⟨h1, _⟩ := matchAt_sound cz pX t m hm
    intro h2
    rw [h2] at h1
    exact hne h1

/-- No match of the srcset pattern is empty. -/
theorem matches_srcset_ne_nil (cz : Char → Char) (hcz : CaseFold cz) (key : Str) :
    ¬ Matches cz (srcsetPattern key) [] := by
  intro h
  obtain ⟨x, g, h0, _, hg⟩ := matches_srcset cz key [] h
  obtain ⟨s0, sp, d0, ds, c, rfl, _⟩ := matches_descriptor cz hcz g hg
  simp at h0

/-- No match of the `url()` pattern is empty. -/
theorem matches_urlFunc_ne_nil (cz : Char → Char) (hcz : CaseFold cz) (key : Str) :
    ¬ Matches cz (urlFuncPattern key) [] := by
  intro h
  obtain ⟨u, e1, open1, x, e2, close1, sp1, sp2, q1, q2, sp3, h0, _⟩ :=
    matches_urlFunc_runs cz hcz key [] h
  simp at h0

/-- The conditions on a key and a local path of a separated map. -/
theorem separated_pair (cz : Char → Char) (assetMap : List (Str × Str))
    (hm : Separated cz assetMap) (e1 e2 : Str × Str) (h1 : e1 ∈ assetMap)
    (h2 : e2 ∈ assetMap) :
    e1.1 ≠ [] ∧ (∀ c ∈ e1.1, isDelim c = false) ∧ startsLikeDescriptor e1.1 = false ∧
    (∀ c ∈ e2.2, isPathChar c = true) ∧ (∃ l1, e2.2 = 'a' :: 's' :: 's' :: l1) ∧
    (∀ c ∈ e2.2, c ≠ '$') ∧
    ¬ e1.1.map cz <:+ e2.2.map cz ∧ ¬ e2.2.map cz <:+ e1.1.map cz := by
  obtain ⟨hk, hp, ha⟩ := hm
  obtain ⟨k1, k2, k3⟩ := hk e1 h1
  obtain ⟨p1, p2⟩ := hp e2 h2
  obtain ⟨a1, a2⟩ := ha e1 h1 e2 h2
  refine ⟨k1, k2, k3, p2, ?_, ?_, ?_, ?_⟩
  · simp only [startsWith, List.isPrefixOf_iff_prefix] at p1
    obtain ⟨r, hr⟩ := p1
    exact ⟨'e' :: 't' :: 's' :: '/' :: r, by rw [← hr]; rfl⟩
  · intro c hc hd
    have := p2 c hc
    rw [hd] at this
    exact absurd this (by decide)
  · intro h
    have : endsWithCI cz e1.1 e2.2 = true := by
      simp only [endsWithCI, List.isSuffixOf_iff_suffix]
      exact h
    rw [a1] at this
    exact absurd this (by decide)
  · intro h
    have : endsWithCI cz e2.2 e1.1 = true := by
      simp only [endsWithCI, List.isSuffixOf_iff_suffix]
      exact h
    rw [a2] at this
    exact absurd this (by decide)

/-- The loop body of `rewriteHtml` for an entry of a separated map leaves no
match of the patterns of a key of the map that matched nowhere before, and no
match of the patterns of its own key. -/
theorem rewriteEntry_clean (cz : Char → Char) (hcz : CaseFold cz)
    (assetMap : List (Str × Str)) (hm : Separated cz assetMap) (e x : Str × Str)
    (he : e ∈ assetMap) (hx : x ∈ assetMap) (s : Str) (h : Clean cz x.1 s ∨ x = e) :
    Clean cz x.1 (rewriteEntry cz s e) := by
  obtain ⟨k1, k2, k3, p2, p3, p4, g1, g2⟩ := separated_pair cz assetMap hm x e hx he
  have hA : NoMatch cz (attrPattern x.1) s ∨ attrPattern x.1 = attrPattern e.1 := by
    rcases h with h | h
    · exact Or.inl h.1
    · exact Or.inr (by rw [h])
  unfold rewriteEntry
  dsimp only
  -- the attribute step
  have a1 : NoMatch cz (attrPattern x.1) (replaceAll cz (attrPattern e.1) 1
      ("$1=\"".toList ++ e.2 ++ "\"".toList) s) :=
    replaceAll_noMatch cz _ _ 1 _ (AttrBlock cz e.2) (matches_attr_ne_nil cz e.1)
      (fun t m hmt b a => attr_block cz hcz e.1 e.2 p4 t m hmt b a)
      (fun m rep hB c1 tail r rest _ hr hz hl =>
        attr_touch_attrRep cz hcz x.1 e.2 k2 p2 g1 m rep hB c1 tail r rest hr hz hl)
      (fun m rep hB a1 r2 tail r rest hsp hr2 hr hz =>
        attr_inside_attrRep cz hcz x.1 e.2 k2 p2 g1 m rep hB a1 r2 tail r rest hsp hr2 hr hz)
      s hA
  have s1 : NoMatch cz (srcsetPattern x.1) s → NoMatch cz (srcsetPattern x.1)
      (replaceAll cz (attrPattern e.1) 1 ("$1=\"".toList ++ e.2 ++ "\"".toList) s) :=
    fun h0 => replaceAll_noMatch cz _ _ 1 _ (AttrBlock cz e.2) (matches_attr_ne_nil cz e.1)
      (fun t m hmt b a => attr_block cz hcz e.1 e.2 p4 t m hmt b a)
      (fun m rep hB c1 tail r rest _ hr hz hl =>
        (srcset_touch_attrRep cz hcz x.1 e.2 k2 m rep hB c1 tail r rest hr hz hl).elim)
      (fun m rep hB a1 r2 tail r rest hsp hr2 hr hz =>
        srcset_inside_attrRep cz hcz x.1 e.2 k2 k1 p2 m rep hB a1 r2 tail r rest hsp hr2 hr hz)
      s (Or.inl h0)
  have u1 : NoMatch cz (urlFuncPattern x.1) s → NoMatch cz (urlFuncPattern x.1)
      (replaceAll cz (attrPattern e.1) 1 ("$1=\"".toList ++ e.2 ++ "\"".toList) s) :=
    fun h0 => replaceAll_noMatch cz _ _ 1 _ (AttrBlock cz e.2) (matches_attr_ne_nil cz e.1)
      (fun t m hmt b a => attr_block cz hcz e.1 e.2 p4 t m hmt b a)
      (fun m rep hB c1 tail r rest _ hr hz hl =>
        (urlFunc_touch_attrRep cz hcz x.1 e.2 k2 p3 m rep hB c1 tail r rest hr hz hl).elim)
      (fun m rep hB a1 r2 tail r rest hsp hr2 hr hz =>
        urlFunc_inside_attrRep cz hcz x.1 e.2 p2 m rep hB a1 r2 tail r rest hsp hr2 hr hz)
      s (Or.inl h0)
  generalize replaceAll cz (attrPattern e.1) 1 ("$1=\"".toList ++ e.2 ++ "\"".toList) s = t1
    at a1 s1 u1 ⊢
  -- the srcset step
  have a2 : NoMatch cz (attrPattern x.1) (replaceAll cz (srcsetPattern e.1) 1
      (e.2 ++ "$1".toList) t1) :=
    replaceAll_noMatch cz _ _ 1 _ (SrcsetBlock cz e.2) (matches_srcset_ne_nil cz hcz e.1)
      (fun t m hmt b a => srcset_block cz e.1 e.2 p4 t m hmt b a)
      (fun m rep hB c1 tail r rest _ hr hz hl =>
        (attr_touch_srcsetRep cz hcz x.1 e.2 k2 p2 p3 m rep hB c1 tail r rest hr hz hl).elim)
      (fun m rep hB a1 r2 tail r rest hsp hr2 hr hz =>
        attr_inside_srcsetRep cz hcz x.1 e.2 p2 m rep hB a1 r2 tail r rest hsp hr2 hr hz)
      t1 (Or.inl a1)
  have s2 : (NoMatch cz (srcsetPattern x.1) t1 ∨ srcsetPattern x.1 = srcsetPattern e.1) →
      NoMatch cz (srcsetPattern x.1) (replaceAll cz (srcsetPattern e.1) 1
        (e.2 ++ "$1".toList) t1) :=
    fun h0 => replaceAll_noMatch cz _ _ 1 _ (SrcsetBlock cz e.2)
      (matches_srcset_ne_nil cz hcz e.1)
      (fun t m hmt b a => srcset_block cz e.1 e.2 p4 t m hmt b a)
      (fun m rep hB c1 tail r rest _ hr hz hl =>
        (srcset_touch_srcsetRep cz hcz x.1 e.2 k2 p2 p3 g2 m rep hB c1 tail r rest hr hz
          hl).elim)
      (fun m rep hB a1 r2 tail r rest hsp hr2 hr hz =>
        srcset_inside_srcsetRep cz hcz x.1 e.2 k2 k1 k3 p2 g1 m rep hB a1 r2 tail r rest hsp
          hr2 hr hz)
      t1 h0
  have u2 : NoMatch cz (urlFuncPattern x.1) t1 → NoMatch cz (urlFuncPattern x.1)
      (replaceAll cz (srcsetPattern e.1) 1 (e.2 ++ "$1".toList) t1) :=
    fun h0 => replaceAll_noMatch cz _ _ 1 _ (SrcsetBlock cz e.2)
      (matches_srcset_ne_nil cz hcz e.1)
      (fun t m hmt b a => srcset_block cz e.1 e.2 p4 t m hmt b a)
      (fun m rep hB c1 tail r rest _ hr hz hl =>
        (urlFunc_touch_srcsetRep cz hcz x.1 e.2 k2 p2 p3 g2 m rep hB c1 tail r rest hr hz
          hl).elim)
      (fun m rep hB a1 r2 tail r rest hsp hr2 hr hz =>
        urlFunc_inside_srcsetRep cz hcz x.1 e.2 p2 m rep hB a1 r2 tail r rest hsp hr2 hr hz)
      t1 (Or.inl h0)
  have s2' : NoMatch cz (srcsetPattern x.1) (replaceAll cz (srcsetPattern e.1) 1
      (e.2 ++ "$1".toList) t1) := by
    rcases h with h | h
    · exact s2 (Or.inl (s1 h.2.1))
    · exact s2 (Or.inr (by rw [h]))
  have u2' : NoMatch cz (urlFuncPattern x.1) s → NoMatch cz (urlFuncPattern x.1)
      (replaceAll cz (srcsetPattern e.1) 1 (e.2 ++ "$1".toList) t1) :=
    fun h0 => u2 (u1 h0)
  generalize replaceAll cz (srcsetPattern e.1) 1 (e.2 ++ "$1".toList) t1 = t2
    at a2 s2' u2' ⊢
  -- the `url()` step
  refine ⟨?_, ?_, ?_⟩
  · exact replaceAll_noMatch cz _ _ 0 _ (UrlBlock e.2) (matches_urlFunc_ne_nil cz hcz e.1)
      (fun t m _ b a => urlFunc_block e.2 p4 m b a)
      (fun m rep hB c1 tail r rest _ hr hz hl =>
        (attr_touch_urlRep cz hcz x.1 e.2 k2 m rep hB c1 tail r rest hr hz hl).elim)
      (fun m rep hB a1 r2 tail r rest hsp hr2 hr hz =>
        attr_inside_urlRep cz hcz x.1 e.2 p2 m rep hB a1 r2 tail r rest hsp hr2 hr hz)
      t2 (Or.inl a2)
  · exact replaceAll_noMatch cz _ _ 0 _ (UrlBlock e.2) (matches_urlFunc_ne_nil cz hcz e.1)
      (fun t m _ b a => urlFunc_block e.2 p4 m b a)
      (fun m rep hB c1 tail r rest _ hr hz hl =>
        (srcset_touch_urlRep cz hcz x.1 e.2 k2 m rep hB c1 tail r rest hr hz hl).elim)
      (fun m rep hB a1 r2 tail r rest hsp hr2 hr hz =>
        srcset_inside_urlRep cz hcz x.1 e.2 k2 k1 p2 m rep hB a1 r2 tail r rest hsp hr2 hr hz)
      t2 (Or.inl s2')
  · refine replaceAll_noMatch cz _ _ 0 _ (UrlBlock e.2) (matches_urlFunc_ne_nil cz hcz e.1)
      (fun t m _ b a => urlFunc_block e.2 p4 m b a)
      (fun m rep hB c1 tail r rest _ hr hz hl =>
        (urlFunc_touch_urlRep cz hcz x.1 e.2 k2 k1 p2 g1 m rep hB c1 tail r rest hr hz
          hl).elim)
      (fun m rep hB a1 r2 tail r rest hsp hr2 hr hz =>
        urlFunc_inside_urlRep cz hcz x.1 e.2 k2 k1 p2 g1 m rep hB a1 r2 tail r rest hsp hr2
          hr hz)
      t2 ?_
    rcases h with h | h
    · exact Or.inl (u2' h.2.2)
    · exact Or.inr (by rw [h])

/-- The loop body of `rewriteHtml` for an entry of a separated map does not
form the start of a `base` tag. -/
theorem rewriteEntry_baseStart (cz : Char → Char) (hcz : CaseFold cz)
    (assetMap : List (Str × Str)) (hm : Separated cz assetMap) (e : Str × Str)
    (he : e ∈ assetMap) (s : Str) (h : NoMatch cz baseStart s) :
    NoMatch cz baseStart (rewriteEntry cz s e) := by
  obtain ⟨_, _, _, p2, p3, p4, _, _⟩ := separated_pair cz assetMap hm e e he he
  unfold rewriteEntry
  dsimp only
  have b1 : NoMatch cz baseStart (replaceAll cz (attrPattern e.1) 1
      ("$1=\"".toList ++ e.2 ++ "\"".toList) s) :=
    replaceAll_noMatch cz _ _ 1 _ (AttrBlock cz e.2) (matches_attr_ne_nil cz e.1)
      (fun t m hmt b a => attr_block cz hcz e.1 e.2 p4 t m hmt b a)
      (fun m rep hB c1 tail r rest hc1 hr hz hl =>
        (baseStart_touch_attrRep cz hcz e.2 m rep hB c1 tail r rest hc1 hr hz hl).elim)
      (fun m rep hB a1 r2 tail r rest hsp hr2 hr hz =>
        baseStart_inside cz hcz rep (attrRep_codes cz hcz e.2 m rep p2 hB) a1 r2 tail r rest
          hsp hr2 hr hz)
      s (Or.inl h)
  generalize replaceAll cz (attrPattern e.1) 1 ("$1=\"".toList ++ e.2 ++ "\"".toList) s = t1
    at b1 ⊢
  have b2 : NoMatch cz baseStart (replaceAll cz (srcsetPattern e.1) 1
      (e.2 ++ "$1".toList) t1) :=
    replaceAll_noMatch cz _ _ 1 _ (SrcsetBlock cz e.2) (matches_srcset_ne_nil cz hcz e.1)
      (fun t m hmt b a => srcset_block cz e.1 e.2 p4 t m hmt b a)
      (fun m rep hB c1 tail r rest hc1 hr hz hl =>
        (baseStart_touch_srcsetRep cz hcz e.2 p3 m rep hB c1 tail r rest hc1 hr hz hl).elim)
      (fun m rep hB a1 r2 tail r rest hsp hr2 hr hz =>
        baseStart_inside cz hcz rep (srcsetRep_codes cz hcz e.2 m rep p2 hB) a1 r2 tail r rest
          hsp hr2 hr hz)
      t1 (Or.inl b1)
  generalize replaceAll cz (srcsetPattern e.1) 1 (e.2 ++ "$1".toList) t1 = t2 at b2 ⊢
  exact replaceAll_noMatch cz _ _ 0 _ (UrlBlock e.2) (matches_urlFunc_ne_nil cz hcz e.1)
    (fun t m _ b a => urlFunc_block e.2 p4 m b a)
    (fun m rep hB c1 tail r rest hc1 hr hz hl =>
      (baseStart_touch_urlRep cz hcz e.2 m rep hB c1 tail r rest hc1 hr hz hl).elim)
    (fun m rep hB a1 r2 tail r rest hsp hr2 hr hz =>
      baseStart_inside cz hcz rep (urlRep_codes e.2 m rep p2 hB) a1 r2 tail r rest
        hsp hr2 hr hz)
    t2 (Or.inl b2)

/-- The loop of `rewriteHtml` over entries of a separated map leaves no match
of the patterns of the keys that it has gone through, and does not form the
start of a `base` tag. -/
theorem foldl_rewriteEntry_clean (cz : Char → Char) (hcz : CaseFold cz)
    (assetMap : List (Str × Str)) (hm : Separated cz assetMap) (l done : List (Str × Str))
    (hl : ∀ e ∈ l, e ∈ assetMap) (s : Str) (hbase : NoMatch cz baseStart s)
    (hdone : ∀ e ∈ done, e ∈ assetMap ∧ Clean cz e.1 s) :
    NoMatch cz baseStart (l.foldl (rewriteEntry cz) s) ∧
    ∀ e, e ∈ done ∨ e ∈ l → Clean cz e.1 (l.foldl (rewriteEntry cz) s) := by
  induction l generalizing s done with
  | nil =>
    refine ⟨hbase, ?_⟩
    rintro e (he | he)
    · exact (hdone e he).2
    · simp at he
  | cons x l ih =>
    have hx : x ∈ assetMap := hl x (List.mem_cons_self x l)
    obtain ⟨h1, h2⟩ := ih (x :: done) (fun e he => hl e (List.mem_cons_of_mem x he))
      (rewriteEntry cz s x) (rewriteEntry_baseStart cz hcz assetMap hm x hx s hbase)
      (by
        intro e he
        rcases List.mem_cons.1 he with rfl | he
        · exact ⟨hx, rewriteEntry_clean cz hcz assetMap hm e e hx hx s (Or.inr rfl)⟩
        · exact ⟨(hdone e he).1,
            rewriteEntry_clean cz hcz assetMap hm x e hx (hdone e he).1 s
              (Or.inl (hdone e he).2)⟩)
    refine ⟨h1, ?_⟩
    rintro e (he | he)
    · exact h2 e (Or.inl (List.mem_cons_of_mem x he))
    · rcases List.mem_cons.1 he with rfl | he
      · exact h2 e (Or.inl (List.mem_cons_self _ _))
      · exact h2 e (Or.inr he)

/-- The loop of `rewriteHtml` leaves a text in which no pattern of its entries
matches as it is. -/
theorem foldl_rewriteEntry_fixed (cz : Char → Char) (l : List (Str × Str)) (text : Str)
    (h : ∀ e ∈ l, Clean cz e.1 text) : l.foldl (rewriteEntry cz) text = text := by
  induction l with
  | nil => rfl
  | cons e l ih =>
    obtain ⟨h1, h2, h3⟩ := h e (List.mem_cons_self e l)
    rw [List.foldl_cons, rewriteEntry_of_no_match cz text e
      (matchesSomewhere_of_noMatch cz _ _ h1) (matchesSomewhere_of_noMatch cz _ _ h2)
      (matchesSomewhere_of_noMatch cz _ _ h3)]
    exact ih fun x hx => h x (List.mem_cons_of_mem e hx)

/-- The pattern of a `base` tag matches nowhere in a text without the start of
a `base` tag. -/
theorem basePattern_noMatch (cz : Char → Char) (text : Str) (h : NoMatch cz baseStart text) :
    matchesSomewhere cz basePattern text = false := by
  apply matchesSomewhere_of_noMatch
  intro a b hab
  cases hm : matchAt cz basePattern b with
  | none => rfl
  | some m =>
    exfalso
    obtain ⟨h1, rest, hr⟩ := matchAt_sound cz basePattern b m hm
    unfold basePattern at h1
    rw [matches_append] at h1
    obtain ⟨x, y, hxy, hx, _⟩ := h1
    apply matchAt_complete cz baseStart x (y ++ rest) hx
    rw [← List.append_assoc, ← hxy, ← hr]
    exact h a b hab

/-- The start of a `base` tag matches nowhere in a text in which `<base` does
not occur. -/
theorem baseStart_noMatch (cz : Char → Char) (text : Str)
    (h : includesCI cz text "<base".toList = false) : NoMatch cz baseStart text := by
  apply noMatch_of_matchesSomewhere
  have := matchesSomewhere_of_not_includes cz "<base".toList [] [] text h
  simpa [baseStart] using this

/-- The canonicalisation of the concrete platform folds the case of the ASCII
letters and nothing else. -/
theorem asciiCanonicalize_caseFold : CaseFold asciiCanonicalize := by
  constructor
  · intro c d h
    unfold asciiCanonicalize at h
    by_cases hcd : c = d
    · rw [hcd]
    · have key : ∀ x : Char, 65 ≤ upperCode x ∧ upperCode x ≤ 90 → isJsSpace x = false := by
        intro x hx
        cases hs : isJsSpace x with
        | false => rfl
        | true =>
          have := isDelim_code x (isDelim_of_isJsSpace x hs)
          omega
      have hu : upperCode c = upperCode d := by
        unfold upperCode
        rw [h]
      have hne : c.toNat ≠ d.toNat := fun h0 => hcd (char_eq_of_toNat c d h0)
      have h1 : 65 ≤ upperCode c ∧ upperCode c ≤ 90 := by
        rcases upperCode_cases c with ⟨h1, h2, h3⟩ | ⟨_, _, h3⟩ <;>
          rcases upperCode_cases d with ⟨h4, h5, h6⟩ | ⟨_, _, h6⟩ <;> omega
      rw [key c h1, key d (hu ▸ h1)]
  · intro c d _ h
    exact h

/-- C11, as amended: `rewriteHtml` is idempotent on every markup text in which
`<base` does not occur (in any letter case), for every asset map whose keys are
not empty, have no white space, quote or parenthesis and do not begin like a
srcset descriptor (digits, if any, followed by `w` or `x`), whose local paths
begin with `assets/` and have no white space, quote, parenthesis, `$`, `=` or
`<`, and in which no key is the end of a local path and no local path the end
of a key, letter case ignored; the canonicalisation of the `i` flag is assumed
to fold the case of ASCII letters only. -/
theorem rewriteHtml_idempotent (P : Platform) (assetMap : List (Str × Str)) (html : Str)
    (hcz : CaseFold P.canonicalize) (hmap : Separated P.canonicalize assetMap)
    (hbase : includesCI P.canonicalize html "<base".toList = false) :
    rewriteHtml P assetMap (rewriteHtml P assetMap html) = rewriteHtml P assetMap html := by
  obtain ⟨hb, hclean⟩ := foldl_rewriteEntry_clean P.canonicalize hcz assetMap hmap
    (sortByKeyLength assetMap) [] (mem_of_mem_sortByKeyLength assetMap) html
    (baseStart_noMatch P.canonicalize html hbase) (by simp)
  have h1 : rewriteHtml P assetMap html
      = (sortByKeyLength assetMap).foldl (rewriteEntry P.canonicalize) html := by
    unfold rewriteHtml replaceAll
    exact replaceGo_of_no_match _ _ _ _ _ _ (basePattern_noMatch P.canonicalize _ hb)
  rw [h1]
  generalize (sortByKeyLength assetMap).foldl (rewriteEntry P.canonicalize) html = text
    at hb hclean
  unfold rewriteHtml replaceAll
  rw [foldl_rewriteEntry_fixed P.canonicalize _ text fun e he => hclean e (Or.inr he)]
  exact replaceGo_of_no_match _ _ _ _ _ _ (basePattern_noMatch P.canonicalize _ hb)

set_option maxRecDepth 8000 in
/-- Witness of C11 as amended: a document that refers to two assets in an
attribute, in a srcset and in a style, in either letter case, and mentions one
of them in its text. -/
theorem rewriteHtml_idempotent_witness :
    rewriteHtml nodePlatform
        [ ("a.png".toList, "assets/images/0123456789ab.png".toList),
          ("https://x.test/b.css".toList, "assets/css/ba9876543210.css".toList) ]
        "<link href=\"https://x.test/b.css\"><img src=\"A.PNG\" srcset=\"a.png 2x\" style=\"background:url( 'a.png' )\">a.png".toList
      = "<link href=\"assets/css/ba9876543210.css\"><img src=\"assets/images/0123456789ab.png\" srcset=\"assets/images/0123456789ab.png 2x\" style=\"background:url(\"assets/images/0123456789ab.png\")\">a.png".toList ∧
    rewriteHtml nodePlatform
        [ ("a.png".toList, "assets/images/0123456789ab.png".toList),
          ("https://x.test/b.css".toList, "assets/css/ba9876543210.css".toList) ]
        (rewriteHtml nodePlatform
          [ ("a.png".toList, "assets/images/0123456789ab.png".toList),
            ("https://x.test/b.css".toList, "assets/css/ba9876543210.css".toList) ]
          "<link href=\"https://x.test/b.css\"><img src=\"A.PNG\" srcset=\"a.png 2x\" style=\"background:url( 'a.png' )\">a.png".toList)
      = rewriteHtml nodePlatform
        [ ("a.png".toList, "assets/images/0123456789ab.png".toList),
          ("https://x.test/b.css".toList, "assets/css/ba9876543210.css".toList) ]
        "<link href=\"https://x.test/b.css\"><img src=\"A.PNG\" srcset=\"a.png 2x\" style=\"background:url( 'a.png' )\">a.png".toList :=
  ⟨by decide,
    rewriteHtml_idempotent nodePlatform
      [ ("a.png".toList, "assets/images/0123456789ab.png".toList),
        ("https://x.test/b.css".toList, "assets/css/ba9876543210.css".toList) ]
      "<link href=\"https://x.test/b.css\"><img src=\"A.PNG\" srcset=\"a.png 2x\" style=\"background:url( 'a.png' )\">a.png".toList
      asciiCanonicalize_caseFold (by unfold Separated; decide) (by decide)⟩

/-- C11 fails as stated.  In each of the following maps no key is a prefix of
another key and no key occurs in a local path.  With the key `a.png` the text
`<img src="a.p<base>ng">` is rewritten to `<img src="a.png">` (only the `base`
tag goes) and a second application rewrites the attribute.  With the key
`B.PNG` the text `<img srcset="B.PNG 2x">` is rewritten once, and a second
application rewrites the end of the local path, which is the key in the other
letter case.  With the key `png 2x`, which has white space, a second
application rewrites the end of the local path together with a descriptor.
With the key `x.png`, which begins like a descriptor, a second application
rewrites the `x.png` of `1x.png`.  With the keys
`x/assets/images/0123456789ab.png` and `a.png`, the local path of the second
being the end of the first, the first application forms the first key and the
second application rewrites it.  With the local path `assets/images/$&.png`
the template of the replacement inserts the match, which a second application
rewrites.  With the local path `1x/b.png`, which begins like a descriptor, the
first application makes a srcset candidate of the `a.png` before it.  With the
key `("assets/images/0123456789ab.png")`, which has quotes and parentheses, the
first application forms the key out of the delimiters that it writes around a
local path. -/
theorem rewriteHtml_not_idempotent_counterexample :
    includes "assets/images/0123456789ab.png".toList "a.png".toList = false ∧
    rewriteHtml nodePlatform [("a.png".toList, "assets/images/0123456789ab.png".toList)]
      "<img src=\"a.p<base>ng\">".toList = "<img src=\"a.png\">".toList ∧
    rewriteHtml nodePlatform [("a.png".toList, "assets/images/0123456789ab.png".toList)]
      "<img src=\"a.png\">".toList = "<img src=\"assets/images/0123456789ab.png\">".toList ∧
    includes "assets/images/0123456789ab.png".toList "B.PNG".toList = false ∧
    rewriteHtml nodePlatform [("B.PNG".toList, "assets/images/0123456789ab.png".toList)]
      "<img srcset=\"B.PNG 2x\">".toList
      = "<img srcset=\"assets/images/0123456789ab.png 2x\">".toList ∧
    rewriteHtml nodePlatform [("B.PNG".toList, "assets/images/0123456789ab.png".toList)]
      "<img srcset=\"assets/images/0123456789ab.png 2x\">".toList
      = "<img srcset=\"assets/images/0123456789aassets/images/0123456789ab.png 2x\">".toList ∧
    rewriteHtml nodePlatform [("png 2x".toList, "assets/images/0123456789ab.png".toList)]
      "png 2x 2x 2x".toList = "assets/images/0123456789ab.png 2x 2x".toList ∧
    rewriteHtml nodePlatform [("png 2x".toList, "assets/images/0123456789ab.png".toList)]
      "assets/images/0123456789ab.png 2x 2x".toList
      = "assets/images/0123456789ab.assets/images/0123456789ab.png 2x".toList ∧
    rewriteHtml nodePlatform [("x.png".toList, "assets/images/0123456789ab.png".toList)]
      "<img srcset=\"x.png 1x.png 2x\">".toList
      = "<img srcset=\"assets/images/0123456789ab.png 1x.png 2x\">".toList ∧
    rewriteHtml nodePlatform [("x.png".toList, "assets/images/0123456789ab.png".toList)]
      "<img srcset=\"assets/images/0123456789ab.png 1x.png 2x\">".toList
      = "<img srcset=\"assets/images/0123456789ab.png 1assets/images/0123456789ab.png 2x\">".toList ∧
    rewriteHtml nodePlatform
      [ ("x/assets/images/0123456789ab.png".toList, "assets/images/ffffffffffff.png".toList),
        ("a.png".toList, "assets/images/0123456789ab.png".toList) ]
      "x/a.png 2x".toList = "x/assets/images/0123456789ab.png 2x".toList ∧
    rewriteHtml nodePlatform
      [ ("x/assets/images/0123456789ab.png".toList, "assets/images/ffffffffffff.png".toList),
        ("a.png".toList, "assets/images/0123456789ab.png".toList) ]
      "x/assets/images/0123456789ab.png 2x".toList = "assets/images/ffffffffffff.png 2x".toList ∧
    rewriteHtml nodePlatform [("a.png".toList, "assets/images/$&.png".toList)]
      "<img src=\"a.png\">".toList = "<img src=\"assets/images/src=\"a.png\".png\">".toList ∧
    rewriteHtml nodePlatform [("a.png".toList, "assets/images/$&.png".toList)]
      "<img src=\"assets/images/src=\"a.png\".png\">".toList
      = "<img src=\"assets/images/src=\"assets/images/src=\"a.png\".png\".png\">".toList ∧
    rewriteHtml nodePlatform [("a.png".toList, "1x/b.png".toList)] "a.png a.png 2x".toList
      = "a.png 1x/b.png 2x".toList ∧
    rewriteHtml nodePlatform [("a.png".toList, "1x/b.png".toList)] "a.png 1x/b.png 2x".toList
      = "1x/b.png 1x/b.png 2x".toList ∧
    rewriteHtml nodePlatform
      [ ("(\"assets/images/0123456789ab.png\")".toList, "assets/images/ffffffffffff.png".toList),
        ("a.png".toList, "assets/images/0123456789ab.png".toList) ]
      "url(a.png) 2x".toList = "url(\"assets/images/0123456789ab.png\") 2x".toList ∧
    rewriteHtml nodePlatform
      [ ("(\"assets/images/0123456789ab.png\")".toList, "assets/images/ffffffffffff.png".toList),
        ("a.png".toList, "assets/images/0123456789ab.png".toList) ]
      "url(\"assets/images/0123456789ab.png\") 2x".toList
      = "urlassets/images/ffffffffffff.png 2x".toList := by
  decide

end Cloner
